import Mathlib


/-!
AVL tree engine (avltree.h) and the priority queue built on it (avltree.c).

Pointers are natural numbers, `0` is `NULL`.  The memory is a map from addresses to node
records; `Store.root` is `root->node` of the one `avl_root` an operation works on.
A function of the C code gives a `Result`: `ok v` when it returns `v`, `fault` when it
dereferences `NULL` (undefined behaviour in C), `timeout` when a loop runs out of the fuel
it was given.  A pointer result `ok 0` is the C result `NULL`.
-/

namespace Avl

/-! ## Data model -/

/-- Value `AVL_NEUTRAL` of `enum avl_node_balance`. -/
abbrev AVL_NEUTRAL : Nat := 0

/-- Value `AVL_LEFT` of `enum avl_node_balance`. -/
abbrev AVL_LEFT : Nat := 1

/-- Value `AVL_RIGHT` of `enum avl_node_balance`. -/
abbrev AVL_RIGHT : Nat := 2

/-- Record `struct avl_node`: the packed parent/balance word and the two child pointers. -/
structure avl_node where
  parent_balance : Nat
  left : Nat
  right : Nat

/-- Memory together with the field `node` of the `struct avl_root` in use. -/
structure Store where
  mem : Nat → avl_node
  root : Nat

/-- A value of type `struct avl_node **`: the root link or a child field of a node. -/
inductive Link where
  | root : Link
  | left : Nat → Link
  | right : Nat → Link

/-- Outcome of running C code: a returned value, a dereference of `NULL`, or fuel exhausted. -/
inductive Result (α : Type) where
  | ok : α → Result α
  | fault : Result α
  | timeout : Result α

/-- Sequencing of two pieces of code. -/
def Result.bind {α β : Type} : Result α → (α → Result β) → Result β
  | Result.ok a, f => f a
  | Result.fault, _ => Result.fault
  | Result.timeout, _ => Result.timeout

instance : Monad Result where
  pure := Result.ok
  bind := Result.bind

/-- Store `n` at address `p`. -/
def setNode (s : Store) (p : Nat) (n : avl_node) : Store :=
  { mem := fun x => if x = p then n else s.mem x, root := s.root }

/-- Store after `p->parent_balance = v`. -/
def setWord (s : Store) (p v : Nat) : Store :=
  setNode s p { parent_balance := v, left := (s.mem p).left, right := (s.mem p).right }

/-- Store after `p->left = v`. -/
def setLeft (s : Store) (p v : Nat) : Store :=
  setNode s p { parent_balance := (s.mem p).parent_balance, left := v, right := (s.mem p).right }

/-- Store after `p->right = v`. -/
def setRight (s : Store) (p v : Nat) : Store :=
  setNode s p { parent_balance := (s.mem p).parent_balance, left := (s.mem p).left, right := v }

/-- Store after `root->node = v`. -/
def setRoot (s : Store) (v : Nat) : Store :=
  { mem := s.mem, root := v }

/-- Store after `*avl_link = v`. -/
def setLink (s : Store) : Link → Nat → Store
  | Link.root, v => setRoot s v
  | Link.left p, v => setLeft s p v
  | Link.right p, v => setRight s p v

/-- Read `p->parent_balance`. -/
def rd_word (s : Store) (p : Nat) : Result Nat :=
  if p = 0 then Result.fault else Result.ok (s.mem p).parent_balance

/-- Read `p->left`. -/
def rd_left (s : Store) (p : Nat) : Result Nat :=
  if p = 0 then Result.fault else Result.ok (s.mem p).left

/-- Read `p->right`. -/
def rd_right (s : Store) (p : Nat) : Result Nat :=
  if p = 0 then Result.fault else Result.ok (s.mem p).right

/-- Assignment `p->parent_balance = v`. -/
def wr_word (s : Store) (p v : Nat) : Result Store :=
  if p = 0 then Result.fault else Result.ok (setWord s p v)

/-- Assignment `p->left = v`. -/
def wr_left (s : Store) (p v : Nat) : Result Store :=
  if p = 0 then Result.fault else Result.ok (setLeft s p v)

/-- Assignment `p->right = v`. -/
def wr_right (s : Store) (p v : Nat) : Result Store :=
  if p = 0 then Result.fault else Result.ok (setRight s p v)

/-- Assignment `*avl_link = v`. -/
def wr_link (s : Store) : Link → Nat → Result Store
  | Link.root, v => Result.ok (setRoot s v)
  | Link.left p, v => wr_left s p v
  | Link.right p, v => wr_right s p v

/-! ## Structural primitives -/

/-- Function `INIT_AVL_ROOT`. -/
def INIT_AVL_ROOT (s : Store) : Store := setRoot s 0

/-- Function `avl_empty`: `!root->node`. -/
def avl_empty (s : Store) : Bool := decide (s.root = 0)

/-- Modelled from the spec: the expression `IIII` of function `avl_parent` is absent from the
source; the parent reference is the packed word with its low 2 bits cleared. -/
def avl_parent (s : Store) (node : Nat) : Result Nat := do
  let w ← rd_word s node
  pure (w / 4 * 4)

/-- Modelled from the spec: the expression `JJJJ` of function `avl_balance` is absent from the
source; the balance is the low 2 bits of the packed word. -/
def avl_balance (s : Store) (node : Nat) : Result Nat := do
  let w ← rd_word s node
  pure (w % 4)

/-- Function `avl_set_parent_balance`: `node->parent_balance = (unsigned long) parent | balance`. -/
def avl_set_parent_balance (s : Store) (node parent balance : Nat) : Result Store :=
  wr_word s node (parent ||| balance)

/-- Function `avl_link_node`. -/
def avl_link_node (s : Store) (node parent : Nat) (avl_link : Link) : Result Store := do
  let s1 ← avl_set_parent_balance s node parent AVL_NEUTRAL
  let s2 ← wr_left s1 node 0
  let s3 ← wr_right s2 node 0
  wr_link s3 avl_link node

/-- Modelled from the spec: the expression `KKKK` of function `avl_set_parent` is absent from
the source; the new parent is packed with the balance the node already has. -/
def avl_set_parent (s : Store) (node parent : Nat) : Result Store := do
  let b ← avl_balance s node
  wr_word s node (parent ||| b)

/-- Modelled from the spec: the expression `LLLL` of function `avl_set_balance` is absent from
the source; the new balance is packed with the parent the node already has. -/
def avl_set_balance (s : Store) (node balance : Nat) : Result Store := do
  let p ← avl_parent s node
  wr_word s node (p ||| balance)

/-- Function `avl_change_child`. -/
def avl_change_child (s : Store) (old_node new_node parent : Nat) : Result Store :=
  if parent ≠ 0 then do
    let l ← rd_left s parent
    if l = old_node then wr_left s parent new_node
    else wr_right s parent new_node
  else pure (setRoot s new_node)

/-- Function `avl_rotate_switch_parents`. -/
def avl_rotate_switch_parents (s : Store) (node_top node_child node_child2 : Nat)
    (balance_top balance_child : Nat) : Result Store := do
  let p ← avl_parent s node_child
  let s1 ← avl_set_parent_balance s node_top p balance_top
  let s2 ← avl_set_parent_balance s1 node_child node_top balance_child
  let s3 ← if node_child2 ≠ 0 then avl_set_parent s2 node_child2 node_child else pure s2
  let pt ← avl_parent s3 node_top
  avl_change_child s3 node_child node_top pt

/-- Function `avl_is_right_child`. -/
def avl_is_right_child (s : Store) (node : Nat) : Result Bool := do
  let parent ← avl_parent s node
  if parent = 0 then pure false
  else do
    let r ← rd_right s parent
    if r = node then pure true else pure false

/-! ## Rotations -/

/-- Function `avl_rotate_rightleft`; the second component is the returned new top. -/
def avl_rotate_rightleft (s : Store) (node parent : Nat) : Result (Store × Nat) := do
  let tmp ← rd_left s node
  let tr ← rd_right s tmp
  let s1 ← wr_left s node tr
  let s2 ← wr_right s1 tmp node
  let b ← avl_balance s2 tmp
  let balance_parent :=
    if b = AVL_NEUTRAL then AVL_NEUTRAL else if b = AVL_LEFT then AVL_NEUTRAL else AVL_LEFT
  let balance_node :=
    if b = AVL_NEUTRAL then AVL_NEUTRAL else if b = AVL_LEFT then AVL_RIGHT else AVL_NEUTRAL
  let nl ← rd_left s2 node
  let s3 ← avl_rotate_switch_parents s2 tmp node nl AVL_NEUTRAL balance_node
  let tmp2 ← rd_right s3 parent
  let tl ← rd_left s3 tmp2
  let s4 ← wr_right s3 parent tl
  let s5 ← wr_left s4 tmp2 parent
  let pr ← rd_right s5 parent
  let s6 ← avl_rotate_switch_parents s5 tmp2 parent pr AVL_NEUTRAL balance_parent
  pure (s6, tmp2)

/-- Function `avl_rotate_leftright`; the second component is the returned new top. -/
def avl_rotate_leftright (s : Store) (node parent : Nat) : Result (Store × Nat) := do
  let tmp ← rd_right s node
  let tl ← rd_left s tmp
  let s1 ← wr_right s node tl
  let s2 ← wr_left s1 tmp node
  let b ← avl_balance s2 tmp
  let balance_parent :=
    if b = AVL_NEUTRAL then AVL_NEUTRAL else if b = AVL_LEFT then AVL_RIGHT else AVL_NEUTRAL
  let balance_node :=
    if b = AVL_NEUTRAL then AVL_NEUTRAL else if b = AVL_LEFT then AVL_NEUTRAL else AVL_LEFT
  let nr ← rd_right s2 node
  let s3 ← avl_rotate_switch_parents s2 tmp node nr AVL_NEUTRAL balance_node
  let tmp2 ← rd_left s3 parent
  let tr ← rd_right s3 tmp2
  let s4 ← wr_left s3 parent tr
  let s5 ← wr_right s4 tmp2 parent
  let pl ← rd_left s5 parent
  let s6 ← avl_rotate_switch_parents s5 tmp2 parent pl AVL_NEUTRAL balance_parent
  pure (s6, tmp2)

/-- Function `avl_rotate_left`; the second component is the returned new top. -/
def avl_rotate_left (s : Store) (node parent : Nat) : Result (Store × Nat) := do
  let b ← avl_balance s node
  let balance_parent := if b = AVL_NEUTRAL then AVL_RIGHT else AVL_NEUTRAL
  let balance_node := if b = AVL_NEUTRAL then AVL_LEFT else AVL_NEUTRAL
  let tmp ← rd_right s parent
  let tl ← rd_left s tmp
  let s1 ← wr_right s parent tl
  let s2 ← wr_left s1 tmp parent
  let pr ← rd_right s2 parent
  let s3 ← avl_rotate_switch_parents s2 tmp parent pr balance_node balance_parent
  pure (s3, tmp)

/-- Function `avl_rotate_right`; the second component is the returned new top. -/
def avl_rotate_right (s : Store) (node parent : Nat) : Result (Store × Nat) := do
  let b ← avl_balance s node
  let balance_parent := if b = AVL_NEUTRAL then AVL_LEFT else AVL_NEUTRAL
  let balance_node := if b = AVL_NEUTRAL then AVL_RIGHT else AVL_NEUTRAL
  let tmp ← rd_left s parent
  let tr ← rd_right s tmp
  let s1 ← wr_left s parent tr
  let s2 ← wr_right s1 tmp parent
  let pl ← rd_left s2 parent
  let s3 ← avl_rotate_switch_parents s2 tmp parent pl balance_node balance_parent
  pure (s3, tmp)

/-! ## Insertion -/

/-- Modelled from the spec: the callees `MMMM` and `NNNN` of the left-hand rotation arm of
function `avl_insert_balance` are absent from the source; they are the single rotation
`avl_rotate_right` (child leaning the same way or neutral) and the double rotation
`avl_rotate_leftright` (child leaning the opposite way). The rest follows the source, with one
unit of fuel per evaluation of the loop condition. -/
def avl_insert_balance : Nat → Store → Nat → Result Store
  | 0, _, _ => Result.timeout
  | fuel + 1, s, node => do
    let parent ← avl_parent s node
    if parent = 0 then pure s
    else do
      let is_right ← avl_is_right_child s node
      if is_right then do
        let bp ← avl_balance s parent
        if bp = AVL_NEUTRAL then do
          let s1 ← avl_set_balance s parent AVL_RIGHT
          avl_insert_balance fuel s1 parent
        else if bp = AVL_LEFT then
          avl_set_balance s parent AVL_NEUTRAL
        else do
          let bn ← avl_balance s node
          if bn = AVL_LEFT then do
            let r ← avl_rotate_rightleft s node parent
            pure r.1
          else do
            let r ← avl_rotate_left s node parent
            pure r.1
      else do
        let bp ← avl_balance s parent
        if bp = AVL_NEUTRAL then do
          let s1 ← avl_set_balance s parent AVL_LEFT
          avl_insert_balance fuel s1 parent
        else if bp = AVL_LEFT then do
          let bn ← avl_balance s node
          if bn = AVL_RIGHT then do
            let r ← avl_rotate_leftright s node parent
            pure r.1
          else do
            let r ← avl_rotate_right s node parent
            pure r.1
        else
          avl_set_balance s parent AVL_NEUTRAL

/-- Function `avl_insert`: `avl_link_node` followed by `avl_insert_balance`. -/
def avl_insert (fuel : Nat) (s : Store) (node parent : Nat) (avl_link : Link) : Result Store := do
  let s1 ← avl_link_node s node parent avl_link
  avl_insert_balance fuel s1 node

/-! ## Traversal -/

/-- Loop `while (node->left) node = node->left;`. -/
def descend_left : Nat → Store → Nat → Result Nat
  | 0, _, _ => Result.timeout
  | fuel + 1, s, node => do
    let l ← rd_left s node
    if l ≠ 0 then descend_left fuel s l else pure node

/-- Loop `while (node->right) node = node->right;`. -/
def descend_right : Nat → Store → Nat → Result Nat
  | 0, _, _ => Result.timeout
  | fuel + 1, s, node => do
    let r ← rd_right s node
    if r ≠ 0 then descend_right fuel s r else pure node

/-- Function `avl_first`. -/
def avl_first (fuel : Nat) (s : Store) : Result Nat :=
  if s.root = 0 then pure 0 else descend_left fuel s s.root

/-- Function `avl_last`. -/
def avl_last (fuel : Nat) (s : Store) : Result Nat :=
  if s.root = 0 then pure 0 else descend_right fuel s s.root

/-- Loop `while (parent && parent->right == node) { node = parent; parent = avl_parent(node); }`
of `avl_next`, giving the final `parent`. -/
def climb_from_right : Nat → Store → Nat → Nat → Result Nat
  | 0, _, _, _ => Result.timeout
  | fuel + 1, s, node, parent =>
    if parent ≠ 0 then do
      let r ← rd_right s parent
      if r = node then do
        let p ← avl_parent s parent
        climb_from_right fuel s parent p
      else pure parent
    else pure parent

/-- Loop `while (parent && parent->left == node) { node = parent; parent = avl_parent(node); }`
of `avl_prev`, giving the final `parent`. -/
def climb_from_left : Nat → Store → Nat → Nat → Result Nat
  | 0, _, _, _ => Result.timeout
  | fuel + 1, s, node, parent =>
    if parent ≠ 0 then do
      let l ← rd_left s parent
      if l = node then do
        let p ← avl_parent s parent
        climb_from_left fuel s parent p
      else pure parent
    else pure parent

/-- Function `avl_next`. -/
def avl_next (fuel : Nat) (s : Store) (node : Nat) : Result Nat := do
  let r ← rd_right s node
  if r ≠ 0 then descend_left fuel s r
  else do
    let parent ← avl_parent s node
    if parent = 0 then pure parent
    else climb_from_right fuel s node parent

/-- Function `avl_prev`. -/
def avl_prev (fuel : Nat) (s : Store) (node : Nat) : Result Nat := do
  let l ← rd_left s node
  if l ≠ 0 then descend_right fuel s l
  else do
    let parent ← avl_parent s node
    if parent = 0 then pure parent
    else climb_from_left fuel s node parent

/-! ## Deletion -/

/-- Block of `avl_erase_node` under the comment "move right child of smallest one up". -/
def erase_node_move_up (s : Store) (smallest smallest_parent : Nat) : Result Store := do
  let sr ← rd_right s smallest
  let s1 ← if sr ≠ 0 then avl_set_parent s sr smallest_parent else pure s
  let sr1 ← rd_right s1 smallest
  avl_change_child s1 smallest sr1 smallest_parent

/-- Block of `avl_erase_node` under the comment "exchange node with smallest". -/
def erase_node_exchange (s2 : Store) (node smallest : Nat) : Result Store := do
  let p2 ← avl_parent s2 node
  let b2 ← avl_balance s2 node
  let s3 ← avl_set_parent_balance s2 smallest p2 b2
  let nl3 ← rd_left s3 node
  let s4 ← wr_left s3 smallest nl3
  let sl4 ← rd_left s4 smallest
  let s5 ← avl_set_parent s4 sl4 smallest
  let nr5 ← rd_right s5 node
  let s6 ← wr_right s5 smallest nr5
  let sr6 ← rd_right s6 smallest
  let s7 ← if sr6 ≠ 0 then avl_set_parent s6 sr6 smallest else pure s6
  let p7 ← avl_parent s7 node
  avl_change_child s7 node smallest p7

/-- Function `avl_erase_node`: the new store, the returned node and `*removed_right`. -/
def avl_erase_node (fuel : Nat) (s : Store) (node : Nat) : Result (Store × Nat × Bool) := do
  let nl ← rd_left s node
  let nr ← rd_right s node
  if nl = 0 ∧ nr = 0 then do
    let removed_right ← avl_is_right_child s node
    let p ← avl_parent s node
    let s1 ← avl_change_child s node 0 p
    let ret ← avl_parent s1 node
    pure (s1, ret, removed_right)
  else if nl ≠ 0 ∧ nr = 0 then do
    let removed_right ← avl_is_right_child s node
    let p ← avl_parent s node
    let s1 ← avl_set_parent s nl p
    let nl1 ← rd_left s1 node
    let p1 ← avl_parent s1 node
    let s2 ← avl_change_child s1 node nl1 p1
    let ret ← avl_parent s2 node
    pure (s2, ret, removed_right)
  else if nl = 0 then do
    let removed_right ← avl_is_right_child s node
    let p ← avl_parent s node
    let s1 ← avl_set_parent s nr p
    let nr1 ← rd_right s1 node
    let p1 ← avl_parent s1 node
    let s2 ← avl_change_child s1 node nr1 p1
    let ret ← avl_parent s2 node
    pure (s2, ret, removed_right)
  else do
    let smallest ← descend_left fuel s nr
    let smallest_parent ← avl_parent s smallest
    let removed_right ← if smallest = nr then pure true else avl_is_right_child s smallest
    let decreased_node := if smallest = nr then nr else smallest_parent
    let s2 ← erase_node_move_up s smallest smallest_parent
    let s8 ← erase_node_exchange s2 node smallest
    pure (s8, decreased_node, removed_right)

/-- Function `avl_erase_balance`: one unit of fuel per evaluation of the loop condition. -/
def avl_erase_balance : Nat → Store → Nat → Bool → Result Store
  | 0, _, _, _ => Result.timeout
  | fuel + 1, s, parent, removed_right =>
    if parent = 0 then pure s
    else if removed_right = false then do
      let bp ← avl_balance s parent
      if bp = AVL_NEUTRAL then
        avl_set_balance s parent AVL_RIGHT
      else if bp = AVL_LEFT then do
        let s1 ← avl_set_balance s parent AVL_NEUTRAL
        let rr ← avl_is_right_child s1 parent
        let p ← avl_parent s1 parent
        avl_erase_balance fuel s1 p rr
      else do
        let node ← rd_right s parent
        let bn ← avl_balance s node
        if bn = AVL_NEUTRAL then do
          let r ← avl_rotate_left s node parent
          pure r.1
        else if bn = AVL_LEFT then do
          let r ← avl_rotate_rightleft s node parent
          if r.2 = 0 then pure r.1
          else do
            let rr ← avl_is_right_child r.1 r.2
            let p ← avl_parent r.1 r.2
            avl_erase_balance fuel r.1 p rr
        else do
          let r ← avl_rotate_left s node parent
          if r.2 = 0 then pure r.1
          else do
            let rr ← avl_is_right_child r.1 r.2
            let p ← avl_parent r.1 r.2
            avl_erase_balance fuel r.1 p rr
    else do
      let bp ← avl_balance s parent
      if bp = AVL_NEUTRAL then
        avl_set_balance s parent AVL_LEFT
      else if bp = AVL_LEFT then do
        let node ← rd_left s parent
        let bn ← avl_balance s node
        if bn = AVL_LEFT then do
          let r ← avl_rotate_right s node parent
          if r.2 = 0 then pure r.1
          else do
            let rr ← avl_is_right_child r.1 r.2
            let p ← avl_parent r.1 r.2
            avl_erase_balance fuel r.1 p rr
        else if bn = AVL_NEUTRAL then do
          let r ← avl_rotate_right s node parent
          pure r.1
        else do
          let r ← avl_rotate_leftright s node parent
          if r.2 = 0 then pure r.1
          else do
            let rr ← avl_is_right_child r.1 r.2
            let p ← avl_parent r.1 r.2
            avl_erase_balance fuel r.1 p rr
      else do
        let s1 ← avl_set_balance s parent AVL_NEUTRAL
        let rr ← avl_is_right_child s1 parent
        let p ← avl_parent s1 parent
        avl_erase_balance fuel s1 p rr

/-- Function `avl_erase`: `avl_erase_node`, then `avl_erase_balance` when a node is returned. -/
def avl_erase (fuel : Nat) (s : Store) (node : Nat) : Result Store := do
  let r ← avl_erase_node fuel s node
  if r.2.1 ≠ 0 then avl_erase_balance fuel r.1 r.2.1 r.2.2
  else pure r.1

/-! ## Stores after a step in which no pointer followed is `NULL` -/

/-- Parent reference held in the packed word of a node. -/
def parent_of (s : Store) (node : Nat) : Nat :=
  (s.mem node).parent_balance / 4 * 4

/-- Balance held in the packed word of a node. -/
def balance_of (s : Store) (node : Nat) : Nat :=
  (s.mem node).parent_balance % 4

/-- Store after `avl_set_parent_balance`. -/
def set_parent_balance_eff (s : Store) (node parent balance : Nat) : Store :=
  setWord s node (parent ||| balance)

/-- Store after `avl_link_node`. -/
def link_node_eff (s : Store) (node parent : Nat) (avl_link : Link) : Store :=
  let s1 := set_parent_balance_eff s node parent AVL_NEUTRAL
  let s2 := setLeft s1 node 0
  let s3 := setRight s2 node 0
  setLink s3 avl_link node

/-- Store after `avl_set_parent`. -/
def set_parent_eff (s : Store) (node parent : Nat) : Store :=
  setWord s node (parent ||| balance_of s node)

/-- Store after `avl_set_balance`. -/
def set_balance_eff (s : Store) (node balance : Nat) : Store :=
  setWord s node (parent_of s node ||| balance)

/-- Store after `avl_change_child`. -/
def change_child_eff (s : Store) (old_node new_node parent : Nat) : Store :=
  if parent ≠ 0 then
    if (s.mem parent).left = old_node then setLeft s parent new_node
    else setRight s parent new_node
  else setRoot s new_node

/-- Store after `avl_rotate_switch_parents`. -/
def switch_parents_eff (s : Store) (node_top node_child node_child2 : Nat)
    (balance_top balance_child : Nat) : Store :=
  let s1 := set_parent_balance_eff s node_top (parent_of s node_child) balance_top
  let s2 := set_parent_balance_eff s1 node_child node_top balance_child
  let s3 := if node_child2 ≠ 0 then set_parent_eff s2 node_child2 node_child else s2
  change_child_eff s3 node_child node_top (parent_of s3 node_top)

/-- Value of `avl_is_right_child`. -/
def is_right_child_of (s : Store) (node : Nat) : Bool :=
  let parent := parent_of s node
  if parent = 0 then false
  else if (s.mem parent).right = node then true
  else false

/-! ## Abstract trees and how a store lays them out -/

/-- Shape of a tree: at each node the address of its record and its stored balance. -/
inductive ATree where
  | nil : ATree
  | node : ATree → Nat → Nat → ATree → ATree

namespace ATree

/-- In-order sequence of the node addresses. -/
def inorder : ATree → List Nat
  | nil => []
  | node l a _ r => inorder l ++ a :: inorder r

/-- Number of nodes on the longest path from the top to a leaf. -/
def height : ATree → Nat
  | nil => 0
  | node l _ _ r => max (height l) (height r) + 1

/-- Address of the top node, `0` for the empty tree. -/
def ptr : ATree → Nat
  | nil => 0
  | node _ a _ _ => a

/-- Stored balance of the top node. -/
def bal : ATree → Nat
  | nil => 0
  | node _ _ b _ => b

/-- AVL invariant: at every node the subtree heights differ by at most one and the stored
balance is `AVL_NEUTRAL`, `AVL_LEFT` or `AVL_RIGHT` according to which subtree is taller. -/
def AVL : ATree → Prop
  | nil => True
  | node l _ b r =>
    AVL l ∧ AVL r ∧
      ((height l = height r ∧ b = AVL_NEUTRAL) ∨ (height l = height r + 1 ∧ b = AVL_LEFT) ∨
        (height l + 1 = height r ∧ b = AVL_RIGHT))

end ATree

/-- The store lays out the tree `t` below a node (or root link) `par`: every node of `t` has a
nonzero 4-aligned address, its child fields point to the tops of its subtrees (`0` for an empty
one), its parent field points to the node holding it (`par` for the top), and its balance field
holds the tree's balance. -/
def Rep (s : Store) : ATree → Nat → Prop
  | ATree.nil, _ => True
  | ATree.node l a b r, par =>
    a ≠ 0 ∧ a % 4 = 0 ∧ parent_of s a = par ∧ balance_of s a = b ∧
      (s.mem a).left = l.ptr ∧ (s.mem a).right = r.ptr ∧ Rep s l a ∧ Rep s r a

/-- The store holds a valid tree `t`: the root link points to its top, the top has no parent,
all links and parent fields are consistent, and no node occurs twice. -/
def Valid (s : Store) (t : ATree) : Prop :=
  s.root = t.ptr ∧ Rep s t 0 ∧ t.inorder.Nodup

/-- One step of a path from a position in a tree up to the root: the node passed, its balance
and the subtree on the other side. `L` means the position is the left child. -/
inductive Frame where
  | L : Nat → Nat → ATree → Frame
  | R : ATree → Nat → Nat → Frame

/-- Tree obtained by putting `t` at the position described by the path (innermost step first). -/
def plug : List Frame → ATree → ATree
  | [], t => t
  | Frame.L a b r :: fs, t => plug fs (ATree.node t a b r)
  | Frame.R l a b :: fs, t => plug fs (ATree.node l a b t)

/-- Address of the node directly above the position, `rpar` at the top. -/
def ctxPar : List Frame → Nat → Nat
  | [], rpar => rpar
  | Frame.L a _ _ :: _, _ => a
  | Frame.R _ a _ :: _, _ => a

/-- Whether the position is the right child of the node above it. -/
def ctxIsRight : List Frame → Bool
  | Frame.R _ _ _ :: _ => true
  | _ => false

/-- The link that holds the position. -/
def ctxLink : List Frame → Link
  | [] => Link.root
  | Frame.L a _ _ :: _ => Link.left a
  | Frame.R _ a _ :: _ => Link.right a

/-- Addresses of all nodes outside the position. -/
def ctxAddrs : List Frame → List Nat
  | [] => []
  | Frame.L a _ r :: fs => a :: (r.inorder ++ ctxAddrs fs)
  | Frame.R l a _ :: fs => a :: (l.inorder ++ ctxAddrs fs)

/-- Addresses that precede the position in the in-order sequence. -/
def ctxBefore : List Frame → List Nat
  | [] => []
  | Frame.L _ _ _ :: fs => ctxBefore fs
  | Frame.R l a _ :: fs => ctxBefore fs ++ (l.inorder ++ [a])

/-- Addresses that follow the position in the in-order sequence. -/
def ctxAfter : List Frame → List Nat
  | [] => []
  | Frame.L a _ r :: fs => a :: r.inorder ++ ctxAfter fs
  | Frame.R _ _ _ :: fs => ctxAfter fs

/-- The store lays out the path around a position whose link holds `p`: `rp` is the pointer
held by the link at the top of the path and `rpar` the node above the top. -/
def RepCtx (s : Store) : List Frame → Nat → Nat → Nat → Prop
  | [], rp, _, p => p = rp
  | Frame.L a b r :: fs, rp, rpar, p =>
    a ≠ 0 ∧ a % 4 = 0 ∧ parent_of s a = ctxPar fs rpar ∧ balance_of s a = b ∧
      (s.mem a).left = p ∧ (s.mem a).right = r.ptr ∧ Rep s r a ∧ RepCtx s fs rp rpar a
  | Frame.R l a b :: fs, rp, rpar, p =>
    a ≠ 0 ∧ a % 4 = 0 ∧ parent_of s a = ctxPar fs rpar ∧ balance_of s a = b ∧
      (s.mem a).left = l.ptr ∧ (s.mem a).right = p ∧ Rep s l a ∧ RepCtx s fs rp rpar a

/-- Path of a position in an AVL tree, seen from a subtree of height `h` at that position:
every node passed satisfies the AVL invariant with respect to `h`. -/
def CtxAVL : List Frame → Nat → Prop
  | [], _ => True
  | Frame.L _ b r :: fs, h =>
    r.AVL ∧ ((h = r.height ∧ b = AVL_NEUTRAL) ∨ (h = r.height + 1 ∧ b = AVL_LEFT) ∨
        (h + 1 = r.height ∧ b = AVL_RIGHT)) ∧ CtxAVL fs (max h r.height + 1)
  | Frame.R l _ b :: fs, h =>
    l.AVL ∧ ((l.height = h ∧ b = AVL_NEUTRAL) ∨ (l.height = h + 1 ∧ b = AVL_LEFT) ∨
        (l.height + 1 = h ∧ b = AVL_RIGHT)) ∧ CtxAVL fs (max l.height h + 1)

/-- The stores agree at every address outside `ws`. -/
def Agree (ws : List Nat) (s s1 : Store) : Prop :=
  ∀ x, x ∉ ws → s1.mem x = s.mem x

/-- Store after the left single rotation of `avl_rotate_left` with the two new balances given
(also the second half of `avl_rotate_rightleft`), when no pointer it follows is `NULL`. -/
def rotate_left_core (s : Store) (parent balance_top balance_child : Nat) : Store :=
  let tmp := (s.mem parent).right
  let s1 := setRight s parent (s.mem tmp).left
  let s2 := setLeft s1 tmp parent
  switch_parents_eff s2 tmp parent (s2.mem parent).right balance_top balance_child

/-- Store after the right single rotation of `avl_rotate_right` with the two new balances given
(also the second half of `avl_rotate_leftright`), when no pointer it follows is `NULL`. -/
def rotate_right_core (s : Store) (parent balance_top balance_child : Nat) : Store :=
  let tmp := (s.mem parent).left
  let s1 := setLeft s parent (s.mem tmp).right
  let s2 := setRight s1 tmp parent
  switch_parents_eff s2 tmp parent (s2.mem parent).left balance_top balance_child

/-- Facts read off a valid store at a node given by its path. -/
structure At (s : Store) (fs : List Frame) (l : ATree) (a b : Nat) (r : ATree) : Prop where
  ne : a ≠ 0
  al : a % 4 = 0
  par : parent_of s a = ctxPar fs 0
  bal : balance_of s a = b
  left : (s.mem a).left = l.ptr
  right : (s.mem a).right = r.ptr
  isr : is_right_child_of s a = ctxIsRight fs
  repl : Rep s l a
  repr : Rep s r a
  ctx : RepCtx s fs s.root 0 a
  nd : (l.inorder ++ a :: (r.inorder ++ ctxAddrs fs)).Nodup
  nal : a ∉ l.inorder
  nar : a ∉ r.inorder
  nac : a ∉ ctxAddrs fs
  dlr : ∀ x ∈ l.inorder, x ∉ r.inorder
  dlc : ∀ x ∈ l.inorder, x ∉ ctxAddrs fs
  drc : ∀ x ∈ r.inorder, x ∉ ctxAddrs fs

/-- Height of the whole tree when a subtree of height `h` stands at the position. -/
def ctxHeight : List Frame → Nat → Nat
  | [], h => h
  | Frame.L _ _ r :: fs, h => ctxHeight fs (max h r.height + 1)
  | Frame.R l _ _ :: fs, h => ctxHeight fs (max l.height h + 1)

/-- Outcome of a rebalancing walk that started below the path `fs` with the subtree `sub`
where a subtree of height `h` stood before the operation: the store holds a valid AVL tree
with the in-order sequence of `plug fs sub`, whose height is the former height or differs
from it by the one level given by `grow` (`true`: one more, `false`: one less). -/
def Rebalanced (fs : List Frame) (sub : ATree) (h : Nat) (grow : Bool) (s1 : Store) : Prop :=
  ∃ t1, Valid s1 t1 ∧ t1.AVL ∧ t1.inorder = (plug fs sub).inorder ∧
    (t1.height = ctxHeight fs h ∨
      (if grow then t1.height = ctxHeight fs h + 1 else t1.height + 1 = ctxHeight fs h))

/-- Path from the leftmost node of a tree up to its top: only left steps. -/
def minCtx : ATree → List Frame
  | ATree.nil => []
  | ATree.node ATree.nil _ _ _ => []
  | ATree.node (ATree.node ll la lb lr) a b r => minCtx (ATree.node ll la lb lr) ++ [Frame.L a b r]

/-- Subtree at the leftmost node of a tree. -/
def minNode : ATree → ATree
  | ATree.nil => ATree.nil
  | ATree.node ATree.nil a b r => ATree.node ATree.nil a b r
  | ATree.node (ATree.node ll la lb lr) _ _ _ => minNode (ATree.node ll la lb lr)

/-- Path from the rightmost node of a tree up to its top: only right steps. -/
def maxCtx : ATree → List Frame
  | ATree.nil => []
  | ATree.node _ _ _ ATree.nil => []
  | ATree.node l a b (ATree.node rl ra rb rr) => maxCtx (ATree.node rl ra rb rr) ++ [Frame.R l a b]

/-- Subtree at the rightmost node of a tree. -/
def maxNode : ATree → ATree
  | ATree.nil => ATree.nil
  | ATree.node l a b ATree.nil => ATree.node l a b ATree.nil
  | ATree.node _ _ _ (ATree.node rl ra rb rr) => maxNode (ATree.node rl ra rb rr)

/-- Every step of the path is a left step. -/
def AllL : List Frame → Prop
  | [] => True
  | Frame.L _ _ _ :: fs => AllL fs
  | Frame.R _ _ _ :: _ => False

/-- Every step of the path is a right step. -/
def AllR : List Frame → Prop
  | [] => True
  | Frame.R _ _ _ :: fs => AllR fs
  | Frame.L _ _ _ :: _ => False

end Avl

namespace Avl

/-- Store after the two statements of `avl_erase_node` that move the right child of a node
without left child up into the node's place. -/
def detach_smallest (s : Store) (smallest smallest_parent : Nat) : Store :=
  let s1 :=
    if (s.mem smallest).right ≠ 0 then set_parent_eff s (s.mem smallest).right smallest_parent
    else s
  change_child_eff s1 smallest (s1.mem smallest).right smallest_parent

/-- Store after the statements of `avl_erase_node` that move the left child of a node without
right child up into the node's place. -/
def detach_left_child (s : Store) (node parent : Nat) : Store :=
  let s1 := set_parent_eff s (s.mem node).left parent
  change_child_eff s1 node (s1.mem node).left parent

/-- Store after the statements of `avl_erase_node` under the comment "exchange node with
smallest". -/
def exchange_node (s2 : Store) (node smallest : Nat) : Store :=
  let s3 := set_parent_balance_eff s2 smallest (parent_of s2 node) (balance_of s2 node)
  let s4 := setLeft s3 smallest (s3.mem node).left
  let s5 := set_parent_eff s4 (s4.mem smallest).left smallest
  let s6 := setRight s5 smallest (s5.mem node).right
  let s7 := if (s6.mem smallest).right ≠ 0 then set_parent_eff s6 (s6.mem smallest).right smallest
    else s6
  change_child_eff s7 node smallest (parent_of s7 node)

end Avl

namespace Avl

/-! ## Callers' view: slots, traversal loops, sequences of calls -/

/-- The link `link` below `parent` is an empty child slot of a node of the tree, or the root
link of an empty tree (then `parent` is `NULL`). -/
def EmptySlot (s : Store) (t : ATree) (parent : Nat) (link : Link) : Prop :=
  (t = ATree.nil ∧ parent = 0 ∧ link = Link.root) ∨
    (parent ∈ t.inorder ∧
      ((link = Link.left parent ∧ (s.mem parent).left = 0) ∨
        (link = Link.right parent ∧ (s.mem parent).right = 0)))

/-- The child links of the store form the tree `t`: every node has a nonzero address and its
`left` and `right` fields point to the tops of its subtrees (`NULL` for an empty one). -/
def Links (s : Store) : ATree → Prop
  | ATree.nil => True
  | ATree.node l a _ r =>
    a ≠ 0 ∧ (s.mem a).left = l.ptr ∧ (s.mem a).right = r.ptr ∧ Links s l ∧ Links s r

/-- Read `*avl_link`. -/
def rd_link (s : Store) : Link → Result Nat
  | Link.root => Result.ok s.root
  | Link.left p => rd_left s p
  | Link.right p => rd_right s p

/-- The descent loop of `avl_prio_queue_insert_balanced` (avltree.c) for a comparator `cmp` on
the entries of two nodes: `while (*cur_nodep) { parent = *cur_nodep; if (cmp(new, cur) <= 0)
cur_nodep = &cur->left; else cur_nodep = &cur->right; }`, giving the final `parent` and
`cur_nodep`. The flag `isminimal` of the loop does not affect the slot and is left out. -/
def bst_descend (cmp : Nat → Nat → Int) : Nat → Store → Nat → Nat → Link → Result (Nat × Link)
  | 0, _, _, _, _ => Result.timeout
  | fuel + 1, s, new, parent, cur_nodep => do
    let cur ← rd_link s cur_nodep
    if cur ≠ 0 then
      if cmp new cur ≤ 0 then bst_descend cmp fuel s new cur (Link.left cur)
      else bst_descend cmp fuel s new cur (Link.right cur)
    else pure (parent, cur_nodep)

/-- The sequence is non-decreasing under the comparator. -/
def SortedBy (cmp : Nat → Nat → Int) (L : List Nat) : Prop :=
  L.Pairwise (fun a b => cmp a b ≤ 0)

/-- Result of `k` applications of `avl_next`, starting at `node`. -/
def iter_next (fuel : Nat) (s : Store) : Nat → Nat → Result Nat
  | 0, node => pure node
  | k + 1, node => do
    let m ← iter_next fuel s k node
    avl_next fuel s m

/-- Loop `for (; n; n = avl_next(n))` collecting the nodes visited; one unit of `steps` per
evaluation of the loop condition. -/
def avl_walk (fuel : Nat) (s : Store) : Nat → Nat → Result (List Nat)
  | 0, _ => Result.timeout
  | steps + 1, n =>
    if n = 0 then pure []
    else do
      let m ← avl_next fuel s n
      let rest ← avl_walk fuel s steps m
      pure (n :: rest)

/-- Full traversal `for (n = avl_first(root); n; n = avl_next(n))`. -/
def avl_traverse (steps fuel : Nat) (s : Store) : Result (List Nat) := do
  let n ← avl_first fuel s
  avl_walk fuel s steps n

/-- Stores reached from an empty tree by a sequence of `avl_insert` and `avl_erase` calls, with
the number of inserts and of erases. Each insert puts a fresh node (non-null, aligned, not in
the tree) at an empty slot, each erase takes a node of the tree, and each call is given enough
fuel to return. -/
inductive Reached : Store → Nat → Nat → Prop where
  | init (s : Store) : s.root = 0 → Reached s 0 0
  | insert {s s1 : Store} {t : ATree} {i e : Nat} (node parent : Nat) (link : Link) (fuel : Nat) :
      Reached s i e → Valid s t → EmptySlot s t parent link → node ≠ 0 → node % 4 = 0 →
      node ∉ t.inorder → t.height < fuel →
      avl_insert fuel s node parent link = Result.ok s1 → Reached s1 (i + 1) e
  | erase {s s1 : Store} {t : ATree} {i e : Nat} (node fuel : Nat) :
      Reached s i e → Valid s t → node ∈ t.inorder → t.height ≤ fuel →
      avl_erase fuel s node = Result.ok s1 → Reached s1 i (e + 1)

/-- Stores reached from an empty tree by `avl_insert` calls only, with the nodes inserted (the
latest first). -/
inductive Inserted : Store → List Nat → Prop where
  | init (s : Store) : s.root = 0 → Inserted s []
  | insert {s s1 : Store} {t : ATree} {ns : List Nat} (node parent : Nat) (link : Link)
      (fuel : Nat) :
      Inserted s ns → Valid s t → EmptySlot s t parent link → node ≠ 0 → node % 4 = 0 →
      node ∉ t.inorder → t.height < fuel →
      avl_insert fuel s node parent link = Result.ok s1 → Inserted s1 (node :: ns)

/-- Calls of `avl_erase` for the listed nodes, in order. -/
def erase_all (fuel : Nat) : Store → List Nat → Result Store
  | s, [] => pure s
  | s, x :: xs => do
    let s1 ← avl_erase fuel s x
    erase_all fuel s1 xs

/-! ## Example stores -/

/-- A store with no node and an empty tree. -/
def store0 : Store := { mem := fun _ => { parent_balance := 0, left := 0, right := 0 }, root := 0 }

/-- Key of the entry that embeds the node at address `a` in the examples. -/
def key_of (a : Nat) : Int := a / 8

/-- Comparator of the examples: `cmpint` on the keys of the entries. -/
def cmp_key (a b : Nat) : Int := key_of a - key_of b

/-- Insertion by key into the store, as `avl_prio_queue_insert_balanced` does it, the
`min_node` bookkeeping left out: descent, then `avl_insert`. -/
def insert_key (fuel : Nat) (s : Store) (new : Nat) : Result Store := do
  let slot ← bst_descend cmp_key fuel s new 0 Link.root
  avl_insert fuel s new slot.1 slot.2

/-- Insertion by key of the listed nodes, in order. -/
def insert_keys (fuel : Nat) : Store → List Nat → Result Store
  | s, [] => pure s
  | s, x :: xs => do
    let s1 ← insert_key fuel s x
    insert_keys fuel s1 xs

/-- Store of the scenario: nodes at addresses `8 * key` for the keys 5, 3, 8, 1, 4, 7, 9,
inserted in that order into an empty tree. -/
def store7r : Result Store := insert_keys 8 store0 [40, 24, 64, 8, 32, 56, 72]

end Avl

namespace Avl

/-! ## Decision procedures for the predicates on concrete stores -/

instance Result.decEq {α : Type} [DecidableEq α] : DecidableEq (Result α)
  | Result.ok a, Result.ok b =>
    if h : a = b then isTrue (by rw [h]) else isFalse (fun e => h (by cases e; rfl))
  | Result.ok _, Result.fault => isFalse (fun e => by cases e)
  | Result.ok _, Result.timeout => isFalse (fun e => by cases e)
  | Result.fault, Result.ok _ => isFalse (fun e => by cases e)
  | Result.fault, Result.fault => isTrue rfl
  | Result.fault, Result.timeout => isFalse (fun e => by cases e)
  | Result.timeout, Result.ok _ => isFalse (fun e => by cases e)
  | Result.timeout, Result.fault => isFalse (fun e => by cases e)
  | Result.timeout, Result.timeout => isTrue rfl

instance Rep.dec (s : Store) : (t : ATree) → (par : Nat) → Decidable (Rep s t par)
  | ATree.nil, _ => isTrue trivial
  | ATree.node l a b r, par =>
    have := Rep.dec s l a
    have := Rep.dec s r a
    (inferInstance : Decidable (a ≠ 0 ∧ a % 4 = 0 ∧ parent_of s a = par ∧ balance_of s a = b ∧
      (s.mem a).left = l.ptr ∧ (s.mem a).right = r.ptr ∧ Rep s l a ∧ Rep s r a))

instance Valid.dec (s : Store) (t : ATree) : Decidable (Valid s t) :=
  (inferInstance : Decidable (s.root = t.ptr ∧ Rep s t 0 ∧ t.inorder.Nodup))

instance ATree.AVL.dec : (t : ATree) → Decidable t.AVL
  | ATree.nil => isTrue trivial
  | ATree.node l _ b r =>
    have := ATree.AVL.dec l
    have := ATree.AVL.dec r
    (inferInstance : Decidable (ATree.AVL l ∧ ATree.AVL r ∧
      ((ATree.height l = ATree.height r ∧ b = AVL_NEUTRAL) ∨
        (ATree.height l = ATree.height r + 1 ∧ b = AVL_LEFT) ∨
        (ATree.height l + 1 = ATree.height r ∧ b = AVL_RIGHT))))

instance Links.dec (s : Store) : (t : ATree) → Decidable (Links s t)
  | ATree.nil => isTrue trivial
  | ATree.node l a _ r =>
    have := Links.dec s l
    have := Links.dec s r
    (inferInstance : Decidable (a ≠ 0 ∧ (s.mem a).left = l.ptr ∧ (s.mem a).right = r.ptr ∧
      Links s l ∧ Links s r))

deriving instance DecidableEq for Link

/-- In-order position of a slot: `pre` and `post` are the parts of the in-order sequence before
and after it. The root slot of an empty tree has nothing around it, the left slot of `p` is
right before `p` and the right slot of `p` right after `p`. -/
def SlotAt : Link → List Nat → List Nat → Prop
  | Link.root, pre, post => pre = [] ∧ post = []
  | Link.left p, _, post => post.head? = some p
  | Link.right p, pre, _ => pre.getLast? = some p

/-- Whether the code returned. -/
def Result.isOk {α : Type} : Result α → Bool
  | Result.ok _ => true
  | _ => false

/-- The store a call returned, the empty store when it did not return. -/
def Result.store : Result Store → Store
  | Result.ok s => s
  | _ => store0

/-- Tree of the scenario after the seven insertions. -/
def tree7 : ATree :=
  ATree.node
    (ATree.node (ATree.node ATree.nil 8 0 ATree.nil) 24 0 (ATree.node ATree.nil 32 0 ATree.nil))
    40 0
    (ATree.node (ATree.node ATree.nil 56 0 ATree.nil) 64 0 (ATree.node ATree.nil 72 0 ATree.nil))

/-- Store of the scenario. -/
def store7 : Store := Result.store store7r

/-- Store of the scenario before the last insertion: keys 5, 3, 8, 1, 4, 7. -/
def store6 : Store := Result.store (insert_keys 8 store0 [40, 24, 64, 8, 32, 56])

/-- Tree of the scenario before the last insertion. -/
def tree6 : ATree :=
  ATree.node
    (ATree.node (ATree.node ATree.nil 8 0 ATree.nil) 24 0 (ATree.node ATree.nil 32 0 ATree.nil))
    40 0
    (ATree.node (ATree.node ATree.nil 56 0 ATree.nil) 64 1 ATree.nil)

/-- Store after inserting the node at address 16 into the empty tree. -/
def storeA : Store := Result.store (avl_insert 4 store0 16 0 Link.root)

/-- Store after then inserting the node at address 8 to the left of 16. -/
def storeB : Store := Result.store (avl_insert 4 storeA 8 16 (Link.left 16))

/-- Store after then inserting the node at address 24 to the right of 16. -/
def storeC : Store := Result.store (avl_insert 4 storeB 24 16 (Link.right 16))

/-- Store after then erasing the node at address 16. -/
def storeD : Store := Result.store (avl_erase 4 storeC 16)

/-- Tree of `storeA`. -/
def treeA : ATree := ATree.node ATree.nil 16 0 ATree.nil

/-- Tree of `storeB`. -/
def treeB : ATree := ATree.node (ATree.node ATree.nil 8 0 ATree.nil) 16 1 ATree.nil

/-- Tree of `storeC`. -/
def treeC : ATree :=
  ATree.node (ATree.node ATree.nil 8 0 ATree.nil) 16 0 (ATree.node ATree.nil 24 0 ATree.nil)

/-- A parent-consistent store whose balance field is not accurate: the root node at address 8
is marked `AVL_RIGHT` but has only the left child at address 16. -/
def storeBad : Store :=
  { mem := fun a =>
      if a = 8 then { parent_balance := 2, left := 16, right := 0 }
      else if a = 16 then { parent_balance := 8, left := 0, right := 0 }
      else { parent_balance := 0, left := 0, right := 0 },
    root := 8 }

/-- Tree of `storeBad`. -/
def treeBad : ATree := ATree.node (ATree.node ATree.nil 16 0 ATree.nil) 8 2 ATree.nil

end Avl

namespace Avl

/-! ## Priority queue of avltree.c -/

/-- Record `struct avl_prio_queue`: the tree (memory and `root.node`) and the cached minimum
`min_node`. -/
structure avl_prio_queue where
  root : Store
  min_node : Nat

/-- Function `avl_prio_queue_init`. -/
def avl_prio_queue_init (queue : avl_prio_queue) : avl_prio_queue :=
  { root := INIT_AVL_ROOT queue.root, min_node := 0 }

/-- The descent loop of `avl_prio_queue_insert_balanced` with its flag `isminimal`. The
comparator `cmpint` and the entry type `struct avlitem` are not in the source: `cmpint` is a
parameter on key values and `i` gives the key field of the entry that embeds a node. -/
def avl_prio_queue_descend (cmpint : Int → Int → Int) (i : Nat → Int) :
    Nat → Store → Nat → Nat → Link → Bool → Result (Nat × Link × Bool)
  | 0, _, _, _, _, _ => Result.timeout
  | fuel + 1, s, new_entry, parent, cur_nodep, isminimal => do
    let cur ← rd_link s cur_nodep
    if cur ≠ 0 then
      if cmpint (i new_entry) (i cur) ≤ 0 then
        avl_prio_queue_descend cmpint i fuel s new_entry cur (Link.left cur) isminimal
      else avl_prio_queue_descend cmpint i fuel s new_entry cur (Link.right cur) false
    else pure (parent, cur_nodep, isminimal)

/-- Function `avl_prio_queue_insert_balanced`; `new_entry` is the address of the node embedded
in the new entry. -/
def avl_prio_queue_insert_balanced (cmpint : Int → Int → Int) (i : Nat → Int) (fuel : Nat)
    (queue : avl_prio_queue) (new_entry : Nat) : Result avl_prio_queue := do
  let r ← avl_prio_queue_descend cmpint i fuel queue.root new_entry 0 Link.root true
  let min_node := if r.2.2 = true then new_entry else queue.min_node
  let s1 ← avl_insert fuel queue.root new_entry r.1 r.2.1
  pure { root := s1, min_node := min_node }

/-- Function `avl_prio_queue_pop_balanced`: the new queue and the returned item (the address of
its node, `0` for `NULL`). -/
def avl_prio_queue_pop_balanced (fuel : Nat) (queue : avl_prio_queue) :
    Result (avl_prio_queue × Nat) :=
  if queue.min_node = 0 then pure (queue, 0)
  else do
    let item := queue.min_node
    let m ← avl_next fuel queue.root queue.min_node
    let s1 ← avl_erase fuel queue.root item
    pure ({ root := s1, min_node := m }, item)

/-- Calls of `avl_prio_queue_insert_balanced` for the listed entries, in order. -/
def insert_entries (cmpint : Int → Int → Int) (i : Nat → Int) (fuel : Nat) :
    avl_prio_queue → List Nat → Result avl_prio_queue
  | q, [] => pure q
  | q, e :: es => do
    let q1 ← avl_prio_queue_insert_balanced cmpint i fuel q e
    insert_entries cmpint i fuel q1 es

/-- The given number of calls of `avl_prio_queue_pop_balanced`, with the items returned, in
order. -/
def pop_entries (fuel : Nat) : avl_prio_queue → Nat → Result (avl_prio_queue × List Nat)
  | q, 0 => pure (q, [])
  | q, n + 1 => do
    let r ← avl_prio_queue_pop_balanced fuel q
    let rest ← pop_entries fuel r.1 n
    pure (rest.1, r.2 :: rest.2)

/-- Queue states reached from `avl_prio_queue_init` by calls of
`avl_prio_queue_insert_balanced` for fresh entries (non-null, aligned, not in the tree) and of
`avl_prio_queue_pop_balanced`, each call with enough fuel to return. -/
inductive QReached (cmpint : Int → Int → Int) (i : Nat → Int) : avl_prio_queue → Prop where
  | init (q : avl_prio_queue) : QReached cmpint i (avl_prio_queue_init q)
  | insert {q q1 : avl_prio_queue} {t : ATree} (new_entry fuel : Nat) :
      QReached cmpint i q → Valid q.root t → new_entry ≠ 0 → new_entry % 4 = 0 →
      new_entry ∉ t.inorder → t.height < fuel →
      avl_prio_queue_insert_balanced cmpint i fuel q new_entry = Result.ok q1 →
      QReached cmpint i q1
  | pop {q q1 : avl_prio_queue} {t : ATree} {item : Nat} (fuel : Nat) :
      QReached cmpint i q → Valid q.root t → t.height ≤ fuel →
      avl_prio_queue_pop_balanced fuel q = Result.ok (q1, item) → QReached cmpint i q1

/-- Invariant of the queue: the store holds a valid AVL tree `t` whose in-order sequence has
non-decreasing keys, and `min_node` is its first node (`NULL` when there is none). -/
def QInv (i : Nat → Int) (q : avl_prio_queue) (t : ATree) : Prop :=
  Valid q.root t ∧ t.AVL ∧ (t.inorder.map i).Pairwise (fun a b => a ≤ b) ∧
    q.min_node = t.inorder.head?.getD 0

/-- Entry `b` stands before entry `a` in the sequence. -/
def Precedes (b a : Nat) (L : List Nat) : Prop :=
  ∃ pre mid post, L = pre ++ b :: (mid ++ a :: post)

/-- The value a call returned, if it returned. -/
def Result.value {α : Type} : Result α → Option α
  | Result.ok a => some a
  | _ => none

/-- The empty queue. -/
def queue0 : avl_prio_queue := avl_prio_queue_init { root := store0, min_node := 0 }

/-- Comparator of the examples on key values: their difference. -/
def cmpint_example (a b : Int) : Int := a - b

/-- Queue after inserting the entry with key 5 (node at address 40) into the empty queue. -/
def queue1 : avl_prio_queue :=
  (Result.value (avl_prio_queue_insert_balanced cmpint_example key_of 4 queue0 40)).getD queue0

/-- Queue after then inserting the entry with key 1 (node at address 8). -/
def queue2 : avl_prio_queue :=
  (Result.value (avl_prio_queue_insert_balanced cmpint_example key_of 4 queue1 8)).getD queue0

/-- Queue after then popping once. -/
def queue3 : avl_prio_queue :=
  ((Result.value (avl_prio_queue_pop_balanced 4 queue2)).getD (queue0, 0)).1

/-- Tree of `queue1`. -/
def treeQ1 : ATree := ATree.node ATree.nil 40 0 ATree.nil

/-- Tree of `queue2`. -/
def treeQ2 : ATree := ATree.node (ATree.node ATree.nil 8 0 ATree.nil) 40 1 ATree.nil

/-- Tree of `storeD`. -/
def treeD : ATree := ATree.node (ATree.node ATree.nil 8 0 ATree.nil) 24 1 ATree.nil

end Avl

namespace Avl

/-! ## Tree sort of treesort.c

The memory of the `node_t` records is kept one map per field. The maps of the fields `color`,
`left` and `right` and the fields of `struct cmap_internal` that the code reads make up a
`CmapState`; no `cmap` function writes the fields `next` and `value`, which are maps of their
own in `SortState`. -/

/-- Enumerator `CMAP_RED`. -/
abbrev CMAP_RED : Nat := 0

/-- Enumerator `CMAP_BLACK`. -/
abbrev CMAP_BLACK : Nat := 1

/-- Fields `color`, `left` and `right` of all `node_t` records, and of the one `struct
cmap_internal` the fields `head`, `size`, `it_least.node` and `it_most.node` (the other fields
are written by `cmap_new` and never read). -/
structure CmapState where
  color : Nat → Nat
  left : Nat → Nat
  right : Nat → Nat
  head : Nat
  size : Nat
  it_least : Nat
  it_most : Nat

namespace CmapState

/-- State after `p->color = v`. -/
def setColor (m : CmapState) (p v : Nat) : CmapState :=
  { m with color := fun x => if x = p then v else m.color x }

/-- State after `p->left = v`. -/
def setLeft (m : CmapState) (p v : Nat) : CmapState :=
  { m with left := fun x => if x = p then v else m.left x }

/-- State after `p->right = v`. -/
def setRight (m : CmapState) (p v : Nat) : CmapState :=
  { m with right := fun x => if x = p then v else m.right x }

/-- State after `obj->head = v`. -/
def setHead (m : CmapState) (v : Nat) : CmapState :=
  { m with head := v }

/-- Read `p->color`. -/
def rd_color (m : CmapState) (p : Nat) : Result Nat :=
  if p = 0 then Result.fault else Result.ok (m.color p)

/-- Read `p->left`. -/
def rd_left (m : CmapState) (p : Nat) : Result Nat :=
  if p = 0 then Result.fault else Result.ok (m.left p)

/-- Read `p->right`. -/
def rd_right (m : CmapState) (p : Nat) : Result Nat :=
  if p = 0 then Result.fault else Result.ok (m.right p)

/-- Assignment `p->color = v`. -/
def wr_color (m : CmapState) (p v : Nat) : Result CmapState :=
  if p = 0 then Result.fault else Result.ok (m.setColor p v)

/-- Assignment `p->left = v`. -/
def wr_left (m : CmapState) (p v : Nat) : Result CmapState :=
  if p = 0 then Result.fault else Result.ok (m.setLeft p v)

/-- Assignment `p->right = v`. -/
def wr_right (m : CmapState) (p v : Nat) : Result CmapState :=
  if p = 0 then Result.fault else Result.ok (m.setRight p v)

end CmapState

/-- Modelled from the spec: the expression `AAAA` of the macro `rb_parent` is absent from the
source; the spec describes a red-black tree with rotation logic like that of the AVL tree,
whose parent reference shares a word with the per-node state, so the parent is the `color` word
with the color bit cleared. -/
def rb_parent (m : CmapState) (r : Nat) : Result Nat := do
  let w ← m.rd_color r
  pure (w / 2 * 2)

/-- Macro `rb_color`: `(r)->color & 1`. -/
def rb_color (m : CmapState) (r : Nat) : Result Nat := do
  let w ← m.rd_color r
  pure (w % 2)

/-- Macro `rb_set_parent`: `(r)->color = rb_color(r) | (uintptr_t) (p)`. -/
def rb_set_parent (m : CmapState) (r p : Nat) : Result CmapState := do
  let c ← rb_color m r
  m.wr_color r (c ||| p)

/-- Modelled from the spec: the statement `BBBB` of the macro `rb_set_red` is absent from the
source; with `CMAP_RED = 0` in the low bit of the `color` word it clears that bit. -/
def rb_set_red (m : CmapState) (r : Nat) : Result CmapState := do
  let w ← m.rd_color r
  m.wr_color r (w / 2 * 2)

/-- Modelled from the spec: the statement `CCCC` of the macro `rb_set_black` is absent from the
source; with `CMAP_BLACK = 1` in the low bit of the `color` word it sets that bit. -/
def rb_set_black (m : CmapState) (r : Nat) : Result CmapState := do
  let w ← m.rd_color r
  m.wr_color r (w ||| 1)

/-- Macro `rb_is_red`: `!rb_color(r)`. -/
def rb_is_red (m : CmapState) (r : Nat) : Result Bool := do
  let c ← rb_color m r
  pure (decide (c = 0))

/-- Macro `rb_is_black`: `rb_color(r)`. -/
def rb_is_black (m : CmapState) (r : Nat) : Result Bool := do
  let c ← rb_color m r
  pure (decide (c ≠ 0))

/-- Value of a `long` read through an `int` pointer, as `cmap_cmp_int` does, and of a `long`
converted to `int`, as `list_is_ordered` does: the low 32 bits as a signed number. -/
def int_of_long (v : Int) : Int := (v + 2 ^ 31) % 2 ^ 32 - 2 ^ 31

/-- Function `cmap_cmp_int` on the two values read. -/
def cmap_cmp_int (a b : Int) : Int :=
  if a < b then -1 else if a > b then 1 else 0

/-- Function `cmap_create_node`. -/
def cmap_create_node (m : CmapState) (node : Nat) : Result CmapState := do
  let m1 ← m.wr_right node 0
  let m2 ← m1.wr_left node 0
  let m3 ← rb_set_parent m2 node 0
  rb_set_red m3 node

/-- Function `cmap_rotate_left`; the second component is the returned node. -/
def cmap_rotate_left (m : CmapState) (node : Nat) : Result (CmapState × Nat) := do
  let r ← m.rd_right node
  let rl ← m.rd_left r
  let up ← rb_parent m node
  let m1 ← rb_set_parent m r up
  let m2 ← m1.wr_left r node
  let m3 ← m2.wr_right node rl
  let m4 ← rb_set_parent m3 node r
  let nr ← m4.rd_right node
  let m5 ← if nr ≠ 0 then rb_set_parent m4 nr node else pure m4
  let m6 ← if up ≠ 0 then do
      let ur ← m5.rd_right up
      if ur = node then m5.wr_right up r else m5.wr_left up r
    else pure m5
  let m7 := if node = m6.head then m6.setHead r else m6
  pure (m7, r)

/-- Function `cmap_rotate_right`; the second component is the returned node. -/
def cmap_rotate_right (m : CmapState) (node : Nat) : Result (CmapState × Nat) := do
  let l ← m.rd_left node
  let lr ← m.rd_right l
  let up ← rb_parent m node
  let m1 ← rb_set_parent m l up
  let m2 ← m1.wr_right l node
  let m3 ← m2.wr_left node lr
  let m4 ← rb_set_parent m3 node l
  let nl ← m4.rd_left node
  let m5 ← if nl ≠ 0 then rb_set_parent m4 nl node else pure m4
  let m6 ← if up ≠ 0 then do
      let ur ← m5.rd_right up
      if ur = node then m5.wr_right up l else m5.wr_left up l
    else pure m5
  let m7 := if node = m6.head then m6.setHead l else m6
  pure (m7, l)

/-- Function `cmap_l_l`; the unused parameters `node`, `parent` and `uncle` are left out. -/
def cmap_l_l (m : CmapState) (grandparent : Nat) : Result CmapState := do
  let r ← cmap_rotate_right m grandparent
  let m1 := r.1
  let grandparent := r.2
  let c1 ← rb_color m1 grandparent
  let gr ← m1.rd_right grandparent
  let c2 ← rb_color m1 gr
  let gr1 ← m1.rd_right grandparent
  let m2 ← if c1 = CMAP_RED then rb_set_red m1 gr1 else rb_set_black m1 gr1
  if c2 = CMAP_RED then rb_set_red m2 grandparent else rb_set_black m2 grandparent

/-- Function `cmap_r_r`; the unused parameters `node`, `parent` and `uncle` are left out. -/
def cmap_r_r (m : CmapState) (grandparent : Nat) : Result CmapState := do
  let r ← cmap_rotate_left m grandparent
  let m1 := r.1
  let grandparent := r.2
  let c1 ← rb_color m1 grandparent
  let gl ← m1.rd_left grandparent
  let c2 ← rb_color m1 gl
  let gl1 ← m1.rd_left grandparent
  let m2 ← if c1 = CMAP_RED then rb_set_red m1 gl1 else rb_set_black m1 gl1
  if c2 = CMAP_RED then rb_set_red m2 grandparent else rb_set_black m2 grandparent

/-- Function `cmap_l_r`; the values it recomputes for `node` and `uncle` are read as the source
does and then not used by `cmap_l_l`. -/
def cmap_l_r (m : CmapState) (parent : Nat) : Result CmapState := do
  let r ← cmap_rotate_left m parent
  let m1 := r.1
  let parent := r.2
  let _node ← m1.rd_left parent
  let grandparent ← rb_parent m1 parent
  let gl ← m1.rd_left grandparent
  let _uncle ← if gl = parent then m1.rd_right grandparent else m1.rd_left grandparent
  cmap_l_l m1 grandparent

/-- Function `cmap_r_l`; the values it recomputes for `node` and `uncle` are read as the source
does and then not used by `cmap_r_r`. -/
def cmap_r_l (m : CmapState) (parent : Nat) : Result CmapState := do
  let r ← cmap_rotate_right m parent
  let m1 := r.1
  let parent := r.2
  let _node ← m1.rd_right parent
  let grandparent ← rb_parent m1 parent
  let gl ← m1.rd_left grandparent
  let _uncle ← if gl = parent then m1.rd_right grandparent else m1.rd_left grandparent
  cmap_r_r m1 grandparent

end Avl

namespace Avl

/-- Function `cmap_fix_colors`: one unit of fuel per call (it calls itself on the
grandparent). -/
def cmap_fix_colors : Nat → CmapState → Nat → Result CmapState
  | 0, _, _ => Result.timeout
  | fuel + 1, m, node =>
    if node = m.head then rb_set_black m node
    else do
      let p0 ← rb_parent m node
      let black ← rb_is_black m p0
      if black = true ∧ p0 ≠ m.head then pure m
      else do
        let parent ← rb_parent m node
        let grandparent ← rb_parent m parent
        let pp ← rb_parent m parent
        if pp = 0 then pure m
        else do
          let gl ← m.rd_left grandparent
          let uncle ← if gl = parent then m.rd_right grandparent else m.rd_left grandparent
          let uncle_red ← if uncle ≠ 0 then rb_is_red m uncle else pure false
          if uncle ≠ 0 ∧ uncle_red = true then do
            let m1 ← rb_set_black m uncle
            let m2 ← rb_set_black m1 parent
            let m3 ← rb_set_red m2 grandparent
            cmap_fix_colors fuel m3 grandparent
          else do
            let uncle_black ← if uncle = 0 then pure true else rb_is_black m uncle
            if uncle_black = true then do
              let gl ← m.rd_left grandparent
              let pl ← if parent = gl then m.rd_left parent else pure 0
              if parent = gl ∧ node = pl then cmap_l_l m grandparent
              else do
                let gl ← m.rd_left grandparent
                let pr ← if parent = gl then m.rd_right parent else pure 0
                if parent = gl ∧ node = pr then cmap_l_r m parent
                else do
                  let gr ← m.rd_right grandparent
                  let pl ← if parent = gr then m.rd_left parent else pure 0
                  if parent = gr ∧ node = pl then cmap_r_l m parent
                  else do
                    let gr ← m.rd_right grandparent
                    let pr ← if parent = gr then m.rd_right parent else pure 0
                    if parent = gr ∧ node = pr then cmap_r_r m grandparent
                    else pure m
            else pure m

/-- Loop `while (obj->it_least.node->left) obj->it_least.node = obj->it_least.node->left;` of
`cmap_calibrate`. -/
def calibrate_least : Nat → CmapState → Result CmapState
  | 0, _ => Result.timeout
  | fuel + 1, m => do
    let l ← m.rd_left m.it_least
    if l ≠ 0 then calibrate_least fuel { m with it_least := l } else pure m

/-- Loop `while (obj->it_most.node->right) obj->it_most.node = obj->it_most.node->right;` of
`cmap_calibrate`. -/
def calibrate_most : Nat → CmapState → Result CmapState
  | 0, _ => Result.timeout
  | fuel + 1, m => do
    let r ← m.rd_right m.it_most
    if r ≠ 0 then calibrate_most fuel { m with it_most := r } else pure m

/-- Function `cmap_calibrate`. -/
def cmap_calibrate (fuel : Nat) (m : CmapState) : Result CmapState :=
  if m.head = 0 then pure { m with it_least := 0, it_most := 0 }
  else do
    let m1 ← calibrate_least fuel { m with it_least := m.head, it_most := m.head }
    calibrate_most fuel m1

/-- Function `cmap_new`: the fields of the new `struct cmap_internal` that the code reads. -/
def cmap_new (m : CmapState) : CmapState :=
  { m with head := 0, size := 0, it_least := 0, it_most := 0 }

/-- Modelled from the spec: the statements `DDDD` and `EEEE` of the loop `for (node_t *cur =
obj->head;;)` of `cmap_insert` are absent from the source; in the descent of a search tree (the
comment says the loop traverses the tree until a side is `NULL`) they are `cur = cur->left` and
`cur = cur->right`. The rest is the loop of the source: one unit of `steps` per iteration,
`fuel` for the call of `cmap_fix_colors`; a failed `assert` counts as a fault. -/
def cmap_insert_loop (value : Nat → Int) (fuel : Nat) :
    Nat → CmapState → Nat → Nat → Result CmapState
  | 0, _, _, _ => Result.timeout
  | steps + 1, m, node, cur =>
    if node = 0 ∨ cur = 0 then Result.fault
    else
      let res := cmap_cmp_int (int_of_long (value node)) (int_of_long (value cur))
      if res = 0 then Result.fault
      else if res < 0 then do
        let l ← m.rd_left cur
        if l = 0 then do
          let m1 ← m.wr_left cur node
          let m2 ← rb_set_parent m1 node cur
          cmap_fix_colors fuel m2 node
        else do
          let l ← m.rd_left cur
          cmap_insert_loop value fuel steps m node l
      else do
        let r ← m.rd_right cur
        if r = 0 then do
          let m1 ← m.wr_right cur node
          let m2 ← rb_set_parent m1 node cur
          cmap_fix_colors fuel m2 node
        else do
          let r ← m.rd_right cur
          cmap_insert_loop value fuel steps m node r

/-- Function `cmap_insert`; the parameter `value` of the source is unused, `value` here is the
map of the field `value` of the nodes, which the comparator reads. -/
def cmap_insert (value : Nat → Int) (fuel : Nat) (m : CmapState) (node : Nat) :
    Result CmapState := do
  let m1 ← cmap_create_node m node
  let m2 : CmapState := { m1 with size := (m1.size + 1) % 2 ^ 64 }
  if m2.head = 0 then do
    let m3 := m2.setHead node
    let m4 ← rb_set_black m3 m3.head
    cmap_calibrate fuel m4
  else do
    let m3 ← cmap_insert_loop value fuel fuel m2 node m2.head
    cmap_calibrate fuel m3

/-- Loop `while (n->left) n = n->left;`. -/
def cmap_descend_left : Nat → CmapState → Nat → Result Nat
  | 0, _, _ => Result.timeout
  | fuel + 1, m, n => do
    let l ← m.rd_left n
    if l ≠ 0 then cmap_descend_left fuel m l else pure n

/-- Function `cmap_first`. -/
def cmap_first (fuel : Nat) (m : CmapState) : Result Nat :=
  if m.head = 0 then pure 0 else cmap_descend_left fuel m m.head

/-- Loop `while ((parent = rb_parent(node)) && node == parent->right) node = parent;` of
`cmap_next`, giving the final `parent`. -/
def cmap_climb : Nat → CmapState → Nat → Result Nat
  | 0, _, _ => Result.timeout
  | fuel + 1, m, node => do
    let parent ← rb_parent m node
    if parent ≠ 0 then do
      let r ← m.rd_right parent
      if node = r then cmap_climb fuel m parent else pure parent
    else pure parent

/-- Function `cmap_next`. -/
def cmap_next (fuel : Nat) (m : CmapState) (node : Nat) : Result Nat :=
  if node = 0 then pure 0
  else do
    let r ← m.rd_right node
    if r ≠ 0 then cmap_descend_left fuel m r
    else cmap_climb fuel m node

/-- State of `tree_sort`: the tree fields and the map object, the fields `next` and `value` of
the nodes, and the variable of the caller that holds the list (`*record`). -/
structure SortState where
  m : CmapState
  next : Nat → Nat
  value : Nat → Int
  list_head : Nat

/-- A value of type `node_t **` in `tree_sort`: the address of the caller's variable or of the
field `next` of a node. -/
inductive ListRef where
  | head : ListRef
  | next : Nat → ListRef

/-- Read `*list`. -/
def rd_ref (s : SortState) : ListRef → Result Nat
  | ListRef.head => Result.ok s.list_head
  | ListRef.next n => if n = 0 then Result.fault else Result.ok (s.next n)

/-- Assignment `*list = v`. -/
def wr_ref (s : SortState) : ListRef → Nat → Result SortState
  | ListRef.head, v => Result.ok { s with list_head := v }
  | ListRef.next n, v =>
    if n = 0 then Result.fault
    else Result.ok { s with next := fun x => if x = n then v else s.next x }

/-- Modelled from the spec: the expression `FFFF` of the first loop of `tree_sort`, `while
(*list) { cmap_insert(map, *list, NULL); list = FFFF; }`, is absent from the source; the sorting
utility inserts every node of the list, so the loop advances to `&(*list)->next`. -/
def tree_sort_insert_all (fuel : Nat) :
    Nat → SortState → ListRef → Result (SortState × ListRef)
  | 0, _, _ => Result.timeout
  | steps + 1, s, list => do
    let n ← rd_ref s list
    if n ≠ 0 then do
      let m1 ← cmap_insert s.value fuel s.m n
      let s1 : SortState := { s with m := m1 }
      let n1 ← rd_ref s1 list
      tree_sort_insert_all fuel steps s1 (ListRef.next n1)
    else pure (s, list)

/-- Modelled from the spec: the expression `GGGG` of the second loop of `tree_sort`, `for (;
node; node = cmap_next(node)) { *list = node; list = GGGG; }`, is absent from the source; the
sorting utility chains the nodes in tree order, so the loop advances to `&node->next`. -/
def tree_sort_relink (fuel : Nat) :
    Nat → SortState → ListRef → Nat → Result (SortState × ListRef)
  | 0, _, _, _ => Result.timeout
  | steps + 1, s, list, node =>
    if node ≠ 0 then do
      let s1 ← wr_ref s list node
      let nxt ← cmap_next fuel s1.m node
      tree_sort_relink fuel steps s1 (ListRef.next node) nxt
    else pure (s, list)

/-- Modelled from the spec: the statement `HHHH` of `tree_sort` is absent from the source; it
ends the sorted list, `*list = NULL`. The rest is the function of the source, called with the
address of the caller's variable. -/
def tree_sort (fuel : Nat) (s : SortState) : Result SortState := do
  let s0 : SortState := { s with m := cmap_new s.m }
  let r1 ← tree_sort_insert_all fuel fuel s0 ListRef.head
  let node ← cmap_first fuel r1.1.m
  let first := node
  let r2 ← tree_sort_relink fuel fuel r1.1 r1.2 node
  let s3 ← wr_ref r2.1 r2.2 0
  wr_ref s3 ListRef.head first

/-- The loop of `list_is_ordered`, with the local variables `first` and `value`. -/
def list_is_ordered_loop : Nat → SortState → Nat → Bool → Int → Result Bool
  | 0, _, _, _, _ => Result.timeout
  | steps + 1, s, list, first, value =>
    if list ≠ 0 then
      if first = true then
        list_is_ordered_loop steps s (s.next list) false (int_of_long (s.value list))
      else if s.value list < value then pure false
      else list_is_ordered_loop steps s (s.next list) false (int_of_long (s.value list))
    else pure true

/-- Function `list_is_ordered`; the local `value` starts with an arbitrary content. -/
def list_is_ordered (steps : Nat) (s : SortState) (list : Nat) : Result Bool :=
  list_is_ordered_loop steps s list true 0

/-! ## Abstract view of the tree of treesort.c -/

/-- The tree fields of the nodes as a store of the AVL development: the `color` word in the
place of the packed parent word, `head` in the place of the root link. -/
def tree_of (m : CmapState) : Store :=
  { mem := fun a => { parent_balance := m.color a, left := m.left a, right := m.right a },
    root := m.head }

/-- Every stored state of the tree is a color: `CMAP_RED` or `CMAP_BLACK`. -/
def ATree.Colored : ATree → Prop
  | ATree.nil => True
  | ATree.node l _ b r => b < 2 ∧ ATree.Colored l ∧ ATree.Colored r

/-- Every stored state along and beside the path is a color. -/
def CtxColored : List Frame → Prop
  | [] => True
  | Frame.L _ b r :: fs => b < 2 ∧ r.Colored ∧ CtxColored fs
  | Frame.R l _ b :: fs => b < 2 ∧ l.Colored ∧ CtxColored fs

/-- The state holds a valid red-black-shaped tree `t`: a valid layout with colors as states. -/
def TValid (m : CmapState) (t : ATree) : Prop :=
  Valid (tree_of m) t ∧ t.Colored

/-- The chain of `next` fields from `p` runs through the nodes `L` and ends with `NULL`. -/
def IsList (next : Nat → Nat) : Nat → List Nat → Prop
  | p, [] => p = 0
  | p, x :: xs => p = x ∧ x ≠ 0 ∧ IsList next (next x) xs

end Avl

namespace Avl

/-- Outcome of `cmap_fix_colors` called for the node `a` of the tree `t`: it returns, and the
state holds a valid tree with the in-order sequence of `t`. -/
def FixOk (fuel : Nat) (m : CmapState) (a : Nat) (t : ATree) : Prop :=
  ∃ m1 t1, cmap_fix_colors fuel m a = Result.ok m1 ∧ TValid m1 t1 ∧ t1.inorder = t.inorder

/-- Function `cmap_next` runs from `x` through the nodes `L` in turn and then gives `NULL`. -/
def NextChain (fuel : Nat) (m : CmapState) : Nat → List Nat → Prop
  | x, [] => cmap_next fuel m x = Result.ok 0
  | x, y :: ys => cmap_next fuel m x = Result.ok y ∧ NextChain fuel m y ys

/-- Key of a node of the list in the tree: its field `value` as the comparator reads it. -/
def sort_key (value : Nat → Int) (x : Nat) : Int := int_of_long (value x)

/-- The nodes met from `p` along the `next` fields, at most `steps` of them. -/
def chain_nodes (next : Nat → Nat) : Nat → Nat → List Nat
  | 0, _ => []
  | steps + 1, p => if p = 0 then [] else p :: chain_nodes next steps (next p)

/-- Field `next` of a list of the four nodes at 8, 16, 24 and 32 in this order. -/
def next0 (x : Nat) : Nat :=
  if x = 8 then 16 else if x = 16 then 24 else if x = 24 then 32 else 0

/-- Field `value` of the four nodes: the values 3, 1, 4 and 2. -/
def value0 (x : Nat) : Int :=
  if x = 8 then 3 else if x = 16 then 1 else if x = 24 then 4 else if x = 32 then 2 else 0

/-- Arbitrary content of the tree fields and of the map object before `tree_sort`. -/
def cmapState0 : CmapState :=
  { color := fun x => x + 5, left := fun x => x, right := fun _ => 16, head := 24, size := 7,
    it_least := 8, it_most := 0 }

/-- The list of the four nodes with arbitrary content in the tree fields. -/
def sortState0 : SortState :=
  { m := cmapState0, next := next0, value := value0, list_head := 8 }

end Avl

namespace Avl

/-! ## Stores laid out from a tree, mirror images, the rotation record, `ceil_log2` -/

/-- Writes the records of the nodes of `t` below the node `par`: packed word, left and right
field of every node. -/
def layout_tree : ATree → Nat → Store → Store
  | ATree.nil, _, s => s
  | ATree.node l a b r, par, s =>
    layout_tree r a (layout_tree l a
      (setNode s a { parent_balance := par ||| b, left := l.ptr, right := r.ptr }))

/-- The store that holds the tree `t` and nothing else. -/
def store_of (t : ATree) : Store := setRoot (layout_tree t 0 store0) t.ptr

/-- The balance tag on the other side: `AVL_LEFT` for `AVL_RIGHT` and back. -/
def mirror_bal (b : Nat) : Nat :=
  if b = AVL_LEFT then AVL_RIGHT else if b = AVL_RIGHT then AVL_LEFT else b

/-- Mirror image of a tree: left and right children swapped and the balance tags `AVL_LEFT` and
`AVL_RIGHT` swapped at every node. -/
def ATree.mirror : ATree → ATree
  | ATree.nil => ATree.nil
  | ATree.node l a b r => ATree.node (ATree.mirror r) a (mirror_bal b) (ATree.mirror l)

/-- Mirror image of one step of a path. -/
def Frame.mirror : Frame → Frame
  | Frame.L a b r => Frame.R r.mirror a (mirror_bal b)
  | Frame.R l a b => Frame.L a (mirror_bal b) l.mirror

/-- The store `sm` holds at every node of `t` the mirror image of what `s` holds: children
swapped, same parent, balance tag swapped; the root links agree. -/
def MirrorOn (t : ATree) (s sm : Store) : Prop :=
  sm.root = s.root ∧ ∀ x ∈ t.inorder, (sm.mem x).left = (s.mem x).right ∧
    (sm.mem x).right = (s.mem x).left ∧ parent_of sm x = parent_of s x ∧
    balance_of sm x = mirror_bal (balance_of s x)

/-- The loop of `avl_insert_balance` with a record of the rotation calls it makes: the same
statements as `avl_insert_balance`, and for every call of a rotation function the pair of its
arguments `node` and `parent`. -/
def avl_insert_balance_log : Nat → Store → Nat → Result (Store × List (Nat × Nat))
  | 0, _, _ => Result.timeout
  | fuel + 1, s, node => do
    let parent ← avl_parent s node
    if parent = 0 then pure (s, [])
    else do
      let is_right ← avl_is_right_child s node
      if is_right then do
        let bp ← avl_balance s parent
        if bp = AVL_NEUTRAL then do
          let s1 ← avl_set_balance s parent AVL_RIGHT
          avl_insert_balance_log fuel s1 parent
        else if bp = AVL_LEFT then do
          let s1 ← avl_set_balance s parent AVL_NEUTRAL
          pure (s1, [])
        else do
          let bn ← avl_balance s node
          if bn = AVL_LEFT then do
            let r ← avl_rotate_rightleft s node parent
            pure (r.1, [(node, parent)])
          else do
            let r ← avl_rotate_left s node parent
            pure (r.1, [(node, parent)])
      else do
        let bp ← avl_balance s parent
        if bp = AVL_NEUTRAL then do
          let s1 ← avl_set_balance s parent AVL_LEFT
          avl_insert_balance_log fuel s1 parent
        else if bp = AVL_LEFT then do
          let bn ← avl_balance s node
          if bn = AVL_RIGHT then do
            let r ← avl_rotate_leftright s node parent
            pure (r.1, [(node, parent)])
          else do
            let r ← avl_rotate_right s node parent
            pure (r.1, [(node, parent)])
        else do
          let s1 ← avl_set_balance s parent AVL_NEUTRAL
          pure (s1, [])

/-- Function `avl_insert` with the record of the rotation calls of its walk. -/
def avl_insert_log (fuel : Nat) (s : Store) (node parent : Nat) (avl_link : Link) :
    Result (Store × List (Nat × Nat)) := do
  let s1 ← avl_link_node s node parent avl_link
  avl_insert_balance_log fuel s1 node

/-- The call ended within its fuel: it returned or it stopped at an access through `NULL`. -/
def Result.ended {α : Type} : Result α → Prop
  | Result.timeout => False
  | _ => True

/-- Function `ceil_log2` of problem4.c on a 32-bit argument: every `uint32_t` operation is taken
modulo `2 ^ 32`; the comparisons give 0 or 1. -/
def ceil_log2 (x : Nat) : Nat :=
  let zero : Nat := if x = 0 then 1 else 0
  let x := (x + 2 ^ 32 - 1) % 2 ^ 32
  let r := ((if x > 0xFFFF then 1 else 0) <<< 4) % 2 ^ 32
  let x := x >>> r
  let shift := ((if x > 0xFF then 1 else 0) <<< 3) % 2 ^ 32
  let x := x >>> shift
  let r := r ||| shift
  let shift := ((if x > 0xF then 1 else 0) <<< 2) % 2 ^ 32
  let x := x >>> shift
  let r := r ||| shift
  let shift := ((if x > 0x3 then 1 else 0) <<< 1) % 2 ^ 32
  let x := x >>> shift
  (((r ||| shift ||| (x >>> 1)) + 1) % 2 ^ 32 * (if zero = 0 then 1 else 0)) % 2 ^ 32

/-- The chain 8, 16, 24 of right children after 24 was linked: the node 8 is two levels taller
on its right, its right child 16 leans right. -/
def treeChainR : ATree :=
  ATree.node ATree.nil 8 AVL_RIGHT
    (ATree.node ATree.nil 16 AVL_RIGHT (ATree.node ATree.nil 24 AVL_NEUTRAL ATree.nil))

/-- A node 8 two levels taller on its right whose right child 24 leans left; the grandchild 16
is neutral. -/
def treeRL0 : ATree :=
  ATree.node ATree.nil 8 AVL_RIGHT
    (ATree.node (ATree.node ATree.nil 16 AVL_NEUTRAL ATree.nil) 24 AVL_LEFT ATree.nil)

/-- A node 8 two levels taller on its right whose right child 24 leans left; the grandchild 16
leans left. -/
def treeRL1 : ATree :=
  ATree.node (ATree.node ATree.nil 4 AVL_NEUTRAL ATree.nil) 8 AVL_RIGHT
    (ATree.node (ATree.node (ATree.node ATree.nil 12 AVL_NEUTRAL ATree.nil) 16 AVL_LEFT ATree.nil)
      24 AVL_LEFT (ATree.node ATree.nil 32 AVL_NEUTRAL ATree.nil))

/-- A node 8 two levels taller on its right whose right child 24 leans left; the grandchild 16
leans right. -/
def treeRL2 : ATree :=
  ATree.node (ATree.node ATree.nil 4 AVL_NEUTRAL ATree.nil) 8 AVL_RIGHT
    (ATree.node (ATree.node ATree.nil 16 AVL_RIGHT (ATree.node ATree.nil 20 AVL_NEUTRAL ATree.nil))
      24 AVL_LEFT (ATree.node ATree.nil 32 AVL_NEUTRAL ATree.nil))

/-- The node 16 with the two children 8 and 24, which are leaves. -/
def treeThree : ATree :=
  ATree.node (ATree.node ATree.nil 8 AVL_NEUTRAL ATree.nil) 16 AVL_NEUTRAL
    (ATree.node ATree.nil 24 AVL_NEUTRAL ATree.nil)

/-- The node 16, which leaned left over its child 8, after the leaf 24 was linked as its right
child and before the walk of `avl_insert_balance`. -/
def treeLinked : ATree :=
  ATree.node (ATree.node ATree.nil 8 AVL_NEUTRAL ATree.nil) 16 AVL_LEFT
    (ATree.node ATree.nil 24 AVL_NEUTRAL ATree.nil)

/-- The call of one of the four rotation functions with `node` and `parent` in the store `s0`
returned the store `s1` and the new top `top`. -/
def RotationCall (s0 : Store) (node parent : Nat) (s1 : Store) (top : Nat) : Prop :=
  avl_rotate_left s0 node parent = Result.ok (s1, top) ∨
    avl_rotate_right s0 node parent = Result.ok (s1, top) ∨
    avl_rotate_rightleft s0 node parent = Result.ok (s1, top) ∨
    avl_rotate_leftright s0 node parent = Result.ok (s1, top)

/-- The node 8 with the leaf 16 as right child. -/
def treePair : ATree :=
  ATree.node ATree.nil 8 AVL_RIGHT (ATree.node ATree.nil 16 AVL_NEUTRAL ATree.nil)

end Avl

namespace Avl

/-! ## The rotation arms of `avl_insert_balance`, the unbalanced queue, runs of queue
operations -/

/-- The four rotation functions. -/
inductive Rotation where
  | left : Rotation
  | right : Rotation
  | rightleft : Rotation
  | leftright : Rotation

deriving instance DecidableEq for Rotation

/-- The loop of `avl_insert_balance` with a record of the arms of its inner `switch`: the same
statements as `avl_insert_balance`, and for every rotation call the function called, its
arguments `node` and `parent`, and the value of `avl_balance(node)` on which the inner `switch`
chose it. -/
def avl_insert_balance_arms : Nat → Store → Nat →
    Result (Store × List (Rotation × Nat × Nat × Nat))
  | 0, _, _ => Result.timeout
  | fuel + 1, s, node => do
    let parent ← avl_parent s node
    if parent = 0 then pure (s, [])
    else do
      let is_right ← avl_is_right_child s node
      if is_right then do
        let bp ← avl_balance s parent
        if bp = AVL_NEUTRAL then do
          let s1 ← avl_set_balance s parent AVL_RIGHT
          avl_insert_balance_arms fuel s1 parent
        else if bp = AVL_LEFT then do
          let s1 ← avl_set_balance s parent AVL_NEUTRAL
          pure (s1, [])
        else do
          let bn ← avl_balance s node
          if bn = AVL_LEFT then do
            let r ← avl_rotate_rightleft s node parent
            pure (r.1, [(Rotation.rightleft, node, parent, bn)])
          else do
            let r ← avl_rotate_left s node parent
            pure (r.1, [(Rotation.left, node, parent, bn)])
      else do
        let bp ← avl_balance s parent
        if bp = AVL_NEUTRAL then do
          let s1 ← avl_set_balance s parent AVL_LEFT
          avl_insert_balance_arms fuel s1 parent
        else if bp = AVL_LEFT then do
          let bn ← avl_balance s node
          if bn = AVL_RIGHT then do
            let r ← avl_rotate_leftright s node parent
            pure (r.1, [(Rotation.leftright, node, parent, bn)])
          else do
            let r ← avl_rotate_right s node parent
            pure (r.1, [(Rotation.right, node, parent, bn)])
        else do
          let s1 ← avl_set_balance s parent AVL_NEUTRAL
          pure (s1, [])

/-- Function `avl_insert` with the record of the arms of its walk. -/
def avl_insert_arms (fuel : Nat) (s : Store) (node parent : Nat) (avl_link : Link) :
    Result (Store × List (Rotation × Nat × Nat × Nat)) := do
  let s1 ← avl_link_node s node parent avl_link
  avl_insert_balance_arms fuel s1 node

/-- Function `avl_prio_queue_insert_unbalanced`: the descent loop of the balanced function and
`avl_link_node` in place of `avl_insert`. -/
def avl_prio_queue_insert_unbalanced (cmpint : Int → Int → Int) (i : Nat → Int) (fuel : Nat)
    (queue : avl_prio_queue) (new_entry : Nat) : Result avl_prio_queue := do
  let r ← avl_prio_queue_descend cmpint i fuel queue.root new_entry 0 Link.root true
  let min_node := if r.2.2 = true then new_entry else queue.min_node
  let s1 ← avl_link_node queue.root new_entry r.1 r.2.1
  pure { root := s1, min_node := min_node }

/-- Function `avl_prio_queue_pop_unbalanced`: the new queue and the returned item (the address
of its node, `0` for `NULL`); what `avl_erase_node` returns is not used. -/
def avl_prio_queue_pop_unbalanced (fuel : Nat) (queue : avl_prio_queue) :
    Result (avl_prio_queue × Nat) :=
  if queue.min_node = 0 then pure (queue, 0)
  else do
    let item := queue.min_node
    let m ← avl_next fuel queue.root queue.min_node
    let r ← avl_erase_node fuel queue.root item
    pure ({ root := r.1, min_node := m }, item)

/-- One call on a queue: an insertion of the entry with the given node, or a pop. -/
inductive QOp where
  | insert : Nat → QOp
  | pop : QOp

/-- The calls of a list on a queue with the balanced functions; the result holds what the pops
returned, in order. -/
def queue_run_balanced (cmpint : Int → Int → Int) (i : Nat → Int) (fuel : Nat) :
    avl_prio_queue → List QOp → Result (avl_prio_queue × List Nat)
  | q, [] => pure (q, [])
  | q, QOp.insert e :: ops => do
    let q1 ← avl_prio_queue_insert_balanced cmpint i fuel q e
    queue_run_balanced cmpint i fuel q1 ops
  | q, QOp.pop :: ops => do
    let r ← avl_prio_queue_pop_balanced fuel q
    let rest ← queue_run_balanced cmpint i fuel r.1 ops
    pure (rest.1, r.2 :: rest.2)

/-- The calls of a list on a queue with the unbalanced functions; the result holds what the
pops returned, in order. -/
def queue_run_unbalanced (cmpint : Int → Int → Int) (i : Nat → Int) (fuel : Nat) :
    avl_prio_queue → List QOp → Result (avl_prio_queue × List Nat)
  | q, [] => pure (q, [])
  | q, QOp.insert e :: ops => do
    let q1 ← avl_prio_queue_insert_unbalanced cmpint i fuel q e
    queue_run_unbalanced cmpint i fuel q1 ops
  | q, QOp.pop :: ops => do
    let r ← avl_prio_queue_pop_unbalanced fuel q
    let rest ← queue_run_unbalanced cmpint i fuel r.1 ops
    pure (rest.1, r.2 :: rest.2)

/-- Invariant of the unbalanced queue: the store holds a valid tree `t` whose in-order sequence
has non-decreasing keys, and `min_node` is its first node (`NULL` when there is none). -/
def UInv (i : Nat → Int) (q : avl_prio_queue) (t : ATree) : Prop :=
  Valid q.root t ∧ (t.inorder.map i).Pairwise (fun a b => a ≤ b) ∧
    q.min_node = t.inorder.head?.getD 0

/-- Content of a queue as a sequence, after an insertion: the new entry stands after the
entries with a smaller key and before the entries with a key at least its own. -/
def queue_model_insert (i : Nat → Int) (e : Nat) (L : List Nat) : List Nat :=
  L.filter (fun x => decide (i x < i e)) ++ e :: L.filter (fun x => decide (i e ≤ i x))

/-- Content of a queue as a sequence, after the calls of a list. -/
def queue_model_run (i : Nat → Int) : List Nat → List QOp → List Nat
  | L, [] => L
  | L, QOp.insert e :: ops => queue_model_run i (queue_model_insert i e L) ops
  | L, QOp.pop :: ops => queue_model_run i L.tail ops

/-- The calls of a list are allowed on a queue with the content `L`: every entry inserted is a
non-null aligned node that is not in the queue at that time. -/
def OpsOk (i : Nat → Int) : List Nat → List QOp → Prop
  | _, [] => True
  | L, QOp.insert e :: ops =>
    e ≠ 0 ∧ e % 4 = 0 ∧ e ∉ L ∧ OpsOk i (queue_model_insert i e L) ops
  | L, QOp.pop :: ops => OpsOk i L.tail ops

/-- Field `value` of two nodes: the values 0 and `2 ^ 32`, which differ. -/
def valueBig (x : Nat) : Int := if x = 16 then 2 ^ 32 else 0

/-- Field `next` of the list of the two nodes at 8 and 16. -/
def nextTwo (x : Nat) : Nat := if x = 8 then 16 else 0

/-- The list of the two nodes at 8 and 16 with the values 0 and `2 ^ 32`. -/
def sortStateBig : SortState :=
  { m := cmapState0, next := nextTwo, value := valueBig, list_head := 8 }

/-- The call stopped at a dereference of `NULL` or at a failed `assert`. -/
def Result.isFault {α : Type} : Result α → Bool
  | Result.fault => true
  | _ => false

/-- Height of the subtree below the pointer `p` as the child links of the store give it, read
down to the depth `fuel`. -/
def subtree_height : Nat → Store → Nat → Nat
  | 0, _, _ => 0
  | fuel + 1, s, p =>
    if p = 0 then 0
    else max (subtree_height fuel s (s.mem p).left) (subtree_height fuel s (s.mem p).right) + 1

/-- A list of calls: two insertions, a pop, two insertions, and four pops, the last of them on
the empty queue. -/
def opsExample : List QOp :=
  [QOp.insert 40, QOp.insert 8, QOp.pop, QOp.insert 24, QOp.insert 16, QOp.pop, QOp.pop,
    QOp.pop, QOp.pop]

end Avl

namespace Avl

/-! ## Reading a field after a write -/

theorem word_or (p b : Nat) (hp : p % 4 = 0) (hb : b < 4) :
    (p ||| b) / 4 * 4 = p ∧ (p ||| b) % 4 = b := by
  obtain ⟨k, rfl⟩ : ∃ k, p = 4 * k := ⟨p / 4, by omega⟩
  have h := Nat.mul_add_lt_is_or (i := 2) (b := b) (by simpa using hb) k
  simp only [Nat.reducePow] at h
  rw [← h]
  omega

@[simp] theorem mem_setNode (s : Store) (p : Nat) (n : avl_node) (x : Nat) :
    (setNode s p n).mem x = if x = p then n else s.mem x := rfl

@[simp] theorem root_setNode (s : Store) (p : Nat) (n : avl_node) :
    (setNode s p n).root = s.root := rfl

@[simp] theorem root_setWord (s : Store) (p v : Nat) : (setWord s p v).root = s.root := rfl
@[simp] theorem root_setLeft (s : Store) (p v : Nat) : (setLeft s p v).root = s.root := rfl
@[simp] theorem root_setRight (s : Store) (p v : Nat) : (setRight s p v).root = s.root := rfl
@[simp] theorem root_setRoot (s : Store) (v : Nat) : (setRoot s v).root = v := rfl
@[simp] theorem mem_setRoot (s : Store) (v : Nat) : (setRoot s v).mem = s.mem := rfl

@[simp] theorem left_setWord (s : Store) (p v x : Nat) :
    ((setWord s p v).mem x).left = (s.mem x).left := by
  by_cases h : x = p <;> simp [setWord, h]

@[simp] theorem right_setWord (s : Store) (p v x : Nat) :
    ((setWord s p v).mem x).right = (s.mem x).right := by
  by_cases h : x = p <;> simp [setWord, h]

theorem word_setWord (s : Store) (p v x : Nat) :
    ((setWord s p v).mem x).parent_balance = if x = p then v else (s.mem x).parent_balance := by
  by_cases h : x = p <;> simp [setWord, h]

@[simp] theorem left_setLeft (s : Store) (p v x : Nat) :
    ((setLeft s p v).mem x).left = if x = p then v else (s.mem x).left := by
  by_cases h : x = p <;> simp [setLeft, h]

@[simp] theorem right_setLeft (s : Store) (p v x : Nat) :
    ((setLeft s p v).mem x).right = (s.mem x).right := by
  by_cases h : x = p <;> simp [setLeft, h]

@[simp] theorem word_setLeft (s : Store) (p v x : Nat) :
    ((setLeft s p v).mem x).parent_balance = (s.mem x).parent_balance := by
  by_cases h : x = p <;> simp [setLeft, h]

@[simp] theorem left_setRight (s : Store) (p v x : Nat) :
    ((setRight s p v).mem x).left = (s.mem x).left := by
  by_cases h : x = p <;> simp [setRight, h]

@[simp] theorem right_setRight (s : Store) (p v x : Nat) :
    ((setRight s p v).mem x).right = if x = p then v else (s.mem x).right := by
  by_cases h : x = p <;> simp [setRight, h]

@[simp] theorem word_setRight (s : Store) (p v x : Nat) :
    ((setRight s p v).mem x).parent_balance = (s.mem x).parent_balance := by
  by_cases h : x = p <;> simp [setRight, h]

@[simp] theorem parent_setLeft (s : Store) (p v x : Nat) :
    parent_of (setLeft s p v) x = parent_of s x := by simp [parent_of]

@[simp] theorem parent_setRight (s : Store) (p v x : Nat) :
    parent_of (setRight s p v) x = parent_of s x := by simp [parent_of]

@[simp] theorem parent_setRoot (s : Store) (v x : Nat) :
    parent_of (setRoot s v) x = parent_of s x := rfl

@[simp] theorem balance_setLeft (s : Store) (p v x : Nat) :
    balance_of (setLeft s p v) x = balance_of s x := by simp [balance_of]

@[simp] theorem balance_setRight (s : Store) (p v x : Nat) :
    balance_of (setRight s p v) x = balance_of s x := by simp [balance_of]

@[simp] theorem balance_setRoot (s : Store) (v x : Nat) :
    balance_of (setRoot s v) x = balance_of s x := rfl

theorem avl_balance_lt (s : Store) (x : Nat) : balance_of s x < 4 := by
  unfold balance_of; omega

theorem avl_parent_aligned (s : Store) (x : Nat) : parent_of s x % 4 = 0 := by
  unfold parent_of; omega

@[simp] theorem root_set_parent_balance (s : Store) (n p b : Nat) :
    (set_parent_balance_eff s n p b).root = s.root := rfl
@[simp] theorem left_set_parent_balance (s : Store) (n p b x : Nat) :
    ((set_parent_balance_eff s n p b).mem x).left = (s.mem x).left := by
  simp [set_parent_balance_eff]
@[simp] theorem right_set_parent_balance (s : Store) (n p b x : Nat) :
    ((set_parent_balance_eff s n p b).mem x).right = (s.mem x).right := by
  simp [set_parent_balance_eff]

theorem parent_setWord (s : Store) (n v x : Nat) :
    parent_of (setWord s n v) x = if x = n then v / 4 * 4 else parent_of s x := by
  by_cases h : x = n <;> simp [parent_of, word_setWord, h]

theorem balance_setWord (s : Store) (n v x : Nat) :
    balance_of (setWord s n v) x = if x = n then v % 4 else balance_of s x := by
  by_cases h : x = n <;> simp [balance_of, word_setWord, h]

theorem parent_set_parent_balance (s : Store) (n p b x : Nat) (hp : p % 4 = 0) (hb : b < 4) :
    parent_of (set_parent_balance_eff s n p b) x = if x = n then p else parent_of s x := by
  rw [set_parent_balance_eff, parent_setWord, (word_or p b hp hb).1]

theorem balance_set_parent_balance (s : Store) (n p b x : Nat) (hp : p % 4 = 0) (hb : b < 4) :
    balance_of (set_parent_balance_eff s n p b) x = if x = n then b else balance_of s x := by
  rw [set_parent_balance_eff, balance_setWord, (word_or p b hp hb).2]

@[simp] theorem root_set_parent (s : Store) (n p : Nat) : (set_parent_eff s n p).root = s.root := rfl
@[simp] theorem left_set_parent (s : Store) (n p x : Nat) :
    ((set_parent_eff s n p).mem x).left = (s.mem x).left := by simp [set_parent_eff]
@[simp] theorem right_set_parent (s : Store) (n p x : Nat) :
    ((set_parent_eff s n p).mem x).right = (s.mem x).right := by simp [set_parent_eff]

theorem parent_set_parent (s : Store) (n p x : Nat) (hp : p % 4 = 0) :
    parent_of (set_parent_eff s n p) x = if x = n then p else parent_of s x := by
  rw [set_parent_eff, parent_setWord, (word_or p _ hp (avl_balance_lt s n)).1]

theorem balance_set_parent (s : Store) (n p x : Nat) (hp : p % 4 = 0) :
    balance_of (set_parent_eff s n p) x = balance_of s x := by
  rw [set_parent_eff, balance_setWord, (word_or p _ hp (avl_balance_lt s n)).2]
  split
  · next h => rw [h]
  · rfl

@[simp] theorem root_set_balance (s : Store) (n b : Nat) : (set_balance_eff s n b).root = s.root := rfl
@[simp] theorem left_set_balance (s : Store) (n b x : Nat) :
    ((set_balance_eff s n b).mem x).left = (s.mem x).left := by simp [set_balance_eff]
@[simp] theorem right_set_balance (s : Store) (n b x : Nat) :
    ((set_balance_eff s n b).mem x).right = (s.mem x).right := by simp [set_balance_eff]

theorem parent_set_balance (s : Store) (n b x : Nat) (hb : b < 4) :
    parent_of (set_balance_eff s n b) x = parent_of s x := by
  rw [set_balance_eff, parent_setWord, (word_or _ b (avl_parent_aligned s n) hb).1]
  split
  · next h => rw [h]
  · rfl

theorem balance_set_balance (s : Store) (n b x : Nat) (hb : b < 4) :
    balance_of (set_balance_eff s n b) x = if x = n then b else balance_of s x := by
  rw [set_balance_eff, balance_setWord, (word_or _ b (avl_parent_aligned s n) hb).2]

/-! ## Stores that agree outside a set of addresses -/

theorem Agree.refl (ws : List Nat) (s : Store) : Agree ws s s := fun _ _ => rfl

theorem Agree.trans {ws : List Nat} {s s1 s2 : Store} (h1 : Agree ws s s1) (h2 : Agree ws s1 s2) :
    Agree ws s s2 := fun x hx => (h2 x hx).trans (h1 x hx)

theorem Agree.mono {ws ws1 : List Nat} {s s1 : Store} (h : Agree ws s s1)
    (hsub : ∀ x ∈ ws, x ∈ ws1) : Agree ws1 s s1 := fun x hx => h x (fun hm => hx (hsub x hm))

theorem agree_setNode (s : Store) (p : Nat) (n : avl_node) (ws : List Nat) (hp : p ∈ ws) :
    Agree ws s (setNode s p n) := by
  intro x hx
  have : x ≠ p := fun e => hx (e ▸ hp)
  simp [this]

theorem agree_setRoot (s : Store) (v : Nat) (ws : List Nat) : Agree ws s (setRoot s v) :=
  fun _ _ => rfl

theorem agree_setLeft (s : Store) (p v : Nat) (ws : List Nat) (hp : p ∈ ws) :
    Agree ws s (setLeft s p v) := agree_setNode s p _ ws hp

theorem agree_setRight (s : Store) (p v : Nat) (ws : List Nat) (hp : p ∈ ws) :
    Agree ws s (setRight s p v) := agree_setNode s p _ ws hp

theorem agree_setWord (s : Store) (p v : Nat) (ws : List Nat) (hp : p ∈ ws) :
    Agree ws s (setWord s p v) := agree_setNode s p _ ws hp

theorem agree_change_child (s : Store) (o n p : Nat) (ws : List Nat) (hp : p ≠ 0 → p ∈ ws) :
    Agree ws s (change_child_eff s o n p) := by
  unfold change_child_eff
  by_cases h : p = 0
  · simp [h]; exact agree_setRoot s n ws
  · simp only [ne_eq, h, not_false_eq_true, if_true]
    split
    · exact agree_setLeft s p n ws (hp h)
    · exact agree_setRight s p n ws (hp h)

theorem Agree.parent {ws : List Nat} {s s1 : Store} (h : Agree ws s s1) {x : Nat} (hx : x ∉ ws) :
    parent_of s1 x = parent_of s x := by simp [parent_of, h x hx]

theorem Agree.balance {ws : List Nat} {s s1 : Store} (h : Agree ws s s1) {x : Nat} (hx : x ∉ ws) :
    balance_of s1 x = balance_of s x := by simp [balance_of, h x hx]

/-! ## Layout lemmas -/

theorem Rep.agree {ws : List Nat} {s s1 : Store} (h : Agree ws s s1) :
    ∀ (t : ATree) (par : Nat), (∀ x ∈ t.inorder, x ∉ ws) → Rep s t par → Rep s1 t par
  | ATree.nil, _, _, _ => trivial
  | ATree.node l a b r, par, hd, hr => by
    have ha : a ∉ ws := hd a (by simp [ATree.inorder])
    obtain ⟨h1, h2, h3, h4, h5, h6, h7, h8⟩ := hr
    refine ⟨h1, h2, ?_, ?_, ?_, ?_, ?_, ?_⟩
    · rw [h.parent ha]; exact h3
    · rw [h.balance ha]; exact h4
    · rw [h a ha]; exact h5
    · rw [h a ha]; exact h6
    · exact Rep.agree h l a (fun x hx => hd x (by simp [ATree.inorder, hx])) h7
    · exact Rep.agree h r a (fun x hx => hd x (by simp [ATree.inorder, hx])) h8

theorem Rep.zero_not_mem_sub {s : Store} : ∀ (t : ATree) (par : Nat), Rep s t par → 0 ∉ t.inorder
  | ATree.nil, _, _ => by simp [ATree.inorder]
  | ATree.node l a b r, par, hr => by
    obtain ⟨h1, _, _, _, _, _, h7, h8⟩ := hr
    simp only [ATree.inorder, List.mem_append, List.mem_cons, not_or]
    exact ⟨Rep.zero_not_mem_sub l a h7, fun e => h1 e.symm, Rep.zero_not_mem_sub r a h8⟩

theorem Rep.aligned {s : Store} : ∀ (t : ATree) (par : Nat), Rep s t par → ∀ x ∈ t.inorder, x % 4 = 0
  | ATree.nil, _, _ => by simp [ATree.inorder]
  | ATree.node l a b r, par, hr => by
    obtain ⟨_, h2, _, _, _, _, h7, h8⟩ := hr
    intro x hx
    simp only [ATree.inorder, List.mem_append, List.mem_cons] at hx
    rcases hx with hx | hx | hx
    · exact Rep.aligned l a h7 x hx
    · exact hx ▸ h2
    · exact Rep.aligned r a h8 x hx

theorem ATree.ptr_mem : ∀ (t : ATree), t.ptr ≠ 0 → t.ptr ∈ t.inorder
  | ATree.nil, h => absurd rfl h
  | ATree.node l a b r, _ => by simp [ATree.inorder, ATree.ptr]

theorem ATree.ptr_eq_zero_iff {s : Store} {par : Nat} :
    ∀ (t : ATree), Rep s t par → (t.ptr = 0 ↔ t = ATree.nil)
  | ATree.nil, _ => by simp [ATree.ptr]
  | ATree.node l a b r, hr => by simp [ATree.ptr, hr.1]

theorem Rep.ptr_aligned {s : Store} {par : Nat} : ∀ (t : ATree), Rep s t par → t.ptr % 4 = 0
  | ATree.nil, _ => rfl
  | ATree.node _ _ _ _, hr => hr.2.1

/-- Re-parenting the top of a laid-out tree. -/
theorem Rep.set_parent {s : Store} {t : ATree} {par : Nat} (hr : Rep s t par)
    (hnd : t.inorder.Nodup) (q : Nat) (hq : q % 4 = 0) (hp : t.ptr ≠ 0) :
    Rep (set_parent_eff s t.ptr q) t q := by
  cases t with
  | nil => exact absurd rfl hp
  | node l a b r =>
    obtain ⟨h1, h2, h3, h4, h5, h6, h7, h8⟩ := hr
    simp only [ATree.inorder] at hnd
    simp only [ATree.ptr]
    have hnd2 := List.nodup_append.1 hnd
    have hal : a ∉ l.inorder := fun hm => hnd2.2.2 hm (List.mem_cons_self a _) 
    have har : a ∉ r.inorder := (List.nodup_cons.1 hnd2.2.1).1
    have hag : Agree [a] s (set_parent_eff s a q) := agree_setWord s a _ [a] (by simp)
    refine ⟨h1, h2, ?_, ?_, ?_, ?_, ?_, ?_⟩
    · simp [parent_set_parent, hq]
    · simp [balance_set_parent, hq, h4]
    · simpa using h5
    · simpa using h6
    · exact Rep.agree hag l a (fun x hx => by
        simp only [List.mem_singleton]; rintro rfl; exact hal hx) h7
    · exact Rep.agree hag r a (fun x hx => by
        simp only [List.mem_singleton]; rintro rfl; exact har hx) h8

theorem RepCtx.agree_ctx {ws : List Nat} {s s1 : Store} (h : Agree ws s s1) (rp rpar : Nat) :
    ∀ (fs : List Frame) (p : Nat), (∀ x ∈ ctxAddrs fs, x ∉ ws) → RepCtx s fs rp rpar p →
      RepCtx s1 fs rp rpar p
  | [], _, _, hr => hr
  | Frame.L a b r :: fs, p, hd, hr => by
    have ha : a ∉ ws := hd a (by simp [ctxAddrs])
    obtain ⟨h1, h2, h3, h4, h5, h6, h7, h8⟩ := hr
    refine ⟨h1, h2, ?_, ?_, ?_, ?_, ?_, ?_⟩
    · rw [h.parent ha]; exact h3
    · rw [h.balance ha]; exact h4
    · rw [h a ha]; exact h5
    · rw [h a ha]; exact h6
    · exact Rep.agree h r a (fun x hx => hd x (by simp [ctxAddrs, hx])) h7
    · exact RepCtx.agree_ctx h rp rpar fs a (fun x hx => hd x (by simp [ctxAddrs, hx])) h8
  | Frame.R l a b :: fs, p, hd, hr => by
    have ha : a ∉ ws := hd a (by simp [ctxAddrs])
    obtain ⟨h1, h2, h3, h4, h5, h6, h7, h8⟩ := hr
    refine ⟨h1, h2, ?_, ?_, ?_, ?_, ?_, ?_⟩
    · rw [h.parent ha]; exact h3
    · rw [h.balance ha]; exact h4
    · rw [h a ha]; exact h5
    · rw [h a ha]; exact h6
    · exact Rep.agree h l a (fun x hx => hd x (by simp [ctxAddrs, hx])) h7
    · exact RepCtx.agree_ctx h rp rpar fs a (fun x hx => hd x (by simp [ctxAddrs, hx])) h8

/-! ## Paths -/

theorem inorder_plug : ∀ (fs : List Frame) (t : ATree),
    (plug fs t).inorder = ctxBefore fs ++ t.inorder ++ ctxAfter fs
  | [], t => by simp [plug, ctxBefore, ctxAfter]
  | Frame.L a b r :: fs, t => by
    simp [plug, ctxBefore, ctxAfter, inorder_plug fs, ATree.inorder]
  | Frame.R l a b :: fs, t => by
    simp [plug, ctxBefore, ctxAfter, inorder_plug fs, ATree.inorder]

theorem ctxAddrs_perm : ∀ (fs : List Frame), (ctxAddrs fs).Perm (ctxBefore fs ++ ctxAfter fs)
  | [] => by simp [ctxAddrs, ctxBefore, ctxAfter]
  | Frame.L a b r :: fs => by
    have ih := ctxAddrs_perm fs
    rw [List.perm_iff_count] at ih ⊢
    intro x
    have := ih x
    simp only [ctxAddrs, ctxBefore, ctxAfter, List.count_append, List.count_cons] at this ⊢
    omega
  | Frame.R l a b :: fs => by
    have ih := ctxAddrs_perm fs
    rw [List.perm_iff_count] at ih ⊢
    intro x
    have := ih x
    simp only [ctxAddrs, ctxBefore, ctxAfter, List.count_append, List.count_cons,
      List.count_nil] at this ⊢
    omega

theorem plug_perm (fs : List Frame) (t : ATree) :
    (plug fs t).inorder.Perm (t.inorder ++ ctxAddrs fs) := by
  rw [inorder_plug]
  have h := ctxAddrs_perm fs
  rw [List.perm_iff_count] at h ⊢
  intro x
  have := h x
  simp only [List.count_append] at this ⊢
  omega

theorem rep_plug {s : Store} (rp rpar : Nat) : ∀ (fs : List Frame) (t : ATree),
    (Rep s (plug fs t) rpar ∧ (plug fs t).ptr = rp) ↔
      (Rep s t (ctxPar fs rpar) ∧ RepCtx s fs rp rpar t.ptr)
  | [], t => by simp [plug, ctxPar, RepCtx]
  | Frame.L a b r :: fs, t => by
    rw [plug, rep_plug rp rpar fs (ATree.node t a b r)]
    simp only [Rep, ctxPar, RepCtx, ATree.ptr]
    constructor
    · rintro ⟨⟨h1, h2, h3, h4, h5, h6, h7, h8⟩, h9⟩
      exact ⟨h7, h1, h2, h3, h4, h5, h6, h8, h9⟩
    · rintro ⟨h7, h1, h2, h3, h4, h5, h6, h8, h9⟩
      exact ⟨⟨h1, h2, h3, h4, h5, h6, h7, h8⟩, h9⟩
  | Frame.R l a b :: fs, t => by
    rw [plug, rep_plug rp rpar fs (ATree.node l a b t)]
    simp only [Rep, ctxPar, RepCtx, ATree.ptr]
    constructor
    · rintro ⟨⟨h1, h2, h3, h4, h5, h6, h7, h8⟩, h9⟩
      exact ⟨h8, h1, h2, h3, h4, h5, h6, h7, h9⟩
    · rintro ⟨h8, h1, h2, h3, h4, h5, h6, h7, h9⟩
      exact ⟨⟨h1, h2, h3, h4, h5, h6, h7, h8⟩, h9⟩

theorem valid_plug {s : Store} (fs : List Frame) (t : ATree) :
    Valid s (plug fs t) ↔
      (Rep s t (ctxPar fs 0) ∧ RepCtx s fs s.root 0 t.ptr ∧ (t.inorder ++ ctxAddrs fs).Nodup) := by
  unfold Valid
  rw [(plug_perm fs t).nodup_iff]
  have h := rep_plug (s := s) s.root 0 fs t
  constructor
  · rintro ⟨h1, h2, h3⟩
    exact ⟨(h.1 ⟨h2, h1.symm⟩).1, (h.1 ⟨h2, h1.symm⟩).2, h3⟩
  · rintro ⟨h1, h2, h3⟩
    exact ⟨(h.2 ⟨h1, h2⟩).2.symm, (h.2 ⟨h1, h2⟩).1, h3⟩

theorem height_plug_congr : ∀ (fs : List Frame) (t u : ATree), t.height = u.height →
    (plug fs t).height = (plug fs u).height
  | [], _, _, h => h
  | Frame.L a b r :: fs, t, u, h => by
    simp only [plug]; exact height_plug_congr fs _ _ (by simp [ATree.height, h])
  | Frame.R l a b :: fs, t, u, h => by
    simp only [plug]; exact height_plug_congr fs _ _ (by simp [ATree.height, h])

theorem avl_plug : ∀ (fs : List Frame) (t : ATree),
    (plug fs t).AVL ↔ (t.AVL ∧ CtxAVL fs t.height)
  | [], t => by simp [plug, CtxAVL]
  | Frame.L a b r :: fs, t => by
    simp only [plug, avl_plug fs, ATree.AVL, CtxAVL, ATree.height]
    tauto
  | Frame.R l a b :: fs, t => by
    simp only [plug, avl_plug fs, ATree.AVL, CtxAVL, ATree.height]
    tauto

theorem plug_append : ∀ (fs gs : List Frame) (t : ATree),
    plug (fs ++ gs) t = plug gs (plug fs t)
  | [], _, _ => rfl
  | Frame.L a b r :: fs, gs, t => by simp only [List.cons_append, plug]; exact plug_append fs gs _
  | Frame.R l a b :: fs, gs, t => by simp only [List.cons_append, plug]; exact plug_append fs gs _

theorem exists_plug_of_mem : ∀ (t : ATree) (a : Nat), a ∈ t.inorder →
    ∃ fs l b r, t = plug fs (ATree.node l a b r)
  | ATree.nil, a, h => by simp [ATree.inorder] at h
  | ATree.node l x b r, a, h => by
    simp only [ATree.inorder, List.mem_append, List.mem_cons] at h
    rcases h with h | h | h
    · obtain ⟨fs, l1, b1, r1, e⟩ := exists_plug_of_mem l a h
      refine ⟨fs ++ [Frame.L x b r], l1, b1, r1, ?_⟩
      rw [plug_append, ← e]; rfl
    · subst h; exact ⟨[], l, b, r, rfl⟩
    · obtain ⟨fs, l1, b1, r1, e⟩ := exists_plug_of_mem r a h
      refine ⟨fs ++ [Frame.R l x b], l1, b1, r1, ?_⟩
      rw [plug_append, ← e]; rfl

end Avl

namespace Avl

theorem ATree.ptr_ne_of_not_mem {t : ATree} {a : Nat} (ha : a ≠ 0) (hm : a ∉ t.inorder) :
    t.ptr ≠ a := by
  intro e
  exact hm (e ▸ ATree.ptr_mem t (e ▸ ha))

@[simp] theorem ctxPar_nil (x : Nat) : ctxPar [] x = x := rfl
@[simp] theorem ctxPar_L (a b : Nat) (r : ATree) (fs : List Frame) (x : Nat) :
    ctxPar (Frame.L a b r :: fs) x = a := rfl
@[simp] theorem ctxPar_R (l : ATree) (a b : Nat) (fs : List Frame) (x : Nat) :
    ctxPar (Frame.R l a b :: fs) x = a := rfl
@[simp] theorem ctxIsRight_nil : ctxIsRight [] = false := rfl
@[simp] theorem ctxIsRight_L (a b : Nat) (r : ATree) (fs : List Frame) :
    ctxIsRight (Frame.L a b r :: fs) = false := rfl
@[simp] theorem ctxIsRight_R (l : ATree) (a b : Nat) (fs : List Frame) :
    ctxIsRight (Frame.R l a b :: fs) = true := rfl

theorem not_mem_of_forall {A ws : List Nat} (h : ∀ w ∈ ws, w ∉ A) : ∀ x ∈ A, x ∉ ws :=
  fun x hx hw => h x hw hx

theorem ATree.ptr_not_mem {t : ATree} {A : List Nat} (h0 : 0 ∉ A)
    (h : ∀ x ∈ t.inorder, x ∉ A) : t.ptr ∉ A := by
  by_cases hq : t.ptr = 0
  · rw [hq]; exact h0
  · exact h _ (ATree.ptr_mem t hq)

theorem RepCtx.zero_not_mem_ctx {s : Store} {rp rpar : Nat} :
    ∀ (fs : List Frame) (p : Nat), RepCtx s fs rp rpar p → 0 ∉ ctxAddrs fs
  | [], _, _ => by simp [ctxAddrs]
  | Frame.L a b r :: fs, p, hr => by
    obtain ⟨h1, _, _, _, _, _, h7, h8⟩ := hr
    simp only [ctxAddrs, List.mem_append, List.mem_cons, not_or]
    exact ⟨fun e => h1 e.symm, Rep.zero_not_mem_sub r a h7, RepCtx.zero_not_mem_ctx fs a h8⟩
  | Frame.R l a b :: fs, p, hr => by
    obtain ⟨h1, _, _, _, _, _, h7, h8⟩ := hr
    simp only [ctxAddrs, List.mem_append, List.mem_cons, not_or]
    exact ⟨fun e => h1 e.symm, Rep.zero_not_mem_sub l a h7, RepCtx.zero_not_mem_ctx fs a h8⟩

theorem RepCtx.par_aligned {s : Store} {rp : Nat} :
    ∀ (fs : List Frame) (p : Nat), RepCtx s fs rp 0 p → ctxPar fs 0 % 4 = 0
  | [], _, _ => rfl
  | Frame.L _ _ _ :: _, _, hr => hr.2.1
  | Frame.R _ _ _ :: _, _, hr => hr.2.1

theorem ctxPar_mem : ∀ (fs : List Frame), ctxPar fs 0 ≠ 0 → ctxPar fs 0 ∈ ctxAddrs fs
  | [], h => absurd rfl h
  | Frame.L _ _ _ :: _, _ => by simp [ctxPar, ctxAddrs]
  | Frame.R _ _ _ :: _, _ => by simp [ctxPar, ctxAddrs]

theorem Valid.at {s : Store} {fs : List Frame} {l : ATree} {a b : Nat} {r : ATree}
    (h : Valid s (plug fs (ATree.node l a b r))) : At s fs l a b r := by
  obtain ⟨⟨h1, h2, h3, h4, h5, h6, h7, h8⟩, hc, hnd⟩ := (valid_plug fs _).1 h
  simp only [ATree.ptr] at hc
  simp only [ATree.inorder, List.append_assoc, List.cons_append] at hnd
  have hnd1 := List.nodup_append.1 hnd
  have hnd2 := List.nodup_cons.1 hnd1.2.1
  simp only [List.mem_append, not_or] at hnd2
  have hac : a ∉ ctxAddrs fs := hnd2.1.2
  have hnd3 := List.nodup_append.1 hnd2.2
  refine ⟨h1, h2, h3, h4, h5, h6, ?_, h7, h8, hc, hnd, fun hm => hnd1.2.2 hm (by simp),
    hnd2.1.1, hac, fun x hx hm => hnd1.2.2 hx (by simp [hm]),
    fun x hx hm => hnd1.2.2 hx (by simp [hm]), fun x hx hm => hnd3.2.2 hx hm⟩
  unfold is_right_child_of
  simp only [h3]
  cases fs with
  | nil => simp [ctxPar, ctxIsRight]
  | cons f fs =>
    cases f with
    | L g bg sib =>
      obtain ⟨g1, _, _, _, _, g6, _, _⟩ := hc
      simp only [ctxPar, g1, if_false, ctxIsRight, g6]
      have : sib.ptr ≠ a := ATree.ptr_ne_of_not_mem h1 (fun hm => hac (by simp [ctxAddrs, hm]))
      simp [this]
    | R sib g bg =>
      obtain ⟨g1, _, _, _, _, g6, _, _⟩ := hc
      simp [ctxPar, g1, ctxIsRight, g6]

/-- Redirecting the link that holds a position. -/
theorem RepCtx.change_child {s : Store} :
    ∀ (fs : List Frame) (p q : Nat), RepCtx s fs s.root 0 p → p ≠ 0 → p ∉ ctxAddrs fs →
      (ctxAddrs fs).Nodup →
      RepCtx (change_child_eff s p q (ctxPar fs 0)) fs (change_child_eff s p q (ctxPar fs 0)).root 0 q
  | [], p, q, _, _, _, _ => by simp [change_child_eff, ctxPar, RepCtx]
  | Frame.L g bg sib :: fs, p, q, hr, hp, hm, hnd => by
    obtain ⟨h1, h2, h3, h4, h5, h6, h7, h8⟩ := hr
    simp only [ctxAddrs, List.nodup_cons, List.mem_append, not_or] at hnd
    have hag : Agree [g] s (setLeft s g q) := agree_setLeft s g q [g] (by simp)
    have e : change_child_eff s p q (ctxPar (Frame.L g bg sib :: fs) 0) = setLeft s g q := by
      simp [change_child_eff, ctxPar, h1, h5]
    rw [e]
    refine ⟨h1, h2, by simpa using h3, by simpa using h4, by simp, by simpa using h6, ?_, ?_⟩
    · exact Rep.agree hag sib g (fun x hx => by
        simp only [List.mem_singleton]; rintro rfl; exact hnd.1.1 hx) h7
    · exact RepCtx.agree_ctx hag _ _ fs g (fun x hx => by
        simp only [List.mem_singleton]; rintro rfl; exact hnd.1.2 hx) h8
  | Frame.R sib g bg :: fs, p, q, hr, hp, hm, hnd => by
    obtain ⟨h1, h2, h3, h4, h5, h6, h7, h8⟩ := hr
    simp only [ctxAddrs, List.nodup_cons, List.mem_append, not_or] at hnd
    have hag : Agree [g] s (setRight s g q) := agree_setRight s g q [g] (by simp)
    have hne : sib.ptr ≠ p := ATree.ptr_ne_of_not_mem hp (fun hx => hm (by simp [ctxAddrs, hx]))
    have e : change_child_eff s p q (ctxPar (Frame.R sib g bg :: fs) 0) = setRight s g q := by
      simp [change_child_eff, ctxPar, h1, h5, hne]
    rw [e]
    refine ⟨h1, h2, by simpa using h3, by simpa using h4, by simpa using h5, by simp, ?_, ?_⟩
    · exact Rep.agree hag sib g (fun x hx => by
        simp only [List.mem_singleton]; rintro rfl; exact hnd.1.1 hx) h7
    · exact RepCtx.agree_ctx hag _ _ fs g (fun x hx => by
        simp only [List.mem_singleton]; rintro rfl; exact hnd.1.2 hx) h8

/-- Putting a laid-out tree `t` at a position whose link held `p`. -/
theorem valid_change_child {s : Store} {fs : List Frame} {p : Nat} {t : ATree}
    (hc : RepCtx s fs s.root 0 p) (hp : p ≠ 0) (hm : p ∉ ctxAddrs fs)
    (ht : Rep s t (ctxPar fs 0)) (hnd : (t.inorder ++ ctxAddrs fs).Nodup) :
    Valid (change_child_eff s p t.ptr (ctxPar fs 0)) (plug fs t) := by
  have hnd2 := List.nodup_append.1 hnd
  refine (valid_plug fs t).2 ⟨?_, RepCtx.change_child fs p t.ptr hc hp hm hnd2.2.1, hnd⟩
  have hag : Agree [ctxPar fs 0] s (change_child_eff s p t.ptr (ctxPar fs 0)) :=
    agree_change_child s p t.ptr _ _ (by simp)
  refine Rep.agree hag t _ ?_ ht
  intro x hx
  simp only [List.mem_singleton]
  intro e
  have h0 : ctxPar fs 0 ≠ 0 := by
    intro h0
    rw [h0] at e
    exact Rep.zero_not_mem_sub t _ ht (e ▸ hx)
  exact hnd2.2.2 hx (e ▸ ctxPar_mem fs h0)

/-- Function `set_balance_eff` on a node of a valid store. -/
theorem valid_set_balance {s : Store} {fs : List Frame} {l : ATree} {a b : Nat} {r : ATree}
    (h : Valid s (plug fs (ATree.node l a b r))) (c : Nat) (hc : c < 4) :
    Valid (set_balance_eff s a c) (plug fs (ATree.node l a c r)) := by
  have ha := h.at
  have hnd := ha.nd
  have hag : Agree [a] s (set_balance_eff s a c) := agree_setWord s a _ [a] (by simp)
  have hal := ha.nal
  refine (valid_plug fs _).2 ⟨⟨ha.ne, ha.al, ?_, ?_, ?_, ?_, ?_, ?_⟩, ?_, ?_⟩
  · rw [parent_set_balance _ _ _ _ hc]; exact ha.par
  · rw [balance_set_balance _ _ _ _ hc]; simp
  · simpa using ha.left
  · simpa using ha.right
  · exact Rep.agree hag l a (fun x hx => by
      simp only [List.mem_singleton]; rintro rfl; exact hal hx) ha.repl
  · exact Rep.agree hag r a (fun x hx => by
      simp only [List.mem_singleton]; rintro rfl; exact ha.nar hx) ha.repr
  · exact RepCtx.agree_ctx hag _ _ fs a (fun x hx => by
      simp only [List.mem_singleton]; rintro rfl; exact ha.nac hx) ha.ctx
  · simpa [ATree.inorder] using hnd

/-- Function `link_node_eff` at an empty position of a valid store. -/
theorem valid_link_node {s : Store} {fs : List Frame} (h : Valid s (plug fs ATree.nil))
    (n : Nat) (hn : n ≠ 0) (hal : n % 4 = 0) (hfresh : n ∉ (plug fs ATree.nil).inorder) :
    Valid (link_node_eff s n (ctxPar fs 0) (ctxLink fs))
      (plug fs (ATree.node ATree.nil n AVL_NEUTRAL ATree.nil)) := by
  obtain ⟨_, hc, hnd⟩ := (valid_plug fs _).1 h
  simp only [ATree.ptr, ATree.inorder, List.nil_append] at hc hnd
  have hnc : n ∉ ctxAddrs fs := fun hm =>
    hfresh ((plug_perm fs ATree.nil).mem_iff.2 (by simpa [ATree.inorder] using hm))
  have hpa := RepCtx.par_aligned fs 0 hc
  -- the node record
  let s3 := setRight (setLeft (set_parent_balance_eff s n (ctxPar fs 0) AVL_NEUTRAL) n 0) n 0
  have hag : Agree [n] s s3 :=
    ((agree_setWord s n _ [n] (by simp)).trans (agree_setLeft _ n 0 [n] (by simp))).trans
      (agree_setRight _ n 0 [n] (by simp))
  have hc3 : RepCtx s3 fs s3.root 0 0 := RepCtx.agree_ctx hag _ _ fs 0 (fun x hx => by
      simp only [List.mem_singleton]; rintro rfl; exact hnc hx) hc
  have hr3 : Rep s3 (ATree.node ATree.nil n AVL_NEUTRAL ATree.nil) (ctxPar fs 0) := by
    refine ⟨hn, hal, ?_, ?_, ?_, ?_, trivial, trivial⟩
    · simp [s3, parent_set_parent_balance, hpa]
    · simp [s3, balance_set_parent_balance, hpa]
    · simp [s3, ATree.ptr]
    · simp [s3, ATree.ptr]
  have e : link_node_eff s n (ctxPar fs 0) (ctxLink fs) = setLink s3 (ctxLink fs) n := rfl
  rw [e]
  refine (valid_plug fs _).2 ?_
  simp only [ATree.ptr, ATree.inorder, List.nil_append]
  refine ⟨?_, ?_, List.nodup_cons.2 ⟨hnc, hnd⟩⟩
  · cases fs with
    | nil => exact hr3
    | cons f fs =>
      have hg : ctxPar (f :: fs) 0 ≠ n := by
        intro e
        exact hnc (e ▸ ctxPar_mem (f :: fs) (e ▸ hn))
      cases f with
      | L g bg sib =>
        refine Rep.agree (agree_setLeft s3 g n [g] (by simp)) _ _ ?_ hr3
        intro x hx
        simp only [ATree.inorder, List.nil_append, List.mem_singleton] at hx
        simp only [List.mem_singleton]
        rw [hx]
        exact fun e => hg e.symm
      | R sib g bg =>
        refine Rep.agree (agree_setRight s3 g n [g] (by simp)) _ _ ?_ hr3
        intro x hx
        simp only [ATree.inorder, List.nil_append, List.mem_singleton] at hx
        simp only [List.mem_singleton]
        rw [hx]
        exact fun e => hg e.symm
  · cases fs with
    | nil => simp [ctxLink, setLink, RepCtx]
    | cons f fs =>
      cases f with
      | L g bg sib =>
        obtain ⟨h1, h2, h3, h4, h5, h6, h7, h8⟩ := hc3
        simp only [ctxAddrs, List.nodup_cons, List.mem_append, not_or] at hnd
        have hag2 : Agree [g] s3 (setLeft s3 g n) := agree_setLeft s3 g n [g] (by simp)
        simp only [ctxLink, setLink]
        refine ⟨h1, h2, by simpa using h3, by simpa using h4, by simp [ctxLink, setLink],
          by simpa [ctxLink, setLink] using h6, ?_, ?_⟩
        · exact Rep.agree hag2 sib g (fun x hx => by
            simp only [List.mem_singleton]; rintro rfl; exact hnd.1.1 hx) h7
        · exact RepCtx.agree_ctx hag2 _ _ fs g (fun x hx => by
            simp only [List.mem_singleton]; rintro rfl; exact hnd.1.2 hx) h8
      | R sib g bg =>
        obtain ⟨h1, h2, h3, h4, h5, h6, h7, h8⟩ := hc3
        simp only [ctxAddrs, List.nodup_cons, List.mem_append, not_or] at hnd
        have hag2 : Agree [g] s3 (setRight s3 g n) := agree_setRight s3 g n [g] (by simp)
        simp only [ctxLink, setLink]
        refine ⟨h1, h2, by simpa using h3, by simpa using h4, by simpa [ctxLink, setLink] using h5,
          by simp [ctxLink, setLink], ?_, ?_⟩
        · exact Rep.agree hag2 sib g (fun x hx => by
            simp only [List.mem_singleton]; rintro rfl; exact hnd.1.1 hx) h7
        · exact RepCtx.agree_ctx hag2 _ _ fs g (fun x hx => by
            simp only [List.mem_singleton]; rintro rfl; exact hnd.1.2 hx) h8

end Avl

namespace Avl

/-! ## The C functions when no pointer they follow is `NULL` -/

@[simp] theorem Result.ok_bind {α β : Type} (a : α) (f : α → Result β) :
    (Result.ok a >>= f) = f a := rfl

@[simp] theorem Result.pure_eq {α : Type} (a : α) : (pure a : Result α) = Result.ok a := rfl

theorem rd_word_ok (s : Store) {p : Nat} (h : p ≠ 0) :
    rd_word s p = Result.ok (s.mem p).parent_balance := by simp [rd_word, h]

theorem rd_left_ok (s : Store) {p : Nat} (h : p ≠ 0) :
    rd_left s p = Result.ok (s.mem p).left := by simp [rd_left, h]

theorem rd_right_ok (s : Store) {p : Nat} (h : p ≠ 0) :
    rd_right s p = Result.ok (s.mem p).right := by simp [rd_right, h]

theorem wr_word_ok (s : Store) {p : Nat} (v : Nat) (h : p ≠ 0) :
    wr_word s p v = Result.ok (setWord s p v) := by simp [wr_word, h]

theorem wr_left_ok (s : Store) {p : Nat} (v : Nat) (h : p ≠ 0) :
    wr_left s p v = Result.ok (setLeft s p v) := by simp [wr_left, h]

theorem wr_right_ok (s : Store) {p : Nat} (v : Nat) (h : p ≠ 0) :
    wr_right s p v = Result.ok (setRight s p v) := by simp [wr_right, h]

theorem avl_parent_ok (s : Store) {n : Nat} (h : n ≠ 0) :
    avl_parent s n = Result.ok (parent_of s n) := by
  simp [avl_parent, rd_word_ok s h, parent_of]

theorem avl_balance_ok (s : Store) {n : Nat} (h : n ≠ 0) :
    avl_balance s n = Result.ok (balance_of s n) := by
  simp [avl_balance, rd_word_ok s h, balance_of]

theorem avl_set_parent_balance_ok (s : Store) {n : Nat} (p b : Nat) (h : n ≠ 0) :
    avl_set_parent_balance s n p b = Result.ok (set_parent_balance_eff s n p b) := by
  simp [avl_set_parent_balance, wr_word_ok s _ h, set_parent_balance_eff]

theorem avl_set_parent_ok (s : Store) {n : Nat} (p : Nat) (h : n ≠ 0) :
    avl_set_parent s n p = Result.ok (set_parent_eff s n p) := by
  simp [avl_set_parent, avl_balance_ok s h, wr_word_ok s _ h, set_parent_eff]

theorem avl_set_balance_ok (s : Store) {n : Nat} (b : Nat) (h : n ≠ 0) :
    avl_set_balance s n b = Result.ok (set_balance_eff s n b) := by
  simp [avl_set_balance, avl_parent_ok s h, wr_word_ok s _ h, set_balance_eff]

theorem avl_change_child_ok (s : Store) (o n p : Nat) :
    avl_change_child s o n p = Result.ok (change_child_eff s o n p) := by
  by_cases h : p = 0
  · simp [avl_change_child, change_child_eff, h]
  · simp only [avl_change_child, change_child_eff, ne_eq, h, not_false_eq_true, if_true,
      rd_left_ok s h, Result.ok_bind]
    split
    · exact wr_left_ok s n h
    · exact wr_right_ok s n h

theorem avl_rotate_switch_parents_ok (s : Store) {top child : Nat} (child2 bt bc : Nat)
    (ht : top ≠ 0) (hc : child ≠ 0) :
    avl_rotate_switch_parents s top child child2 bt bc =
      Result.ok (switch_parents_eff s top child child2 bt bc) := by
  simp only [avl_rotate_switch_parents, switch_parents_eff, avl_parent_ok _ hc,
    avl_parent_ok _ ht, avl_set_parent_balance_ok _ _ _ ht, avl_set_parent_balance_ok _ _ _ hc,
    Result.ok_bind]
  by_cases h2 : child2 = 0
  · simp [h2, avl_parent_ok _ ht, avl_change_child_ok]
  · simp [h2, avl_set_parent_ok _ _ h2, avl_parent_ok _ ht, avl_change_child_ok]

theorem avl_is_right_child_ok (s : Store) {n : Nat} (h : n ≠ 0) :
    avl_is_right_child s n = Result.ok (is_right_child_of s n) := by
  simp only [avl_is_right_child, is_right_child_of, avl_parent_ok s h, Result.ok_bind]
  by_cases hp : parent_of s n = 0
  · simp [hp]
  · simp only [hp, if_false, rd_right_ok s hp, Result.ok_bind]
    split <;> rfl

theorem avl_link_node_ok (s : Store) {n : Nat} (p : Nat) (link : Link) (h : n ≠ 0)
    (hl : (∀ q, link = Link.left q → q ≠ 0) ∧ (∀ q, link = Link.right q → q ≠ 0)) :
    avl_link_node s n p link = Result.ok (link_node_eff s n p link) := by
  simp only [avl_link_node, link_node_eff, avl_set_parent_balance_ok _ _ _ h,
    wr_left_ok _ _ h, wr_right_ok _ _ h, Result.ok_bind]
  cases link with
  | root => rfl
  | left q => exact wr_left_ok _ _ (hl.1 q rfl)
  | right q => exact wr_right_ok _ _ (hl.2 q rfl)

end Avl

namespace Avl

theorem ATree.ptr_node' (l : ATree) (a b : Nat) (r : ATree) :
    (ATree.node l a b r).ptr = a := rfl

/-- Left rotation at a node `P` whose right child is `C`, on a valid store. -/
theorem valid_rotate_left_core {s : Store} {fs : List Frame} {l rl rr : ATree} {P bP C bC : Nat}
    (h : Valid s (plug fs (ATree.node l P bP (ATree.node rl C bC rr))))
    (bt bc : Nat) (hbt : bt < 4) (hbc : bc < 4) :
    Valid (rotate_left_core s P bt bc)
      (plug fs (ATree.node (ATree.node l P bc rl) C bt rr)) := by
  have hP := h.at
  have hC : At s (Frame.R l P bP :: fs) rl C bC rr := Valid.at h
  have hG : ctxPar fs 0 % 4 = 0 := RepCtx.par_aligned fs P hP.ctx
  have hPal := hP.al
  have hCal := hC.al
  have hPr : (s.mem P).right = C := hP.right
  have hCl : (s.mem C).left = rl.ptr := hC.left
  have hCr : (s.mem C).right = rr.ptr := hC.right
  have hPl : (s.mem P).left = l.ptr := hP.left
  have hCp : parent_of s C = P := hC.par
  have hPp : parent_of s P = ctxPar fs 0 := hP.par
  -- distinctness
  have hCc := hC.nac
  simp only [ctxAddrs, List.mem_cons, List.mem_append, not_or] at hCc
  obtain ⟨hCP, C_l, C_c⟩ := hCc
  have hPC : P ≠ C := Ne.symm hCP
  have hPn := hP.nar
  simp only [ATree.inorder, List.mem_cons, List.mem_append, not_or] at hPn
  obtain ⟨P_rl, -, P_rr⟩ := hPn
  have z_l := Rep.zero_not_mem_sub l P hP.repl
  have z_rr := Rep.zero_not_mem_sub rr C hC.repr
  have z_c := RepCtx.zero_not_mem_ctx fs P hP.ctx
  have hq : rl.ptr ∉ C :: (rr.inorder ++ P :: (l.inorder ++ ctxAddrs fs)) := by
    refine ATree.ptr_not_mem ?_ ?_
    · simp only [List.mem_cons, List.mem_append, not_or]
      exact ⟨Ne.symm hC.ne, z_rr, Ne.symm hP.ne, z_l, z_c⟩
    · intro x hx
      have h1 := hC.dlc x hx
      simp only [ctxAddrs, List.mem_cons, List.mem_append, not_or] at h1
      simp only [List.mem_cons, List.mem_append, not_or]
      exact ⟨fun e => hC.nal (e ▸ hx), hC.dlr x hx, h1.1, h1.2.1, h1.2.2⟩
  simp only [List.mem_cons, List.mem_append, not_or] at hq
  obtain ⟨hqC, q_rr, hqP, q_l, q_c⟩ := hq
  -- the store before the final redirection of the link above `P`
  let s2 := setLeft (setRight s P rl.ptr) C P
  let s4 := set_parent_balance_eff (set_parent_balance_eff s2 C (ctxPar fs 0) bt) P C bc
  let s5 := if rl.ptr ≠ 0 then set_parent_eff s4 rl.ptr P else s4
  have hag4 : Agree [P, C] s s4 :=
    (((agree_setRight s P _ [P, C] (by simp)).trans (agree_setLeft _ C _ [P, C] (by simp))).trans
      (agree_setWord _ C _ [P, C] (by simp))).trans (agree_setWord _ P _ [P, C] (by simp))
  have hag5 : Agree [P, C, rl.ptr] s s5 := by
    by_cases hq : rl.ptr = 0
    · simp only [s5, hq, ne_eq, not_true_eq_false, if_false]
      exact hag4.mono (by simp)
    · simp only [s5, hq, ne_eq, not_false_eq_true, if_true]
      exact (hag4.mono (by simp)).trans (agree_setWord _ _ _ _ (by simp))
  have hp5 : ∀ x, x ≠ rl.ptr → parent_of s5 x = parent_of s4 x := by
    intro x hx
    by_cases hq : rl.ptr = 0
    · simp [s5, hq]
    · simp [s5, hq, parent_set_parent, hPal, hx]
  have hb5 : ∀ x, balance_of s5 x = balance_of s4 x := by
    intro x
    by_cases hq : rl.ptr = 0
    · simp [s5, hq]
    · simp [s5, hq, balance_set_parent, hPal]
  have hl5 : ∀ x, (s5.mem x).left = (s4.mem x).left := by
    intro x
    by_cases hq : rl.ptr = 0
    · simp [s5, hq]
    · simp [s5, hq]
  have hr5 : ∀ x, (s5.mem x).right = (s4.mem x).right := by
    intro x
    by_cases hq : rl.ptr = 0
    · simp [s5, hq]
    · simp [s5, hq]
  have hroot5 : s5.root = s.root := by
    by_cases hq : rl.ptr = 0
    · simp [s5, hq, s4, s2]
    · simp [s5, hq, s4, s2]
  have e1 : parent_of s5 C = ctxPar fs 0 := by
    rw [hp5 C (Ne.symm hqC)]
    simp [s4, s2, parent_set_parent_balance, hG, hbt, hbc, hCal, hPC.symm]
  have e : rotate_left_core s P bt bc = change_child_eff s5 P C (ctxPar fs 0) := by
    simp only [rotate_left_core, switch_parents_eff, hPr, hCl]
    have e2 : ((setLeft (setRight s P rl.ptr) C P).mem P).right = rl.ptr := by simp
    have e3 : parent_of (setLeft (setRight s P rl.ptr) C P) P = ctxPar fs 0 := by simp [hPp]
    rw [e2, e3]
    show change_child_eff s5 P C (parent_of s5 C) = _
    rw [e1]
  rw [e]
  have hnd' : (l.inorder ++ P :: (rl.inorder ++ C :: (rr.inorder ++ ctxAddrs fs))).Nodup := by
    have := hP.nd
    simpa [ATree.inorder] using this
  have key := @valid_change_child s5 fs P
    (ATree.node (ATree.node l P bc rl) C bt rr) ?_ hP.ne hP.nac ?_ ?_
  · simpa [ATree.ptr] using key
  · rw [hroot5]
    refine RepCtx.agree_ctx hag5 _ _ fs P (not_mem_of_forall ?_) hP.ctx
    simp only [List.forall_mem_cons, List.not_mem_nil, false_implies, implies_true, and_true]
    exact ⟨hP.nac, C_c, q_c⟩
  · refine ⟨hC.ne, hCal, e1, ?_, ?_, ?_, ⟨hP.ne, hPal, ?_, ?_, ?_, ?_, ?_, ?_⟩, ?_⟩
    · rw [hb5]
      simp [s4, s2, balance_set_parent_balance, hG, hbt, hbc, hCal, hPC.symm]
    · rw [hl5]; simp [s4, s2, ATree.ptr]
    · rw [hr5]; simp [s4, s2, ATree.ptr, hPC.symm, hCr]
    · rw [hp5 P (Ne.symm hqP)]
      simp [s4, s2, parent_set_parent_balance, hG, hbt, hbc, hCal, hPC]
    · rw [hb5]
      simp [s4, s2, balance_set_parent_balance, hG, hbt, hbc, hCal, hPC]
    · rw [hl5]; simp [s4, s2, hPC, hPl]
    · rw [hr5]; simp [s4, s2, hPC]
    · refine Rep.agree hag5 l P (not_mem_of_forall ?_) hP.repl
      simp only [List.forall_mem_cons, List.not_mem_nil, false_implies, implies_true, and_true]
      exact ⟨hP.nal, C_l, q_l⟩
    · have hr4 : Rep s4 rl C := by
        refine Rep.agree hag4 rl C (not_mem_of_forall ?_) hC.repl
        simp only [List.forall_mem_cons, List.not_mem_nil, false_implies, implies_true, and_true]
        exact ⟨P_rl, hC.nal⟩
      by_cases hq : rl.ptr = 0
      · have : rl = ATree.nil := (ATree.ptr_eq_zero_iff rl hC.repl).1 hq
        rw [this]; trivial
      · simp only [s5, hq, ne_eq, not_false_eq_true, if_true]
        exact Rep.set_parent hr4 (List.nodup_append.1 hC.nd).1 P hPal hq
    · refine Rep.agree hag5 rr C (not_mem_of_forall ?_) hC.repr
      simp only [List.forall_mem_cons, List.not_mem_nil, false_implies, implies_true, and_true]
      exact ⟨P_rr, hC.nar, q_rr⟩
  · simpa [ATree.inorder] using hnd'

/-- Right rotation at a node `P` whose left child is `C`, on a valid store. -/
theorem valid_rotate_right_core {s : Store} {fs : List Frame} {ll lr r : ATree} {P bP C bC : Nat}
    (h : Valid s (plug fs (ATree.node (ATree.node ll C bC lr) P bP r)))
    (bt bc : Nat) (hbt : bt < 4) (hbc : bc < 4) :
    Valid (rotate_right_core s P bt bc)
      (plug fs (ATree.node ll C bt (ATree.node lr P bc r))) := by
  have hP := h.at
  have hC : At s (Frame.L P bP r :: fs) ll C bC lr := Valid.at h
  have hG : ctxPar fs 0 % 4 = 0 := RepCtx.par_aligned fs P hP.ctx
  have hPal := hP.al
  have hCal := hC.al
  have hPl : (s.mem P).left = C := hP.left
  have hCr : (s.mem C).right = lr.ptr := hC.right
  have hCl : (s.mem C).left = ll.ptr := hC.left
  have hPr : (s.mem P).right = r.ptr := hP.right
  have hCp : parent_of s C = P := hC.par
  have hPp : parent_of s P = ctxPar fs 0 := hP.par
  -- distinctness
  have hCc := hC.nac
  simp only [ctxAddrs, List.mem_cons, List.mem_append, not_or] at hCc
  obtain ⟨hCP, C_r, C_c⟩ := hCc
  have hPC : P ≠ C := Ne.symm hCP
  have hPn := hP.nal
  simp only [ATree.inorder, List.mem_cons, List.mem_append, not_or] at hPn
  obtain ⟨P_ll, -, P_lr⟩ := hPn
  have z_r := Rep.zero_not_mem_sub r P hP.repr
  have z_ll := Rep.zero_not_mem_sub ll C hC.repl
  have z_c := RepCtx.zero_not_mem_ctx fs P hP.ctx
  have hq : lr.ptr ∉ C :: (ll.inorder ++ P :: (r.inorder ++ ctxAddrs fs)) := by
    refine ATree.ptr_not_mem ?_ ?_
    · simp only [List.mem_cons, List.mem_append, not_or]
      exact ⟨Ne.symm hC.ne, z_ll, Ne.symm hP.ne, z_r, z_c⟩
    · intro x hx
      have h1 := hC.drc x hx
      simp only [ctxAddrs, List.mem_cons, List.mem_append, not_or] at h1
      simp only [List.mem_cons, List.mem_append, not_or]
      exact ⟨fun e => hC.nar (e ▸ hx), fun hm => hC.dlr x hm hx, h1.1, h1.2.1, h1.2.2⟩
  simp only [List.mem_cons, List.mem_append, not_or] at hq
  obtain ⟨hqC, q_ll, hqP, q_r, q_c⟩ := hq
  -- the store before the final redirection of the link above `P`
  let s2 := setRight (setLeft s P lr.ptr) C P
  let s4 := set_parent_balance_eff (set_parent_balance_eff s2 C (ctxPar fs 0) bt) P C bc
  let s5 := if lr.ptr ≠ 0 then set_parent_eff s4 lr.ptr P else s4
  have hag4 : Agree [P, C] s s4 :=
    (((agree_setLeft s P _ [P, C] (by simp)).trans (agree_setRight _ C _ [P, C] (by simp))).trans
      (agree_setWord _ C _ [P, C] (by simp))).trans (agree_setWord _ P _ [P, C] (by simp))
  have hag5 : Agree [P, C, lr.ptr] s s5 := by
    by_cases hq : lr.ptr = 0
    · simp only [s5, hq, ne_eq, not_true_eq_false, if_false]
      exact hag4.mono (by simp)
    · simp only [s5, hq, ne_eq, not_false_eq_true, if_true]
      exact (hag4.mono (by simp)).trans (agree_setWord _ _ _ _ (by simp))
  have hp5 : ∀ x, x ≠ lr.ptr → parent_of s5 x = parent_of s4 x := by
    intro x hx
    by_cases hq : lr.ptr = 0
    · simp [s5, hq]
    · simp [s5, hq, parent_set_parent, hPal, hx]
  have hb5 : ∀ x, balance_of s5 x = balance_of s4 x := by
    intro x
    by_cases hq : lr.ptr = 0
    · simp [s5, hq]
    · simp [s5, hq, balance_set_parent, hPal]
  have hl5 : ∀ x, (s5.mem x).left = (s4.mem x).left := by
    intro x
    by_cases hq : lr.ptr = 0
    · simp [s5, hq]
    · simp [s5, hq]
  have hr5 : ∀ x, (s5.mem x).right = (s4.mem x).right := by
    intro x
    by_cases hq : lr.ptr = 0
    · simp [s5, hq]
    · simp [s5, hq]
  have hroot5 : s5.root = s.root := by
    by_cases hq : lr.ptr = 0
    · simp [s5, hq, s4, s2]
    · simp [s5, hq, s4, s2]
  have e1 : parent_of s5 C = ctxPar fs 0 := by
    rw [hp5 C (Ne.symm hqC)]
    simp [s4, s2, parent_set_parent_balance, hG, hbt, hbc, hCal, hPC.symm]
  have e : rotate_right_core s P bt bc = change_child_eff s5 P C (ctxPar fs 0) := by
    simp only [rotate_right_core, switch_parents_eff, hPl, hCr]
    have e2 : ((setRight (setLeft s P lr.ptr) C P).mem P).left = lr.ptr := by simp
    have e3 : parent_of (setRight (setLeft s P lr.ptr) C P) P = ctxPar fs 0 := by simp [hPp]
    rw [e2, e3]
    show change_child_eff s5 P C (parent_of s5 C) = _
    rw [e1]
  rw [e]
  have hnd' : (ll.inorder ++ C :: (lr.inorder ++ P :: (r.inorder ++ ctxAddrs fs))).Nodup := by
    have := hP.nd
    simpa [ATree.inorder] using this
  have key := @valid_change_child s5 fs P
    (ATree.node ll C bt (ATree.node lr P bc r)) ?_ hP.ne hP.nac ?_ ?_
  · simpa [ATree.ptr] using key
  · rw [hroot5]
    refine RepCtx.agree_ctx hag5 _ _ fs P (not_mem_of_forall ?_) hP.ctx
    simp only [List.forall_mem_cons, List.not_mem_nil, false_implies, implies_true, and_true]
    exact ⟨hP.nac, C_c, q_c⟩
  · refine ⟨hC.ne, hCal, e1, ?_, ?_, ?_, ?_, ⟨hP.ne, hPal, ?_, ?_, ?_, ?_, ?_, ?_⟩⟩
    · rw [hb5]
      simp [s4, s2, balance_set_parent_balance, hG, hbt, hbc, hCal, hPC.symm]
    · rw [hl5]; simp [s4, s2, ATree.ptr, hPC.symm, hCl]
    · rw [hr5]; simp [s4, s2, ATree.ptr]
    · refine Rep.agree hag5 ll C (not_mem_of_forall ?_) hC.repl
      simp only [List.forall_mem_cons, List.not_mem_nil, false_implies, implies_true, and_true]
      exact ⟨P_ll, hC.nal, q_ll⟩
    · rw [hp5 P (Ne.symm hqP)]
      simp [s4, s2, parent_set_parent_balance, hG, hbt, hbc, hCal, hPC]
    · rw [hb5]
      simp [s4, s2, balance_set_parent_balance, hG, hbt, hbc, hCal, hPC]
    · rw [hl5]; simp [s4, s2, hPC]
    · rw [hr5]; simp [s4, s2, hPC, hPr]
    · have hr4 : Rep s4 lr C := by
        refine Rep.agree hag4 lr C (not_mem_of_forall ?_) hC.repr
        simp only [List.forall_mem_cons, List.not_mem_nil, false_implies, implies_true, and_true]
        exact ⟨P_lr, hC.nar⟩
      by_cases hq : lr.ptr = 0
      · have : lr = ATree.nil := (ATree.ptr_eq_zero_iff lr hC.repr).1 hq
        rw [this]; trivial
      · simp only [s5, hq, ne_eq, not_false_eq_true, if_true]
        have hndlr : lr.inorder.Nodup := by
          have := (List.nodup_append.1 hC.nd).2.1
          exact (List.nodup_append.1 (List.nodup_cons.1 this).2).1
        exact Rep.set_parent hr4 hndlr P hPal hq
    · refine Rep.agree hag5 r P (not_mem_of_forall ?_) hP.repr
      simp only [List.forall_mem_cons, List.not_mem_nil, false_implies, implies_true, and_true]
      exact ⟨hP.nar, C_r, q_r⟩
  · simpa [ATree.inorder] using hnd'

/-- Function `avl_rotate_left` on a valid store. -/
theorem valid_rotate_left {s : Store} {fs : List Frame} {l rl rr : ATree} {P bP C bC : Nat}
    (h : Valid s (plug fs (ATree.node l P bP (ATree.node rl C bC rr)))) :
    ∃ s1, avl_rotate_left s C P = Result.ok (s1, C) ∧
    Valid s1
      (plug fs (ATree.node
        (ATree.node l P (if bC = AVL_NEUTRAL then AVL_RIGHT else AVL_NEUTRAL) rl) C
        (if bC = AVL_NEUTRAL then AVL_LEFT else AVL_NEUTRAL) rr)) := by
  have hP := h.at
  have hC : At s (Frame.R l P bP :: fs) rl C bC rr := Valid.at h
  have hCn := hC.ne
  have hPn := hP.ne
  have hPr : (s.mem P).right = C := hP.right
  refine ⟨_, ?_, valid_rotate_left_core h (if bC = AVL_NEUTRAL then AVL_LEFT else AVL_NEUTRAL)
    (if bC = AVL_NEUTRAL then AVL_RIGHT else AVL_NEUTRAL) (by split <;> decide)
    (by split <;> decide)⟩
  simp only [avl_rotate_left, avl_balance_ok s hCn, hC.bal, rd_right_ok s hPn, hPr,
    rd_left_ok s hCn, wr_right_ok s _ hPn, wr_left_ok _ _ hCn, rd_right_ok _ hPn,
    avl_rotate_switch_parents_ok _ _ _ _ hCn hPn, Result.ok_bind, Result.pure_eq,
    rotate_left_core]

/-- Function `avl_rotate_right` on a valid store. -/
theorem valid_rotate_right {s : Store} {fs : List Frame} {ll lr r : ATree} {P bP C bC : Nat}
    (h : Valid s (plug fs (ATree.node (ATree.node ll C bC lr) P bP r))) :
    ∃ s1, avl_rotate_right s C P = Result.ok (s1, C) ∧
    Valid s1
      (plug fs (ATree.node ll C (if bC = AVL_NEUTRAL then AVL_RIGHT else AVL_NEUTRAL)
        (ATree.node lr P (if bC = AVL_NEUTRAL then AVL_LEFT else AVL_NEUTRAL) r))) := by
  have hP := h.at
  have hC : At s (Frame.L P bP r :: fs) ll C bC lr := Valid.at h
  have hCn := hC.ne
  have hPn := hP.ne
  have hPl : (s.mem P).left = C := hP.left
  refine ⟨_, ?_, valid_rotate_right_core h (if bC = AVL_NEUTRAL then AVL_RIGHT else AVL_NEUTRAL)
    (if bC = AVL_NEUTRAL then AVL_LEFT else AVL_NEUTRAL) (by split <;> decide)
    (by split <;> decide)⟩
  simp only [avl_rotate_right, avl_balance_ok s hCn, hC.bal, rd_left_ok s hPn, hPl,
    rd_right_ok s hCn, wr_left_ok s _ hPn, wr_right_ok _ _ hCn, rd_left_ok _ hPn,
    avl_rotate_switch_parents_ok _ _ _ _ hCn hPn, Result.ok_bind, Result.pure_eq,
    rotate_right_core]

/-- Function `avl_rotate_rightleft` on a valid store. -/
theorem valid_rotate_rightleft {s : Store} {fs : List Frame} {l gl gr rr : ATree}
    {P bP C bC T bT : Nat}
    (h : Valid s (plug fs (ATree.node l P bP (ATree.node (ATree.node gl T bT gr) C bC rr)))) :
    ∃ s1, avl_rotate_rightleft s C P = Result.ok (s1, T) ∧
    Valid s1
      (plug fs (ATree.node
        (ATree.node l P (if bT = AVL_NEUTRAL then AVL_NEUTRAL else if bT = AVL_LEFT
          then AVL_NEUTRAL else AVL_LEFT) gl) T AVL_NEUTRAL
        (ATree.node gr C (if bT = AVL_NEUTRAL then AVL_NEUTRAL else if bT = AVL_LEFT
          then AVL_RIGHT else AVL_NEUTRAL) rr))) := by
  have hP := h.at
  have hC : At s (Frame.R l P bP :: fs) (ATree.node gl T bT gr) C bC rr := Valid.at h
  have hT : At s (Frame.L C bC rr :: Frame.R l P bP :: fs) gl T bT gr := Valid.at h
  have hCn := hC.ne
  have hPn := hP.ne
  have hTn := hT.ne
  have hCl : (s.mem C).left = T := hC.left
  have h1 : Valid (rotate_right_core s C AVL_NEUTRAL
      (if bT = AVL_NEUTRAL then AVL_NEUTRAL else if bT = AVL_LEFT then AVL_RIGHT else AVL_NEUTRAL))
      (plug fs (ATree.node l P bP (ATree.node gl T AVL_NEUTRAL (ATree.node gr C
        (if bT = AVL_NEUTRAL then AVL_NEUTRAL else if bT = AVL_LEFT
          then AVL_RIGHT else AVL_NEUTRAL) rr)))) :=
    @valid_rotate_right_core _ (Frame.R l P bP :: fs) _ _ _ _ _ _ _ h _ _ (by decide)
      (by split <;> [decide; (split <;> decide)])
  have hPr1 := h1.at.right
  simp only [ATree.ptr_node'] at hPr1
  refine ⟨_, ?_, valid_rotate_left_core h1 AVL_NEUTRAL
    (if bT = AVL_NEUTRAL then AVL_NEUTRAL else if bT = AVL_LEFT then AVL_NEUTRAL else AVL_LEFT)
    (by decide) (by split <;> [decide; (split <;> decide)])⟩
  have hb : balance_of (setRight (setLeft s C (s.mem T).right) T C) T = bT := by
    simp only [balance_setRight, balance_setLeft, hT.bal]
  have e3 : switch_parents_eff (setRight (setLeft s C (s.mem T).right) T C) T C
      ((setRight (setLeft s C (s.mem T).right) T C).mem C).left AVL_NEUTRAL
      (if bT = AVL_NEUTRAL then AVL_NEUTRAL else if bT = AVL_LEFT then AVL_RIGHT else AVL_NEUTRAL)
      = rotate_right_core s C AVL_NEUTRAL
      (if bT = AVL_NEUTRAL then AVL_NEUTRAL else if bT = AVL_LEFT then AVL_RIGHT else AVL_NEUTRAL)
      := by
    simp only [rotate_right_core, hCl]
  simp only [avl_rotate_rightleft, rd_left_ok s hCn, hCl, rd_right_ok s hTn, wr_left_ok s _ hCn,
    wr_right_ok _ _ hTn, avl_balance_ok _ hTn, hb, rd_left_ok _ hCn,
    avl_rotate_switch_parents_ok _ _ _ _ hTn hCn, Result.ok_bind, e3, rd_right_ok _ hPn, hPr1,
    rd_left_ok _ hTn, wr_right_ok _ _ hPn, wr_left_ok _ _ hTn,
    avl_rotate_switch_parents_ok _ _ _ _ hTn hPn, Result.pure_eq, rotate_left_core]

/-- Function `avl_rotate_leftright` on a valid store. -/
theorem valid_rotate_leftright {s : Store} {fs : List Frame} {ll gl gr r : ATree}
    {P bP C bC T bT : Nat}
    (h : Valid s (plug fs (ATree.node (ATree.node ll C bC (ATree.node gl T bT gr)) P bP r))) :
    ∃ s1, avl_rotate_leftright s C P = Result.ok (s1, T) ∧
    Valid s1
      (plug fs (ATree.node
        (ATree.node ll C (if bT = AVL_NEUTRAL then AVL_NEUTRAL else if bT = AVL_LEFT
          then AVL_NEUTRAL else AVL_LEFT) gl) T AVL_NEUTRAL
        (ATree.node gr P (if bT = AVL_NEUTRAL then AVL_NEUTRAL else if bT = AVL_LEFT
          then AVL_RIGHT else AVL_NEUTRAL) r))) := by
  have hP := h.at
  have hC : At s (Frame.L P bP r :: fs) ll C bC (ATree.node gl T bT gr) := Valid.at h
  have hT : At s (Frame.R ll C bC :: Frame.L P bP r :: fs) gl T bT gr := Valid.at h
  have hCn := hC.ne
  have hPn := hP.ne
  have hTn := hT.ne
  have hCr : (s.mem C).right = T := hC.right
  have h1 : Valid (rotate_left_core s C AVL_NEUTRAL
      (if bT = AVL_NEUTRAL then AVL_NEUTRAL else if bT = AVL_LEFT then AVL_NEUTRAL else AVL_LEFT))
      (plug fs (ATree.node (ATree.node (ATree.node ll C
        (if bT = AVL_NEUTRAL then AVL_NEUTRAL else if bT = AVL_LEFT
          then AVL_NEUTRAL else AVL_LEFT) gl) T AVL_NEUTRAL gr) P bP r)) :=
    @valid_rotate_left_core _ (Frame.L P bP r :: fs) _ _ _ _ _ _ _ h _ _ (by decide)
      (by split <;> [decide; (split <;> decide)])
  have hPl1 := h1.at.left
  simp only [ATree.ptr_node'] at hPl1
  refine ⟨_, ?_, valid_rotate_right_core h1 AVL_NEUTRAL
    (if bT = AVL_NEUTRAL then AVL_NEUTRAL else if bT = AVL_LEFT then AVL_RIGHT else AVL_NEUTRAL)
    (by decide) (by split <;> [decide; (split <;> decide)])⟩
  have hb : balance_of (setLeft (setRight s C (s.mem T).left) T C) T = bT := by
    simp only [balance_setRight, balance_setLeft, hT.bal]
  have e3 : switch_parents_eff (setLeft (setRight s C (s.mem T).left) T C) T C
      ((setLeft (setRight s C (s.mem T).left) T C).mem C).right AVL_NEUTRAL
      (if bT = AVL_NEUTRAL then AVL_NEUTRAL else if bT = AVL_LEFT then AVL_NEUTRAL else AVL_LEFT)
      = rotate_left_core s C AVL_NEUTRAL
      (if bT = AVL_NEUTRAL then AVL_NEUTRAL else if bT = AVL_LEFT then AVL_NEUTRAL else AVL_LEFT)
      := by
    simp only [rotate_left_core, hCr]
  simp only [avl_rotate_leftright, rd_right_ok s hCn, hCr, rd_left_ok s hTn, wr_right_ok s _ hCn,
    wr_left_ok _ _ hTn, avl_balance_ok _ hTn, hb, rd_right_ok _ hCn,
    avl_rotate_switch_parents_ok _ _ _ _ hTn hCn, Result.ok_bind, e3, rd_left_ok _ hPn, hPl1,
    rd_right_ok _ hTn, wr_left_ok _ _ hPn, wr_right_ok _ _ hTn,
    avl_rotate_switch_parents_ok _ _ _ _ hTn hPn, Result.pure_eq, rotate_right_core]

end Avl

namespace Avl

theorem height_plug : ∀ (fs : List Frame) (t : ATree), (plug fs t).height = ctxHeight fs t.height
  | [], _ => rfl
  | Frame.L a b r :: fs, t => by simp only [plug, ctxHeight, height_plug fs, ATree.height]
  | Frame.R l a b :: fs, t => by simp only [plug, ctxHeight, height_plug fs, ATree.height]

/-- A walk that stops below the path `fs` with a subtree of the former height. -/
theorem rebalanced_stop {fs : List Frame} {sub new : ATree} {h : Nat} {grow : Bool} {s1 : Store}
    (hv : Valid s1 (plug fs new)) (ha : new.AVL) (hc : CtxAVL fs h) (hh : new.height = h)
    (hi : new.inorder = sub.inorder) : Rebalanced fs sub h grow s1 := by
  refine ⟨plug fs new, hv, (avl_plug fs new).2 ⟨ha, hh ▸ hc⟩, ?_, Or.inl ?_⟩
  · rw [inorder_plug, inorder_plug, hi]
  · rw [height_plug, hh]

theorem rebalanced_up_L {fs : List Frame} {sub sib : ATree} {G c bG h : Nat} {grow : Bool}
    {s1 : Store} (hr : Rebalanced fs (ATree.node sub G c sib) (max h sib.height + 1) grow s1) :
    Rebalanced (Frame.L G bG sib :: fs) sub h grow s1 := by
  obtain ⟨t1, h1, h2, h3, h4⟩ := hr
  refine ⟨t1, h1, h2, ?_, h4⟩
  rw [h3, plug, inorder_plug, inorder_plug]
  rfl

theorem rebalanced_up_R {fs : List Frame} {sub sib : ATree} {G c bG h : Nat} {grow : Bool}
    {s1 : Store} (hr : Rebalanced fs (ATree.node sib G c sub) (max sib.height h + 1) grow s1) :
    Rebalanced (Frame.R sib G bG :: fs) sub h grow s1 := by
  obtain ⟨t1, h1, h2, h3, h4⟩ := hr
  refine ⟨t1, h1, h2, ?_, h4⟩
  rw [h3, plug, inorder_plug, inorder_plug]
  rfl

/-- The upward walk of `avl_insert_balance` from a subtree that became one level taller. -/
theorem insert_balance_spec : ∀ (fs : List Frame) (s : Store) (l : ATree) (a b : Nat) (r : ATree)
    (h : Nat), Valid s (plug fs (ATree.node l a b r)) → (ATree.node l a b r).AVL → CtxAVL fs h →
    (ATree.node l a b r).height = h + 1 → (h = 0 ∨ b ≠ AVL_NEUTRAL) →
    ∀ fuel, fs.length < fuel →
    ∃ s1, avl_insert_balance fuel s a = Result.ok s1 ∧
      Rebalanced fs (ATree.node l a b r) h true s1
  | [], s, l, a, b, r, h, hv, ha, _, hh, _, fuel, hf => by
    obtain ⟨f, rfl⟩ : ∃ f, fuel = f + 1 := ⟨fuel - 1, by simp at hf; omega⟩
    have hA := hv.at
    refine ⟨s, ?_, ATree.node l a b r, hv, ha, rfl, Or.inr ?_⟩
    · simp [avl_insert_balance, avl_parent_ok s hA.ne, hA.par]
    · simpa [ctxHeight] using hh
  | Frame.L G bG sib :: fs, s, l, a, b, r, h, hv, ha, hc, hh, hb, fuel, hf => by
    obtain ⟨f, rfl⟩ : ∃ f, fuel = f + 1 := ⟨fuel - 1, by simp at hf; omega⟩
    have hf' : fs.length < f := by simpa using hf
    have hA := hv.at
    have hGat : At s fs (ATree.node l a b r) G bG sib := Valid.at hv
    have hpar : parent_of s a = G := hA.par
    have hisr : is_right_child_of s a = false := hA.isr
    have hG0 := hGat.ne
    obtain ⟨hsib, hbal, hctx⟩ := hc
    have hba := hA.bal
    have hbG := hGat.bal
    obtain ⟨hal, har, hbl⟩ := ha
    simp only [ATree.height] at hh
    rcases hbal with ⟨e1, rfl⟩ | ⟨e1, rfl⟩ | ⟨e1, rfl⟩
    · -- neutral parent: lean left and continue
      have hv1 : Valid (set_balance_eff s G AVL_LEFT)
          (plug fs (ATree.node (ATree.node l a b r) G AVL_LEFT sib)) :=
        @valid_set_balance _ fs _ _ _ _ hv AVL_LEFT (by decide)
      obtain ⟨s1, hrun, hreb⟩ := insert_balance_spec fs _ (ATree.node l a b r) G AVL_LEFT sib
        (max h sib.height + 1) hv1 ⟨⟨hal, har, hbl⟩, hsib, Or.inr (Or.inl ⟨by
          simp only [ATree.height]; omega, rfl⟩)⟩ hctx
        (by simp only [ATree.height]; omega) (Or.inr (by decide)) f hf'
      refine ⟨s1, ?_, rebalanced_up_L hreb⟩
      simp [avl_insert_balance, avl_parent_ok s hA.ne, hpar, hG0, avl_is_right_child_ok s hA.ne, hisr,
        avl_balance_ok s hG0, hbG, avl_set_balance_ok s _ hG0, hrun]
    · -- left-leaning parent: rotate and stop
      rcases hbl with ⟨hl1, rfl⟩ | ⟨hl1, rfl⟩ | ⟨hl1, rfl⟩
      · rcases hb with hb | hb
        · omega
        · exact absurd rfl hb
      · obtain ⟨sr, e, hv1⟩ := @valid_rotate_right _ fs _ _ _ _ _ _ _ hv
        refine ⟨_, ?_, rebalanced_up_L (c := AVL_LEFT) (rebalanced_stop hv1 ?_ hctx ?_ ?_)⟩
        · simp [avl_insert_balance, avl_parent_ok s hA.ne, hpar, hG0, avl_is_right_child_ok s hA.ne,
            hisr, avl_balance_ok s hG0, hbG, avl_balance_ok s hA.ne, hba, e]
        · refine ⟨hal, ⟨har, hsib, ?_⟩, ?_⟩ <;> (try simp only [ATree.height]) <;> 
            (first | exact Or.inl ⟨by omega, by simp⟩ | exact Or.inr (Or.inl ⟨by omega, by simp⟩) |
              exact Or.inr (Or.inr ⟨by omega, by simp⟩))
        · simp only [ATree.height]; omega
        · simp [ATree.inorder]
      · cases r with
        | nil => simp only [ATree.height] at hl1; omega
        | node gl T bT gr =>
          obtain ⟨sr, e, hv1⟩ := @valid_rotate_leftright _ fs _ _ _ _ _ _ _ _ _ _ hv
          obtain ⟨hgl, hgr, hT⟩ := har
          simp only [ATree.height] at hh hl1
          refine ⟨_, ?_, rebalanced_up_L (c := AVL_LEFT) (rebalanced_stop hv1 ?_ hctx ?_ ?_)⟩
          · simp [avl_insert_balance, avl_parent_ok s hA.ne, hpar, hG0, avl_is_right_child_ok s hA.ne,
            hisr, avl_balance_ok s hG0, hbG, avl_balance_ok s hA.ne, hba, e]
          · rcases hT with ⟨t1, rfl⟩ | ⟨t1, rfl⟩ | ⟨t1, rfl⟩ <;>
              refine ⟨⟨hal, hgl, ?_⟩, ⟨hgr, hsib, ?_⟩, ?_⟩ <;> (try simp only [ATree.height]) <;> 
            (first | exact Or.inl ⟨by omega, by simp⟩ | exact Or.inr (Or.inl ⟨by omega, by simp⟩) |
              exact Or.inr (Or.inr ⟨by omega, by simp⟩))
          · rcases hT with ⟨t1, rfl⟩ | ⟨t1, rfl⟩ | ⟨t1, rfl⟩ <;> (try simp only [ATree.height]) <;> omega
          · simp [ATree.inorder]
    · -- right-leaning parent: balanced now, stop
      have hv1 : Valid (set_balance_eff s G AVL_NEUTRAL)
          (plug fs (ATree.node (ATree.node l a b r) G AVL_NEUTRAL sib)) :=
        @valid_set_balance _ fs _ _ _ _ hv AVL_NEUTRAL (by decide)
      refine ⟨_, ?_, rebalanced_up_L (c := AVL_RIGHT) (rebalanced_stop hv1 ?_ hctx ?_ rfl)⟩
      · simp [avl_insert_balance, avl_parent_ok s hA.ne, hpar, hG0, avl_is_right_child_ok s hA.ne, hisr,
          avl_balance_ok s hG0, hbG, avl_set_balance_ok s _ hG0]
      · exact ⟨⟨hal, har, hbl⟩, hsib, Or.inl ⟨by simp only [ATree.height]; omega, rfl⟩⟩
      · simp only [ATree.height]; omega
  | Frame.R sib G bG :: fs, s, l, a, b, r, h, hv, ha, hc, hh, hb, fuel, hf => by
    obtain ⟨f, rfl⟩ : ∃ f, fuel = f + 1 := ⟨fuel - 1, by simp at hf; omega⟩
    have hf' : fs.length < f := by simpa using hf
    have hA := hv.at
    have hGat : At s fs sib G bG (ATree.node l a b r) := Valid.at hv
    have hpar : parent_of s a = G := hA.par
    have hisr : is_right_child_of s a = true := hA.isr
    have hG0 := hGat.ne
    obtain ⟨hsib, hbal, hctx⟩ := hc
    have hba := hA.bal
    have hbG := hGat.bal
    obtain ⟨hal, har, hbl⟩ := ha
    simp only [ATree.height] at hh
    rcases hbal with ⟨e1, rfl⟩ | ⟨e1, rfl⟩ | ⟨e1, rfl⟩
    · -- neutral parent: lean right and continue
      have hv1 : Valid (set_balance_eff s G AVL_RIGHT)
          (plug fs (ATree.node sib G AVL_RIGHT (ATree.node l a b r))) :=
        @valid_set_balance _ fs _ _ _ _ hv AVL_RIGHT (by decide)
      obtain ⟨s1, hrun, hreb⟩ := insert_balance_spec fs _ sib G AVL_RIGHT (ATree.node l a b r)
        (max sib.height h + 1) hv1 ⟨hsib, ⟨hal, har, hbl⟩, Or.inr (Or.inr ⟨by
          simp only [ATree.height]; omega, rfl⟩)⟩ hctx
        (by simp only [ATree.height]; omega) (Or.inr (by decide)) f hf'
      refine ⟨s1, ?_, rebalanced_up_R hreb⟩
      simp [avl_insert_balance, avl_parent_ok s hA.ne, hpar, hG0, avl_is_right_child_ok s hA.ne, hisr,
        avl_balance_ok s hG0, hbG, avl_set_balance_ok s _ hG0, hrun]
    · -- left-leaning parent: balanced now, stop
      have hv1 : Valid (set_balance_eff s G AVL_NEUTRAL)
          (plug fs (ATree.node sib G AVL_NEUTRAL (ATree.node l a b r))) :=
        @valid_set_balance _ fs _ _ _ _ hv AVL_NEUTRAL (by decide)
      refine ⟨_, ?_, rebalanced_up_R (c := AVL_LEFT) (rebalanced_stop hv1 ?_ hctx ?_ rfl)⟩
      · simp [avl_insert_balance, avl_parent_ok s hA.ne, hpar, hG0, avl_is_right_child_ok s hA.ne, hisr,
          avl_balance_ok s hG0, hbG, avl_set_balance_ok s _ hG0]
      · exact ⟨hsib, ⟨hal, har, hbl⟩, Or.inl ⟨by simp only [ATree.height]; omega, rfl⟩⟩
      · simp only [ATree.height]; omega
    · -- right-leaning parent: rotate and stop
      rcases hbl with ⟨hl1, rfl⟩ | ⟨hl1, rfl⟩ | ⟨hl1, rfl⟩
      · rcases hb with hb | hb
        · omega
        · exact absurd rfl hb
      · cases l with
        | nil => simp only [ATree.height] at hl1; omega
        | node gl T bT gr =>
          obtain ⟨sr, e, hv1⟩ := @valid_rotate_rightleft _ fs _ _ _ _ _ _ _ _ _ _ hv
          obtain ⟨hgl, hgr, hT⟩ := hal
          simp only [ATree.height] at hh hl1
          refine ⟨_, ?_, rebalanced_up_R (c := AVL_RIGHT) (rebalanced_stop hv1 ?_ hctx ?_ ?_)⟩
          · simp [avl_insert_balance, avl_parent_ok s hA.ne, hpar, hG0, avl_is_right_child_ok s hA.ne,
            hisr, avl_balance_ok s hG0, hbG, avl_balance_ok s hA.ne, hba, e]
          · rcases hT with ⟨t1, rfl⟩ | ⟨t1, rfl⟩ | ⟨t1, rfl⟩ <;>
              refine ⟨⟨hsib, hgl, ?_⟩, ⟨hgr, har, ?_⟩, ?_⟩ <;> (try simp only [ATree.height]) <;> 
            (first | exact Or.inl ⟨by omega, by simp⟩ | exact Or.inr (Or.inl ⟨by omega, by simp⟩) |
              exact Or.inr (Or.inr ⟨by omega, by simp⟩))
          · rcases hT with ⟨t1, rfl⟩ | ⟨t1, rfl⟩ | ⟨t1, rfl⟩ <;> (try simp only [ATree.height]) <;> omega
          · simp [ATree.inorder]
      · obtain ⟨sr, e, hv1⟩ := @valid_rotate_left _ fs _ _ _ _ _ _ _ hv
        refine ⟨_, ?_, rebalanced_up_R (c := AVL_RIGHT) (rebalanced_stop hv1 ?_ hctx ?_ ?_)⟩
        · simp [avl_insert_balance, avl_parent_ok s hA.ne, hpar, hG0, avl_is_right_child_ok s hA.ne,
            hisr, avl_balance_ok s hG0, hbG, avl_balance_ok s hA.ne, hba, e]
        · refine ⟨⟨hsib, hal, ?_⟩, har, ?_⟩ <;> (try simp only [ATree.height]) <;> 
            (first | exact Or.inl ⟨by omega, by simp⟩ | exact Or.inr (Or.inl ⟨by omega, by simp⟩) |
              exact Or.inr (Or.inr ⟨by omega, by simp⟩))
        · simp only [ATree.height]; omega
        · simp [ATree.inorder]

end Avl

namespace Avl

/-- A walk that stops below the path `fs` leaving a subtree one level shorter than before. -/
theorem rebalanced_top {sub new : ATree} {h : Nat} {s1 : Store}
    (hv : Valid s1 new) (ha : new.AVL) (hh : new.height + 1 = h)
    (hi : new.inorder = sub.inorder) : Rebalanced [] sub h false s1 :=
  ⟨new, hv, ha, by simpa [plug] using hi, Or.inr (by simpa [ctxHeight] using hh)⟩

/-- The upward walk of `avl_erase_balance` above a subtree that became one level shorter. -/
theorem erase_balance_spec : ∀ (fs : List Frame) (s : Store) (sub : ATree) (h : Nat),
    Valid s (plug fs sub) → sub.AVL → CtxAVL fs (h + 1) → sub.height = h →
    ∀ fuel, fs.length < fuel →
    ∃ s1, avl_erase_balance fuel s (ctxPar fs 0) (ctxIsRight fs) = Result.ok s1 ∧
      Rebalanced fs sub (h + 1) false s1
  | [], s, sub, h, hv, ha, _, hh, fuel, hf => by
    obtain ⟨f, rfl⟩ : ∃ f, fuel = f + 1 := ⟨fuel - 1, by simp at hf; omega⟩
    exact ⟨s, by simp [avl_erase_balance], @rebalanced_top _ sub _ _ hv ha (by omega) rfl⟩
  | Frame.L G bG sib :: fs, s, sub, h, hv, ha, hc, hh, fuel, hf => by
    obtain ⟨f, rfl⟩ : ∃ f, fuel = f + 1 := ⟨fuel - 1, by simp at hf; omega⟩
    have hf' : fs.length < f := by simpa using hf
    have hGat : At s fs sub G bG sib := Valid.at hv
    have hG0 := hGat.ne
    have hbG := hGat.bal
    obtain ⟨hsib, hbal, hctx⟩ := hc
    rcases hbal with ⟨e1, rfl⟩ | ⟨e1, rfl⟩ | ⟨e1, rfl⟩
    · -- neutral parent: lean right and stop
      have hv1 : Valid (set_balance_eff s G AVL_RIGHT) (plug fs (ATree.node sub G AVL_RIGHT sib)) :=
        @valid_set_balance _ fs _ _ _ _ hv AVL_RIGHT (by decide)
      refine ⟨_, ?_, rebalanced_up_L (c := AVL_RIGHT) (rebalanced_stop hv1 ?_ hctx ?_ rfl)⟩
      · simp [avl_erase_balance, hG0, avl_balance_ok s hG0, hbG, avl_set_balance_ok s _ hG0]
      · exact ⟨ha, hsib, Or.inr (Or.inr ⟨by omega, rfl⟩)⟩
      · simp only [ATree.height]; omega
    · -- left-leaning parent: neutral now, continue
      have hv1 : Valid (set_balance_eff s G AVL_NEUTRAL)
          (plug fs (ATree.node sub G AVL_NEUTRAL sib)) :=
        @valid_set_balance _ fs _ _ _ _ hv AVL_NEUTRAL (by decide)
      have hG1 := hv1.at
      obtain ⟨s1, hrun, hreb⟩ := erase_balance_spec fs _ (ATree.node sub G AVL_NEUTRAL sib) (h + 1)
        hv1 ⟨ha, hsib, Or.inl ⟨by omega, rfl⟩⟩
        (by have : max (h + 1) sib.height + 1 = h + 1 + 1 := by omega
            rw [← this]; exact hctx)
        (by simp only [ATree.height]; omega) f hf'
      refine ⟨s1, ?_, rebalanced_up_L (c := AVL_NEUTRAL) ?_⟩
      · simp [avl_erase_balance, hG0, avl_balance_ok s hG0, hbG, avl_set_balance_ok s _ hG0,
          avl_is_right_child_ok _ hG0, avl_parent_ok _ hG0, hG1.par, hG1.isr, hrun]
      · have : max (h + 1) sib.height + 1 = h + 1 + 1 := by omega
        rw [this]; exact hreb
    · -- right-leaning parent: rotate
      cases sib with
      | nil => simp only [ATree.height] at e1; omega
      | node sl C bC sr =>
        have hCat : At s (Frame.R sub G AVL_RIGHT :: fs) sl C bC sr := Valid.at hv
        have hGr : (s.mem G).right = C := hGat.right
        have hbC := hCat.bal
        obtain ⟨hsl, hsr, hC⟩ := hsib
        simp only [ATree.height] at e1 hctx
        rcases hC with ⟨c1, rfl⟩ | ⟨c1, rfl⟩ | ⟨c1, rfl⟩
        · -- neutral child: single rotation absorbs the decrease
          obtain ⟨sq, e, hv1⟩ := @valid_rotate_left _ fs _ _ _ _ _ _ _ hv
          refine ⟨_, ?_, rebalanced_up_L (c := AVL_RIGHT) (rebalanced_stop hv1 ?_ hctx ?_ ?_)⟩
          · simp [avl_erase_balance, hG0, avl_balance_ok s hG0, hbG, rd_right_ok s hG0, hGr,
              avl_balance_ok s hCat.ne, hbC, e]
          · refine ⟨⟨ha, hsl, ?_⟩, hsr, ?_⟩ <;> (try simp only [ATree.height]) <;>
              (first | exact Or.inl ⟨by omega, by simp⟩ | exact Or.inr (Or.inl ⟨by omega, by simp⟩) |
              exact Or.inr (Or.inr ⟨by omega, by simp⟩))
          · simp only [ATree.height]; omega
          · simp [ATree.inorder]
        · -- left-leaning child: double rotation, continue
          cases sl with
          | nil => simp only [ATree.height] at c1; omega
          | node gl T bT gr =>
            obtain ⟨sq, e, hv1⟩ := @valid_rotate_rightleft _ fs _ _ _ _ _ _ _ _ _ _ hv
            have hT1 := hv1.at
            obtain ⟨hgl, hgr, hT⟩ := hsl
            simp only [ATree.height] at c1 e1 hctx
            obtain ⟨s1, hrun, hreb⟩ := erase_balance_spec fs _ _ (h + 2) hv1
              (by
                rcases hT with ⟨t1, rfl⟩ | ⟨t1, rfl⟩ | ⟨t1, rfl⟩ <;>
                  refine ⟨⟨ha, hgl, ?_⟩, ⟨hgr, hsr, ?_⟩, ?_⟩ <;> (try simp only [ATree.height]) <;>
                  (first | exact Or.inl ⟨by omega, by simp⟩ | exact Or.inr (Or.inl ⟨by omega, by simp⟩) |
              exact Or.inr (Or.inr ⟨by omega, by simp⟩)))
              (by
                have : max (h + 1) (max (max gl.height gr.height + 1) sr.height + 1) + 1
                    = h + 2 + 1 := by omega
                rw [← this]; exact hctx)
              (by rcases hT with ⟨t1, rfl⟩ | ⟨t1, rfl⟩ | ⟨t1, rfl⟩ <;>
                    simp only [ATree.height] <;> omega) f hf'
            refine ⟨s1, ?_, rebalanced_up_L (c := AVL_RIGHT) ?_⟩
            · simp [avl_erase_balance, hG0, avl_balance_ok s hG0, hbG, rd_right_ok s hG0, hGr,
              avl_balance_ok s hCat.ne, hbC, e, hT1.ne, avl_is_right_child_ok _ hT1.ne,
              avl_parent_ok _ hT1.ne, hT1.par, hT1.isr, hrun]
            · obtain ⟨t1, h1, h2, h3, h4⟩ := hreb
              refine ⟨t1, h1, h2, ?_, ?_⟩
              · rw [h3, inorder_plug, inorder_plug]; simp [ATree.inorder]
              · have : max (h + 1) (max (max gl.height gr.height + 1) sr.height + 1) + 1
                    = h + 2 + 1 := by omega
                simp only [ATree.height]
                rw [this]; exact h4
        · -- right-leaning child: single rotation, continue
          obtain ⟨sq, e, hv1⟩ := @valid_rotate_left _ fs _ _ _ _ _ _ _ hv
          have hT1 := hv1.at
          obtain ⟨s1, hrun, hreb⟩ := erase_balance_spec fs _ _ (h + 2) hv1
            (by
              refine ⟨⟨ha, hsl, ?_⟩, hsr, ?_⟩ <;> (try simp only [ATree.height]) <;>
                (first | exact Or.inl ⟨by omega, by simp⟩ | exact Or.inr (Or.inl ⟨by omega, by simp⟩) |
              exact Or.inr (Or.inr ⟨by omega, by simp⟩)))
            (by
              have : max (h + 1) (max sl.height sr.height + 1) + 1 = h + 2 + 1 := by omega
              rw [← this]; exact hctx)
            (by simp only [ATree.height]; omega) f hf'
          refine ⟨s1, ?_, rebalanced_up_L (c := AVL_RIGHT) ?_⟩
          · simp [avl_erase_balance, hG0, avl_balance_ok s hG0, hbG, rd_right_ok s hG0, hGr,
              avl_balance_ok s hCat.ne, hbC, e, hT1.ne, avl_is_right_child_ok _ hT1.ne,
              avl_parent_ok _ hT1.ne, hT1.par, hT1.isr, hrun]
          · obtain ⟨t1, h1, h2, h3, h4⟩ := hreb
            refine ⟨t1, h1, h2, ?_, ?_⟩
            · rw [h3, inorder_plug, inorder_plug]; simp [ATree.inorder]
            · have : max (h + 1) (max sl.height sr.height + 1) + 1 = h + 2 + 1 := by omega
              simp only [ATree.height]
              rw [this]; exact h4
  | Frame.R sib G bG :: fs, s, sub, h, hv, ha, hc, hh, fuel, hf => by
    obtain ⟨f, rfl⟩ : ∃ f, fuel = f + 1 := ⟨fuel - 1, by simp at hf; omega⟩
    have hf' : fs.length < f := by simpa using hf
    have hGat : At s fs sib G bG sub := Valid.at hv
    have hG0 := hGat.ne
    have hbG := hGat.bal
    obtain ⟨hsib, hbal, hctx⟩ := hc
    rcases hbal with ⟨e1, rfl⟩ | ⟨e1, rfl⟩ | ⟨e1, rfl⟩
    · -- neutral parent: lean left and stop
      have hv1 : Valid (set_balance_eff s G AVL_LEFT) (plug fs (ATree.node sib G AVL_LEFT sub)) :=
        @valid_set_balance _ fs _ _ _ _ hv AVL_LEFT (by decide)
      refine ⟨_, ?_, rebalanced_up_R (c := AVL_LEFT) (rebalanced_stop hv1 ?_ hctx ?_ rfl)⟩
      · simp [avl_erase_balance, hG0, avl_balance_ok s hG0, hbG, avl_set_balance_ok s _ hG0]
      · exact ⟨hsib, ha, Or.inr (Or.inl ⟨by omega, rfl⟩)⟩
      · simp only [ATree.height]; omega
    · -- left-leaning parent: rotate
      cases sib with
      | nil => simp only [ATree.height] at e1; omega
      | node sl C bC sr =>
        have hCat : At s (Frame.L G AVL_LEFT sub :: fs) sl C bC sr := Valid.at hv
        have hGl : (s.mem G).left = C := hGat.left
        have hbC := hCat.bal
        obtain ⟨hsl, hsr, hC⟩ := hsib
        simp only [ATree.height] at e1 hctx
        rcases hC with ⟨c1, rfl⟩ | ⟨c1, rfl⟩ | ⟨c1, rfl⟩
        · -- neutral child: single rotation absorbs the decrease
          obtain ⟨sq, e, hv1⟩ := @valid_rotate_right _ fs _ _ _ _ _ _ _ hv
          refine ⟨_, ?_, rebalanced_up_R (c := AVL_LEFT) (rebalanced_stop hv1 ?_ hctx ?_ ?_)⟩
          · simp [avl_erase_balance, hG0, avl_balance_ok s hG0, hbG, rd_left_ok s hG0, hGl,
              avl_balance_ok s hCat.ne, hbC, e]
          · refine ⟨hsl, ⟨hsr, ha, ?_⟩, ?_⟩ <;> (try simp only [ATree.height]) <;>
              (first | exact Or.inl ⟨by omega, by simp⟩ | exact Or.inr (Or.inl ⟨by omega, by simp⟩) |
              exact Or.inr (Or.inr ⟨by omega, by simp⟩))
          · simp only [ATree.height]; omega
          · simp [ATree.inorder]
        · -- left-leaning child: single rotation, continue
          obtain ⟨sq, e, hv1⟩ := @valid_rotate_right _ fs _ _ _ _ _ _ _ hv
          have hT1 := hv1.at
          obtain ⟨s1, hrun, hreb⟩ := erase_balance_spec fs _ _ (h + 2) hv1
            (by
              refine ⟨hsl, ⟨hsr, ha, ?_⟩, ?_⟩ <;> (try simp only [ATree.height]) <;>
                (first | exact Or.inl ⟨by omega, by simp⟩ | exact Or.inr (Or.inl ⟨by omega, by simp⟩) |
              exact Or.inr (Or.inr ⟨by omega, by simp⟩)))
            (by
              have : max (max sl.height sr.height + 1) (h + 1) + 1 = h + 2 + 1 := by omega
              rw [← this]; exact hctx)
            (by simp only [ATree.height]; omega) f hf'
          refine ⟨s1, ?_, rebalanced_up_R (c := AVL_LEFT) ?_⟩
          · simp [avl_erase_balance, hG0, avl_balance_ok s hG0, hbG, rd_left_ok s hG0, hGl,
              avl_balance_ok s hCat.ne, hbC, e, hT1.ne, avl_is_right_child_ok _ hT1.ne,
              avl_parent_ok _ hT1.ne, hT1.par, hT1.isr, hrun]
          · obtain ⟨t1, h1, h2, h3, h4⟩ := hreb
            refine ⟨t1, h1, h2, ?_, ?_⟩
            · rw [h3, inorder_plug, inorder_plug]; simp [ATree.inorder]
            · have : max (max sl.height sr.height + 1) (h + 1) + 1 = h + 2 + 1 := by omega
              simp only [ATree.height]
              rw [this]; exact h4
        · -- right-leaning child: double rotation, continue
          cases sr with
          | nil => simp only [ATree.height] at c1; omega
          | node gl T bT gr =>
            obtain ⟨sq, e, hv1⟩ := @valid_rotate_leftright _ fs _ _ _ _ _ _ _ _ _ _ hv
            have hT1 := hv1.at
            obtain ⟨hgl, hgr, hT⟩ := hsr
            simp only [ATree.height] at c1 e1 hctx
            obtain ⟨s1, hrun, hreb⟩ := erase_balance_spec fs _ _ (h + 2) hv1
              (by
                rcases hT with ⟨t1, rfl⟩ | ⟨t1, rfl⟩ | ⟨t1, rfl⟩ <;>
                  refine ⟨⟨hsl, hgl, ?_⟩, ⟨hgr, ha, ?_⟩, ?_⟩ <;> (try simp only [ATree.height]) <;>
                  (first | exact Or.inl ⟨by omega, by simp⟩ | exact Or.inr (Or.inl ⟨by omega, by simp⟩) |
              exact Or.inr (Or.inr ⟨by omega, by simp⟩)))
              (by
                have : max (max sl.height (max gl.height gr.height + 1) + 1) (h + 1) + 1
                    = h + 2 + 1 := by omega
                rw [← this]; exact hctx)
              (by rcases hT with ⟨t1, rfl⟩ | ⟨t1, rfl⟩ | ⟨t1, rfl⟩ <;>
                    simp only [ATree.height] <;> omega) f hf'
            refine ⟨s1, ?_, rebalanced_up_R (c := AVL_LEFT) ?_⟩
            · simp [avl_erase_balance, hG0, avl_balance_ok s hG0, hbG, rd_left_ok s hG0, hGl,
              avl_balance_ok s hCat.ne, hbC, e, hT1.ne, avl_is_right_child_ok _ hT1.ne,
              avl_parent_ok _ hT1.ne, hT1.par, hT1.isr, hrun]
            · obtain ⟨t1, h1, h2, h3, h4⟩ := hreb
              refine ⟨t1, h1, h2, ?_, ?_⟩
              · rw [h3, inorder_plug, inorder_plug]; simp [ATree.inorder]
              · have : max (max sl.height (max gl.height gr.height + 1) + 1) (h + 1) + 1
                    = h + 2 + 1 := by omega
                simp only [ATree.height]
                rw [this]; exact h4
    · -- right-leaning parent: neutral now, continue
      have hv1 : Valid (set_balance_eff s G AVL_NEUTRAL)
          (plug fs (ATree.node sib G AVL_NEUTRAL sub)) :=
        @valid_set_balance _ fs _ _ _ _ hv AVL_NEUTRAL (by decide)
      have hG1 := hv1.at
      obtain ⟨s1, hrun, hreb⟩ := erase_balance_spec fs _ (ATree.node sib G AVL_NEUTRAL sub) (h + 1)
        hv1 ⟨hsib, ha, Or.inl ⟨by omega, rfl⟩⟩
        (by have : max sib.height (h + 1) + 1 = h + 1 + 1 := by omega
            rw [← this]; exact hctx)
        (by simp only [ATree.height]; omega) f hf'
      refine ⟨s1, ?_, rebalanced_up_R (c := AVL_NEUTRAL) ?_⟩
      · simp [avl_erase_balance, hG0, avl_balance_ok s hG0, hbG, avl_set_balance_ok s _ hG0,
          avl_is_right_child_ok _ hG0, avl_parent_ok _ hG0, hG1.par, hG1.isr, hrun]
      · have : max sib.height (h + 1) + 1 = h + 1 + 1 := by omega
        rw [this]; exact hreb

end Avl

namespace Avl

@[simp] theorem ATree.ptr_node (l : ATree) (a b : Nat) (r : ATree) :
    (ATree.node l a b r).ptr = a := rfl

@[simp] theorem ATree.ptr_nil : ATree.nil.ptr = 0 := rfl

/-! ## Paths joined end to end -/

theorem ctxAddrs_append : ∀ (fs gs : List Frame),
    ctxAddrs (fs ++ gs) = ctxAddrs fs ++ ctxAddrs gs
  | [], _ => rfl
  | Frame.L a b r :: fs, gs => by simp [ctxAddrs, ctxAddrs_append fs gs]
  | Frame.R l a b :: fs, gs => by simp [ctxAddrs, ctxAddrs_append fs gs]

theorem ctxBefore_append : ∀ (fs gs : List Frame),
    ctxBefore (fs ++ gs) = ctxBefore gs ++ ctxBefore fs
  | [], _ => by simp [ctxBefore]
  | Frame.L a b r :: fs, gs => by simp [ctxBefore, ctxBefore_append fs gs]
  | Frame.R l a b :: fs, gs => by simp [ctxBefore, ctxBefore_append fs gs]

theorem ctxAfter_append : ∀ (fs gs : List Frame),
    ctxAfter (fs ++ gs) = ctxAfter fs ++ ctxAfter gs
  | [], _ => by simp [ctxAfter]
  | Frame.L a b r :: fs, gs => by simp [ctxAfter, ctxAfter_append fs gs]
  | Frame.R l a b :: fs, gs => by simp [ctxAfter, ctxAfter_append fs gs]

theorem ctxHeight_append : ∀ (fs gs : List Frame) (h : Nat),
    ctxHeight (fs ++ gs) h = ctxHeight gs (ctxHeight fs h)
  | [], _, _ => rfl
  | Frame.L a b r :: fs, gs, h => by simp [ctxHeight, ctxHeight_append fs gs]
  | Frame.R l a b :: fs, gs, h => by simp [ctxHeight, ctxHeight_append fs gs]

theorem ctxAVL_append : ∀ (fs gs : List Frame) (h : Nat),
    CtxAVL (fs ++ gs) h ↔ (CtxAVL fs h ∧ CtxAVL gs (ctxHeight fs h))
  | [], _, _ => by simp [CtxAVL, ctxHeight]
  | Frame.L a b r :: fs, gs, h => by
    show (r.AVL ∧ _ ∧ CtxAVL (fs ++ gs) _) ↔ _
    rw [ctxAVL_append fs gs]; simp only [CtxAVL, ctxHeight]; tauto
  | Frame.R l a b :: fs, gs, h => by
    show (l.AVL ∧ _ ∧ CtxAVL (fs ++ gs) _) ↔ _
    rw [ctxAVL_append fs gs]; simp only [CtxAVL, ctxHeight]; tauto

theorem ctxPar_append_of_ne_nil : ∀ (fs gs : List Frame) (x y : Nat), fs ≠ [] →
    ctxPar (fs ++ gs) x = ctxPar fs y
  | [], _, _, _, h => absurd rfl h
  | Frame.L _ _ _ :: _, _, _, _, _ => rfl
  | Frame.R _ _ _ :: _, _, _, _, _ => rfl

theorem ctxIsRight_append_of_ne_nil : ∀ (fs gs : List Frame), fs ≠ [] →
    ctxIsRight (fs ++ gs) = ctxIsRight fs
  | [], _, h => absurd rfl h
  | Frame.L _ _ _ :: _, _, _ => rfl
  | Frame.R _ _ _ :: _, _, _ => rfl

theorem ctxHeight_ge : ∀ (fs : List Frame) (h : Nat), fs.length + h ≤ ctxHeight fs h
  | [], h => by simp [ctxHeight]
  | Frame.L a b r :: fs, h => by
    have := ctxHeight_ge fs (max h r.height + 1)
    simp only [ctxHeight, List.length_cons]; omega
  | Frame.R l a b :: fs, h => by
    have := ctxHeight_ge fs (max l.height h + 1)
    simp only [ctxHeight, List.length_cons]; omega

theorem repCtx_append {s : Store} (rp rpar : Nat) : ∀ (fs gs : List Frame) (p : Nat),
    RepCtx s (fs ++ gs) rp rpar p ↔
      ∃ q, RepCtx s fs q (ctxPar gs rpar) p ∧ RepCtx s gs rp rpar q
  | [], gs, p => by simp [RepCtx]
  | Frame.L a b r :: fs, gs, p => by
    rw [List.cons_append]
    simp only [RepCtx]
    rw [repCtx_append rp rpar fs gs]
    by_cases hfs : fs = []
    · subst hfs; simp only [List.nil_append, ctxPar_nil, RepCtx]
      constructor
      · rintro ⟨h1, h2, h3, h4, h5, h6, h7, q, h8, h9⟩
        exact ⟨q, ⟨h1, h2, h3, h4, h5, h6, h7, h8⟩, h9⟩
      · rintro ⟨q, ⟨h1, h2, h3, h4, h5, h6, h7, h8⟩, h9⟩
        exact ⟨h1, h2, h3, h4, h5, h6, h7, q, h8, h9⟩
    · rw [ctxPar_append_of_ne_nil fs gs rpar (ctxPar gs rpar) hfs]
      constructor
      · rintro ⟨h1, h2, h3, h4, h5, h6, h7, q, h8, h9⟩
        exact ⟨q, ⟨h1, h2, h3, h4, h5, h6, h7, h8⟩, h9⟩
      · rintro ⟨q, ⟨h1, h2, h3, h4, h5, h6, h7, h8⟩, h9⟩
        exact ⟨h1, h2, h3, h4, h5, h6, h7, q, h8, h9⟩
  | Frame.R l a b :: fs, gs, p => by
    rw [List.cons_append]
    simp only [RepCtx]
    rw [repCtx_append rp rpar fs gs]
    by_cases hfs : fs = []
    · subst hfs; simp only [List.nil_append, ctxPar_nil, RepCtx]
      constructor
      · rintro ⟨h1, h2, h3, h4, h5, h6, h7, q, h8, h9⟩
        exact ⟨q, ⟨h1, h2, h3, h4, h5, h6, h7, h8⟩, h9⟩
      · rintro ⟨q, ⟨h1, h2, h3, h4, h5, h6, h7, h8⟩, h9⟩
        exact ⟨h1, h2, h3, h4, h5, h6, h7, q, h8, h9⟩
    · rw [ctxPar_append_of_ne_nil fs gs rpar (ctxPar gs rpar) hfs]
      constructor
      · rintro ⟨h1, h2, h3, h4, h5, h6, h7, q, h8, h9⟩
        exact ⟨q, ⟨h1, h2, h3, h4, h5, h6, h7, h8⟩, h9⟩
      · rintro ⟨q, ⟨h1, h2, h3, h4, h5, h6, h7, h8⟩, h9⟩
        exact ⟨h1, h2, h3, h4, h5, h6, h7, q, h8, h9⟩

/-! ## Leftmost and rightmost nodes -/

theorem plug_min : ∀ (t : ATree), plug (minCtx t) (minNode t) = t
  | ATree.nil => rfl
  | ATree.node ATree.nil _ _ _ => rfl
  | ATree.node (ATree.node ll la lb lr) a b r => by
    simp only [minCtx, minNode, plug_append, plug_min (ATree.node ll la lb lr), plug]

theorem plug_max : ∀ (t : ATree), plug (maxCtx t) (maxNode t) = t
  | ATree.nil => rfl
  | ATree.node _ _ _ ATree.nil => rfl
  | ATree.node l a b (ATree.node rl ra rb rr) => by
    simp only [maxCtx, maxNode, plug_append, plug_max (ATree.node rl ra rb rr), plug]

theorem minNode_shape : ∀ (t : ATree), t ≠ ATree.nil →
    ∃ m bm mr, minNode t = ATree.node ATree.nil m bm mr
  | ATree.nil, h => absurd rfl h
  | ATree.node ATree.nil a b r, _ => ⟨a, b, r, rfl⟩
  | ATree.node (ATree.node ll la lb lr) _ _ _, _ => by
    simpa [minNode] using minNode_shape (ATree.node ll la lb lr) (by simp)

theorem maxNode_shape : ∀ (t : ATree), t ≠ ATree.nil →
    ∃ ml m bm, maxNode t = ATree.node ml m bm ATree.nil
  | ATree.nil, h => absurd rfl h
  | ATree.node l a b ATree.nil, _ => ⟨l, a, b, rfl⟩
  | ATree.node _ _ _ (ATree.node rl ra rb rr), _ => by
    simpa [maxNode] using maxNode_shape (ATree.node rl ra rb rr) (by simp)

theorem allL_append : ∀ (fs gs : List Frame), AllL (fs ++ gs) ↔ (AllL fs ∧ AllL gs)
  | [], _ => by simp [AllL]
  | Frame.L _ _ _ :: fs, gs => by simp [AllL, allL_append fs gs]
  | Frame.R _ _ _ :: _, _ => by simp [AllL]

theorem allR_append : ∀ (fs gs : List Frame), AllR (fs ++ gs) ↔ (AllR fs ∧ AllR gs)
  | [], _ => by simp [AllR]
  | Frame.R _ _ _ :: fs, gs => by simp [AllR, allR_append fs gs]
  | Frame.L _ _ _ :: _, _ => by simp [AllR]

theorem allL_minCtx : ∀ (t : ATree), AllL (minCtx t)
  | ATree.nil => trivial
  | ATree.node ATree.nil _ _ _ => trivial
  | ATree.node (ATree.node ll la lb lr) a b r => by
    simp only [minCtx, allL_append, AllL, and_true]
    exact allL_minCtx (ATree.node ll la lb lr)

theorem allR_maxCtx : ∀ (t : ATree), AllR (maxCtx t)
  | ATree.nil => trivial
  | ATree.node _ _ _ ATree.nil => trivial
  | ATree.node l a b (ATree.node rl ra rb rr) => by
    simp only [maxCtx, allR_append, AllR, and_true]
    exact allR_maxCtx (ATree.node rl ra rb rr)

theorem ctxBefore_allL : ∀ (fs : List Frame), AllL fs → ctxBefore fs = []
  | [], _ => rfl
  | Frame.L _ _ _ :: fs, h => by simpa [ctxBefore] using ctxBefore_allL fs h
  | Frame.R _ _ _ :: _, h => absurd h (by simp [AllL])

theorem ctxAfter_allR : ∀ (fs : List Frame), AllR fs → ctxAfter fs = []
  | [], _ => rfl
  | Frame.R _ _ _ :: fs, h => by simpa [ctxAfter] using ctxAfter_allR fs h
  | Frame.L _ _ _ :: _, h => absurd h (by simp [AllR])

/-- The downward loop to the left ends at the node below a path of left steps. -/
theorem descend_left_plug {s : Store} : ∀ (fs : List Frame) (t : ATree) (par fuel : Nat),
    AllL fs → t ≠ ATree.nil → Rep s (plug fs t) par →
    descend_left (fuel + fs.length) s (plug fs t).ptr = descend_left fuel s t.ptr
  | [], _, _, _, _, _, _ => rfl
  | Frame.L a b r :: fs, t, par, fuel, hL, ht, hr => by
    have ih := descend_left_plug fs (ATree.node t a b r) par (fuel + 1) hL (by simp) hr
    have h1 := ((rep_plug (plug fs (ATree.node t a b r)).ptr par fs (ATree.node t a b r)).1
      ⟨hr, rfl⟩).1
    have hl : (s.mem a).left = t.ptr := h1.2.2.2.2.1
    have ht0 : t.ptr ≠ 0 := by
      intro e
      exact ht ((ATree.ptr_eq_zero_iff t h1.2.2.2.2.2.2.1).1 e)
    simp only [plug, List.length_cons]
    rw [show fuel + (fs.length + 1) = fuel + 1 + fs.length by omega, ih]
    simp [descend_left, rd_left_ok s h1.1, hl, ht0]
  | Frame.R _ _ _ :: _, _, _, _, hL, _, _ => absurd hL (by simp [AllL])

theorem descend_right_plug {s : Store} : ∀ (fs : List Frame) (t : ATree) (par fuel : Nat),
    AllR fs → t ≠ ATree.nil → Rep s (plug fs t) par →
    descend_right (fuel + fs.length) s (plug fs t).ptr = descend_right fuel s t.ptr
  | [], _, _, _, _, _, _ => rfl
  | Frame.R l a b :: fs, t, par, fuel, hL, ht, hr => by
    have ih := descend_right_plug fs (ATree.node l a b t) par (fuel + 1) hL (by simp) hr
    have h1 := ((rep_plug (plug fs (ATree.node l a b t)).ptr par fs (ATree.node l a b t)).1
      ⟨hr, rfl⟩).1
    have hl : (s.mem a).right = t.ptr := h1.2.2.2.2.2.1
    have ht0 : t.ptr ≠ 0 := by
      intro e
      exact ht ((ATree.ptr_eq_zero_iff t h1.2.2.2.2.2.2.2).1 e)
    simp only [plug, List.length_cons]
    rw [show fuel + (fs.length + 1) = fuel + 1 + fs.length by omega, ih]
    simp [descend_right, rd_right_ok s h1.1, hl, ht0]
  | Frame.L _ _ _ :: _, _, _, _, hL, _, _ => absurd hL (by simp [AllR])

/-- With enough fuel the downward loop to the left finds the leftmost node. -/
theorem descend_left_spec {s : Store} {fs : List Frame} {m bm : Nat} {mr : ATree} {par : Nat}
    (hL : AllL fs) (hr : Rep s (plug fs (ATree.node ATree.nil m bm mr)) par) (fuel : Nat)
    (hf : fs.length < fuel) :
    descend_left fuel s (plug fs (ATree.node ATree.nil m bm mr)).ptr = Result.ok m := by
  obtain ⟨k, rfl⟩ : ∃ k, fuel = (k + 1) + fs.length := ⟨fuel - fs.length - 1, by omega⟩
  rw [descend_left_plug fs _ par (k + 1) hL (by simp) hr]
  have h1 := ((rep_plug (plug fs (ATree.node ATree.nil m bm mr)).ptr par fs _).1 ⟨hr, rfl⟩).1
  have hl : (s.mem m).left = 0 := h1.2.2.2.2.1
  simp [descend_left, rd_left_ok s h1.1, hl]

theorem descend_right_spec {s : Store} {fs : List Frame} {m bm : Nat} {ml : ATree} {par : Nat}
    (hL : AllR fs) (hr : Rep s (plug fs (ATree.node ml m bm ATree.nil)) par) (fuel : Nat)
    (hf : fs.length < fuel) :
    descend_right fuel s (plug fs (ATree.node ml m bm ATree.nil)).ptr = Result.ok m := by
  obtain ⟨k, rfl⟩ : ∃ k, fuel = (k + 1) + fs.length := ⟨fuel - fs.length - 1, by omega⟩
  rw [descend_right_plug fs _ par (k + 1) hL (by simp) hr]
  have h1 := ((rep_plug (plug fs (ATree.node ml m bm ATree.nil)).ptr par fs _).1 ⟨hr, rfl⟩).1
  have hl : (s.mem m).right = 0 := h1.2.2.2.2.2.1
  simp [descend_right, rd_right_ok s h1.1, hl]

end Avl

namespace Avl

@[simp] theorem parent_change_child (s : Store) (o n p y : Nat) :
    parent_of (change_child_eff s o n p) y = parent_of s y := by
  unfold change_child_eff
  split
  · split <;> simp
  · simp

@[simp] theorem balance_change_child (s : Store) (o n p y : Nat) :
    balance_of (change_child_eff s o n p) y = balance_of s y := by
  unfold change_child_eff
  split
  · split <;> simp
  · simp

/-- Moving the right child of a node without left child into the node's place. -/
theorem valid_detach_smallest {s : Store} {gs : List Frame} {m bm : Nat} {mr : ATree}
    (h : Valid s (plug gs (ATree.node ATree.nil m bm mr))) :
    Valid (detach_smallest s m (ctxPar gs 0)) (plug gs mr) ∧
      Agree (mr.ptr :: ctxAddrs gs) s (detach_smallest s m (ctxPar gs 0)) := by
  have hM := h.at
  have hG : ctxPar gs 0 % 4 = 0 := RepCtx.par_aligned gs m hM.ctx
  have hr : (s.mem m).right = mr.ptr := hM.right
  have hnd := hM.nd
  simp only [ATree.inorder, List.nil_append] at hnd
  have hnd2 := (List.nodup_cons.1 hnd).2
  have z_c := RepCtx.zero_not_mem_ctx gs m hM.ctx
  have q_c : mr.ptr ∉ ctxAddrs gs := ATree.ptr_not_mem z_c hM.drc
  have hqm : mr.ptr ≠ m := ATree.ptr_ne_of_not_mem hM.ne hM.nar
  let s1 := if mr.ptr ≠ 0 then set_parent_eff s mr.ptr (ctxPar gs 0) else s
  have hag1 : Agree [mr.ptr] s s1 := by
    by_cases hq : mr.ptr = 0
    · simp only [s1, hq, ne_eq, not_true_eq_false, if_false]; exact Agree.refl _ _
    · simp only [s1, hq, ne_eq, not_false_eq_true, if_true]
      exact agree_setWord _ _ _ _ (by simp)
  have hroot1 : s1.root = s.root := by
    by_cases hq : mr.ptr = 0 <;> simp [s1, hq]
  have hr1 : (s1.mem m).right = mr.ptr := by
    rw [hag1 m (by simpa using Ne.symm hqm)]; exact hr
  have e : detach_smallest s m (ctxPar gs 0) = change_child_eff s1 m mr.ptr (ctxPar gs 0) := by
    simp only [detach_smallest, hr]
    show change_child_eff s1 m (s1.mem m).right _ = _
    rw [hr1]
  rw [e]
  constructor
  · refine @valid_change_child s1 gs m mr ?_ hM.ne hM.nac ?_ hnd2
    · rw [hroot1]
      exact RepCtx.agree_ctx hag1 _ _ gs m (not_mem_of_forall (by simpa using q_c)) hM.ctx
    · by_cases hq : mr.ptr = 0
      · have : mr = ATree.nil := (ATree.ptr_eq_zero_iff mr hM.repr).1 hq
        rw [this]; trivial
      · simp only [s1, hq, ne_eq, not_false_eq_true, if_true]
        exact Rep.set_parent hM.repr (List.nodup_append.1 hnd2).1 _ hG hq
  · refine (hag1.mono (by simp)).trans (agree_change_child _ _ _ _ _ ?_)
    intro h0
    simp only [List.mem_cons]
    exact Or.inr (ctxPar_mem gs h0)

/-- Moving the left child of a node without right child into the node's place. -/
theorem valid_detach_left_child {s : Store} {gs : List Frame} {m bm : Nat} {ml : ATree}
    (h : Valid s (plug gs (ATree.node ml m bm ATree.nil))) (hml : ml.ptr ≠ 0) :
    Valid (detach_left_child s m (ctxPar gs 0)) (plug gs ml) ∧
      Agree (ml.ptr :: ctxAddrs gs) s (detach_left_child s m (ctxPar gs 0)) := by
  have hM := h.at
  have hG : ctxPar gs 0 % 4 = 0 := RepCtx.par_aligned gs m hM.ctx
  have hl : (s.mem m).left = ml.ptr := hM.left
  have hnd := hM.nd
  simp only [ATree.inorder, List.nil_append] at hnd
  have hnd2 : (ml.inorder ++ ctxAddrs gs).Nodup := by
    have h1 := List.nodup_append.1 hnd
    have h2 := (List.nodup_cons.1 h1.2.1).2
    refine List.nodup_append.2 ⟨h1.1, h2, ?_⟩
    intro a ha hb
    exact h1.2.2 ha (List.mem_cons_of_mem _ hb)
  have z_c := RepCtx.zero_not_mem_ctx gs m hM.ctx
  have q_c : ml.ptr ∉ ctxAddrs gs := ATree.ptr_not_mem z_c hM.dlc
  have hqm : ml.ptr ≠ m := ATree.ptr_ne_of_not_mem hM.ne hM.nal
  let s1 := set_parent_eff s ml.ptr (ctxPar gs 0)
  have hag1 : Agree [ml.ptr] s s1 := agree_setWord _ _ _ _ (by simp)
  have hl1 : (s1.mem m).left = ml.ptr := by
    rw [hag1 m (by simpa using Ne.symm hqm)]; exact hl
  have e : detach_left_child s m (ctxPar gs 0) = change_child_eff s1 m ml.ptr (ctxPar gs 0) := by
    simp only [detach_left_child, hl]
    show change_child_eff s1 m (s1.mem m).left _ = _
    rw [hl1]
  rw [e]
  constructor
  · refine @valid_change_child s1 gs m ml ?_ hM.ne hM.nac ?_ hnd2
    · exact RepCtx.agree_ctx hag1 _ _ gs m (not_mem_of_forall (by simpa using q_c)) hM.ctx
    · exact Rep.set_parent hM.repl (List.nodup_append.1 hnd2).1 _ hG hml
  · refine (hag1.mono (by simp)).trans (agree_change_child _ _ _ _ _ ?_)
    intro h0
    simp only [List.mem_cons]
    exact Or.inr (ctxPar_mem gs h0)

/-- Putting a node `m` from outside the tree in the place of a node `x` with a left child. -/
theorem valid_exchange_node {s : Store} {fs : List Frame} {l r : ATree} {x b m : Nat}
    (h : Valid s (plug fs (ATree.node l x b r))) (hl : l.ptr ≠ 0)
    (hm0 : m ≠ 0) (hmal : m % 4 = 0) (hm : m ∉ (plug fs (ATree.node l x b r)).inorder) :
    Valid (exchange_node s x m) (plug fs (ATree.node l m b r)) := by
  have hX := h.at
  have hG : ctxPar fs 0 % 4 = 0 := RepCtx.par_aligned fs x hX.ctx
  have hm' : m ∉ l.inorder ++ x :: r.inorder ++ ctxAddrs fs := by
    intro hmem
    exact hm ((plug_perm fs _).mem_iff.2 (by simpa [ATree.inorder] using hmem))
  simp only [List.mem_append, List.mem_cons, not_or] at hm'
  obtain ⟨⟨m_l, hmx, m_r⟩, m_c⟩ := hm'
  have z_l := Rep.zero_not_mem_sub l x hX.repl
  have z_r := Rep.zero_not_mem_sub r x hX.repr
  have z_c := RepCtx.zero_not_mem_ctx fs x hX.ctx
  have hlm : l.ptr ≠ m := ATree.ptr_ne_of_not_mem hm0 m_l
  have hlx : l.ptr ≠ x := ATree.ptr_ne_of_not_mem hX.ne hX.nal
  have hrm : r.ptr ≠ m := ATree.ptr_ne_of_not_mem hm0 m_r
  have hrx : r.ptr ≠ x := ATree.ptr_ne_of_not_mem hX.ne hX.nar
  have l_r : l.ptr ∉ r.inorder := hX.dlr _ (ATree.ptr_mem l hl)
  have l_c : l.ptr ∉ ctxAddrs fs := hX.dlc _ (ATree.ptr_mem l hl)
  have r_l : r.ptr ∉ l.inorder := ATree.ptr_not_mem z_l (fun y hy hy2 => hX.dlr y hy2 hy)
  have r_c : r.ptr ∉ ctxAddrs fs := ATree.ptr_not_mem z_c hX.drc
  -- the stores on the way
  let s4 := setLeft (set_parent_balance_eff s m (ctxPar fs 0) b) m l.ptr
  let s5 := set_parent_eff s4 l.ptr m
  let s6 := setRight s5 m r.ptr
  let s7 := if r.ptr ≠ 0 then set_parent_eff s6 r.ptr m else s6
  have hag4 : Agree [m] s s4 :=
    (agree_setWord s m _ [m] (by simp)).trans (agree_setLeft _ m _ [m] (by simp))
  have hag45 : Agree [l.ptr] s4 s5 := agree_setWord _ _ _ _ (by simp)
  have hag56 : Agree [m] s5 s6 := agree_setRight _ _ _ _ (by simp)
  have hag67 : Agree [r.ptr] s6 s7 := by
    by_cases hq : r.ptr = 0
    · simp only [s7, hq, ne_eq, not_true_eq_false, if_false]; exact Agree.refl _ _
    · simp only [s7, hq, ne_eq, not_false_eq_true, if_true]
      exact agree_setWord _ _ _ _ (by simp)
  have hag7 : Agree [m, l.ptr, r.ptr] s s7 :=
    (((hag4.mono (by simp)).trans (hag45.mono (by simp))).trans (hag56.mono (by simp))).trans
      (hag67.mono (by simp))
  have hroot7 : s7.root = s.root := by
    by_cases hq : r.ptr = 0 <;> simp [s7, s6, s5, s4, hq]
  have hp7 : ∀ y, y ≠ r.ptr → parent_of s7 y = parent_of s6 y := by
    intro y hy
    by_cases hq : r.ptr = 0
    · simp [s7, hq]
    · simp [s7, hq, parent_set_parent, hmal, hy]
  have hb7 : ∀ y, balance_of s7 y = balance_of s6 y := by
    intro y
    by_cases hq : r.ptr = 0
    · simp [s7, hq]
    · simp [s7, hq, balance_set_parent, hmal]
  have hl7 : ∀ y, (s7.mem y).left = (s6.mem y).left := by
    intro y
    by_cases hq : r.ptr = 0 <;> simp [s7, hq]
  have hr7 : ∀ y, (s7.mem y).right = (s6.mem y).right := by
    intro y
    by_cases hq : r.ptr = 0 <;> simp [s7, hq]
  have e7x : parent_of s7 x = ctxPar fs 0 := by
    rw [hag7.parent (by simp [Ne.symm hmx, Ne.symm hlx, Ne.symm hrx])]; exact hX.par
  have e : exchange_node s x m = change_child_eff s7 x m (ctxPar fs 0) := by
    have e3 : (set_parent_balance_eff s m (parent_of s x) (balance_of s x)) =
        set_parent_balance_eff s m (ctxPar fs 0) b := by rw [hX.par, hX.bal]
    have e4 : ((set_parent_balance_eff s m (ctxPar fs 0) b).mem x).left = l.ptr := by
      simp [hX.left]
    have e5 : (s4.mem m).left = l.ptr := by simp [s4]
    have e6 : (s5.mem x).right = r.ptr := by simp [s5, s4, hX.right]
    have e7 : (s6.mem m).right = r.ptr := by simp [s6]
    simp only [exchange_node, e3, e4]
    show change_child_eff
      (if ((setRight (set_parent_eff s4 (s4.mem m).left m) m
          ((set_parent_eff s4 (s4.mem m).left m).mem x).right).mem m).right ≠ 0 then _ else _) x m _ = _
    rw [e5]
    show change_child_eff
      (if ((setRight s5 m (s5.mem x).right).mem m).right ≠ 0 then
          set_parent_eff (setRight s5 m (s5.mem x).right)
            ((setRight s5 m (s5.mem x).right).mem m).right m
        else setRight s5 m (s5.mem x).right) x m _ = _
    rw [e6]
    show change_child_eff (if (s6.mem m).right ≠ 0 then set_parent_eff s6 (s6.mem m).right m
      else s6) x m _ = _
    rw [e7]
    show change_child_eff s7 x m (parent_of s7 x) = _
    rw [e7x]
  rw [e]
  have key := @valid_change_child s7 fs x (ATree.node l m b r)
    ?_ hX.ne hX.nac ?_ ?_
  · simpa using key
  · rw [hroot7]
    refine RepCtx.agree_ctx hag7 _ _ fs x (not_mem_of_forall ?_) hX.ctx
    simp only [List.forall_mem_cons, List.not_mem_nil, false_implies, implies_true, and_true]
    exact ⟨m_c, l_c, r_c⟩
  · refine ⟨hm0, hmal, ?_, ?_, ?_, ?_, ?_, ?_⟩
    · rw [hp7 m (Ne.symm hrm)]
      simp [s6, s5, s4, parent_set_parent, parent_set_parent_balance, hmal, hG,
        hX.bal ▸ avl_balance_lt s x, Ne.symm hlm]
    · rw [hb7]
      simp [s6, s5, s4, balance_set_parent, balance_set_parent_balance, hmal, hG,
        hX.bal ▸ avl_balance_lt s x]
    · rw [hl7]; simp [s6, s5, s4]
    · rw [hr7]; simp [s6]
    · have h4 : Rep s4 l x := Rep.agree hag4 l x (not_mem_of_forall (by simpa using m_l)) hX.repl
      have h5 : Rep s5 l m := Rep.set_parent h4 (List.nodup_append.1 hX.nd).1 m hmal hl
      have hag57 : Agree [m, r.ptr] s5 s7 := (hag56.mono (by simp)).trans (hag67.mono (by simp))
      refine Rep.agree hag57 l m (not_mem_of_forall ?_) h5
      simp only [List.forall_mem_cons, List.not_mem_nil, false_implies, implies_true, and_true]
      exact ⟨m_l, r_l⟩
    · have hag6 : Agree [m, l.ptr] s s6 :=
        ((hag4.mono (by simp)).trans (hag45.mono (by simp))).trans (hag56.mono (by simp))
      have h6 : Rep s6 r x := by
        refine Rep.agree hag6 r x (not_mem_of_forall ?_) hX.repr
        simp only [List.forall_mem_cons, List.not_mem_nil, false_implies, implies_true, and_true]
        exact ⟨m_r, l_r⟩
      by_cases hq : r.ptr = 0
      · have : r = ATree.nil := (ATree.ptr_eq_zero_iff r hX.repr).1 hq
        rw [this]; trivial
      · simp only [s7, hq, ne_eq, not_false_eq_true, if_true]
        have hndr : r.inorder.Nodup := by
          have := (List.nodup_append.1 hX.nd).2.1
          exact (List.nodup_append.1 (List.nodup_cons.1 this).2).1
        exact Rep.set_parent h6 hndr m hmal hq
  · have hnd := hX.nd
    simp only [ATree.inorder, List.append_assoc, List.cons_append]
    have h1 := List.nodup_append.1 hnd
    have h2 := List.nodup_cons.1 h1.2.1
    refine List.nodup_append.2 ⟨h1.1, List.nodup_cons.2 ⟨?_, h2.2⟩, ?_⟩
    · simp only [List.mem_append, not_or]; exact ⟨m_r, m_c⟩
    · intro a ha hb
      simp only [List.mem_cons, List.mem_append] at hb
      rcases hb with hb | hb | hb
      · exact m_l (hb ▸ ha)
      · exact hX.dlr a ha hb
      · exact hX.dlc a ha hb

end Avl

namespace Avl

theorem erase_append_cons {A B : List Nat} {x : Nat} (hx : x ∉ A) :
    (A ++ x :: B).erase x = A ++ B := by
  induction A with
  | nil => simp
  | cons a A ih =>
    simp only [List.mem_cons, not_or] at hx
    simp [List.erase_cons, Ne.symm hx.1, ih hx.2, hx.1]

theorem ite_set_parent_ok (s : Store) (q p : Nat) :
    (if q ≠ 0 then avl_set_parent s q p else pure s) =
      Result.ok (if q ≠ 0 then set_parent_eff s q p else s) := by
  by_cases h : q = 0
  · simp [h]
  · simp [h, avl_set_parent_ok s p h]

/-- Block `erase_node_move_up` when the node is not `NULL`. -/
theorem erase_node_move_up_ok (s : Store) {m : Nat} (sp : Nat) (hm : m ≠ 0) :
    erase_node_move_up s m sp = Result.ok (detach_smallest s m sp) := by
  simp only [erase_node_move_up, detach_smallest, rd_right_ok _ hm, Result.ok_bind]
  split
  · next h =>
    simp only [avl_set_parent_ok _ _ h, Result.ok_bind, rd_right_ok _ hm, avl_change_child_ok]
  · next h =>
    simp only [Result.pure_eq, Result.ok_bind, rd_right_ok _ hm, avl_change_child_ok]

/-- Block `erase_node_exchange` when neither node is `NULL` and the node has a left child. -/
theorem erase_node_exchange_ok (s2 : Store) {x m : Nat} (hx : x ≠ 0) (hm : m ≠ 0)
    (hxm : x ≠ m) (hl : (s2.mem x).left ≠ 0) :
    erase_node_exchange s2 x m = Result.ok (exchange_node s2 x m) := by
  have hsl : ((setLeft (set_parent_balance_eff s2 m (parent_of s2 x) (balance_of s2 x)) m
      ((set_parent_balance_eff s2 m (parent_of s2 x) (balance_of s2 x)).mem x).left).mem m).left
      ≠ 0 := by
    simpa using hl
  simp only [erase_node_exchange, exchange_node, avl_parent_ok _ hx, avl_balance_ok _ hx,
    avl_set_parent_balance_ok _ _ _ hm, rd_left_ok _ hx, wr_left_ok _ _ hm, rd_left_ok _ hm,
    avl_set_parent_ok _ _ hsl, rd_right_ok _ hx, wr_right_ok _ _ hm, rd_right_ok _ hm,
    Result.ok_bind]
  split
  · next h =>
    simp only [avl_set_parent_ok _ _ h, Result.ok_bind, avl_parent_ok _ hx, avl_change_child_ok]
  · next h =>
    simp only [Result.pure_eq, Result.ok_bind, avl_parent_ok _ hx, avl_change_child_ok]

/-- Function `avl_erase_node` at a node without left child. -/
theorem erase_node_no_left {s : Store} {fs : List Frame} {x b : Nat} {r : ATree}
    (h : Valid s (plug fs (ATree.node ATree.nil x b r))) (fuel : Nat) :
    avl_erase_node fuel s x =
      Result.ok (detach_smallest s x (ctxPar fs 0), ctxPar fs 0, ctxIsRight fs) := by
  have hX := h.at
  have hx := hX.ne
  have hl : (s.mem x).left = 0 := hX.left
  have hG : ctxPar fs 0 % 4 = 0 := RepCtx.par_aligned fs x hX.ctx
  have hrx : r.ptr ≠ x := ATree.ptr_ne_of_not_mem hX.ne hX.nar
  by_cases hr : (s.mem x).right = 0
  · simp [avl_erase_node, detach_smallest, rd_left_ok s hx, rd_right_ok s hx, hl, hr,
      avl_is_right_child_ok s hx, avl_parent_ok _ hx, avl_change_child_ok, hX.par, hX.isr]
  · have hr' : r.ptr ≠ 0 := by rw [← hX.right]; exact hr
    have e1 : parent_of (set_parent_eff s r.ptr (ctxPar fs 0)) x = ctxPar fs 0 := by
      rw [parent_set_parent _ _ _ _ hG]; simp [Ne.symm hrx, hX.par]
    simp [avl_erase_node, detach_smallest, rd_left_ok _ hx, rd_right_ok _ hx, hl, hX.right, hr',
      avl_is_right_child_ok s hx, avl_parent_ok _ hx, avl_set_parent_ok _ _ hr',
      avl_change_child_ok, hX.par, hX.isr, e1]

/-- Function `avl_erase_node` at a node with a left child and no right child. -/
theorem erase_node_no_right {s : Store} {fs : List Frame} {x b : Nat} {l : ATree}
    (h : Valid s (plug fs (ATree.node l x b ATree.nil))) (hl : l.ptr ≠ 0) (fuel : Nat) :
    avl_erase_node fuel s x =
      Result.ok (detach_left_child s x (ctxPar fs 0), ctxPar fs 0, ctxIsRight fs) := by
  have hX := h.at
  have hx := hX.ne
  have hr : (s.mem x).right = 0 := hX.right
  have hG : ctxPar fs 0 % 4 = 0 := RepCtx.par_aligned fs x hX.ctx
  have hlx : l.ptr ≠ x := ATree.ptr_ne_of_not_mem hX.ne hX.nal
  have e1 : parent_of (set_parent_eff s l.ptr (ctxPar fs 0)) x = ctxPar fs 0 := by
    rw [parent_set_parent _ _ _ _ hG]; simp [Ne.symm hlx, hX.par]
  simp [avl_erase_node, detach_left_child, rd_left_ok _ hx, rd_right_ok _ hx, hX.left, hl, hr,
    avl_is_right_child_ok s hx, avl_parent_ok _ hx, avl_set_parent_ok _ _ hl,
    avl_change_child_ok, hX.par, hX.isr, e1]

theorem plug_ptr_of_ne_nil : ∀ (fs : List Frame) (t u : ATree), fs ≠ [] →
    (plug fs t).ptr = (plug fs u).ptr
  | [], _, _, h => absurd rfl h
  | [Frame.L _ _ _], _, _, _ => rfl
  | [Frame.R _ _ _], _, _, _ => rfl
  | Frame.L a b r :: f :: fs, t, u, _ => by
    simp only [plug]
    exact plug_ptr_of_ne_nil (f :: fs) _ _ (by simp)
  | Frame.R l a b :: f :: fs, t, u, _ => by
    simp only [plug]
    exact plug_ptr_of_ne_nil (f :: fs) _ _ (by simp)

theorem plug_ptr_mem_ctx : ∀ (fs : List Frame) (t : ATree), fs ≠ [] →
    (plug fs t).ptr ∈ ctxAddrs fs
  | [], _, h => absurd rfl h
  | [Frame.L _ _ _], _, _ => by simp [plug, ctxAddrs]
  | [Frame.R _ _ _], _, _ => by simp [plug, ctxAddrs]
  | Frame.L a b r :: f :: fs, t, _ => by
    have := plug_ptr_mem_ctx (f :: fs) (ATree.node t a b r) (by simp)
    simp only [plug] at this ⊢
    simp only [ctxAddrs, List.mem_cons, List.mem_append]
    right; right
    cases f <;> simpa [ctxAddrs, plug] using this
  | Frame.R l a b :: f :: fs, t, _ => by
    have := plug_ptr_mem_ctx (f :: fs) (ATree.node l a b t) (by simp)
    simp only [plug] at this ⊢
    simp only [ctxAddrs, List.mem_cons, List.mem_append]
    right; right
    cases f <;> simpa [ctxAddrs, plug] using this

/-- Function `avl_erase_node` at a node with two children: `m` is the leftmost node of the
right subtree, `rfs` the path from it up to the right child. -/
theorem erase_node_two {s : Store} {fs rfs : List Frame} {x b m bm : Nat} {l mr : ATree}
    (h : Valid s (plug fs (ATree.node l x b (plug rfs (ATree.node ATree.nil m bm mr)))))
    (hl : l.ptr ≠ 0) (hL : AllL rfs) (fuel : Nat) (hf : rfs.length < fuel) :
    avl_erase_node fuel s x =
      Result.ok (exchange_node (detach_smallest s m (ctxPar (rfs ++ Frame.R l x b :: fs) 0)) x m,
        ctxPar (rfs ++ Frame.R l m b :: fs) 0, ctxIsRight (rfs ++ Frame.R l m b :: fs)) ∧
    Valid (exchange_node (detach_smallest s m (ctxPar (rfs ++ Frame.R l x b :: fs) 0)) x m)
      (plug (rfs ++ Frame.R l m b :: fs) mr) := by
  have hX := h.at
  have h' : Valid s (plug (rfs ++ Frame.R l x b :: fs) (ATree.node ATree.nil m bm mr)) := by
    rw [plug_append]; exact h
  have hM := h'.at
  have hxl : (s.mem x).left ≠ 0 := by rw [hX.left]; exact hl
  have hrp : (plug rfs (ATree.node ATree.nil m bm mr)).ptr ≠ 0 := by
    intro e
    have := (ATree.ptr_eq_zero_iff _ hX.repr).1 e
    cases rfs with
    | nil => simp [plug] at this
    | cons f rfs =>
      have := plug_ptr_mem_ctx (f :: rfs) (ATree.node ATree.nil m bm mr) (by simp)
      rw [e] at this
      have hz := RepCtx.zero_not_mem_ctx _ _ hM.ctx
      rw [ctxAddrs_append] at hz
      exact hz (List.mem_append_left _ this)
  have hdesc := descend_left_spec hL hX.repr fuel hf
  obtain ⟨hd, hagd⟩ := valid_detach_smallest h'
  have hm_fresh : m ∉ (plug (rfs ++ Frame.R l x b :: fs) mr).inorder := by
    intro hmem
    rcases List.mem_append.1 ((plug_perm _ mr).mem_iff.1 hmem) with hmem | hmem
    · exact hM.nar hmem
    · exact hM.nac hmem
  have hd' : Valid (detach_smallest s m (ctxPar (rfs ++ Frame.R l x b :: fs) 0))
      (plug fs (ATree.node l x b (plug rfs mr))) := by
    rw [plug_append] at hd; exact hd
  have hex := valid_exchange_node hd' hl hM.ne hM.al (by rw [plug_append] at hm_fresh; exact hm_fresh)
  refine ⟨?_, by rw [plug_append]; exact hex⟩
  have hxm : x ≠ m := by
    intro e
    apply hM.nac
    rw [ctxAddrs_append, ← e]
    exact List.mem_append_right _ (by simp [ctxAddrs])
  have hl2 : ((detach_smallest s m (ctxPar (rfs ++ Frame.R l x b :: fs) 0)).mem x).left ≠ 0 := by
    rw [hd'.at.left]; exact hl
  simp only [avl_erase_node, rd_left_ok s hX.ne, rd_right_ok s hX.ne, hxl, hX.right, hrp,
    false_and, and_false, if_false, hdesc, avl_parent_ok s hM.ne, hM.par, Result.ok_bind,
    erase_node_move_up_ok s _ hM.ne, erase_node_exchange_ok _ hX.ne hM.ne hxm hl2]
  cases rfs with
  | nil =>
    simp only [plug, ATree.ptr_node, List.nil_append, ctxPar_R, ctxIsRight_R, if_true,
      Result.pure_eq, Result.ok_bind]
  | cons f rfs =>
    have hne : m ≠ (plug (f :: rfs) (ATree.node ATree.nil m bm mr)).ptr := by
      intro e
      have := plug_ptr_mem_ctx (f :: rfs) (ATree.node ATree.nil m bm mr) (by simp)
      rw [← e] at this
      apply hM.nac
      rw [ctxAddrs_append]
      exact List.mem_append_left _ this
    simp only [hne, if_false, avl_is_right_child_ok s hM.ne, hM.isr, Result.ok_bind,
      Result.pure_eq]
    rw [ctxPar_append_of_ne_nil (f :: rfs) _ 0 0 (by simp),
      ctxPar_append_of_ne_nil (f :: rfs) (Frame.R l m b :: fs) 0 0 (by simp),
      ctxIsRight_append_of_ne_nil (f :: rfs) _ (by simp),
      ctxIsRight_append_of_ne_nil (f :: rfs) (Frame.R l m b :: fs) (by simp)]

end Avl

namespace Avl

theorem ctx_not_mem_before_after {fs : List Frame} {x : Nat} (h : x ∉ ctxAddrs fs) :
    x ∉ ctxBefore fs ∧ x ∉ ctxAfter fs := by
  constructor
  · intro hm; exact h ((ctxAddrs_perm fs).mem_iff.2 (List.mem_append_left _ hm))
  · intro hm; exact h ((ctxAddrs_perm fs).mem_iff.2 (List.mem_append_right _ hm))

/-- In-order sequence of a valid tree without one of its nodes. -/
theorem erase_plug {s : Store} {fs : List Frame} {l r : ATree} {x b : Nat}
    (h : Valid s (plug fs (ATree.node l x b r))) :
    (plug fs (ATree.node l x b r)).inorder.erase x =
      ctxBefore fs ++ (l.inorder ++ r.inorder) ++ ctxAfter fs := by
  have hX := h.at
  have hb := (ctx_not_mem_before_after hX.nac).1
  rw [inorder_plug]
  have e : ctxBefore fs ++ (ATree.node l x b r).inorder ++ ctxAfter fs =
      (ctxBefore fs ++ l.inorder) ++ x :: (r.inorder ++ ctxAfter fs) := by
    simp [ATree.inorder]
  rw [e, erase_append_cons (by
    simp only [List.mem_append, not_or]; exact ⟨hb, hX.nal⟩)]
  simp

theorem ctxPar_eq_zero {s : Store} {rp p : Nat} : ∀ (fs : List Frame), RepCtx s fs rp 0 p →
    ctxPar fs 0 = 0 → fs = []
  | [], _, _ => rfl
  | Frame.L _ _ _ :: _, hr, h0 => absurd h0 hr.1
  | Frame.R _ _ _ :: _, hr, h0 => absurd h0 hr.1

theorem ctxHeight_R_addr (rfs fs : List Frame) (l : ATree) (x m b h : Nat) :
    ctxHeight (rfs ++ Frame.R l x b :: fs) h = ctxHeight (rfs ++ Frame.R l m b :: fs) h := by
  simp only [ctxHeight_append, ctxHeight]

theorem ctxAVL_R_addr (rfs fs : List Frame) (l : ATree) (x m b h : Nat) :
    CtxAVL (rfs ++ Frame.R l x b :: fs) h ↔ CtxAVL (rfs ++ Frame.R l m b :: fs) h := by
  simp only [ctxAVL_append, CtxAVL]

/-- Function `avl_erase_node` on a valid store: the store afterwards holds the tree with the
node taken out, seen from the position where a subtree lost one level; the returned node and
`*removed_right` describe that position. -/
theorem erase_node_spec {s : Store} {fs : List Frame} {l r : ATree} {x b : Nat}
    (h : Valid s (plug fs (ATree.node l x b r))) (fuel : Nat) (hf : r.height ≤ fuel) :
    ∃ s2 fs1 sub1, avl_erase_node fuel s x = Result.ok (s2, ctxPar fs1 0, ctxIsRight fs1) ∧
      Valid s2 (plug fs1 sub1) ∧
      (plug fs1 sub1).inorder = (plug fs (ATree.node l x b r)).inorder.erase x ∧
      ctxHeight fs1 (sub1.height + 1) = (plug fs (ATree.node l x b r)).height ∧
      ((plug fs (ATree.node l x b r)).AVL → sub1.AVL ∧ CtxAVL fs1 (sub1.height + 1)) := by
  rw [erase_plug h]
  cases l with
  | nil =>
    refine ⟨_, fs, r, erase_node_no_left h fuel, (valid_detach_smallest h).1, ?_, ?_, ?_⟩
    · rw [inorder_plug]; simp [ATree.inorder]
    · rw [height_plug]; simp [ATree.height]
    · intro ha
      obtain ⟨⟨_, har, _⟩, hc⟩ := (avl_plug fs _).1 ha
      refine ⟨har, ?_⟩
      simpa [ATree.height] using hc
  | node ll la lb lr =>
    cases r with
    | nil =>
      refine ⟨_, fs, ATree.node ll la lb lr, erase_node_no_right h (by simpa using h.at.repl.1)
        fuel, (valid_detach_left_child h (by simpa using h.at.repl.1)).1, ?_, ?_, ?_⟩
      · rw [inorder_plug]; simp [ATree.inorder]
      · rw [height_plug]; simp [ATree.height]
      · intro ha
        obtain ⟨⟨hal, _, _⟩, hc⟩ := (avl_plug fs _).1 ha
        refine ⟨hal, ?_⟩
        simpa [ATree.height] using hc
    | node rl ra rb rr =>
      obtain ⟨m, bm, mr, hmin⟩ := minNode_shape (ATree.node rl ra rb rr) (by simp)
      have hr := plug_min (ATree.node rl ra rb rr)
      rw [hmin] at hr
      have hL := allL_minCtx (ATree.node rl ra rb rr)
      generalize minCtx (ATree.node rl ra rb rr) = rfs at hr hL
      rw [← hr] at h hf ⊢
      have hlen : rfs.length < fuel := by
        have := ctxHeight_ge rfs (ATree.node ATree.nil m bm mr).height
        rw [height_plug] at hf
        simp only [ATree.height] at this hf
        omega
      obtain ⟨e, hv⟩ := erase_node_two h (by simpa using h.at.repl.1) hL fuel hlen
      have e2 : plug fs (ATree.node (ATree.node ll la lb lr) x b
          (plug rfs (ATree.node ATree.nil m bm mr))) =
          plug (rfs ++ Frame.R (ATree.node ll la lb lr) x b :: fs)
            (ATree.node ATree.nil m bm mr) := by
        rw [plug_append]; rfl
      refine ⟨_, _, mr, e, hv, ?_, ?_, ?_⟩
      · rw [inorder_plug, inorder_plug]
        simp [ATree.inorder, ctxBefore_append, ctxAfter_append, ctxBefore, ctxAfter,
          ctxBefore_allL rfs hL]
      · rw [← ctxHeight_R_addr rfs fs _ x m b, e2, height_plug]
        simp [ATree.height]
      · intro ha
        rw [e2] at ha
        obtain ⟨⟨_, har, _⟩, hc⟩ := (avl_plug _ _).1 ha
        refine ⟨har, ?_⟩
        rw [← ctxAVL_R_addr rfs fs _ x m b]
        simpa [ATree.height] using hc

/-- Function `avl_erase` on a valid AVL tree. -/
theorem erase_spec {s : Store} {t : ATree} (hv : Valid s t) (ha : t.AVL) {x : Nat}
    (hx : x ∈ t.inorder) (fuel : Nat) (hf : t.height ≤ fuel) :
    ∃ s1 t1, avl_erase fuel s x = Result.ok s1 ∧ Valid s1 t1 ∧ t1.AVL ∧
      t1.inorder = t.inorder.erase x ∧ (t1.height = t.height ∨ t1.height + 1 = t.height) := by
  obtain ⟨fs, l, b, r, rfl⟩ := exists_plug_of_mem t x hx
  have hrh : r.height ≤ fuel := by
    have := ctxHeight_ge fs (ATree.node l x b r).height
    rw [height_plug] at hf
    simp only [ATree.height] at this hf
    omega
  obtain ⟨s2, fs1, sub1, e, hv2, hi, hh, hav⟩ := erase_node_spec hv fuel hrh
  obtain ⟨ha1, hc1⟩ := hav ha
  have hlen : fs1.length < fuel := by
    have := ctxHeight_ge fs1 (sub1.height + 1)
    omega
  obtain ⟨s1, hrun, t1, h1, h2, h3, h4⟩ := erase_balance_spec fs1 s2 sub1 sub1.height hv2 ha1 hc1
    rfl fuel hlen
  refine ⟨s1, t1, ?_, h1, h2, by rw [h3, hi], ?_⟩
  · simp only [avl_erase, e, Result.ok_bind]
    by_cases h0 : ctxPar fs1 0 = 0
    · obtain ⟨f, rfl⟩ : ∃ f, fuel = f + 1 := ⟨fuel - 1, by omega⟩
      rw [h0] at hrun
      simp only [avl_erase_balance, if_true, Result.pure_eq] at hrun
      simp [h0, hrun]
    · simp [h0, hrun]
  · rw [← hh]
    simpa using h4

/-- Function `avl_insert` of a fresh node at an empty position of a valid AVL tree. -/
theorem insert_spec {s : Store} {fs : List Frame} (hv : Valid s (plug fs ATree.nil))
    (ha : (plug fs ATree.nil).AVL) {n : Nat} (hn : n ≠ 0) (hal : n % 4 = 0)
    (hfresh : n ∉ (plug fs ATree.nil).inorder) (fuel : Nat) (hf : fs.length < fuel) :
    ∃ s1 t1, avl_insert fuel s n (ctxPar fs 0) (ctxLink fs) = Result.ok s1 ∧ Valid s1 t1 ∧
      t1.AVL ∧
      t1.inorder = ctxBefore fs ++ n :: ctxAfter fs ∧
      (t1.height = (plug fs ATree.nil).height ∨ t1.height = (plug fs ATree.nil).height + 1) := by
  have hv1 := valid_link_node hv n hn hal hfresh
  obtain ⟨_, hc⟩ := (avl_plug fs _).1 ha
  obtain ⟨s1, hrun, t1, h1, h2, h3, h4⟩ := insert_balance_spec fs _ ATree.nil n AVL_NEUTRAL
    ATree.nil 0 hv1 ⟨trivial, trivial, Or.inl ⟨rfl, rfl⟩⟩ hc rfl (Or.inl rfl) fuel hf
  have hlink : (∀ q, ctxLink fs = Link.left q → q ≠ 0) ∧
      (∀ q, ctxLink fs = Link.right q → q ≠ 0) := by
    have hc0 := ((valid_plug fs _).1 hv).2.1
    cases fs with
    | nil => simp [ctxLink]
    | cons f fs =>
      cases f with
      | L a b r => simpa [ctxLink] using hc0.1
      | R l a b => simpa [ctxLink] using hc0.1
  refine ⟨s1, t1, ?_, h1, h2, ?_, ?_⟩
  · simp only [avl_insert, avl_link_node_ok s _ _ hn hlink, Result.ok_bind, hrun]
  · rw [h3, inorder_plug]; simp [ATree.inorder]
  · rw [height_plug]
    simpa [ATree.height] using h4

end Avl

namespace Avl

/-! ## Traversal -/

theorem minCtx_length_lt (t : ATree) (ht : t ≠ ATree.nil) : (minCtx t).length < t.height := by
  obtain ⟨m, bm, mr, hmin⟩ := minNode_shape t ht
  have h1 := ctxHeight_ge (minCtx t) (minNode t).height
  rw [← height_plug, plug_min] at h1
  rw [hmin] at h1
  simp only [ATree.height] at h1
  omega

theorem maxCtx_length_lt (t : ATree) (ht : t ≠ ATree.nil) : (maxCtx t).length < t.height := by
  obtain ⟨ml, m, bm, hmax⟩ := maxNode_shape t ht
  have h1 := ctxHeight_ge (maxCtx t) (maxNode t).height
  rw [← height_plug, plug_max] at h1
  rw [hmax] at h1
  simp only [ATree.height] at h1
  omega

theorem inorder_head (t : ATree) (ht : t ≠ ATree.nil) :
    ∃ rest, t.inorder = (minNode t).ptr :: rest := by
  obtain ⟨m, bm, mr, hmin⟩ := minNode_shape t ht
  have h1 := inorder_plug (minCtx t) (minNode t)
  rw [plug_min, ctxBefore_allL _ (allL_minCtx t), hmin] at h1
  exact ⟨mr.inorder ++ ctxAfter (minCtx t), by rw [h1, hmin]; simp [ATree.inorder]⟩

theorem inorder_last (t : ATree) (ht : t ≠ ATree.nil) :
    ∃ front, t.inorder = front ++ [(maxNode t).ptr] := by
  obtain ⟨ml, m, bm, hmax⟩ := maxNode_shape t ht
  have h1 := inorder_plug (maxCtx t) (maxNode t)
  rw [plug_max, ctxAfter_allR _ (allR_maxCtx t), hmax] at h1
  exact ⟨ctxBefore (maxCtx t) ++ ml.inorder, by rw [h1, hmax]; simp [ATree.inorder]⟩

/-- The downward loop to the left from the top of a laid-out tree. -/
theorem descend_left_min {s : Store} {t : ATree} {par : Nat} (hr : Rep s t par)
    (ht : t ≠ ATree.nil) (fuel : Nat) (hf : t.height ≤ fuel) :
    descend_left fuel s t.ptr = Result.ok (minNode t).ptr := by
  obtain ⟨m, bm, mr, hmin⟩ := minNode_shape t ht
  have hlen := minCtx_length_lt t ht
  have hp := plug_min t
  rw [hmin] at hp
  have h1 := @descend_left_spec s (minCtx t) m bm mr par
    (allL_minCtx t) (by rw [hp]; exact hr) fuel (by omega)
  rw [hp] at h1
  rw [h1, hmin]; rfl

theorem descend_right_max {s : Store} {t : ATree} {par : Nat} (hr : Rep s t par)
    (ht : t ≠ ATree.nil) (fuel : Nat) (hf : t.height ≤ fuel) :
    descend_right fuel s t.ptr = Result.ok (maxNode t).ptr := by
  obtain ⟨ml, m, bm, hmax⟩ := maxNode_shape t ht
  have hlen := maxCtx_length_lt t ht
  have hp := plug_max t
  rw [hmax] at hp
  have h1 := @descend_right_spec s (maxCtx t) m bm ml par
    (allR_maxCtx t) (by rw [hp]; exact hr) fuel (by omega)
  rw [hp] at h1
  rw [h1, hmax]; rfl

/-- Function `avl_first` on a valid store. -/
theorem avl_first_spec {s : Store} {t : ATree} (hv : Valid s t) (fuel : Nat)
    (hf : t.height ≤ fuel) : avl_first fuel s = Result.ok (t.inorder.head?.getD 0) := by
  by_cases ht : t = ATree.nil
  · subst ht
    simp [avl_first, hv.1, ATree.inorder]
  · have h0 : t.ptr ≠ 0 := fun e => ht ((ATree.ptr_eq_zero_iff t hv.2.1).1 e)
    obtain ⟨rest, hrest⟩ := inorder_head t ht
    simp only [avl_first, hv.1, h0, if_false, descend_left_min hv.2.1 ht fuel hf, hrest,
      List.head?_cons, Option.getD_some]

/-- Function `avl_last` on a valid store. -/
theorem avl_last_spec {s : Store} {t : ATree} (hv : Valid s t) (fuel : Nat)
    (hf : t.height ≤ fuel) : avl_last fuel s = Result.ok (t.inorder.getLast?.getD 0) := by
  by_cases ht : t = ATree.nil
  · subst ht
    simp [avl_last, hv.1, ATree.inorder]
  · have h0 : t.ptr ≠ 0 := fun e => ht ((ATree.ptr_eq_zero_iff t hv.2.1).1 e)
    obtain ⟨front, hfront⟩ := inorder_last t ht
    simp only [avl_last, hv.1, h0, if_false, descend_right_max hv.2.1 ht fuel hf, hfront]
    simp [List.getLast?_append]

/-- The upward loop of `avl_next`. -/
theorem climb_from_right_spec {s : Store} {rp : Nat} : ∀ (fs : List Frame) (p fuel : Nat),
    RepCtx s fs rp 0 p → p ≠ 0 → p ∉ ctxAddrs fs → (ctxAddrs fs).Nodup → fs.length < fuel →
    climb_from_right fuel s p (ctxPar fs 0) = Result.ok ((ctxAfter fs).head?.getD 0)
  | [], p, fuel, _, _, _, _, hf => by
    obtain ⟨f, rfl⟩ : ∃ f, fuel = f + 1 := ⟨fuel - 1, by simp at hf; omega⟩
    simp [climb_from_right, ctxAfter]
  | Frame.L a b r :: fs, p, fuel, hc, hp, hm, _, hf => by
    obtain ⟨f, rfl⟩ : ∃ f, fuel = f + 1 := ⟨fuel - 1, by simp at hf; omega⟩
    obtain ⟨h1, _, _, _, _, h6, _, _⟩ := hc
    have hne : r.ptr ≠ p := ATree.ptr_ne_of_not_mem hp (fun hx => hm (by simp [ctxAddrs, hx]))
    simp [climb_from_right, h1, rd_right_ok s h1, h6, hne, ctxAfter]
  | Frame.R l a b :: fs, p, fuel, hc, hp, hm, hnd, hf => by
    obtain ⟨f, rfl⟩ : ∃ f, fuel = f + 1 := ⟨fuel - 1, by simp at hf; omega⟩
    obtain ⟨h1, _, h3, _, _, h6, _, h8⟩ := hc
    simp only [ctxAddrs, List.nodup_cons, List.mem_append, not_or] at hnd
    have ih := climb_from_right_spec fs a f h8 h1 hnd.1.2 (List.nodup_append.1 hnd.2).2.1
      (by simpa using hf)
    simp [climb_from_right, h1, rd_right_ok s h1, h6, avl_parent_ok s h1, h3, ih, ctxAfter]

/-- The upward loop of `avl_prev`. -/
theorem climb_from_left_spec {s : Store} {rp : Nat} : ∀ (fs : List Frame) (p fuel : Nat),
    RepCtx s fs rp 0 p → p ≠ 0 → p ∉ ctxAddrs fs → (ctxAddrs fs).Nodup → fs.length < fuel →
    climb_from_left fuel s p (ctxPar fs 0) = Result.ok ((ctxBefore fs).getLast?.getD 0)
  | [], p, fuel, _, _, _, _, hf => by
    obtain ⟨f, rfl⟩ : ∃ f, fuel = f + 1 := ⟨fuel - 1, by simp at hf; omega⟩
    simp [climb_from_left, ctxBefore]
  | Frame.R l a b :: fs, p, fuel, hc, hp, hm, _, hf => by
    obtain ⟨f, rfl⟩ : ∃ f, fuel = f + 1 := ⟨fuel - 1, by simp at hf; omega⟩
    obtain ⟨h1, _, _, _, h5, _, _, _⟩ := hc
    have hne : l.ptr ≠ p := ATree.ptr_ne_of_not_mem hp (fun hx => hm (by simp [ctxAddrs, hx]))
    simp [climb_from_left, h1, rd_left_ok s h1, h5, hne, ctxBefore, List.getLast?_append]
  | Frame.L a b r :: fs, p, fuel, hc, hp, hm, hnd, hf => by
    obtain ⟨f, rfl⟩ : ∃ f, fuel = f + 1 := ⟨fuel - 1, by simp at hf; omega⟩
    obtain ⟨h1, _, h3, _, h5, _, _, h8⟩ := hc
    simp only [ctxAddrs, List.nodup_cons, List.mem_append, not_or] at hnd
    have ih := climb_from_left_spec fs a f h8 h1 hnd.1.2 (List.nodup_append.1 hnd.2).2.1
      (by simpa using hf)
    simp [climb_from_left, h1, rd_left_ok s h1, h5, avl_parent_ok s h1, h3, ih, ctxBefore]

theorem ctx_length_lt_height (fs : List Frame) (l : ATree) (a b : Nat) (r : ATree) :
    fs.length < (plug fs (ATree.node l a b r)).height := by
  have := ctxHeight_ge fs (ATree.node l a b r).height
  rw [height_plug]
  simp only [ATree.height] at this ⊢
  omega

theorem sub_height_le (fs : List Frame) (t : ATree) : t.height ≤ (plug fs t).height := by
  have := ctxHeight_ge fs t.height
  rw [height_plug]; omega

/-- Function `avl_next` at a node of a valid store, given by its path. -/
theorem avl_next_at {s : Store} {fs : List Frame} {l r : ATree} {n b : Nat}
    (hv : Valid s (plug fs (ATree.node l n b r))) (fuel : Nat)
    (hf : (plug fs (ATree.node l n b r)).height ≤ fuel) :
    avl_next fuel s n = Result.ok ((r.inorder ++ ctxAfter fs).head?.getD 0) := by
  have hN := hv.at
  have hlen := ctx_length_lt_height fs l n b r
  by_cases hr : r = ATree.nil
  · subst hr
    have hnd : (ctxAddrs fs).Nodup := by
      have := hN.nd
      exact (List.nodup_cons.1 (List.nodup_append.1 this).2.1).2
    have hclimb := climb_from_right_spec fs n fuel hN.ctx hN.ne hN.nac hnd (by omega)
    simp only [avl_next, rd_right_ok s hN.ne, hN.right, ATree.ptr_nil, ne_eq, not_true_eq_false,
      if_false, Result.ok_bind, avl_parent_ok s hN.ne, hN.par, ATree.inorder, List.nil_append]
    by_cases h0 : ctxPar fs 0 = 0
    · have := ctxPar_eq_zero fs hN.ctx h0
      subst this
      simp [ctxAfter]
    · simp only [h0, if_false, hclimb]
  · have h0 : r.ptr ≠ 0 := fun e => hr ((ATree.ptr_eq_zero_iff r hN.repr).1 e)
    obtain ⟨rest, hrest⟩ := inorder_head r hr
    have hrh : r.height ≤ fuel := by
      have h1 := sub_height_le fs (ATree.node l n b r)
      simp only [ATree.height] at h1
      omega
    simp only [avl_next, rd_right_ok s hN.ne, hN.right, ne_eq, h0, not_false_eq_true, if_true,
      Result.ok_bind, descend_left_min hN.repr hr fuel hrh, hrest, List.cons_append,
      List.head?_cons, Option.getD_some]

/-- Function `avl_prev` at a node of a valid store, given by its path. -/
theorem avl_prev_at {s : Store} {fs : List Frame} {l r : ATree} {n b : Nat}
    (hv : Valid s (plug fs (ATree.node l n b r))) (fuel : Nat)
    (hf : (plug fs (ATree.node l n b r)).height ≤ fuel) :
    avl_prev fuel s n = Result.ok ((ctxBefore fs ++ l.inorder).getLast?.getD 0) := by
  have hN := hv.at
  have hlen := ctx_length_lt_height fs l n b r
  by_cases hl : l = ATree.nil
  · subst hl
    have hnd : (ctxAddrs fs).Nodup := by
      have := hN.nd
      exact (List.nodup_append.1 (List.nodup_cons.1 (List.nodup_append.1 this).2.1).2).2.1
    have hclimb := climb_from_left_spec fs n fuel hN.ctx hN.ne hN.nac hnd (by omega)
    simp only [avl_prev, rd_left_ok s hN.ne, hN.left, ATree.ptr_nil, ne_eq, not_true_eq_false,
      if_false, Result.ok_bind, avl_parent_ok s hN.ne, hN.par, ATree.inorder, List.append_nil]
    by_cases h0 : ctxPar fs 0 = 0
    · have := ctxPar_eq_zero fs hN.ctx h0
      subst this
      simp [ctxBefore]
    · simp only [h0, if_false, hclimb]
  · have h0 : l.ptr ≠ 0 := fun e => hl ((ATree.ptr_eq_zero_iff l hN.repl).1 e)
    obtain ⟨front, hfront⟩ := inorder_last l hl
    have hlh : l.height ≤ fuel := by
      have h1 := sub_height_le fs (ATree.node l n b r)
      simp only [ATree.height] at h1
      omega
    simp only [avl_prev, rd_left_ok s hN.ne, hN.left, ne_eq, h0, not_false_eq_true, if_true,
      Result.ok_bind, descend_right_max hN.repl hl fuel hlh, hfront]
    simp [List.getLast?_append]

end Avl

namespace Avl

/-! ## Slots -/

/-- An empty slot of a valid tree is an empty position on some path. -/
theorem slot_path {s : Store} {t : ATree} {parent : Nat} {link : Link} (hv : Valid s t)
    (hs : EmptySlot s t parent link) :
    ∃ fs, t = plug fs ATree.nil ∧ parent = ctxPar fs 0 ∧ link = ctxLink fs := by
  rcases hs with ⟨rfl, rfl, rfl⟩ | ⟨hm, hs⟩
  · exact ⟨[], rfl, rfl, rfl⟩
  · obtain ⟨fs, l, b, r, rfl⟩ := exists_plug_of_mem t parent hm
    have hA := hv.at
    rcases hs with ⟨rfl, h0⟩ | ⟨rfl, h0⟩
    · have : l = ATree.nil := (ATree.ptr_eq_zero_iff l hA.repl).1 (by rw [← hA.left]; exact h0)
      subst this
      exact ⟨Frame.L parent b r :: fs, rfl, rfl, rfl⟩
    · have : r = ATree.nil := (ATree.ptr_eq_zero_iff r hA.repr).1 (by rw [← hA.right]; exact h0)
      subst this
      exact ⟨Frame.R l parent b :: fs, rfl, rfl, rfl⟩

theorem height_le_length : ∀ (t : ATree), t.height ≤ t.inorder.length
  | ATree.nil => by simp [ATree.height, ATree.inorder]
  | ATree.node l a b r => by
    have hl := height_le_length l
    have hr := height_le_length r
    simp only [ATree.height, ATree.inorder, List.length_append, List.length_cons]
    omega

theorem inorder_eq_nil : ∀ (t : ATree), t.inorder = [] → t = ATree.nil
  | ATree.nil, _ => rfl
  | ATree.node l a b r, h => by simp [ATree.inorder] at h

/-- The tree a store lays out below a link is determined by the store. -/
theorem Rep.unique_sub {s : Store} : ∀ (t u : ATree) (p q : Nat), Rep s t p → Rep s u q →
    t.ptr = u.ptr → t = u
  | ATree.nil, ATree.nil, _, _, _, _, _ => rfl
  | ATree.nil, ATree.node _ a _ _, _, _, _, hu, e => absurd e.symm hu.1
  | ATree.node _ a _ _, ATree.nil, _, _, ht, _, e => absurd e ht.1
  | ATree.node l a b r, ATree.node l1 a1 b1 r1, _, _, ht, hu, e => by
    have ea : a = a1 := e
    subst ea
    obtain ⟨_, _, _, h4, h5, h6, h7, h8⟩ := ht
    obtain ⟨_, _, _, g4, g5, g6, g7, g8⟩ := hu
    have hl := Rep.unique_sub l l1 a a h7 g7 (by rw [← h5, ← g5])
    have hr := Rep.unique_sub r r1 a a h8 g8 (by rw [← h6, ← g6])
    rw [hl, hr, ← h4, ← g4]

theorem Valid.unique {s : Store} {t u : ATree} (ht : Valid s t) (hu : Valid s u) : t = u :=
  Rep.unique_sub t u 0 0 ht.2.1 hu.2.1 (by rw [← ht.1, ← hu.1])

theorem Rep.links {s : Store} : ∀ (t : ATree) (par : Nat), Rep s t par → Links s t
  | ATree.nil, _, _ => trivial
  | ATree.node l a b r, _, h => ⟨h.1, h.2.2.2.2.1, h.2.2.2.2.2.1, Rep.links l a h.2.2.2.2.2.2.1,
      Rep.links r a h.2.2.2.2.2.2.2⟩

theorem Links.ptr_eq_zero {s : Store} : ∀ (t : ATree), Links s t → (t.ptr = 0 ↔ t = ATree.nil)
  | ATree.nil, _ => by simp
  | ATree.node l a b r, h => by simp [h.1]

/-- The downward loop to the left over child links alone. -/
theorem descend_left_links {s : Store} : ∀ (t : ATree) (fuel : Nat), Links s t →
    t ≠ ATree.nil → t.height ≤ fuel →
    ∃ m, descend_left fuel s t.ptr = Result.ok m ∧ t.inorder.head? = some m ∧ m ≠ 0 ∧
      (s.mem m).left = 0
  | ATree.nil, _, _, h, _ => absurd rfl h
  | ATree.node l a b r, fuel, hl, _, hf => by
    obtain ⟨f, rfl⟩ : ∃ f, fuel = f + 1 := ⟨fuel - 1, by simp [ATree.height] at hf; omega⟩
    obtain ⟨h1, h2, h3, h4, h5⟩ := hl
    by_cases hn : l = ATree.nil
    · subst hn
      refine ⟨a, ?_, by simp [ATree.inorder], h1, by simpa using h2⟩
      simp [descend_left, rd_left_ok s h1, h2]
    · have hp : l.ptr ≠ 0 := fun e => hn ((Links.ptr_eq_zero l h4).1 e)
      obtain ⟨m, e1, e2, e3, e4⟩ := descend_left_links l f h4 hn (by
        simp only [ATree.height] at hf; omega)
      refine ⟨m, ?_, ?_, e3, e4⟩
      · simp [descend_left, rd_left_ok s h1, h2, hp, e1]
      · cases hl : l.inorder with
        | nil => exact absurd (inorder_eq_nil l hl) hn
        | cons x xs =>
          rw [hl] at e2
          simpa [ATree.inorder, hl] using e2

/-- The downward loop to the right over child links alone. -/
theorem descend_right_links {s : Store} : ∀ (t : ATree) (fuel : Nat), Links s t →
    t ≠ ATree.nil → t.height ≤ fuel →
    ∃ m, descend_right fuel s t.ptr = Result.ok m ∧ t.inorder.getLast? = some m ∧ m ≠ 0 ∧
      (s.mem m).right = 0
  | ATree.nil, _, _, h, _ => absurd rfl h
  | ATree.node l a b r, fuel, hl, _, hf => by
    obtain ⟨f, rfl⟩ : ∃ f, fuel = f + 1 := ⟨fuel - 1, by simp [ATree.height] at hf; omega⟩
    obtain ⟨h1, h2, h3, h4, h5⟩ := hl
    by_cases hn : r = ATree.nil
    · subst hn
      refine ⟨a, ?_, by simp [ATree.inorder, List.getLast?_append], h1, by simpa using h3⟩
      simp [descend_right, rd_right_ok s h1, h3]
    · have hp : r.ptr ≠ 0 := fun e => hn ((Links.ptr_eq_zero r h5).1 e)
      obtain ⟨m, e1, e2, e3, e4⟩ := descend_right_links r f h5 hn (by
        simp only [ATree.height] at hf; omega)
      refine ⟨m, ?_, ?_, e3, e4⟩
      · simp [descend_right, rd_right_ok s h1, h3, hp, e1]
      · simp [ATree.inorder, List.getLast?_append, List.getLast?_cons_cons, e2]
        cases hr : r.inorder with
        | nil => exact absurd (inorder_eq_nil r hr) hn
        | cons x xs =>
          rw [hr] at e2
          simp [List.getLast?_cons_cons, e2]

/-! ## Successor and predecessor in the in-order sequence -/

theorem nodup_split_unique {L : List Nat} (hnd : L.Nodup) {x : Nat} :
    ∀ {A B A1 B1 : List Nat}, L = A ++ x :: B → L = A1 ++ x :: B1 → A = A1 ∧ B = B1 := by
  intro A
  induction A generalizing L with
  | nil =>
    intro B A1 B1 h1 h2
    cases A1 with
    | nil => rw [h1] at h2; simpa using h2
    | cons a A1 =>
      rw [h1] at h2 hnd
      simp only [List.nil_append, List.cons_append, List.cons.injEq] at h2
      obtain ⟨rfl, rfl⟩ := h2
      simp at hnd
  | cons a A ih =>
    intro B A1 B1 h1 h2
    cases A1 with
    | nil =>
      rw [h2] at h1 hnd
      simp only [List.nil_append, List.cons_append, List.cons.injEq] at h1
      obtain ⟨rfl, rfl⟩ := h1
      simp at hnd
    | cons a1 A1 =>
      rw [h1] at h2
      simp only [List.cons_append, List.cons.injEq] at h2
      obtain ⟨rfl, h2⟩ := h2
      rw [h1] at hnd
      have := ih (L := A ++ x :: B) (List.nodup_cons.1 hnd).2 rfl h2
      exact ⟨by rw [this.1], this.2⟩

/-- Function `avl_next` gives the node after `n` in the in-order sequence, `NULL` after the
last. -/
theorem avl_next_spec {s : Store} {t : ATree} (hv : Valid s t) {n : Nat} {pre post : List Nat}
    (hL : t.inorder = pre ++ n :: post) (fuel : Nat) (hf : t.height ≤ fuel) :
    avl_next fuel s n = Result.ok (post.head?.getD 0) := by
  have hm : n ∈ t.inorder := by rw [hL]; simp
  obtain ⟨fs, l, b, r, rfl⟩ := exists_plug_of_mem t n hm
  have h1 := avl_next_at hv fuel hf
  have h2 : (plug fs (ATree.node l n b r)).inorder =
      (ctxBefore fs ++ l.inorder) ++ n :: (r.inorder ++ ctxAfter fs) := by
    rw [inorder_plug]; simp [ATree.inorder]
  have := nodup_split_unique hv.2.2 hL h2
  rw [h1, this.2]

/-- Function `avl_prev` gives the node before `n` in the in-order sequence, `NULL` before the
first. -/
theorem avl_prev_spec {s : Store} {t : ATree} (hv : Valid s t) {n : Nat} {pre post : List Nat}
    (hL : t.inorder = pre ++ n :: post) (fuel : Nat) (hf : t.height ≤ fuel) :
    avl_prev fuel s n = Result.ok (pre.getLast?.getD 0) := by
  have hm : n ∈ t.inorder := by rw [hL]; simp
  obtain ⟨fs, l, b, r, rfl⟩ := exists_plug_of_mem t n hm
  have h1 := avl_prev_at hv fuel hf
  have h2 : (plug fs (ATree.node l n b r)).inorder =
      (ctxBefore fs ++ l.inorder) ++ n :: (r.inorder ++ ctxAfter fs) := by
    rw [inorder_plug]; simp [ATree.inorder]
  have := nodup_split_unique hv.2.2 hL h2
  rw [h1, this.1]

theorem Valid.zero_not_mem {s : Store} {t : ATree} (hv : Valid s t) : 0 ∉ t.inorder :=
  Rep.zero_not_mem_sub t 0 hv.2.1

end Avl

namespace Avl

/-! ## Iteration -/

theorem split_at_index (L : List Nat) (k : Nat) (hk : k < L.length) :
    L = L.take k ++ L[k] :: L.drop (k + 1) := by
  rw [← List.drop_eq_getElem_cons hk, List.take_append_drop]

/-- Function `avl_next` applied `k` times to the first node gives the node at index `k` of the
in-order sequence, and `NULL` after the last one. -/
theorem iter_next_spec {s : Store} {t : ATree} (hv : Valid s t) (fuel : Nat)
    (hf : t.height ≤ fuel) : ∀ k, k ≤ t.inorder.length →
    iter_next fuel s k (t.inorder.head?.getD 0) = Result.ok (t.inorder[k]?.getD 0)
  | 0, _ => by
    cases h : t.inorder <;> simp [iter_next, Result.pure_eq]
  | k + 1, hk => by
    have ih := iter_next_spec hv fuel hf k (by omega)
    have hk1 : k < t.inorder.length := by omega
    have hsp := split_at_index t.inorder k hk1
    have hn := avl_next_spec hv hsp fuel hf
    have e : t.inorder[k]?.getD 0 = t.inorder[k] := by
      rw [List.getElem?_eq_getElem hk1]; rfl
    rw [e] at ih
    simp only [iter_next, ih, Result.ok_bind, hn]
    rw [List.head?_drop]

/-- The loop over `avl_next` from the node at index `k` collects the rest of the in-order
sequence. -/
theorem avl_walk_spec {s : Store} {t : ATree} (hv : Valid s t) (fuel : Nat)
    (hf : t.height ≤ fuel) : ∀ (steps k : Nat), k ≤ t.inorder.length →
    t.inorder.length - k < steps →
    avl_walk fuel s steps (t.inorder[k]?.getD 0) = Result.ok (t.inorder.drop k)
  | 0, _, _, h => by omega
  | steps + 1, k, hk, hs => by
    by_cases hk1 : k < t.inorder.length
    · have hsp := split_at_index t.inorder k hk1
      have hn := avl_next_spec hv hsp fuel hf
      have e : t.inorder[k]?.getD 0 = t.inorder[k] := by
        rw [List.getElem?_eq_getElem hk1]; rfl
      have hne : t.inorder[k] ≠ 0 := fun e0 =>
        hv.zero_not_mem (e0 ▸ List.getElem_mem hk1)
      have ih := avl_walk_spec hv fuel hf steps (k + 1) (by omega) (by omega)
      rw [← List.head?_drop] at ih
      rw [e]
      simp only [avl_walk, hne, if_false, hn, Result.ok_bind, ih, Result.pure_eq]
      rw [← List.drop_eq_getElem_cons hk1]
    · have hk2 : t.inorder.length ≤ k := by omega
      rw [List.getElem?_eq_none hk2, List.drop_eq_nil_of_le hk2]
      simp [avl_walk, Result.pure_eq]

/-- A full traversal returns the in-order sequence. -/
theorem avl_traverse_spec {s : Store} {t : ATree} (hv : Valid s t) (steps fuel : Nat)
    (hf : t.height ≤ fuel) (hs : t.inorder.length < steps) :
    avl_traverse steps fuel s = Result.ok t.inorder := by
  have h1 := avl_first_spec hv fuel hf
  have h2 := avl_walk_spec hv fuel hf steps 0 (by omega) (by omega)
  have e : t.inorder[0]?.getD 0 = t.inorder.head?.getD 0 := by
    cases t.inorder <;> simp
  rw [e] at h2
  simp only [avl_traverse, h1, Result.ok_bind, h2, List.drop_zero]

/-! ## Sequences of calls -/

theorem valid_of_root_zero {s : Store} (h : s.root = 0) : Valid s ATree.nil :=
  ⟨h, trivial, List.nodup_nil⟩

/-- After any sequence of inserts and erases the store holds a valid AVL tree whose number of
nodes is the number of inserts minus the number of erases. -/
theorem reached_inv {s : Store} {i e : Nat} (h : Reached s i e) :
    ∃ t, Valid s t ∧ t.AVL ∧ t.inorder.length + e = i := by
  induction h with
  | init s h0 => exact ⟨ATree.nil, valid_of_root_zero h0, trivial, rfl⟩
  | insert node parent link fuel _ hv hs hn hal hfresh hf hrun ih =>
    obtain ⟨t0, hv0, ha0, hl0⟩ := ih
    have := hv.unique hv0
    subst this
    obtain ⟨fs, rfl, rfl, rfl⟩ := slot_path hv hs
    have hlen : fs.length < fuel := by
      have := ctxHeight_ge fs ATree.nil.height
      rw [height_plug] at hf
      simp only [ATree.height] at this hf
      omega
    obtain ⟨s2, t1, e1, hv1, ha1, hi1, _⟩ := insert_spec hv ha0 hn hal hfresh fuel hlen
    rw [hrun] at e1
    cases e1
    refine ⟨t1, hv1, ha1, ?_⟩
    rw [inorder_plug] at hl0
    rw [hi1]
    simp only [ATree.inorder, List.length_append, List.length_cons, List.length_nil] at hl0 ⊢
    omega
  | erase node fuel _ hv hm hf hrun ih =>
    obtain ⟨t0, hv0, ha0, hl0⟩ := ih
    have := hv.unique hv0
    subst this
    obtain ⟨s2, t1, e1, hv1, ha1, hi1, _⟩ := erase_spec hv ha0 hm fuel hf
    rw [hrun] at e1
    cases e1
    refine ⟨t1, hv1, ha1, ?_⟩
    rw [hi1, List.length_erase_of_mem hm]
    have := List.length_pos_of_mem hm
    omega

/-- After a sequence of inserts the store holds a valid AVL tree with exactly the inserted
nodes. -/
theorem inserted_inv {s : Store} {ns : List Nat} (h : Inserted s ns) :
    ∃ t, Valid s t ∧ t.AVL ∧ t.inorder.Perm ns := by
  induction h with
  | init s h0 => exact ⟨ATree.nil, valid_of_root_zero h0, trivial, List.Perm.refl _⟩
  | insert node parent link fuel _ hv hs hn hal hfresh hf hrun ih =>
    obtain ⟨t0, hv0, ha0, hl0⟩ := ih
    have := hv.unique hv0
    subst this
    obtain ⟨fs, rfl, rfl, rfl⟩ := slot_path hv hs
    have hlen : fs.length < fuel := by
      have := ctxHeight_ge fs ATree.nil.height
      rw [height_plug] at hf
      simp only [ATree.height] at this hf
      omega
    obtain ⟨s2, t1, e1, hv1, ha1, hi1, _⟩ := insert_spec hv ha0 hn hal hfresh fuel hlen
    rw [hrun] at e1
    cases e1
    refine ⟨t1, hv1, ha1, ?_⟩
    rw [hi1]
    rw [inorder_plug] at hl0
    simp only [ATree.inorder, List.append_nil] at hl0
    exact List.perm_middle.trans (List.Perm.cons _ hl0)

/-- Erasing all nodes of a valid AVL tree, in any order, leaves the root link `NULL`. -/
theorem erase_all_spec (fuel : Nat) : ∀ (order : List Nat) (s : Store) (t : ATree),
    Valid s t → t.AVL → order.Perm t.inorder → t.inorder.length ≤ fuel →
    ∃ s1, erase_all fuel s order = Result.ok s1 ∧ s1.root = 0
  | [], s, t, hv, _, hp, _ => by
    have : t = ATree.nil := inorder_eq_nil t (List.Perm.nil_eq hp).symm
    subst this
    exact ⟨s, rfl, hv.1⟩
  | x :: xs, s, t, hv, ha, hp, hf => by
    have hx : x ∈ t.inorder := hp.subset (List.mem_cons_self x xs)
    obtain ⟨s1, t1, e1, hv1, ha1, hi1, _⟩ := erase_spec hv ha hx fuel
      (le_trans (height_le_length t) hf)
    have hp1 : xs.Perm t1.inorder := by
      rw [hi1]
      have := List.Perm.erase x hp
      rwa [List.erase_cons_head] at this
    have hf1 : t1.inorder.length ≤ fuel := by
      rw [hi1, List.length_erase_of_mem hx]; omega
    obtain ⟨s2, e2, h2⟩ := erase_all_spec fuel xs s1 t1 hv1 ha1 hp1 hf1
    exact ⟨s2, by simp only [erase_all, e1, Result.ok_bind, e2], h2⟩

end Avl

namespace Avl

/-! ## Binary-search descent -/

theorem rd_link_plug {s : Store} : ∀ (gs : List Frame) (u : ATree), Valid s (plug gs u) →
    rd_link s (ctxLink gs) = Result.ok u.ptr
  | [], u, hv => by simp [rd_link, ctxLink, hv.1, plug]
  | Frame.L a b r :: gs, u, hv => by
    have hA := (show Valid s (plug gs (ATree.node u a b r)) from hv).at
    simp [rd_link, ctxLink, rd_left_ok s hA.ne, hA.left]
  | Frame.R l a b :: gs, u, hv => by
    have hA := (show Valid s (plug gs (ATree.node l a b u)) from hv).at
    simp [rd_link, ctxLink, rd_right_ok s hA.ne, hA.right]

/-- The descent ends at an empty position with everything before it comparing at most the new
node and the new node comparing at most everything after it. -/
theorem bst_descend_spec {s : Store} (cmp : Nat → Nat → Int)
    (htot : ∀ a b, cmp a b ≤ 0 ∨ cmp b a ≤ 0)
    (htr : ∀ a b c, cmp a b ≤ 0 → cmp b c ≤ 0 → cmp a c ≤ 0) (n : Nat) :
    ∀ (u : ATree) (gs : List Frame) (fuel : Nat), Valid s (plug gs u) →
    SortedBy cmp (plug gs u).inorder → (∀ y ∈ ctxBefore gs, cmp y n ≤ 0) →
    (∀ z ∈ ctxAfter gs, cmp n z ≤ 0) → u.height < fuel →
    ∃ fs, bst_descend cmp fuel s n (ctxPar gs 0) (ctxLink gs) =
        Result.ok (ctxPar fs 0, ctxLink fs) ∧
      plug fs ATree.nil = plug gs u ∧ (∀ y ∈ ctxBefore fs, cmp y n ≤ 0) ∧
      (∀ z ∈ ctxAfter fs, cmp n z ≤ 0)
  | ATree.nil, gs, fuel, hv, _, hb, ha, hf => by
    obtain ⟨f, rfl⟩ : ∃ f, fuel = f + 1 := ⟨fuel - 1, by omega⟩
    refine ⟨gs, ?_, rfl, hb, ha⟩
    simp [bst_descend, rd_link_plug gs _ hv, Result.pure_eq]
  | ATree.node l a b r, gs, fuel, hv, hs, hb, ha, hf => by
    obtain ⟨f, rfl⟩ : ∃ f, fuel = f + 1 := ⟨fuel - 1, by omega⟩
    have hA := hv.at
    have hs1 := hs
    simp only [SortedBy, inorder_plug, ATree.inorder, List.pairwise_append,
      List.pairwise_cons, List.mem_append, List.mem_cons] at hs1
    obtain ⟨⟨_, ⟨_, ⟨har, _⟩, hla⟩, _⟩, _, _⟩ := hs1
    simp only [ATree.height] at hf
    by_cases hc : cmp n a ≤ 0
    · obtain ⟨fs, e, hp, h1, h2⟩ := bst_descend_spec cmp htot htr n l (Frame.L a b r :: gs) f
        hv hs hb (by
          intro z hz
          simp only [ctxAfter, List.cons_append, List.mem_cons, List.mem_append] at hz
          rcases hz with rfl | hz | hz
          · exact hc
          · exact htr _ _ _ hc (har z hz)
          · exact ha z hz) (by omega)
      refine ⟨fs, ?_, hp, h1, h2⟩
      have e : bst_descend cmp f s n a (Link.left a) = Result.ok (ctxPar fs 0, ctxLink fs) := e
      simp [bst_descend, rd_link_plug gs _ hv, hA.ne, hc, e]
    · have hc1 : cmp a n ≤ 0 := (htot a n).resolve_right hc
      obtain ⟨fs, e, hp, h1, h2⟩ := bst_descend_spec cmp htot htr n r (Frame.R l a b :: gs) f
        hv hs (by
          intro y hy
          simp only [ctxBefore, List.mem_append, List.mem_cons, List.mem_singleton,
            List.not_mem_nil, or_false] at hy
          rcases hy with hy | hy | rfl
          · exact hb y hy
          · exact htr _ _ _ (hla y hy a (Or.inl rfl)) hc1
          · exact hc1) ha (by omega)
      refine ⟨fs, ?_, hp, h1, h2⟩
      have e : bst_descend cmp f s n a (Link.right a) = Result.ok (ctxPar fs 0, ctxLink fs) := e
      simp [bst_descend, rd_link_plug gs _ hv, hA.ne, hc, e]

/-- Putting the new node at a position found by the descent keeps the sequence sorted. -/
theorem sorted_insert_at {cmp : Nat → Nat → Int} {fs : List Frame} {n : Nat}
    (hs : SortedBy cmp (plug fs ATree.nil).inorder) (hb : ∀ y ∈ ctxBefore fs, cmp y n ≤ 0)
    (ha : ∀ z ∈ ctxAfter fs, cmp n z ≤ 0) :
    SortedBy cmp (ctxBefore fs ++ n :: ctxAfter fs) := by
  simp only [SortedBy, inorder_plug, ATree.inorder, List.append_nil, List.pairwise_append,
    List.pairwise_cons, List.mem_cons] at hs ⊢
  obtain ⟨h1, h2, h3⟩ := hs
  refine ⟨h1, ⟨ha, h2⟩, ?_⟩
  intro y hy z hz
  rcases hz with rfl | hz
  · exact hb y hy
  · exact h3 y hy z hz

end Avl

namespace Avl

/-! ## Insertion into a parent-consistent tree whose balance fields are arbitrary -/

/-- The upward walk of `avl_insert_balance` on a valid layout, whatever the balance fields
say, as long as a node marked as leaning to one side has a child there. -/
theorem insert_balance_pc : ∀ (fs : List Frame) (s : Store) (l : ATree) (a b : Nat) (r : ATree),
    Valid s (plug fs (ATree.node l a b r)) → (b = AVL_LEFT → l ≠ ATree.nil) →
    (b = AVL_RIGHT → r ≠ ATree.nil) → ∀ fuel, fs.length < fuel →
    ∃ s1 t1, avl_insert_balance fuel s a = Result.ok s1 ∧ Valid s1 t1 ∧
      t1.inorder = (plug fs (ATree.node l a b r)).inorder
  | [], s, l, a, b, r, hv, _, _, fuel, hf => by
    obtain ⟨f, rfl⟩ : ∃ f, fuel = f + 1 := ⟨fuel - 1, by simp at hf; omega⟩
    have hA := hv.at
    refine ⟨s, ATree.node l a b r, ?_, hv, rfl⟩
    simp [avl_insert_balance, avl_parent_ok s hA.ne, hA.par]
  | Frame.L G bG sib :: fs, s, l, a, b, r, hv, hbl, hbr, fuel, hf => by
    obtain ⟨f, rfl⟩ : ∃ f, fuel = f + 1 := ⟨fuel - 1, by simp at hf; omega⟩
    have hf' : fs.length < f := by simpa using hf
    have hA := hv.at
    have hGat : At s fs (ATree.node l a b r) G bG sib := Valid.at hv
    have hpar : parent_of s a = G := hA.par
    have hisr : is_right_child_of s a = false := hA.isr
    have hG0 := hGat.ne
    have hba := hA.bal
    have hbG := hGat.bal
    have hv0 : Valid s (plug fs (ATree.node (ATree.node l a b r) G bG sib)) := hv
    by_cases h0 : bG = AVL_NEUTRAL
    · have hv1 : Valid (set_balance_eff s G AVL_LEFT)
          (plug fs (ATree.node (ATree.node l a b r) G AVL_LEFT sib)) :=
        valid_set_balance hv0 AVL_LEFT (by decide)
      obtain ⟨s1, t1, hrun, hv2, hi⟩ := insert_balance_pc fs _ (ATree.node l a b r) G AVL_LEFT
        sib hv1 (fun _ => by simp) (fun h => by cases h) f hf'
      refine ⟨s1, t1, ?_, hv2, ?_⟩
      · simp [avl_insert_balance, avl_parent_ok s hA.ne, hpar, hG0,
          avl_is_right_child_ok s hA.ne, hisr, avl_balance_ok s hG0, hbG, h0,
          avl_set_balance_ok s _ hG0, hrun]
      · rw [hi, plug, inorder_plug, inorder_plug]; rfl
    · by_cases h1 : bG = AVL_LEFT
      · by_cases h2 : b = AVL_RIGHT
        · cases r with
          | nil => exact absurd rfl (hbr h2)
          | node gl T bT gr =>
            obtain ⟨sr, e, hv1⟩ := valid_rotate_leftright hv0
            refine ⟨_, _, ?_, hv1, ?_⟩
            · simp [avl_insert_balance, avl_parent_ok s hA.ne, hpar, hG0,
                avl_is_right_child_ok s hA.ne, hisr, avl_balance_ok s hG0, hbG, h0, h1,
                avl_balance_ok s hA.ne, hba, h2, e]
            · rw [plug, inorder_plug, inorder_plug]; simp [ATree.inorder]
        · obtain ⟨sr, e, hv1⟩ := valid_rotate_right hv0
          refine ⟨_, _, ?_, hv1, ?_⟩
          · simp [avl_insert_balance, avl_parent_ok s hA.ne, hpar, hG0,
              avl_is_right_child_ok s hA.ne, hisr, avl_balance_ok s hG0, hbG, h0, h1,
              avl_balance_ok s hA.ne, hba, h2, e]
          · rw [plug, inorder_plug, inorder_plug]; simp [ATree.inorder]
      · have hv1 : Valid (set_balance_eff s G AVL_NEUTRAL)
            (plug fs (ATree.node (ATree.node l a b r) G AVL_NEUTRAL sib)) :=
          valid_set_balance hv0 AVL_NEUTRAL (by decide)
        refine ⟨_, _, ?_, hv1, ?_⟩
        · simp [avl_insert_balance, avl_parent_ok s hA.ne, hpar, hG0,
            avl_is_right_child_ok s hA.ne, hisr, avl_balance_ok s hG0, hbG, h0, h1,
            avl_set_balance_ok s _ hG0]
        · rw [plug, inorder_plug, inorder_plug]; rfl
  | Frame.R sib G bG :: fs, s, l, a, b, r, hv, hbl, hbr, fuel, hf => by
    obtain ⟨f, rfl⟩ : ∃ f, fuel = f + 1 := ⟨fuel - 1, by simp at hf; omega⟩
    have hf' : fs.length < f := by simpa using hf
    have hA := hv.at
    have hGat : At s fs sib G bG (ATree.node l a b r) := Valid.at hv
    have hpar : parent_of s a = G := hA.par
    have hisr : is_right_child_of s a = true := hA.isr
    have hG0 := hGat.ne
    have hba := hA.bal
    have hbG := hGat.bal
    have hv0 : Valid s (plug fs (ATree.node sib G bG (ATree.node l a b r))) := hv
    by_cases h0 : bG = AVL_NEUTRAL
    · have hv1 : Valid (set_balance_eff s G AVL_RIGHT)
          (plug fs (ATree.node sib G AVL_RIGHT (ATree.node l a b r))) :=
        valid_set_balance hv0 AVL_RIGHT (by decide)
      obtain ⟨s1, t1, hrun, hv2, hi⟩ := insert_balance_pc fs _ sib G AVL_RIGHT
        (ATree.node l a b r) hv1 (fun h => by cases h) (fun _ => by simp) f hf'
      refine ⟨s1, t1, ?_, hv2, ?_⟩
      · simp [avl_insert_balance, avl_parent_ok s hA.ne, hpar, hG0,
          avl_is_right_child_ok s hA.ne, hisr, avl_balance_ok s hG0, hbG, h0,
          avl_set_balance_ok s _ hG0, hrun]
      · rw [hi, plug, inorder_plug, inorder_plug]; rfl
    · by_cases h1 : bG = AVL_LEFT
      · have hv1 : Valid (set_balance_eff s G AVL_NEUTRAL)
            (plug fs (ATree.node sib G AVL_NEUTRAL (ATree.node l a b r))) :=
          valid_set_balance hv0 AVL_NEUTRAL (by decide)
        refine ⟨_, _, ?_, hv1, ?_⟩
        · simp [avl_insert_balance, avl_parent_ok s hA.ne, hpar, hG0,
            avl_is_right_child_ok s hA.ne, hisr, avl_balance_ok s hG0, hbG, h0, h1,
            avl_set_balance_ok s _ hG0]
        · rw [plug, inorder_plug, inorder_plug]; rfl
      · by_cases h2 : b = AVL_LEFT
        · cases l with
          | nil => exact absurd rfl (hbl h2)
          | node gl T bT gr =>
            obtain ⟨sr, e, hv1⟩ := valid_rotate_rightleft hv0
            refine ⟨_, _, ?_, hv1, ?_⟩
            · simp [avl_insert_balance, avl_parent_ok s hA.ne, hpar, hG0,
                avl_is_right_child_ok s hA.ne, hisr, avl_balance_ok s hG0, hbG, h0, h1,
                avl_balance_ok s hA.ne, hba, h2, e]
            · rw [plug, inorder_plug, inorder_plug]; simp [ATree.inorder]
        · obtain ⟨sr, e, hv1⟩ := valid_rotate_left hv0
          refine ⟨_, _, ?_, hv1, ?_⟩
          · simp [avl_insert_balance, avl_parent_ok s hA.ne, hpar, hG0,
              avl_is_right_child_ok s hA.ne, hisr, avl_balance_ok s hG0, hbG, h0, h1,
              avl_balance_ok s hA.ne, hba, h2, e]
          · rw [plug, inorder_plug, inorder_plug]; simp [ATree.inorder]

/-- Function `avl_insert` at an empty position of a valid layout, whatever the balance fields
say. -/
theorem insert_pc {s : Store} {fs : List Frame} (hv : Valid s (plug fs ATree.nil)) {n : Nat}
    (hn : n ≠ 0) (hal : n % 4 = 0) (hfresh : n ∉ (plug fs ATree.nil).inorder) (fuel : Nat)
    (hf : fs.length < fuel) :
    ∃ s1 t1, avl_insert fuel s n (ctxPar fs 0) (ctxLink fs) = Result.ok s1 ∧ Valid s1 t1 ∧
      t1.inorder = ctxBefore fs ++ n :: ctxAfter fs := by
  have hv1 := valid_link_node hv n hn hal hfresh
  obtain ⟨s1, t1, hrun, h1, h3⟩ := insert_balance_pc fs _ ATree.nil n AVL_NEUTRAL
    ATree.nil hv1 (fun h => by cases h) (fun h => by cases h) fuel hf
  have hlink : (∀ q, ctxLink fs = Link.left q → q ≠ 0) ∧
      (∀ q, ctxLink fs = Link.right q → q ≠ 0) := by
    have hc0 := ((valid_plug fs _).1 hv).2.1
    cases fs with
    | nil => simp [ctxLink]
    | cons f fs =>
      cases f with
      | L a b r => simpa [ctxLink] using hc0.1
      | R l a b => simpa [ctxLink] using hc0.1
  refine ⟨s1, t1, ?_, h1, ?_⟩
  · simp only [avl_insert, avl_link_node_ok s _ _ hn hlink, Result.ok_bind, hrun]
  · rw [h3, inorder_plug]; simp [ATree.inorder]

end Avl

namespace Avl

/-! ## Supporting facts for the main theorems -/

theorem Result.eq_ok_store (r : Result Store) (h : r.isOk = true) : r = Result.ok r.store := by
  cases r with
  | ok s => rfl
  | fault => cases h
  | timeout => cases h

theorem slot_at_ctx : ∀ (fs : List Frame), SlotAt (ctxLink fs) (ctxBefore fs) (ctxAfter fs)
  | [] => ⟨rfl, rfl⟩
  | Frame.L a b r :: fs => by simp [SlotAt, ctxLink, ctxAfter]
  | Frame.R l a b :: fs => by
    simp only [SlotAt, ctxLink, ctxBefore, ← List.append_assoc]
    simp

theorem slot_length_lt {fs : List Frame} {fuel : Nat} (hf : (plug fs ATree.nil).height < fuel) :
    fs.length < fuel := by
  have := ctxHeight_ge fs ATree.nil.height
  rw [height_plug] at hf
  simp only [ATree.height] at this hf
  omega

theorem inorder_slot (fs : List Frame) :
    (plug fs ATree.nil).inorder = ctxBefore fs ++ ctxAfter fs := by
  rw [inorder_plug]; simp [ATree.inorder]

theorem cmp_key_total (a b : Nat) : cmp_key a b ≤ 0 ∨ cmp_key b a ≤ 0 := by
  unfold cmp_key key_of
  omega

theorem cmp_key_trans (a b c : Nat) (h1 : cmp_key a b ≤ 0) (h2 : cmp_key b c ≤ 0) :
    cmp_key a c ≤ 0 := by
  unfold cmp_key key_of at *
  omega

theorem split_of_mem {x : Nat} {L : List Nat} (h : x ∈ L) :
    ∃ pre post, L = pre ++ x :: post ∧ L.erase x = pre ++ post := by
  obtain ⟨pre, post, rfl, hn⟩ := List.eq_append_cons_of_mem h
  exact ⟨pre, post, rfl, by rw [List.erase_append_right _ hn, List.erase_cons_head]⟩

/-! ## Main theorems -/

/-- C1: for every tree that satisfies the AVL invariant and parent consistency, and for every
empty child slot of a node of that tree (or the root slot of an empty tree), `avl_insert` of a
fresh node at that slot returns, and the store then holds a tree with the old nodes and the
new one that again satisfies the AVL invariant at every node. -/
theorem C1_insert_preserves_avl (s : Store) (t : ATree) (node parent : Nat) (link : Link)
    (fuel : Nat) (hv : Valid s t) (ha : t.AVL) (hs : EmptySlot s t parent link) (hn : node ≠ 0)
    (hal : node % 4 = 0) (hfresh : node ∉ t.inorder) (hf : t.height < fuel) :
    ∃ s1 t1, avl_insert fuel s node parent link = Result.ok s1 ∧ Valid s1 t1 ∧ t1.AVL ∧
      t1.inorder.Perm (node :: t.inorder) := by
  obtain ⟨fs, rfl, rfl, rfl⟩ := slot_path hv hs
  obtain ⟨s1, t1, e, hv1, ha1, hi, _⟩ := insert_spec hv ha hn hal hfresh fuel (slot_length_lt hf)
  refine ⟨s1, t1, e, hv1, ha1, ?_⟩
  rw [hi, inorder_slot]
  exact List.perm_middle

/-- Witness of C1: the seventh insertion of the scenario, key 9 below key 8. -/
theorem C1_insert_preserves_avl_witness :
    Valid store6 tree6 ∧ tree6.AVL ∧ EmptySlot store6 tree6 64 (Link.right 64) ∧
      ∃ s1 t1, avl_insert 8 store6 72 64 (Link.right 64) = Result.ok s1 ∧ Valid s1 t1 ∧
        t1.AVL ∧ t1.inorder.Perm (72 :: tree6.inorder) :=
  have hv : Valid store6 tree6 := by set_option maxRecDepth 100000 in decide
  have hs : EmptySlot store6 tree6 64 (Link.right 64) :=
    Or.inr ⟨by decide, Or.inr ⟨rfl, by set_option maxRecDepth 100000 in decide⟩⟩
  ⟨hv, by decide, hs, C1_insert_preserves_avl store6 tree6 72 64 (Link.right 64) 8 hv
    (by decide) hs (by decide) (by decide) (by decide) (by decide)⟩

/-- C2: for every tree that satisfies the AVL invariant and parent consistency, and for every
node in it, `avl_erase` of that node returns, and the store then holds a tree with the other
nodes that again satisfies the AVL invariant at every node. -/
theorem C2_erase_preserves_avl (s : Store) (t : ATree) (node fuel : Nat) (hv : Valid s t)
    (ha : t.AVL) (hm : node ∈ t.inorder) (hf : t.height ≤ fuel) :
    ∃ s1 t1, avl_erase fuel s node = Result.ok s1 ∧ Valid s1 t1 ∧ t1.AVL ∧
      t.inorder.Perm (node :: t1.inorder) := by
  obtain ⟨s1, t1, e, hv1, ha1, hi, _⟩ := erase_spec hv ha hm fuel hf
  refine ⟨s1, t1, e, hv1, ha1, ?_⟩
  rw [hi]
  exact List.perm_cons_erase hm

/-- Witness of C2: erasing key 5, the root with two children, from the scenario tree. -/
theorem C2_erase_preserves_avl_witness :
    Valid store7 tree7 ∧ tree7.AVL ∧ 40 ∈ tree7.inorder ∧
      ∃ s1 t1, avl_erase 8 store7 40 = Result.ok s1 ∧ Valid s1 t1 ∧ t1.AVL ∧
        tree7.inorder.Perm (40 :: t1.inorder) :=
  have hv : Valid store7 tree7 := by set_option maxRecDepth 100000 in decide
  ⟨hv, by decide, by decide,
    C2_erase_preserves_avl store7 tree7 40 8 hv (by decide) (by decide) (by decide)⟩

/-- C3: for every valid tree and every empty slot, `avl_insert` of a fresh node returns and the
in-order sequence afterwards is the one before with the new node put at the in-order position
of the slot, nothing else moved; hence when the slot was chosen by the binary-search descent
under a total, transitive comparator and the sequence was non-decreasing, it still is. -/
theorem C3_insert_inorder (s : Store) (t : ATree) (node parent : Nat) (link : Link)
    (fuel : Nat) (hv : Valid s t) (ha : t.AVL) (hs : EmptySlot s t parent link) (hn : node ≠ 0)
    (hal : node % 4 = 0) (hfresh : node ∉ t.inorder) (hf : t.height < fuel) :
    ∃ s1 t1, avl_insert fuel s node parent link = Result.ok s1 ∧ Valid s1 t1 ∧
      (∃ pre post, t.inorder = pre ++ post ∧ t1.inorder = pre ++ node :: post ∧
        SlotAt link pre post) ∧
      ∀ cmp : Nat → Nat → Int, (∀ a b, cmp a b ≤ 0 ∨ cmp b a ≤ 0) →
        (∀ a b c, cmp a b ≤ 0 → cmp b c ≤ 0 → cmp a c ≤ 0) →
        bst_descend cmp fuel s node 0 Link.root = Result.ok (parent, link) →
        SortedBy cmp t.inorder → SortedBy cmp t1.inorder := by
  obtain ⟨fs, hfs, rfl, rfl⟩ := slot_path hv hs
  subst hfs
  obtain ⟨s1, t1, e, hv1, _, hi, _⟩ := insert_spec hv ha hn hal hfresh fuel (slot_length_lt hf)
  refine ⟨s1, t1, e, hv1, ⟨ctxBefore fs, ctxAfter fs, inorder_slot fs, hi, slot_at_ctx fs⟩, ?_⟩
  intro cmp htot htr hd hsorted
  obtain ⟨gs, e2, hp, hb, hafter⟩ := bst_descend_spec cmp htot htr node (plug fs ATree.nil) []
    fuel hv hsorted (by simp [ctxBefore]) (by simp [ctxAfter]) hf
  have hp : plug gs ATree.nil = plug fs ATree.nil := hp
  have e2 : bst_descend cmp fuel s node 0 Link.root = Result.ok (ctxPar gs 0, ctxLink gs) := e2
  rw [hd] at e2
  have e3 : ctxPar fs 0 = ctxPar gs 0 ∧ ctxLink fs = ctxLink gs := by
    have := Result.ok.inj e2
    exact ⟨congrArg Prod.fst this, congrArg Prod.snd this⟩
  have hvg : Valid s (plug gs ATree.nil) := hp ▸ hv
  obtain ⟨s2, t2, e4, hv2, _, hi2, _⟩ := insert_spec hvg (hp ▸ ha) hn hal (hp ▸ hfresh) fuel
    (slot_length_lt (hp ▸ hf))
  rw [← e3.1, ← e3.2, e] at e4
  cases e4
  have := hv1.unique hv2
  subst this
  rw [hi2]
  exact sorted_insert_at (hp ▸ hsorted) hb hafter

/-- Witness of C3: the seventh insertion of the scenario, with the slot found by the descent;
the seven insertions of keys 5, 3, 8, 1, 4, 7, 9 give the in-order sequence 1, 3, 4, 5, 7, 8,
9 (nodes at addresses `8 * key`). -/
theorem C3_insert_inorder_witness :
    (∃ s1 t1, avl_insert 8 store6 72 64 (Link.right 64) = Result.ok s1 ∧ Valid s1 t1 ∧
      (∃ pre post, tree6.inorder = pre ++ post ∧ t1.inorder = pre ++ 72 :: post ∧
        SlotAt (Link.right 64) pre post) ∧
      ∀ cmp : Nat → Nat → Int, (∀ a b, cmp a b ≤ 0 ∨ cmp b a ≤ 0) →
        (∀ a b c, cmp a b ≤ 0 → cmp b c ≤ 0 → cmp a c ≤ 0) →
        bst_descend cmp 8 store6 72 0 Link.root = Result.ok (64, Link.right 64) →
        SortedBy cmp tree6.inorder → SortedBy cmp t1.inorder) ∧
      bst_descend cmp_key 8 store6 72 0 Link.root = Result.ok (64, Link.right 64) ∧
      SortedBy cmp_key tree6.inorder ∧
      (∃ s1 t1, avl_insert 8 store6 72 64 (Link.right 64) = Result.ok s1 ∧ Valid s1 t1 ∧
        SortedBy cmp_key t1.inorder) ∧
      avl_traverse 8 8 store7 = Result.ok [8, 24, 32, 40, 56, 64, 72] :=
  have hv : Valid store6 tree6 := by set_option maxRecDepth 100000 in decide
  have hs : EmptySlot store6 tree6 64 (Link.right 64) :=
    Or.inr ⟨by decide, Or.inr ⟨rfl, by set_option maxRecDepth 100000 in decide⟩⟩
  have hd : bst_descend cmp_key 8 store6 72 0 Link.root = Result.ok (64, Link.right 64) := by
    set_option maxRecDepth 100000 in decide
  have hsorted : SortedBy cmp_key tree6.inorder := by
    unfold SortedBy
    decide
  have h := C3_insert_inorder store6 tree6 72 64 (Link.right 64) 8 hv (by decide) hs
    (by decide) (by decide) (by decide) (by decide)
  ⟨h, hd, hsorted,
    h.elim fun s1 h1 => h1.elim fun t1 h2 =>
      ⟨s1, t1, h2.1, h2.2.1, h2.2.2.2 cmp_key cmp_key_total cmp_key_trans hd hsorted⟩,
    by set_option maxRecDepth 100000 in decide⟩

/-- C4: for every valid tree and every node `x` in it, `avl_erase` of `x` returns and the
in-order sequence afterwards is the one before with `x` removed (it occurs once) and the order
of all other nodes unchanged. -/
theorem C4_erase_inorder (s : Store) (t : ATree) (x fuel : Nat) (hv : Valid s t) (ha : t.AVL)
    (hm : x ∈ t.inorder) (hf : t.height ≤ fuel) :
    ∃ s1 t1, avl_erase fuel s x = Result.ok s1 ∧ Valid s1 t1 ∧
      ∃ pre post, t.inorder = pre ++ x :: post ∧ t1.inorder = pre ++ post ∧ x ∉ pre ∧
        x ∉ post := by
  obtain ⟨s1, t1, e, hv1, _, hi, _⟩ := erase_spec hv ha hm fuel hf
  obtain ⟨pre, post, h1, h2⟩ := split_of_mem hm
  refine ⟨s1, t1, e, hv1, pre, post, h1, by rw [hi, h2], ?_, ?_⟩
  · have hnd := hv.2.2
    rw [h1] at hnd
    intro hx
    exact (List.nodup_append.1 hnd).2.2 hx (List.mem_cons_self _ _)
  · have hnd := hv.2.2
    rw [h1] at hnd
    exact (List.nodup_cons.1 (List.nodup_append.1 hnd).2.1).1

/-- Witness of C4: erasing key 5 from the scenario tree leaves the in-order sequence 1, 3, 4,
7, 8, 9. -/
theorem C4_erase_inorder_witness :
    (∃ s1 t1, avl_erase 8 store7 40 = Result.ok s1 ∧ Valid s1 t1 ∧
      ∃ pre post, tree7.inorder = pre ++ 40 :: post ∧ t1.inorder = pre ++ post ∧ 40 ∉ pre ∧
        40 ∉ post) ∧
      (avl_erase 8 store7 40).bind (avl_traverse 8 8) = Result.ok [8, 24, 32, 56, 64, 72] :=
  ⟨C4_erase_inorder store7 tree7 40 8 (by set_option maxRecDepth 100000 in decide) (by decide)
      (by decide) (by decide),
    by set_option maxRecDepth 100000 in decide⟩

end Avl

namespace Avl

/-! ## Example call sequences -/

theorem valid_store0 : Valid store0 ATree.nil := valid_of_root_zero rfl

theorem run_storeA : avl_insert 4 store0 16 0 Link.root = Result.ok storeA :=
  Result.eq_ok_store _ (by decide)

theorem run_storeB : avl_insert 4 storeA 8 16 (Link.left 16) = Result.ok storeB :=
  Result.eq_ok_store _ (by decide)

theorem run_storeC : avl_insert 4 storeB 24 16 (Link.right 16) = Result.ok storeC :=
  Result.eq_ok_store _ (by decide)

theorem run_storeD : avl_erase 4 storeC 16 = Result.ok storeD :=
  Result.eq_ok_store _ (by decide)

theorem inserted_storeC : Inserted storeC [24, 8, 16] :=
  Inserted.insert 24 16 (Link.right 16) 4
    (Inserted.insert 8 16 (Link.left 16) 4
      (Inserted.insert 16 0 Link.root 4 (Inserted.init store0 rfl) valid_store0
        (Or.inl ⟨rfl, rfl, rfl⟩) (by decide) (by decide) (by decide) (by decide) run_storeA)
      (show Valid storeA treeA by decide) (Or.inr ⟨by decide, Or.inl ⟨rfl, by decide⟩⟩)
      (by decide) (by decide) (by decide) (by decide) run_storeB)
    (show Valid storeB treeB by decide) (Or.inr ⟨by decide, Or.inr ⟨rfl, by decide⟩⟩)
    (by decide) (by decide) (by decide) (by decide) run_storeC

theorem reached_storeD : Reached storeD 3 1 :=
  Reached.erase 16 4
    (Reached.insert 24 16 (Link.right 16) 4
      (Reached.insert 8 16 (Link.left 16) 4
        (Reached.insert 16 0 Link.root 4 (Reached.init store0 rfl) valid_store0
          (Or.inl ⟨rfl, rfl, rfl⟩) (by decide) (by decide) (by decide) (by decide) run_storeA)
        (show Valid storeA treeA by decide) (Or.inr ⟨by decide, Or.inl ⟨rfl, by decide⟩⟩)
        (by decide) (by decide) (by decide) (by decide) run_storeB)
      (show Valid storeB treeB by decide) (Or.inr ⟨by decide, Or.inr ⟨rfl, by decide⟩⟩)
      (by decide) (by decide) (by decide) (by decide) run_storeC)
    (show Valid storeC treeC by decide) (by decide) (by decide) run_storeD

/-! ## Main theorems, continued -/

/-- C5, as amended: parent consistency is an invariant of `avl_insert` on every
parent-consistent tree, of each of the four rotations applied to a node of such a tree and its
child (and grandchild, for the double rotations), and of `avl_erase` on every
parent-consistent tree that also satisfies the AVL invariant; each of these calls returns. -/
theorem C5_parent_consistency (s : Store) (t : ATree) (hv : Valid s t) :
    (∀ node parent link fuel, EmptySlot s t parent link → node ≠ 0 → node % 4 = 0 →
      node ∉ t.inorder → t.height < fuel →
      ∃ s1 t1, avl_insert fuel s node parent link = Result.ok s1 ∧ Valid s1 t1) ∧
    (t.AVL → ∀ node fuel, node ∈ t.inorder → t.height ≤ fuel →
      ∃ s1 t1, avl_erase fuel s node = Result.ok s1 ∧ Valid s1 t1) ∧
    (∀ fs l P bP rl C bC rr, t = plug fs (ATree.node l P bP (ATree.node rl C bC rr)) →
      ∃ s1 t1, avl_rotate_left s C P = Result.ok (s1, C) ∧ Valid s1 t1) ∧
    (∀ fs ll C bC lr P bP r, t = plug fs (ATree.node (ATree.node ll C bC lr) P bP r) →
      ∃ s1 t1, avl_rotate_right s C P = Result.ok (s1, C) ∧ Valid s1 t1) ∧
    (∀ fs l P bP gl T bT gr C bC rr,
      t = plug fs (ATree.node l P bP (ATree.node (ATree.node gl T bT gr) C bC rr)) →
      ∃ s1 t1, avl_rotate_rightleft s C P = Result.ok (s1, T) ∧ Valid s1 t1) ∧
    (∀ fs ll C bC gl T bT gr P bP r,
      t = plug fs (ATree.node (ATree.node ll C bC (ATree.node gl T bT gr)) P bP r) →
      ∃ s1 t1, avl_rotate_leftright s C P = Result.ok (s1, T) ∧ Valid s1 t1) := by
  refine ⟨?_, ?_, ?_, ?_, ?_, ?_⟩
  · intro node parent link fuel hs hn hal hfresh hf
    obtain ⟨fs, rfl, rfl, rfl⟩ := slot_path hv hs
    obtain ⟨s1, t1, e, hv1, _⟩ := insert_pc hv hn hal hfresh fuel (slot_length_lt hf)
    exact ⟨s1, t1, e, hv1⟩
  · intro ha node fuel hm hf
    obtain ⟨s1, t1, e, hv1, _⟩ := erase_spec hv ha hm fuel hf
    exact ⟨s1, t1, e, hv1⟩
  · rintro fs l P bP rl C bC rr rfl
    obtain ⟨s1, e, hv1⟩ := valid_rotate_left hv
    exact ⟨s1, _, e, hv1⟩
  · rintro fs ll C bC lr P bP r rfl
    obtain ⟨s1, e, hv1⟩ := valid_rotate_right hv
    exact ⟨s1, _, e, hv1⟩
  · rintro fs l P bP gl T bT gr C bC rr rfl
    obtain ⟨s1, e, hv1⟩ := valid_rotate_rightleft hv
    exact ⟨s1, _, e, hv1⟩
  · rintro fs ll C bC gl T bT gr P bP r rfl
    obtain ⟨s1, e, hv1⟩ := valid_rotate_leftright hv
    exact ⟨s1, _, e, hv1⟩

/-- Witness of C5: an insertion into the parent-consistent store with an inaccurate balance
field (it rotates at the root), and the erasure of the root of the scenario tree. -/
theorem C5_parent_consistency_witness :
    Valid storeBad treeBad ∧
      (∃ s1 t1, avl_insert 4 storeBad 24 8 (Link.right 8) = Result.ok s1 ∧ Valid s1 t1) ∧
      (∃ s1 t1, avl_erase 8 store7 40 = Result.ok s1 ∧ Valid s1 t1) :=
  ⟨by decide,
    (C5_parent_consistency storeBad treeBad (by decide)).1 24 8 (Link.right 8) 4
      (Or.inr ⟨by decide, Or.inr ⟨rfl, by decide⟩⟩) (by decide) (by decide) (by decide)
      (by decide),
    (C5_parent_consistency store7 tree7 (by set_option maxRecDepth 100000 in decide)).2.1
      (by decide) 40 8 (by decide) (by decide)⟩

/-- Counterexample to C5 as stated: the store is parent-consistent (the root at address 8 has
the left child at address 16, whose parent field is 8), but the root is marked `AVL_RIGHT`, and
`avl_erase` of the child reads the balance of the missing right child: it dereferences `NULL`
and returns no tree, whatever the fuel. -/
theorem C5_parent_consistency_counterexample :
    Valid storeBad treeBad ∧ 16 ∈ treeBad.inorder ∧
      avl_erase 4 storeBad 16 = Result.fault ∧
      ∀ fuel, ¬ ∃ s1, avl_erase fuel storeBad 16 = Result.ok s1 := by
  refine ⟨by decide, by decide, rfl, ?_⟩
  rintro (_ | f) ⟨s1, h⟩
  · have e : avl_erase 0 storeBad 16 = Result.timeout := rfl
    rw [e] at h
    cases h
  · have e : avl_erase (f + 1) storeBad 16 = Result.fault := rfl
    rw [e] at h
    cases h

end Avl

namespace Avl

theorem next_prev_adjacent {s : Store} {t : ATree} (hv : Valid s t) {pre rest : List Nat}
    {n k : Nat} (hL : t.inorder = pre ++ n :: k :: rest) (fuel : Nat) (hf : t.height ≤ fuel) :
    avl_next fuel s n = Result.ok k ∧ avl_prev fuel s k = Result.ok n := by
  have h1 := avl_next_spec hv hL fuel hf
  have hL2 : t.inorder = (pre ++ [n]) ++ k :: rest := by rw [hL]; simp
  have h2 := avl_prev_spec hv hL2 fuel hf
  refine ⟨by simpa using h1, ?_⟩
  rw [h2]; simp

/-- C6: for every valid tree with at least one node, `avl_next` applied `k` times to the
result of `avl_first` gives the node at index `k` of the in-order sequence, whose nodes are
distinct; after `N - 1` applications the node is the result of `avl_last`, one more gives
`NULL`, and the traversal loop visits the in-order sequence. After any sequence of `avl_insert`
and `avl_erase` calls on an initially empty tree, the traversal visits as many nodes as there
were inserts minus erases. -/
theorem C6_iteration (s : Store) (fuel : Nat) :
    (∀ t, Valid s t → 1 ≤ t.inorder.length → t.height ≤ fuel →
      ∃ first last, avl_first fuel s = Result.ok first ∧ avl_last fuel s = Result.ok last ∧
        t.inorder.Nodup ∧
        (∀ k (hk : k < t.inorder.length),
          iter_next fuel s k first = Result.ok (t.inorder.get ⟨k, hk⟩)) ∧
        iter_next fuel s (t.inorder.length - 1) first = Result.ok last ∧ last ≠ 0 ∧
        iter_next fuel s t.inorder.length first = Result.ok 0 ∧
        ∀ steps, t.inorder.length < steps → avl_traverse steps fuel s = Result.ok t.inorder) ∧
    (∀ i e steps, Reached s i e → i - e < steps → i - e ≤ fuel →
      ∃ visited, avl_traverse steps fuel s = Result.ok visited ∧ visited.length + e = i) := by
  constructor
  · intro t hv hN hf
    have h1 := avl_first_spec hv fuel hf
    have h2 := avl_last_spec hv fuel hf
    have hit := iter_next_spec hv fuel hf
    refine ⟨_, _, h1, h2, hv.2.2, ?_, ?_, ?_, ?_, ?_⟩
    · intro k hk
      rw [hit k (by omega), List.getElem?_eq_getElem hk]
      rfl
    · rw [hit _ (by omega)]
      congr 1
      rw [List.getLast?_eq_getElem?]
    · cases hl : t.inorder.getLast? with
      | none =>
        rw [List.getLast?_eq_none_iff] at hl
        rw [hl] at hN
        simp at hN
      | some x =>
        have hx : x ∈ t.inorder := List.mem_of_getLast?_eq_some hl
        intro e0
        simp only [Option.getD_some] at e0
        exact hv.zero_not_mem (e0 ▸ hx)
    · rw [hit _ (by omega), List.getElem?_eq_none (by omega)]
      rfl
    · intro steps hs
      exact avl_traverse_spec hv steps fuel hf hs
  · intro i e steps hr hs hf
    obtain ⟨t, hv, _, hl⟩ := reached_inv hr
    have hh := height_le_length t
    exact ⟨t.inorder, avl_traverse_spec hv steps fuel (by omega) (by omega), hl⟩

/-- Witness of C6: the iteration over the scenario tree, and the traversal after three inserts
and one erase. -/
theorem C6_iteration_witness :
    (∃ first last, avl_first 8 store7 = Result.ok first ∧ avl_last 8 store7 = Result.ok last ∧
        tree7.inorder.Nodup ∧
        (∀ k (hk : k < tree7.inorder.length),
          iter_next 8 store7 k first = Result.ok (tree7.inorder.get ⟨k, hk⟩)) ∧
        iter_next 8 store7 (tree7.inorder.length - 1) first = Result.ok last ∧ last ≠ 0 ∧
        iter_next 8 store7 tree7.inorder.length first = Result.ok 0 ∧
        ∀ steps, tree7.inorder.length < steps →
          avl_traverse steps 8 store7 = Result.ok tree7.inorder) ∧
      Reached storeD 3 1 ∧
      ∃ visited, avl_traverse 4 4 storeD = Result.ok visited ∧ visited.length + 1 = 3 :=
  ⟨(C6_iteration store7 8).1 tree7 (by set_option maxRecDepth 100000 in decide) (by decide)
      (by decide),
    reached_storeD,
    (C6_iteration storeD 4).2 3 1 4 reached_storeD (by decide) (by decide)⟩

/-- C7: for every sequence of `avl_insert` calls of distinct fresh nodes into an empty tree and
every order in which `avl_erase` is then applied to all of the nodes, the calls return and the
tree ends empty: the root link is `NULL` and `avl_empty` returns true. -/
theorem C7_erase_all_empty (s : Store) (ns order : List Nat) (fuel : Nat) (hi : Inserted s ns)
    (hp : order.Perm ns) (hf : ns.length ≤ fuel) :
    ∃ s1, erase_all fuel s order = Result.ok s1 ∧ s1.root = 0 ∧ avl_empty s1 = true := by
  obtain ⟨t, hv, ha, hperm⟩ := inserted_inv hi
  obtain ⟨s1, e, h0⟩ := erase_all_spec fuel order s t hv ha (hp.trans hperm.symm)
    (by rw [hperm.length_eq]; exact hf)
  exact ⟨s1, e, h0, by simp [avl_empty, h0]⟩

/-- Witness of C7: three inserts, then the erasures in another order. -/
theorem C7_erase_all_empty_witness :
    Inserted storeC [24, 8, 16] ∧ [16, 24, 8].Perm [24, 8, 16] ∧
      ∃ s1, erase_all 4 storeC [16, 24, 8] = Result.ok s1 ∧ s1.root = 0 ∧
        avl_empty s1 = true :=
  ⟨inserted_storeC, by decide,
    C7_erase_all_empty storeC [24, 8, 16] [16, 24, 8] 4 inserted_storeC (by decide)
      (by decide)⟩

/-- C8: for every tree laid out by the child links below the root link, `avl_first` and
`avl_last` return; each result is `NULL` if and only if the tree is empty (which is when
`avl_empty` holds), and otherwise they are the first and the last node of the in-order
sequence, the nodes without a left and without a right child at the end of the left and right
links from the root. -/
theorem C8_first_last (s : Store) (t : ATree) (fuel : Nat) (hr : s.root = t.ptr)
    (hl : Links s t) (hf : t.height ≤ fuel) :
    ∃ first last, avl_first fuel s = Result.ok first ∧ avl_last fuel s = Result.ok last ∧
      (first = 0 ↔ t = ATree.nil) ∧ (last = 0 ↔ t = ATree.nil) ∧
      (avl_empty s = true ↔ t = ATree.nil) ∧
      (t ≠ ATree.nil → t.inorder.head? = some first ∧ t.inorder.getLast? = some last ∧
        (s.mem first).left = 0 ∧ (s.mem last).right = 0) := by
  by_cases ht : t = ATree.nil
  · subst ht
    have h0 : s.root = 0 := hr
    exact ⟨0, 0, by simp [avl_first, h0, Result.pure_eq], by simp [avl_last, h0, Result.pure_eq],
      by simp, by simp, by simp [avl_empty, h0], fun h => absurd rfl h⟩
  · have hp : t.ptr ≠ 0 := fun e => ht ((Links.ptr_eq_zero t hl).1 e)
    obtain ⟨a, e1, e2, e3, e4⟩ := descend_left_links t fuel hl ht hf
    obtain ⟨z, g1, g2, g3, g4⟩ := descend_right_links t fuel hl ht hf
    refine ⟨a, z, ?_, ?_, by simp [e3, ht], by simp [g3, ht], by simp [avl_empty, hr, hp, ht],
      fun _ => ⟨e2, g2, e4, g4⟩⟩
    · simp [avl_first, hr, hp, e1]
    · simp [avl_last, hr, hp, g1]

/-- Witness of C8: the scenario tree, first key 1 and last key 9. -/
theorem C8_first_last_witness :
    store7.root = tree7.ptr ∧ Links store7 tree7 ∧
      ∃ first last, avl_first 8 store7 = Result.ok first ∧
        avl_last 8 store7 = Result.ok last ∧
        (first = 0 ↔ tree7 = ATree.nil) ∧ (last = 0 ↔ tree7 = ATree.nil) ∧
        (avl_empty store7 = true ↔ tree7 = ATree.nil) ∧
        (tree7 ≠ ATree.nil → tree7.inorder.head? = some first ∧
          tree7.inorder.getLast? = some last ∧
          (store7.mem first).left = 0 ∧ (store7.mem last).right = 0) :=
  have hr : store7.root = tree7.ptr := by set_option maxRecDepth 100000 in decide
  have hl : Links store7 tree7 := by set_option maxRecDepth 100000 in decide
  ⟨hr, hl, C8_first_last store7 tree7 8 hr hl (by decide)⟩

/-- C9: for every parent-consistent tree and every node `n` in it, `avl_next` of `n` returns
the node that immediately follows `n` in the in-order sequence, and returns `NULL` if and only
if `n` is the last node of the sequence. -/
theorem C9_next_successor (s : Store) (t : ATree) (n fuel : Nat) (hv : Valid s t)
    (hm : n ∈ t.inorder) (hf : t.height ≤ fuel) :
    ∃ pre post, t.inorder = pre ++ n :: post ∧
      ((post = [] ∧ avl_next fuel s n = Result.ok 0) ∨
        (∃ m rest, post = m :: rest ∧ m ≠ 0 ∧ avl_next fuel s n = Result.ok m)) := by
  obtain ⟨pre, post, hL⟩ := List.append_of_mem hm
  have h := avl_next_spec hv hL fuel hf
  refine ⟨pre, post, hL, ?_⟩
  cases post with
  | nil => exact Or.inl ⟨rfl, h⟩
  | cons m rest =>
    refine Or.inr ⟨m, rest, rfl, ?_, h⟩
    intro e0
    exact hv.zero_not_mem (by rw [hL, e0]; simp)

/-- Witness of C9: the successor of key 4 in the scenario tree. -/
theorem C9_next_successor_witness :
    Valid store7 tree7 ∧ 32 ∈ tree7.inorder ∧
      ∃ pre post, tree7.inorder = pre ++ 32 :: post ∧
        ((post = [] ∧ avl_next 8 store7 32 = Result.ok 0) ∨
          (∃ m rest, post = m :: rest ∧ m ≠ 0 ∧ avl_next 8 store7 32 = Result.ok m)) :=
  have hv : Valid store7 tree7 := by set_option maxRecDepth 100000 in decide
  ⟨hv, by decide, C9_next_successor store7 tree7 32 8 hv (by decide) (by decide)⟩

/-- C10: for every parent-consistent tree and all nodes `n`, `m` in it, `avl_next` of `n` is
`m` if and only if `avl_prev` of `m` is `n`; `avl_prev` of `avl_next` of `n` is `n` whenever
`n` is not the last node, and `avl_next` of `avl_prev` of `n` is `n` whenever `n` is not the
first. -/
theorem C10_prev_inverse (s : Store) (t : ATree) (n m fuel : Nat) (hv : Valid s t)
    (hn : n ∈ t.inorder) (hm : m ∈ t.inorder) (hf : t.height ≤ fuel) :
    (avl_next fuel s n = Result.ok m ↔ avl_prev fuel s m = Result.ok n) ∧
      (t.inorder.getLast? ≠ some n →
        ∃ k, k ≠ 0 ∧ avl_next fuel s n = Result.ok k ∧ avl_prev fuel s k = Result.ok n) ∧
      (t.inorder.head? ≠ some n →
        ∃ k, k ≠ 0 ∧ avl_prev fuel s n = Result.ok k ∧ avl_next fuel s k = Result.ok n) := by
  have h0 := hv.zero_not_mem
  have hn0 : n ≠ 0 := fun e => h0 (e ▸ hn)
  have hm0 : m ≠ 0 := fun e => h0 (e ▸ hm)
  obtain ⟨pre, post, hL⟩ := List.append_of_mem hn
  obtain ⟨pre1, post1, hL1⟩ := List.append_of_mem hm
  have hnx := avl_next_spec hv hL fuel hf
  have hpv := avl_prev_spec hv hL1 fuel hf
  refine ⟨⟨?_, ?_⟩, ?_, ?_⟩
  · intro h
    rw [hnx] at h
    cases post with
    | nil => exact absurd (Result.ok.inj h).symm hm0
    | cons k rest =>
      have : k = m := by simpa using Result.ok.inj h
      subst this
      exact (next_prev_adjacent hv hL fuel hf).2
  · intro h
    rw [hpv] at h
    rcases List.eq_nil_or_concat pre1 with rfl | ⟨front, k, rfl⟩
    · exact absurd (Result.ok.inj h).symm hn0
    · have : k = n := by simpa using Result.ok.inj h
      subst this
      have hL2 : t.inorder = front ++ k :: m :: post1 := by rw [hL1]; simp
      exact (next_prev_adjacent hv hL2 fuel hf).1
  · intro hlast
    cases post with
    | nil => exact absurd (by rw [hL]; simp) hlast
    | cons k rest =>
      have hk : k ∈ t.inorder := by rw [hL]; simp
      obtain ⟨a1, a2⟩ := next_prev_adjacent hv hL fuel hf
      exact ⟨k, fun e => h0 (e ▸ hk), a1, a2⟩
  · intro hfirst
    rcases List.eq_nil_or_concat pre with rfl | ⟨front, k, rfl⟩
    · exact absurd (by rw [hL]; simp) hfirst
    · have hL2 : t.inorder = front ++ k :: n :: post := by rw [hL]; simp
      have hk : k ∈ t.inorder := by rw [hL2]; simp
      obtain ⟨a1, a2⟩ := next_prev_adjacent hv hL2 fuel hf
      exact ⟨k, fun e => h0 (e ▸ hk), a2, a1⟩

/-- Witness of C10: keys 4 and 5 of the scenario tree, neighbours across the root. -/
theorem C10_prev_inverse_witness :
    Valid store7 tree7 ∧ avl_next 8 store7 32 = Result.ok 40 ∧
      avl_prev 8 store7 40 = Result.ok 32 ∧
      (avl_next 8 store7 32 = Result.ok 40 ↔ avl_prev 8 store7 40 = Result.ok 32) ∧
      (tree7.inorder.getLast? ≠ some 32 →
        ∃ k, k ≠ 0 ∧ avl_next 8 store7 32 = Result.ok k ∧ avl_prev 8 store7 k = Result.ok 32) ∧
      (tree7.inorder.head? ≠ some 32 →
        ∃ k, k ≠ 0 ∧ avl_prev 8 store7 32 = Result.ok k ∧ avl_next 8 store7 k = Result.ok 32) :=
  have hv : Valid store7 tree7 := by set_option maxRecDepth 100000 in decide
  ⟨hv, by set_option maxRecDepth 100000 in decide, by set_option maxRecDepth 100000 in decide,
    C10_prev_inverse store7 tree7 32 40 8 hv (by decide) (by decide) (by decide)⟩

end Avl

namespace Avl

/-! ## Height bound -/

/-- Number of nodes of a tree. -/
theorem length_inorder_node (l : ATree) (a b : Nat) (r : ATree) :
    (ATree.node l a b r).inorder.length = l.inorder.length + r.inorder.length + 1 := by
  simp [ATree.inorder]; omega

/-- An AVL tree of height `h` has at least `(323/200)^h - 1` nodes. -/
theorem avl_size_lower : ∀ (t : ATree), t.AVL →
    ((323 : ℝ) / 200) ^ t.height ≤ (t.inorder.length : ℝ) + 1
  | ATree.nil, _ => by simp [ATree.height, ATree.inorder]
  | ATree.node l a b r, h => by
    obtain ⟨hl, hr, hb⟩ := h
    have il := avl_size_lower l hl
    have ir := avl_size_lower r hr
    rw [length_inorder_node]
    push_cast
    have hpl : (0 : ℝ) < ((323 : ℝ) / 200) ^ l.height := by positivity
    have hpr : (0 : ℝ) < ((323 : ℝ) / 200) ^ r.height := by positivity
    rcases hb with ⟨e, _⟩ | ⟨e, _⟩ | ⟨e, _⟩
    · have hh : (ATree.node l a b r).height = r.height + 1 := by
        simp only [ATree.height]; omega
      rw [hh, pow_succ]
      rw [e] at il
      nlinarith
    · have hh : (ATree.node l a b r).height = r.height + 2 := by
        simp only [ATree.height]; omega
      rw [hh, pow_succ, pow_succ]
      rw [e, pow_succ] at il
      nlinarith
    · have hh : (ATree.node l a b r).height = l.height + 2 := by
        simp only [ATree.height]; omega
      rw [hh, pow_succ, pow_succ]
      rw [← e, pow_succ] at ir
      nlinarith

/-- Power form of the bound over the reals. -/
theorem avl_height_pow_real (t : ATree) (h : t.AVL) :
    (2 : ℝ) ^ (20 * t.height) ≤ ((t.inorder.length : ℝ) + 2) ^ 29 := by
  have h1 := avl_size_lower t h
  have h2 : ((2 : ℝ) ^ 20) ^ t.height ≤ ((((323 : ℝ) / 200) ^ 29)) ^ t.height :=
    pow_le_pow_left (by norm_num) (by norm_num) _
  have h3 : ((((323 : ℝ) / 200) ^ 29)) ^ t.height = (((323 : ℝ) / 200) ^ t.height) ^ 29 := by
    rw [← pow_mul, ← pow_mul, Nat.mul_comm]
  have h4 : (((323 : ℝ) / 200) ^ t.height) ^ 29 ≤ ((t.inorder.length : ℝ) + 2) ^ 29 :=
    pow_le_pow_left (by positivity) (by linarith) _
  rw [pow_mul]
  exact le_trans (h2.trans_eq h3) h4

/-- Integer form of the bound: `2 ^ (20 h) ≤ (N + 2) ^ 29`. -/
theorem avl_height_pow (t : ATree) (h : t.AVL) :
    2 ^ (20 * t.height) ≤ (t.inorder.length + 2) ^ 29 := by
  have h5 := avl_height_pow_real t h
  exact_mod_cast h5

/-- Logarithmic form of the bound. -/
theorem avl_height_log (t : ATree) (h : t.AVL) :
    (t.height : ℝ) ≤ 1.45 * Real.logb 2 ((t.inorder.length : ℝ) + 2) := by
  have h2 := avl_height_pow_real t h
  have hpos : (0 : ℝ) < (t.inorder.length : ℝ) + 2 := by positivity
  have h3 := Real.log_le_log (by positivity) h2
  rw [Real.log_pow, Real.log_pow] at h3
  have hl2 : (0 : ℝ) < Real.log 2 := Real.log_pos (by norm_num)
  have h6 : (t.height : ℝ) * Real.log 2 ≤ 1.45 * Real.log ((t.inorder.length : ℝ) + 2) := by
    push_cast at h3
    norm_num at h3 ⊢
    linarith
  rw [Real.logb, ← mul_div_assoc, le_div_iff hl2]
  exact h6

end Avl

namespace Avl

/-! ## Priority queue -/

theorem sorted_keys_iff (i : Nat → Int) (L : List Nat) :
    (L.map i).Pairwise (fun a b => a ≤ b) ↔ L.Pairwise (fun a b => i a ≤ i b) :=
  List.pairwise_map

/-- The descent of `avl_prio_queue_insert_balanced` ends at an empty position placed after all
entries with a smaller key and before all entries with a key at least the new one; the flag
tells whether nothing stands before the position. -/
theorem prio_descend_spec {s : Store} (cmpint : Int → Int → Int) (i : Nat → Int)
    (hc : ∀ a b, cmpint a b ≤ 0 ↔ a ≤ b) (n : Nat) :
    ∀ (u : ATree) (gs : List Frame) (fuel : Nat) (flag : Bool), Valid s (plug gs u) →
    (plug gs u).inorder.Pairwise (fun a b => i a ≤ i b) → (∀ y ∈ ctxBefore gs, i y < i n) →
    (∀ z ∈ ctxAfter gs, i n ≤ i z) → (flag = true ↔ ctxBefore gs = []) → u.height < fuel →
    ∃ fs f, avl_prio_queue_descend cmpint i fuel s n (ctxPar gs 0) (ctxLink gs) flag =
        Result.ok (ctxPar fs 0, ctxLink fs, f) ∧
      plug fs ATree.nil = plug gs u ∧ (∀ y ∈ ctxBefore fs, i y < i n) ∧
      (∀ z ∈ ctxAfter fs, i n ≤ i z) ∧ (f = true ↔ ctxBefore fs = [])
  | ATree.nil, gs, fuel, flag, hv, _, hb, ha, hfl, hf => by
    obtain ⟨f, rfl⟩ : ∃ f, fuel = f + 1 := ⟨fuel - 1, by omega⟩
    refine ⟨gs, flag, ?_, rfl, hb, ha, hfl⟩
    simp [avl_prio_queue_descend, rd_link_plug gs _ hv, Result.pure_eq]
  | ATree.node l a b r, gs, fuel, flag, hv, hs, hb, ha, hfl, hf => by
    obtain ⟨f, rfl⟩ : ∃ f, fuel = f + 1 := ⟨fuel - 1, by omega⟩
    have hA := hv.at
    have hs1 := hs
    simp only [inorder_plug, ATree.inorder, List.pairwise_append,
      List.pairwise_cons, List.mem_append, List.mem_cons] at hs1
    obtain ⟨⟨_, ⟨_, ⟨har, _⟩, hla⟩, _⟩, _, _⟩ := hs1
    simp only [ATree.height] at hf
    by_cases hcmp : cmpint (i n) (i a) ≤ 0
    · have hna : i n ≤ i a := (hc _ _).1 hcmp
      obtain ⟨fs, g, e, hp, h1, h2, h3⟩ := prio_descend_spec cmpint i hc n l
        (Frame.L a b r :: gs) f flag hv hs hb (by
          intro z hz
          simp only [ctxAfter, List.cons_append, List.mem_cons, List.mem_append] at hz
          rcases hz with rfl | hz | hz
          · exact hna
          · exact le_trans hna (har z hz)
          · exact ha z hz) hfl (by omega)
      refine ⟨fs, g, ?_, hp, h1, h2, h3⟩
      have e : avl_prio_queue_descend cmpint i f s n a (Link.left a) flag =
          Result.ok (ctxPar fs 0, ctxLink fs, g) := e
      simp [avl_prio_queue_descend, rd_link_plug gs _ hv, hA.ne, hcmp, e]
    · have hna : i a < i n := by
        have := (hc (i n) (i a)).not.1 hcmp
        omega
      obtain ⟨fs, g, e, hp, h1, h2, h3⟩ := prio_descend_spec cmpint i hc n r
        (Frame.R l a b :: gs) f false hv hs (by
          intro y hy
          simp only [ctxBefore, List.mem_append, List.mem_cons, List.mem_singleton,
            List.not_mem_nil, or_false] at hy
          rcases hy with hy | hy | rfl
          · exact hb y hy
          · exact lt_of_le_of_lt (hla y hy a (Or.inl rfl)) hna
          · exact hna) ha (by simp [ctxBefore]) (by omega)
      refine ⟨fs, g, ?_, hp, h1, h2, h3⟩
      have e : avl_prio_queue_descend cmpint i f s n a (Link.right a) false =
          Result.ok (ctxPar fs 0, ctxLink fs, g) := e
      simp [avl_prio_queue_descend, rd_link_plug gs _ hv, hA.ne, hcmp, e]

/-- Function `avl_prio_queue_insert_balanced` keeps the invariant and puts the new entry after
all entries with a smaller key and before all entries with a key at least its own. -/
theorem prio_insert_spec {cmpint : Int → Int → Int} {i : Nat → Int}
    (hc : ∀ a b, cmpint a b ≤ 0 ↔ a ≤ b) {q : avl_prio_queue} {t : ATree} (hq : QInv i q t)
    {n : Nat} (hn : n ≠ 0) (hal : n % 4 = 0) (hfresh : n ∉ t.inorder) (fuel : Nat)
    (hf : t.height < fuel) :
    ∃ q1 t1 pre post, avl_prio_queue_insert_balanced cmpint i fuel q n = Result.ok q1 ∧
      QInv i q1 t1 ∧ t.inorder = pre ++ post ∧ t1.inorder = pre ++ n :: post ∧
      (∀ y ∈ pre, i y < i n) ∧ (∀ z ∈ post, i n ≤ i z) := by
  obtain ⟨hv, ha, hs, hm⟩ := hq
  rw [sorted_keys_iff] at hs
  obtain ⟨fs, f, e, hp, hb, hafter, hfl⟩ := prio_descend_spec cmpint i hc n t [] fuel true hv hs
    (by simp [ctxBefore]) (by simp [ctxAfter]) (by simp [ctxBefore]) hf
  have hp : plug fs ATree.nil = t := hp
  subst hp
  have e : avl_prio_queue_descend cmpint i fuel q.root n 0 Link.root true =
      Result.ok (ctxPar fs 0, ctxLink fs, f) := e
  obtain ⟨s1, t1, e1, hv1, ha1, hi1, _⟩ := insert_spec hv ha hn hal hfresh fuel
    (slot_length_lt hf)
  have hio := inorder_slot fs
  refine ⟨{ root := s1, min_node := if f = true then n else q.min_node }, t1, ctxBefore fs,
    ctxAfter fs, ?_, ⟨hv1, ha1, ?_, ?_⟩, hio, hi1, hb, hafter⟩
  · simp only [avl_prio_queue_insert_balanced, e, Result.ok_bind, e1]
    rfl
  · rw [sorted_keys_iff, hi1]
    rw [hio] at hs
    simp only [List.pairwise_append, List.pairwise_cons, List.mem_cons] at hs ⊢
    obtain ⟨h1, h2, h3⟩ := hs
    refine ⟨h1, ⟨hafter, h2⟩, ?_⟩
    intro y hy z hz
    rcases hz with rfl | hz
    · exact le_of_lt (hb y hy)
    · exact h3 y hy z hz
  · rw [hi1]
    show (if f = true then n else q.min_node) = _
    rw [hm, hio]
    cases hbf : ctxBefore fs with
    | nil =>
      have : f = true := hfl.2 hbf
      simp [this]
    | cons y ys =>
      have : ¬ f = true := fun h => by
        have := hfl.1 h
        rw [hbf] at this
        cases this
      simp [this]

/-- Function `avl_prio_queue_pop_balanced` returns the first entry of the in-order sequence
and keeps the invariant for the rest; on the empty queue it returns `NULL`. -/
theorem prio_pop_spec {i : Nat → Int} {q : avl_prio_queue} {t : ATree} (hq : QInv i q t)
    (fuel : Nat) (hf : t.height ≤ fuel) :
    (t.inorder = [] → avl_prio_queue_pop_balanced fuel q = Result.ok (q, 0)) ∧
    (∀ m rest, t.inorder = m :: rest →
      ∃ q1 t1, avl_prio_queue_pop_balanced fuel q = Result.ok (q1, m) ∧ QInv i q1 t1 ∧
        t1.inorder = rest) := by
  obtain ⟨hv, ha, hs, hm⟩ := hq
  constructor
  · intro h0
    rw [h0] at hm
    simp [avl_prio_queue_pop_balanced, hm, Result.pure_eq]
  · intro m rest h1
    rw [h1] at hm
    have hm : q.min_node = m := hm
    have hmem : m ∈ t.inorder := by rw [h1]; simp
    have hm0 : m ≠ 0 := fun e0 => hv.zero_not_mem (e0 ▸ hmem)
    have hnx := avl_next_spec hv (show t.inorder = [] ++ m :: rest from h1) fuel hf
    obtain ⟨s1, t1, e1, hv1, ha1, hi1, _⟩ := erase_spec hv ha hmem fuel hf
    have hi2 : t1.inorder = rest := by rw [hi1, h1]; simp
    refine ⟨{ root := s1, min_node := rest.head?.getD 0 }, t1, ?_, ⟨hv1, ha1, ?_, ?_⟩, hi2⟩
    · simp only [avl_prio_queue_pop_balanced, hm, hm0, if_false, hnx, Result.ok_bind, e1]
      rfl
    · rw [hi2]
      rw [h1] at hs
      exact (List.pairwise_cons.1 hs).2
    · rw [hi2]

theorem qinv_init (i : Nat → Int) (q : avl_prio_queue) :
    QInv i (avl_prio_queue_init q) ATree.nil :=
  ⟨valid_of_root_zero rfl, trivial, List.Pairwise.nil, rfl⟩

/-- A run of insertions keeps the invariant and adds the entries to the tree. -/
theorem insert_entries_spec {cmpint : Int → Int → Int} {i : Nat → Int}
    (hc : ∀ a b, cmpint a b ≤ 0 ↔ a ≤ b) (fuel : Nat) :
    ∀ (es : List Nat) (q : avl_prio_queue) (t : ATree), QInv i q t →
    (es ++ t.inorder).Nodup → (∀ e ∈ es, e ≠ 0 ∧ e % 4 = 0) →
    es.length + t.inorder.length < fuel →
    ∃ q1 t1, insert_entries cmpint i fuel q es = Result.ok q1 ∧ QInv i q1 t1 ∧
      t1.inorder.Perm (es ++ t.inorder)
  | [], q, t, hq, _, _, _ => ⟨q, t, rfl, hq, List.Perm.refl _⟩
  | e :: es, q, t, hq, hnd, hal, hf => by
    have hnd1 := List.nodup_cons.1 hnd
    have hfresh : e ∉ t.inorder := fun h => hnd1.1 (List.mem_append_right _ h)
    have hh := height_le_length t
    simp only [List.length_cons] at hf
    obtain ⟨q1, t1, pre, post, e1, hq1, hi, hi1, _, _⟩ := prio_insert_spec hc hq
      (hal e (List.mem_cons_self _ _)).1 (hal e (List.mem_cons_self _ _)).2 hfresh fuel
      (by omega)
    have hperm : t1.inorder.Perm (e :: t.inorder) := by
      rw [hi1, hi]; exact List.perm_middle
    obtain ⟨q2, t2, e2, hq2, hp2⟩ := insert_entries_spec hc fuel es q1 t1 hq1
      ((List.Perm.append_left es hperm).nodup_iff.2 (by
        have : (es ++ e :: t.inorder).Perm (e :: es ++ t.inorder) := List.perm_middle
        exact this.nodup_iff.2 hnd))
      (fun x hx => hal x (List.mem_cons_of_mem _ hx))
      (by rw [hperm.length_eq]; simp only [List.length_cons]; omega)
    refine ⟨q2, t2, ?_, hq2, ?_⟩
    · simp only [insert_entries, e1, Result.ok_bind, e2]
    · exact hp2.trans ((List.Perm.append_left es hperm).trans List.perm_middle)

/-- Popping as many times as there are entries returns the in-order sequence and empties the
queue. -/
theorem pop_entries_spec {i : Nat → Int} (fuel : Nat) :
    ∀ (n : Nat) (q : avl_prio_queue) (t : ATree), QInv i q t → t.inorder.length = n →
    n ≤ fuel →
    ∃ q2, pop_entries fuel q n = Result.ok (q2, t.inorder) ∧ QInv i q2 ATree.nil
  | 0, q, t, hq, hn, _ => by
    have ht : t = ATree.nil := inorder_eq_nil t (List.length_eq_zero.1 hn)
    subst ht
    exact ⟨q, rfl, hq⟩
  | n + 1, q, t, hq, hn, hf => by
    have hh := height_le_length t
    cases hL : t.inorder with
    | nil => rw [hL] at hn; cases hn
    | cons m rest =>
      obtain ⟨q1, t1, e1, hq1, hi1⟩ := (prio_pop_spec hq fuel (by omega)).2 m rest hL
      rw [hL] at hn
      obtain ⟨q2, e2, hq2⟩ := pop_entries_spec fuel n q1 t1 hq1
        (by rw [hi1]; simpa using hn) (by omega)
      refine ⟨q2, ?_, hq2⟩
      simp only [pop_entries, e1, Result.ok_bind, e2, hi1]
      rfl

/-- Every reachable queue state satisfies the invariant. -/
theorem qreached_inv {cmpint : Int → Int → Int} {i : Nat → Int}
    (hc : ∀ a b, cmpint a b ≤ 0 ↔ a ≤ b) {q : avl_prio_queue} (h : QReached cmpint i q) :
    ∃ t, QInv i q t := by
  induction h with
  | init q => exact ⟨ATree.nil, qinv_init i q⟩
  | insert n fuel _ hv hn hal hfresh hf hrun ih =>
    obtain ⟨t0, hq0⟩ := ih
    have e0 := hv.unique hq0.1
    rw [e0] at hfresh hf
    obtain ⟨q2, t1, _, _, e1, hq1, _⟩ := prio_insert_spec hc hq0 hn hal hfresh fuel hf
    rw [hrun] at e1
    cases e1
    exact ⟨t1, hq1⟩
  | pop fuel _ hv hf hrun ih =>
    obtain ⟨t0, hq0⟩ := ih
    have e0 := hv.unique hq0.1
    rw [e0] at hf
    have hp := prio_pop_spec hq0 fuel hf
    cases hL : t0.inorder with
    | nil =>
      rw [hp.1 hL] at hrun
      cases hrun
      exact ⟨t0, hq0⟩
    | cons m rest =>
      obtain ⟨q2, t1, e1, hq1, _⟩ := hp.2 m rest hL
      rw [hrun] at e1
      cases e1
      exact ⟨t1, hq1⟩

end Avl

namespace Avl

theorem Result.eq_ok_value {α : Type} (r : Result α) (d : α) (h : r.isOk = true) :
    r = Result.ok ((Result.value r).getD d) := by
  cases r with
  | ok a => rfl
  | fault => cases h
  | timeout => cases h

theorem cmpint_example_le (a b : Int) : cmpint_example a b ≤ 0 ↔ a ≤ b := by
  unfold cmpint_example
  omega

theorem precedes_cons_of_ne {b a x : Nat} {rest : List Nat} (h : Precedes b a (x :: rest))
    (hx : x ≠ b) : Precedes b a rest := by
  obtain ⟨pre, mid, post, e⟩ := h
  cases pre with
  | nil =>
    simp only [List.nil_append, List.cons.injEq] at e
    exact absurd e.1 hx
  | cons y ys =>
    simp only [List.cons_append, List.cons.injEq] at e
    exact ⟨ys, mid, post, e.2⟩

theorem precedes_cons {b a : Nat} {L : List Nat} (x : Nat) (h : Precedes b a L) :
    Precedes b a (x :: L) := by
  obtain ⟨pre, mid, post, e⟩ := h
  exact ⟨x :: pre, mid, post, by rw [e]; rfl⟩

theorem precedes_head {b a : Nat} {L : List Nat} (h : a ∈ L) : Precedes b a (b :: L) := by
  obtain ⟨mid, post, e⟩ := List.append_of_mem h
  exact ⟨[], mid, post, by rw [e]; rfl⟩

theorem precedes_mem {b a : Nat} {L : List Nat} (h : Precedes b a L) : b ∈ L ∧ a ∈ L := by
  obtain ⟨pre, mid, post, e⟩ := h
  rw [e]
  simp

theorem precedes_insert {b a : Nat} (n : Nat) : ∀ (pre post : List Nat),
    Precedes b a (pre ++ post) → Precedes b a (pre ++ n :: post)
  | [], post, h => precedes_cons n h
  | x :: xs, post, h => by
    obtain ⟨p, mid, q, e⟩ := h
    cases p with
    | nil =>
      simp only [List.nil_append, List.cons_append, List.cons.injEq] at e
      obtain ⟨rfl, e⟩ := e
      have ha : a ∈ xs ++ post := by rw [e]; simp
      have ha2 : a ∈ xs ++ n :: post := by
        rcases List.mem_append.1 ha with h1 | h1
        · exact List.mem_append_left _ h1
        · exact List.mem_append_right _ (List.mem_cons_of_mem _ h1)
      exact precedes_head ha2
    | cons y ys =>
      simp only [List.cons_append, List.cons.injEq] at e
      exact precedes_cons x (precedes_insert n xs post ⟨ys, mid, q, e.2⟩)

theorem run_queue1 :
    avl_prio_queue_insert_balanced cmpint_example key_of 4 queue0 40 = Result.ok queue1 :=
  Result.eq_ok_value _ _ (by decide)

theorem run_queue2 :
    avl_prio_queue_insert_balanced cmpint_example key_of 4 queue1 8 = Result.ok queue2 :=
  Result.eq_ok_value _ _ (by decide)

theorem run_queue3 : avl_prio_queue_pop_balanced 4 queue2 = Result.ok (queue3, 8) :=
  (Result.eq_ok_value (avl_prio_queue_pop_balanced 4 queue2) (queue0, 0) (by decide)).trans
    (congrArg Result.ok (Prod.ext rfl (by decide)))

theorem qreached_queue2 : QReached cmpint_example key_of queue2 :=
  QReached.insert 8 4
    (QReached.insert 40 4 (QReached.init _) (show Valid queue0.root ATree.nil from valid_store0)
      (by decide) (by decide) (by decide) (by decide) run_queue1)
    (show Valid queue1.root treeQ1 by decide) (by decide) (by decide) (by decide) (by decide)
    run_queue2

theorem qreached_queue3 : QReached cmpint_example key_of queue3 :=
  QReached.pop 4 qreached_queue2 (show Valid queue2.root treeQ2 by decide) (by decide)
    run_queue3

/-! ## Main theorems: height bound and priority queue -/

/-- C11: for every tree with N nodes reached from an empty tree by any sequence of `avl_insert`
and `avl_erase` calls, the height (number of nodes on the longest path from the root to a
leaf) is at most `1.45 * log2 (N + 2)`; in integers, `2 ^ (20 * height) ≤ (N + 2) ^ 29`. -/
theorem C11_height_bound (s : Store) (t : ATree) (i e : Nat) (hr : Reached s i e)
    (hv : Valid s t) :
    (t.height : ℝ) ≤ 1.45 * Real.logb 2 ((t.inorder.length : ℝ) + 2) ∧
      2 ^ (20 * t.height) ≤ (t.inorder.length + 2) ^ 29 := by
  obtain ⟨t0, hv0, ha0, _⟩ := reached_inv hr
  have := hv.unique hv0
  subst this
  exact ⟨avl_height_log _ ha0, avl_height_pow _ ha0⟩

/-- Witness of C11: the tree after three inserts and one erase, two nodes and height 2. -/
theorem C11_height_bound_witness :
    Reached storeD 3 1 ∧ Valid storeD treeD ∧ treeD.height = 2 ∧ treeD.inorder.length = 2 ∧
      (treeD.height : ℝ) ≤ 1.45 * Real.logb 2 ((treeD.inorder.length : ℝ) + 2) ∧
      2 ^ (20 * treeD.height) ≤ (treeD.inorder.length + 2) ^ 29 :=
  have hv : Valid storeD treeD := by decide
  ⟨reached_storeD, hv, rfl, rfl, C11_height_bound storeD treeD 3 1 reached_storeD hv⟩

/-- C12: for every list of entries (distinct non-null aligned nodes, any integer keys) and a
comparator that is at most zero exactly when the first key is at most the second, inserting
them in list order with `avl_prio_queue_insert_balanced` into a queue initialised by
`avl_prio_queue_init` and then calling `avl_prio_queue_pop_balanced` once per entry returns the
entries in an order in which the keys are non-decreasing, a permutation of the input, and one
further pop returns `NULL`. -/
theorem C12_queue_sorts (cmpint : Int → Int → Int) (i : Nat → Int) (es : List Nat)
    (q : avl_prio_queue) (fuel : Nat) (hc : ∀ a b, cmpint a b ≤ 0 ↔ a ≤ b) (hnd : es.Nodup)
    (hes : ∀ e ∈ es, e ≠ 0 ∧ e % 4 = 0) (hf : es.length < fuel) :
    ∃ q1 q2 out, insert_entries cmpint i fuel (avl_prio_queue_init q) es = Result.ok q1 ∧
      pop_entries fuel q1 es.length = Result.ok (q2, out) ∧ out.Perm es ∧
      (out.map i).Pairwise (fun a b => a ≤ b) ∧ (out.map i).Perm (es.map i) ∧
      avl_prio_queue_pop_balanced fuel q2 = Result.ok (q2, 0) := by
  obtain ⟨q1, t1, e1, hq1, hp1⟩ := insert_entries_spec hc fuel es (avl_prio_queue_init q)
    ATree.nil (qinv_init i q) (by simpa [ATree.inorder] using hnd) hes
    (by simpa [ATree.inorder] using hf)
  simp only [ATree.inorder, List.append_nil] at hp1
  obtain ⟨q2, e2, hq2⟩ := pop_entries_spec fuel es.length q1 t1 hq1 hp1.length_eq (by omega)
  refine ⟨q1, q2, t1.inorder, e1, e2, hp1, hq1.2.2.1, hp1.map i, ?_⟩
  exact (prio_pop_spec hq2 fuel (Nat.zero_le _)).1 rfl

/-- Witness of C12: the keys 5, 1, 3, 2, 4 (entries at addresses `8 * key`) pop as 1, 2, 3, 4,
5. -/
theorem C12_queue_sorts_witness :
    (∃ q1 q2 out, insert_entries cmpint_example key_of 6 (avl_prio_queue_init queue0)
        [40, 8, 24, 16, 32] = Result.ok q1 ∧
      pop_entries 6 q1 5 = Result.ok (q2, out) ∧ out.Perm [40, 8, 24, 16, 32] ∧
      (out.map key_of).Pairwise (fun a b => a ≤ b) ∧
      (out.map key_of).Perm ([40, 8, 24, 16, 32].map key_of) ∧
      avl_prio_queue_pop_balanced 6 q2 = Result.ok (q2, 0)) ∧
    (Result.value ((insert_entries cmpint_example key_of 6 (avl_prio_queue_init queue0)
      [40, 8, 24, 16, 32]).bind (fun q => pop_entries 6 q 5))).map
        (fun r => r.2.map key_of) = some [1, 2, 3, 4, 5] :=
  ⟨C12_queue_sorts cmpint_example key_of [40, 8, 24, 16, 32] queue0 6 cmpint_example_le
      (by decide) (by decide) (by decide),
    by set_option maxRecDepth 100000 in decide⟩

/-- C13: in every queue state reached from `avl_prio_queue_init` by any interleaving of
`avl_prio_queue_insert_balanced` and `avl_prio_queue_pop_balanced`, the cached `min_node` is
the result of `avl_first`: it is `NULL` exactly when the tree is empty, and otherwise it is the
leftmost node, first of the in-order sequence, whose key is a minimum of all keys in the
queue. -/
theorem C13_min_node_is_first (cmpint : Int → Int → Int) (i : Nat → Int) (q : avl_prio_queue)
    (hc : ∀ a b, cmpint a b ≤ 0 ↔ a ≤ b) (hr : QReached cmpint i q) :
    ∃ t, Valid q.root t ∧
      (∀ fuel, t.height ≤ fuel → avl_first fuel q.root = Result.ok q.min_node) ∧
      (q.min_node = 0 ↔ t = ATree.nil) ∧ (avl_empty q.root = true ↔ t = ATree.nil) ∧
      (t ≠ ATree.nil → t.inorder.head? = some q.min_node ∧
        (q.root.mem q.min_node).left = 0 ∧ ∀ x ∈ t.inorder, i q.min_node ≤ i x) := by
  obtain ⟨t, hv, _, hs, hm⟩ := qreached_inv hc hr
  refine ⟨t, hv, ?_, ?_, ?_, ?_⟩
  · intro fuel hf
    rw [hm]
    exact avl_first_spec hv fuel hf
  · cases hL : t.inorder with
    | nil =>
      rw [hL] at hm
      have := inorder_eq_nil t hL
      simp [hm, this]
    | cons m rest =>
      rw [hL] at hm
      have hm : q.min_node = m := hm
      have hmem : m ∈ t.inorder := by rw [hL]; simp
      have hm0 : m ≠ 0 := fun e0 => hv.zero_not_mem (e0 ▸ hmem)
      constructor
      · intro h0
        exact absurd (hm ▸ h0) hm0
      · intro ht
        rw [ht] at hL
        cases hL
  · rw [← ATree.ptr_eq_zero_iff t hv.2.1, ← hv.1]
    simp [avl_empty]
  · intro ht
    obtain ⟨m, _, e2, _, e4⟩ := descend_left_links t t.height (Rep.links t 0 hv.2.1) ht
      (le_refl _)
    cases hL : t.inorder with
    | nil => exact absurd (inorder_eq_nil t hL) ht
    | cons y rest =>
      rw [hL] at hm e2
      have hm : q.min_node = y := hm
      have hy : y = m := by simpa using e2
      rw [sorted_keys_iff, hL] at hs
      refine ⟨by rw [hm]; rfl, by rw [hm, hy]; exact e4, ?_⟩
      intro x hx
      rw [hm]
      rcases List.mem_cons.1 hx with rfl | hx
      · exact le_refl _
      · exact (List.pairwise_cons.1 hs).1 x hx

/-- Witness of C13: the queue after inserting keys 5 and 1, and after one pop. -/
theorem C13_min_node_is_first_witness :
    QReached cmpint_example key_of queue3 ∧ queue2.min_node = 8 ∧ queue3.min_node = 40 ∧
      (∃ t, Valid queue2.root t ∧
        (∀ fuel, t.height ≤ fuel → avl_first fuel queue2.root = Result.ok queue2.min_node) ∧
        (queue2.min_node = 0 ↔ t = ATree.nil) ∧ (avl_empty queue2.root = true ↔ t = ATree.nil) ∧
        (t ≠ ATree.nil → t.inorder.head? = some queue2.min_node ∧
          (queue2.root.mem queue2.min_node).left = 0 ∧
          ∀ x ∈ t.inorder, key_of queue2.min_node ≤ key_of x)) ∧
      (∃ t, Valid queue3.root t ∧
        (∀ fuel, t.height ≤ fuel → avl_first fuel queue3.root = Result.ok queue3.min_node) ∧
        (queue3.min_node = 0 ↔ t = ATree.nil) ∧ (avl_empty queue3.root = true ↔ t = ATree.nil) ∧
        (t ≠ ATree.nil → t.inorder.head? = some queue3.min_node ∧
          (queue3.root.mem queue3.min_node).left = 0 ∧
          ∀ x ∈ t.inorder, key_of queue3.min_node ≤ key_of x)) :=
  ⟨qreached_queue3, by decide, by decide,
    C13_min_node_is_first cmpint_example key_of queue2 cmpint_example_le qreached_queue2,
    C13_min_node_is_first cmpint_example key_of queue3 cmpint_example_le qreached_queue3⟩

/-- C14, as amended: the queue is last-in first-out among equal keys. When an entry `b` is
inserted while an entry `a` with an equal key is in the queue, `b` is placed before `a` in the
in-order sequence; while both are in the queue every later insert keeps `b` before `a`, and
every pop returns an entry other than `a`, after which `b` is the entry returned or still
stands before `a`. So `avl_prio_queue_pop_balanced` returns `b` before `a`. -/
theorem C14_equal_keys_order (cmpint : Int → Int → Int) (i : Nat → Int) (a b : Nat)
    (hc : ∀ x y, cmpint x y ≤ 0 ↔ x ≤ y) (hk : i b = i a) :
    (∀ q t fuel, QReached cmpint i q → Valid q.root t → a ∈ t.inorder → b ≠ 0 → b % 4 = 0 →
      b ∉ t.inorder → t.height < fuel →
      ∃ q1 t1, avl_prio_queue_insert_balanced cmpint i fuel q b = Result.ok q1 ∧
        Valid q1.root t1 ∧ Precedes b a t1.inorder) ∧
    (∀ q t, QReached cmpint i q → Valid q.root t → Precedes b a t.inorder →
      (∀ e fuel, e ≠ 0 → e % 4 = 0 → e ∉ t.inorder → t.height < fuel →
        ∃ q1 t1, avl_prio_queue_insert_balanced cmpint i fuel q e = Result.ok q1 ∧
          Valid q1.root t1 ∧ Precedes b a t1.inorder) ∧
      (∀ fuel, t.height ≤ fuel →
        ∃ q1 t1 x, avl_prio_queue_pop_balanced fuel q = Result.ok (q1, x) ∧
          Valid q1.root t1 ∧ x ≠ a ∧ (x = b ∨ Precedes b a t1.inorder))) := by
  constructor
  · intro q t fuel hr hv ha hb0 hbal hfresh hf
    obtain ⟨t0, hq0⟩ := qreached_inv hc hr
    have e0 := hv.unique hq0.1
    subst e0
    obtain ⟨q1, t1, pre, post, e1, hq1, hi, hi1, hpre, _⟩ := prio_insert_spec hc hq0 hb0 hbal
      hfresh fuel hf
    refine ⟨q1, t1, e1, hq1.1, ?_⟩
    rw [hi1]
    have hapost : a ∈ post := by
      rw [hi] at ha
      rcases List.mem_append.1 ha with h | h
      · have := hpre a h
        omega
      · exact h
    obtain ⟨mid, rest, e⟩ := List.append_of_mem hapost
    exact ⟨pre, mid, rest, by rw [e]⟩
  · intro q t hr hv hpr
    obtain ⟨t0, hq0⟩ := qreached_inv hc hr
    have e0 := hv.unique hq0.1
    subst e0
    constructor
    · intro e fuel he0 heal hfresh hf
      obtain ⟨q1, t1, pre, post, e1, hq1, hi, hi1, _, _⟩ := prio_insert_spec hc hq0 he0 heal
        hfresh fuel hf
      refine ⟨q1, t1, e1, hq1.1, ?_⟩
      rw [hi1]
      rw [hi] at hpr
      exact precedes_insert e pre post hpr
    · intro fuel hf
      cases hL : t.inorder with
      | nil =>
        rw [hL] at hpr
        exact absurd (precedes_mem hpr).1 (List.not_mem_nil _)
      | cons x rest =>
        obtain ⟨q1, t1, e1, hq1, hi1⟩ := (prio_pop_spec hq0 fuel hf).2 x rest hL
        have hnd := hv.2.2
        rw [hL] at hpr hnd
        refine ⟨q1, t1, x, e1, hq1.1, ?_, ?_⟩
        · rintro rfl
          obtain ⟨pre, mid, post, e⟩ := hpr
          cases pre with
          | nil =>
            simp only [List.nil_append, List.cons.injEq] at e
            obtain ⟨rfl, e⟩ := e
            rw [e] at hnd
            exact (List.nodup_cons.1 hnd).1 (by simp)
          | cons y ys =>
            simp only [List.cons_append, List.cons.injEq] at e
            obtain ⟨rfl, e⟩ := e
            rw [e] at hnd
            exact (List.nodup_cons.1 hnd).1 (by simp)
        · by_cases hxb : x = b
          · exact Or.inl hxb
          · exact Or.inr (hi1 ▸ precedes_cons_of_ne hpr hxb)

/-- Witness of C14: the entries at addresses 8 and 12 have the same key 1 under `key_of`. -/
theorem C14_equal_keys_order_witness :
    key_of 12 = key_of 8 ∧ QReached cmpint_example key_of queue2 ∧
      ∃ q1 t1, avl_prio_queue_insert_balanced cmpint_example key_of 4 queue2 12 =
          Result.ok q1 ∧ Valid q1.root t1 ∧ Precedes 12 8 t1.inorder :=
  ⟨by decide, qreached_queue2,
    (C14_equal_keys_order cmpint_example key_of 8 12 cmpint_example_le (by decide)).1 queue2
      treeQ2 4 qreached_queue2 (by decide) (by decide) (by decide) (by decide) (by decide)
      (by decide)⟩

/-- Counterexample to C14 as stated: the entry at address 8 is inserted before the entry at
address 12, both have key 1 and both are in the queue, and the first pop returns the entry at
address 12, the second the entry at address 8. -/
theorem C14_equal_keys_order_counterexample :
    key_of 8 = key_of 12 ∧
      (Result.value ((insert_entries cmpint_example key_of 4 queue0 [8, 12]).bind
        (fun q => pop_entries 4 q 2))).map (fun r => r.2) = some [12, 8] :=
  ⟨by decide, by decide⟩

end Avl

namespace Avl

/-! ## Structural facts about single steps -/

/-- The link above a position of a valid layout holds the top of the subtree there. -/
theorem slot_holds {s : Store} {p : Nat} : ∀ (fs : List Frame), RepCtx s fs s.root 0 p →
    (ctxPar fs 0 = 0 → s.root = p) ∧
      (ctxPar fs 0 ≠ 0 → if ctxIsRight fs = true then (s.mem (ctxPar fs 0)).right = p
        else (s.mem (ctxPar fs 0)).left = p)
  | [], h => ⟨fun _ => h.symm, fun h0 => absurd rfl h0⟩
  | Frame.L a b r :: fs, h => ⟨fun h0 => absurd h0 h.1, fun _ => by
      simpa [ctxIsRight] using h.2.2.2.2.1⟩
  | Frame.R l a b :: fs, h => ⟨fun h0 => absurd h0 h.1, fun _ => by
      simpa [ctxIsRight] using h.2.2.2.2.2.1⟩

theorem slot_holds_valid {s : Store} {fs : List Frame} {u : ATree} (h : Valid s (plug fs u)) :
    (ctxPar fs 0 = 0 → s.root = u.ptr) ∧
      (ctxPar fs 0 ≠ 0 → if ctxIsRight fs = true then (s.mem (ctxPar fs 0)).right = u.ptr
        else (s.mem (ctxPar fs 0)).left = u.ptr) :=
  slot_holds fs ((valid_plug fs u).1 h).2.1

theorem is_right_child_iff (s : Store) (x : Nat) :
    is_right_child_of s x = true ↔ parent_of s x ≠ 0 ∧ (s.mem (parent_of s x)).right = x := by
  unfold is_right_child_of
  by_cases h0 : parent_of s x = 0
  · simp [h0]
  · by_cases h1 : (s.mem (parent_of s x)).right = x
    · simp [h0, h1]
    · simp [h0, h1]

/-- Parent and balance fields of the top of a subtree at a position of a valid layout. -/
theorem top_fields {s : Store} {fs : List Frame} {u : ATree} (h : Valid s (plug fs u))
    (hu : u.ptr ≠ 0) : parent_of s u.ptr = ctxPar fs 0 ∧ balance_of s u.ptr = u.bal := by
  cases u with
  | nil => exact absurd rfl hu
  | node l a b r =>
    have hA := h.at
    exact ⟨hA.par, hA.bal⟩

theorem root_iff_no_parent {s : Store} {fs : List Frame} {l r : ATree} {x b : Nat}
    (h : Valid s (plug fs (ATree.node l x b r))) : ctxPar fs 0 = 0 ↔ s.root = x := by
  have hA := h.at
  constructor
  · intro h0
    exact (slot_holds fs hA.ctx).1 h0
  · intro hr
    by_contra h0
    have hm := ctxPar_mem fs h0
    have hc := hA.ctx
    -- the root is the top of the whole tree, which lies on the path when there is one
    have hfs : fs ≠ [] := fun e => h0 (by rw [e]; rfl)
    have hp := plug_ptr_mem_ctx fs (ATree.node l x b r) hfs
    rw [← h.1, hr] at hp
    exact hA.nac hp

/-- The slot test of the code, by the parent's right field, on a valid layout. -/
theorem slot_by_right {s s1 : Store} {fs : List Frame} {l r : ATree} {x b : Nat} {u : ATree}
    (h : Valid s (plug fs (ATree.node l x b r))) (h1 : Valid s1 (plug fs u)) :
    (parent_of s x = 0 → s1.root = u.ptr) ∧
      (parent_of s x ≠ 0 →
        if (s.mem (parent_of s x)).right = x then (s1.mem (parent_of s x)).right = u.ptr
        else (s1.mem (parent_of s x)).left = u.ptr) := by
  have hA := h.at
  have hs := slot_holds_valid h1
  rw [hA.par]
  refine ⟨hs.1, fun h0 => ?_⟩
  have h2 := hs.2 h0
  have hisr := hA.isr
  by_cases hr : ctxIsRight fs = true
  · have := (is_right_child_iff s x).1 (hisr.trans hr)
    rw [hA.par] at this
    rw [if_pos hr] at h2
    rw [if_pos this.2]
    exact h2
  · have hn : ¬ (s.mem (ctxPar fs 0)).right = x := by
      intro hx
      have := (is_right_child_iff s x).2 (by rw [hA.par]; exact ⟨h0, hx⟩)
      exact hr (hisr ▸ this)
    rw [if_neg hr] at h2
    rw [if_neg hn]
    exact h2

/-- Function `avl_erase_node` on a node with two children, with the successor given by its
path below the right child: the store then holds the tree with the successor in the node's
place. -/
theorem erase_node_two_place {s : Store} {fs rfs : List Frame} {x b m bm : Nat}
    {l mr : ATree}
    (h : Valid s (plug fs (ATree.node l x b (plug rfs (ATree.node ATree.nil m bm mr)))))
    (hl : l.ptr ≠ 0) (hL : AllL rfs) (fuel : Nat) (hf : rfs.length < fuel) :
    ∃ s1, avl_erase_node fuel s x =
        Result.ok (s1, ctxPar (rfs ++ Frame.R l m b :: fs) 0,
          ctxIsRight (rfs ++ Frame.R l m b :: fs)) ∧
      Valid s1 (plug fs (ATree.node l m b (plug rfs mr))) := by
  obtain ⟨e, hv1⟩ := erase_node_two h hl hL fuel hf
  refine ⟨_, e, ?_⟩
  rw [plug_append] at hv1
  exact hv1

/-- Decomposition of a nonempty subtree at its leftmost node. -/
theorem min_decompose (r : ATree) (hr : r ≠ ATree.nil) :
    ∃ rfs m bm mr, r = plug rfs (ATree.node ATree.nil m bm mr) ∧ AllL rfs ∧
      rfs.length < r.height ∧ r.inorder = m :: (mr.inorder ++ ctxAfter rfs) := by
  obtain ⟨m, bm, mr, hm⟩ := minNode_shape r hr
  have hp := plug_min r
  rw [hm] at hp
  refine ⟨minCtx r, m, bm, mr, hp.symm, allL_minCtx r, minCtx_length_lt r hr, ?_⟩
  conv_lhs => rw [← hp]
  rw [inorder_plug, ctxBefore_allL _ (allL_minCtx r)]
  simp [ATree.inorder]

/-- Everything `avl_erase_node` does to a node with two children, in terms of the store. -/
theorem erase_two_facts {s : Store} {t : ATree} {x : Nat} (hv : Valid s t) (hx : x ∈ t.inorder)
    (hl : (s.mem x).left ≠ 0) (hr : (s.mem x).right ≠ 0) (fuel : Nat) (hf : t.height ≤ fuel) :
    ∃ s1 ret rr m t1, avl_erase_node fuel s x = Result.ok (s1, ret, rr) ∧
      descend_left fuel s (s.mem x).right = Result.ok m ∧ avl_next fuel s x = Result.ok m ∧
      m ≠ 0 ∧ m ≠ x ∧ Valid s1 t1 ∧ t1.inorder = t.inorder.erase x ∧
      parent_of s1 m = parent_of s x ∧ balance_of s1 m = balance_of s x ∧
      ((parent_of s x = 0 → s1.root = m) ∧
        (parent_of s x ≠ 0 →
          if (s.mem (parent_of s x)).right = x then (s1.mem (parent_of s x)).right = m
          else (s1.mem (parent_of s x)).left = m)) ∧
      (s1.mem m).left = (s.mem x).left ∧
      (s1.mem m).right = (if (s.mem x).right = m then (s.mem m).right else (s.mem x).right) ∧
      parent_of s1 (s1.mem m).left = m ∧
      ((s1.mem m).right ≠ 0 → parent_of s1 (s1.mem m).right = m) ∧
      ((s.mem x).right = m → ret = m ∧ rr = true) ∧
      ((s.mem x).right ≠ m → ret = parent_of s m ∧ rr = false ∧ ret ≠ 0 ∧
        (s.mem ret).left = m ∧ is_right_child_of s m = false) := by
  obtain ⟨fs, l, b, r, rfl⟩ := exists_plug_of_mem t x hx
  have hA := hv.at
  have hl1 : l.ptr ≠ 0 := hA.left ▸ hl
  have hr1 : r ≠ ATree.nil := fun e => hr (by rw [hA.right, e]; rfl)
  obtain ⟨rfs, m, bm, mr, rfl, hL, hlen, hio⟩ := min_decompose r hr1
  have hfuel : rfs.length < fuel := by
    have h1 := sub_height_le fs (ATree.node l x b (plug rfs (ATree.node ATree.nil m bm mr)))
    simp only [ATree.height] at h1
    omega
  obtain ⟨s1, e, hv1⟩ := erase_node_two_place hv hl1 hL fuel hfuel
  have hvM : Valid s (plug (rfs ++ Frame.R l x b :: fs) (ATree.node ATree.nil m bm mr)) := by
    rw [plug_append]; exact hv
  have hM := hvM.at
  have hB := hv1.at
  have hdesc : descend_left fuel s (s.mem x).right = Result.ok m := by
    rw [hA.right]
    exact descend_left_spec hL hA.repr fuel hfuel
  have hnext : avl_next fuel s x = Result.ok m := by
    rw [avl_next_at hv fuel hf, hio]
    rfl
  have hmx : m ≠ x := by
    intro e0
    exact hA.nar (by rw [hio, e0]; simp)
  have hin : (plug fs (ATree.node l m b (plug rfs mr))).inorder =
      (plug fs (ATree.node l x b (plug rfs (ATree.node ATree.nil m bm mr)))).inorder.erase x := by
    rw [erase_plug hv, inorder_plug, hio]
    simp only [ATree.inorder]
    rw [inorder_plug rfs mr, ctxBefore_allL rfs hL]
    simp
  have hright : (s1.mem m).right =
      (if (s.mem x).right = m then (s.mem m).right else (s.mem x).right) := by
    rw [hB.right, hA.right]
    cases rfs with
    | nil =>
      have : (plug [] (ATree.node ATree.nil m bm mr)).ptr = m := rfl
      rw [if_pos this]
      exact hM.right.symm
    | cons f gs =>
      have hne : (plug (f :: gs) (ATree.node ATree.nil m bm mr)).ptr ≠ m := by
        intro e0
        have h1 := plug_ptr_mem_ctx (f :: gs) (ATree.node ATree.nil m bm mr) (by simp)
        rw [e0] at h1
        exact hM.nac (by rw [ctxAddrs_append]; exact List.mem_append_left _ h1)
      rw [if_neg hne]
      exact plug_ptr_of_ne_nil (f :: gs) _ _ (by simp)
  have hleftpar : parent_of s1 (s1.mem m).left = m := by
    rw [hB.left]
    have hv2 : Valid s1 (plug (Frame.L m b (plug rfs mr) :: fs) l) := hv1
    exact (top_fields hv2 hl1).1
  have hrightpar : (s1.mem m).right ≠ 0 → parent_of s1 (s1.mem m).right = m := by
    rw [hB.right]
    intro h0
    have hv2 : Valid s1 (plug (Frame.R l m b :: fs) (plug rfs mr)) := hv1
    exact (top_fields hv2 h0).1
  refine ⟨s1, _, _, m, _, e, hdesc, hnext, hM.ne, hmx, hv1, hin, ?_, ?_, ?_, ?_, hright,
    hleftpar, hrightpar, ?_, ?_⟩
  · rw [hB.par, hA.par]
  · rw [hB.bal, hA.bal]
  · exact slot_by_right hv hv1
  · rw [hB.left, hA.left]
  · intro e0
    rw [hA.right] at e0
    cases rfs with
    | nil => exact ⟨rfl, rfl⟩
    | cons f gs =>
      exfalso
      have h1 := plug_ptr_mem_ctx (f :: gs) (ATree.node ATree.nil m bm mr) (by simp)
      rw [e0] at h1
      exact hM.nac (by rw [ctxAddrs_append]; exact List.mem_append_left _ h1)
  · intro e0
    rw [hA.right] at e0
    cases rfs with
    | nil => exact absurd rfl e0
    | cons f gs =>
      cases f with
      | R _ _ _ => exact absurd hL (by simp [AllL])
      | L G bG sib =>
        have hpar : parent_of s m = G := hM.par
        have hG0 : G ≠ 0 := hM.ctx.1
        have hisr : is_right_child_of s m = false := hM.isr
        have hsl := (slot_holds _ hM.ctx).2 (by simpa using hG0)
        refine ⟨hpar.symm, rfl, hG0, ?_, hisr⟩
        simpa [ctxIsRight] using hsl

end Avl

namespace Avl

/-! ## Main theorems: single steps of erase, link and rotation -/

/-- C15: for every valid tree and every node `x` with two children, `avl_erase_node` of `x`
returns, and the in-order successor `m` of `x` (the leftmost node of the right subtree of `x`)
then occupies the place of `x`: it has the former parent of `x` (it is the root node if `x`
was) in the slot `x` occupied, the former balance of `x`, the former left child of `x` as left
child, and as right child the former right child of `x` (its own former right child when `m`
was that right child); the parent fields of its children point to `m`. -/
theorem C15_successor_takes_place (s : Store) (t : ATree) (x fuel : Nat) (hv : Valid s t)
    (hx : x ∈ t.inorder) (hl : (s.mem x).left ≠ 0) (hr : (s.mem x).right ≠ 0)
    (hf : t.height ≤ fuel) :
    ∃ s1 ret rr m p bx, avl_erase_node fuel s x = Result.ok (s1, ret, rr) ∧
      descend_left fuel s (s.mem x).right = Result.ok m ∧ avl_next fuel s x = Result.ok m ∧
      m ≠ 0 ∧ m ≠ x ∧
      avl_parent s x = Result.ok p ∧ avl_parent s1 m = Result.ok p ∧
      avl_balance s x = Result.ok bx ∧ avl_balance s1 m = Result.ok bx ∧
      (p = 0 → s.root = x ∧ s1.root = m) ∧
      (p ≠ 0 → if (s.mem p).right = x then (s1.mem p).right = m else (s1.mem p).left = m) ∧
      (s1.mem m).left = (s.mem x).left ∧
      (s1.mem m).right = (if (s.mem x).right = m then (s.mem m).right else (s.mem x).right) ∧
      avl_parent s1 (s1.mem m).left = Result.ok m ∧
      ((s1.mem m).right ≠ 0 → avl_parent s1 (s1.mem m).right = Result.ok m) := by
  obtain ⟨s1, ret, rr, m, t1, e, hd, hn, hm0, hmx, _, _, hp, hb, hslot, hleft, hright, hlp, hrp,
    _, _⟩ := erase_two_facts hv hx hl hr fuel hf
  have hx0 : x ≠ 0 := fun e0 => hv.zero_not_mem (e0 ▸ hx)
  have hl1 : (s1.mem m).left ≠ 0 := by rw [hleft]; exact hl
  refine ⟨s1, ret, rr, m, parent_of s x, balance_of s x, e, hd, hn, hm0, hmx,
    avl_parent_ok s hx0, ?_, avl_balance_ok s hx0, ?_, ?_, hslot.2, hleft, hright, ?_, ?_⟩
  · rw [avl_parent_ok s1 hm0, hp]
  · rw [avl_balance_ok s1 hm0, hb]
  · intro h0
    obtain ⟨fs, l, b, r, rfl⟩ := exists_plug_of_mem t x hx
    have hA := hv.at
    exact ⟨(root_iff_no_parent hv).1 (hA.par ▸ h0), hslot.1 h0⟩
  · rw [avl_parent_ok s1 hl1, hlp]
  · intro h0
    rw [avl_parent_ok s1 h0, hrp h0]

/-- Witness of C15: erasing key 5, the root of the scenario tree, makes key 7 (the node at
address 56) the root. -/
theorem C15_successor_takes_place_witness :
    Valid store7 tree7 ∧ (store7.mem 40).left ≠ 0 ∧ (store7.mem 40).right ≠ 0 ∧
      (∃ s1 ret rr m p bx, avl_erase_node 8 store7 40 = Result.ok (s1, ret, rr) ∧
        descend_left 8 store7 (store7.mem 40).right = Result.ok m ∧
        avl_next 8 store7 40 = Result.ok m ∧ m ≠ 0 ∧ m ≠ 40 ∧
        avl_parent store7 40 = Result.ok p ∧ avl_parent s1 m = Result.ok p ∧
        avl_balance store7 40 = Result.ok bx ∧ avl_balance s1 m = Result.ok bx ∧
        (p = 0 → store7.root = 40 ∧ s1.root = m) ∧
        (p ≠ 0 → if (store7.mem p).right = 40 then (s1.mem p).right = m
          else (s1.mem p).left = m) ∧
        (s1.mem m).left = (store7.mem 40).left ∧
        (s1.mem m).right =
          (if (store7.mem 40).right = m then (store7.mem m).right else (store7.mem 40).right) ∧
        avl_parent s1 (s1.mem m).left = Result.ok m ∧
        ((s1.mem m).right ≠ 0 → avl_parent s1 (s1.mem m).right = Result.ok m)) ∧
      (Result.value (avl_erase_node 8 store7 40)).map (fun r => r.1.root) = some 56 :=
  have hv : Valid store7 tree7 := by set_option maxRecDepth 100000 in decide
  ⟨hv, by set_option maxRecDepth 100000 in decide, by set_option maxRecDepth 100000 in decide,
    C15_successor_takes_place store7 tree7 40 8 hv (by decide)
      (by set_option maxRecDepth 100000 in decide) (by set_option maxRecDepth 100000 in decide)
      (by decide),
    by set_option maxRecDepth 100000 in decide⟩

/-- C16, as amended: for every valid tree and every node `x` with two children whose in-order
successor `m` is not the right child of `x`, `avl_erase_node` of `x` returns the former parent
of `m` as the node at which rebalancing must begin and sets `*removed_right` to false: `m` was
the left child of that parent, so the height is lost on the left. -/
theorem C16_deep_successor_side (s : Store) (t : ATree) (x m fuel : Nat) (hv : Valid s t)
    (hx : x ∈ t.inorder) (hl : (s.mem x).left ≠ 0) (hr : (s.mem x).right ≠ 0)
    (hm : descend_left fuel s (s.mem x).right = Result.ok m) (hne : (s.mem x).right ≠ m)
    (hf : t.height ≤ fuel) :
    ∃ s1 p, avl_erase_node fuel s x = Result.ok (s1, p, false) ∧
      avl_parent s m = Result.ok p ∧ p ≠ 0 ∧ (s.mem p).left = m ∧
      avl_is_right_child s m = Result.ok false := by
  obtain ⟨s1, ret, rr, m1, t1, e, hd, _, hm0, _, _, _, _, _, _, _, _, _, _, _, hdeep⟩ :=
    erase_two_facts hv hx hl hr fuel hf
  rw [hm] at hd
  have hmm : m = m1 := Result.ok.inj hd
  subst hmm
  obtain ⟨h1, h2, h3, h4, h5⟩ := hdeep hne
  subst h1 h2
  exact ⟨s1, _, e, avl_parent_ok s hm0, h3, h4, by rw [avl_is_right_child_ok s hm0, h5]⟩

/-- Witness of C16: erasing key 5 from the scenario tree, whose successor key 7 is the left
child of key 8. -/
theorem C16_deep_successor_side_witness :
    Valid store7 tree7 ∧ descend_left 8 store7 (store7.mem 40).right = Result.ok 56 ∧
      ∃ s1 p, avl_erase_node 8 store7 40 = Result.ok (s1, p, false) ∧
        avl_parent store7 56 = Result.ok p ∧ p ≠ 0 ∧ (store7.mem p).left = 56 ∧
        avl_is_right_child store7 56 = Result.ok false :=
  have hv : Valid store7 tree7 := by set_option maxRecDepth 100000 in decide
  have hd : descend_left 8 store7 (store7.mem 40).right = Result.ok 56 := by
    set_option maxRecDepth 100000 in decide
  ⟨hv, hd, C16_deep_successor_side store7 tree7 40 56 8 hv (by decide)
    (by set_option maxRecDepth 100000 in decide) (by set_option maxRecDepth 100000 in decide)
    hd (by set_option maxRecDepth 100000 in decide) (by decide)⟩

/-- Counterexample to C16 as stated: in the scenario tree key 5 (address 40) has two children
and its successor key 7 (address 56) is not its right child (address 64), and `avl_erase_node`
returns the node at address 64 with `*removed_right` false, not true. -/
theorem C16_deep_successor_side_counterexample :
    Valid store7 tree7 ∧ 40 ∈ tree7.inorder ∧ (store7.mem 40).left = 24 ∧
      (store7.mem 40).right = 64 ∧ avl_next 8 store7 40 = Result.ok 56 ∧
      (Result.value (avl_erase_node 8 store7 40)).map (fun r => r.2) = some (64, false) :=
  ⟨by set_option maxRecDepth 100000 in decide, by decide,
    by set_option maxRecDepth 100000 in decide, by set_option maxRecDepth 100000 in decide,
    by set_option maxRecDepth 100000 in decide, by set_option maxRecDepth 100000 in decide⟩

end Avl

namespace Avl

/-- C17: for every valid tree and every node `x` with at most one child, `avl_erase_node` of
`x` returns the former parent of `x` (`NULL` exactly when `x` was the root), redirects the slot
that pointed to `x` (the parent's left or right field, or the root link) to the only child of
`x`, or to `NULL` if `x` is a leaf, sets that child's parent to the former parent of `x` and
keeps its balance, and sets `*removed_right` to true exactly when `x` was the right child of
its parent. -/
theorem C17_erase_node_simple (s : Store) (t : ATree) (x fuel : Nat) (hv : Valid s t)
    (hx : x ∈ t.inorder) (h1 : (s.mem x).left = 0 ∨ (s.mem x).right = 0) :
    ∃ s1 ret rr child t1, avl_erase_node fuel s x = Result.ok (s1, ret, rr) ∧
      child = (if (s.mem x).left ≠ 0 then (s.mem x).left else (s.mem x).right) ∧
      avl_parent s x = Result.ok ret ∧ (ret = 0 ↔ s.root = x) ∧
      avl_is_right_child s x = Result.ok rr ∧
      (rr = true ↔ ret ≠ 0 ∧ (s.mem ret).right = x) ∧
      (ret = 0 → s1.root = child) ∧
      (ret ≠ 0 → if rr = true then (s1.mem ret).right = child
        else (s1.mem ret).left = child) ∧
      (child ≠ 0 → avl_parent s1 child = Result.ok ret ∧
        avl_balance s1 child = avl_balance s child) ∧
      Valid s1 t1 ∧ t1.inorder = t.inorder.erase x := by
  obtain ⟨fs, l, b, r, rfl⟩ := exists_plug_of_mem t x hx
  have hA := hv.at
  have hx0 := hA.ne
  have key : ∀ (c : ATree) (s1 : Store), (c = l ∨ c = r) → (l = ATree.nil ∨ r = ATree.nil) →
      c.ptr = (if (s.mem x).left ≠ 0 then (s.mem x).left else (s.mem x).right) →
      (c.inorder = l.inorder ++ r.inorder) →
      avl_erase_node fuel s x = Result.ok (s1, ctxPar fs 0, ctxIsRight fs) →
      Valid s1 (plug fs c) →
      ∃ s1 ret rr child t1, avl_erase_node fuel s x = Result.ok (s1, ret, rr) ∧
        child = (if (s.mem x).left ≠ 0 then (s.mem x).left else (s.mem x).right) ∧
        avl_parent s x = Result.ok ret ∧ (ret = 0 ↔ s.root = x) ∧
        avl_is_right_child s x = Result.ok rr ∧
        (rr = true ↔ ret ≠ 0 ∧ (s.mem ret).right = x) ∧
        (ret = 0 → s1.root = child) ∧
        (ret ≠ 0 → if rr = true then (s1.mem ret).right = child
          else (s1.mem ret).left = child) ∧
        (child ≠ 0 → avl_parent s1 child = Result.ok ret ∧
          avl_balance s1 child = avl_balance s child) ∧
        Valid s1 t1 ∧ t1.inorder = (plug fs (ATree.node l x b r)).inorder.erase x := by
    intro c s1 hc _ hcp hci e hv1
    have hsl := slot_holds_valid hv1
    refine ⟨s1, ctxPar fs 0, ctxIsRight fs, c.ptr, plug fs c, e, hcp, ?_, root_iff_no_parent hv,
      ?_, ?_, hsl.1, hsl.2, ?_, hv1, ?_⟩
    · rw [avl_parent_ok s hx0, hA.par]
    · rw [avl_is_right_child_ok s hx0, hA.isr]
    · rw [← hA.isr, is_right_child_iff, hA.par]
    · intro hc0
      have hf1 := top_fields hv1 hc0
      have hold : balance_of s c.ptr = c.bal := by
        rcases hc with rfl | rfl
        · have hv2 : Valid s (plug (Frame.L x b r :: fs) c) := hv
          exact (top_fields hv2 hc0).2
        · have hv2 : Valid s (plug (Frame.R l x b :: fs) c) := hv
          exact (top_fields hv2 hc0).2
      rw [avl_parent_ok s1 hc0, avl_balance_ok s1 hc0, avl_balance_ok s hc0, hf1.1, hf1.2, hold]
      exact ⟨rfl, rfl⟩
    · rw [erase_plug hv, inorder_plug, hci]
  cases l with
  | nil =>
    have hl0 : (s.mem x).left = 0 := hA.left
    exact key r _ (Or.inr rfl) (Or.inl rfl) (by simp [hl0, hA.right]) (by simp [ATree.inorder])
      (erase_node_no_left hv fuel) (valid_detach_smallest hv).1
  | node ll la lb lr =>
    have hl0 : (s.mem x).left ≠ 0 := by rw [hA.left]; exact hA.repl.1
    have hr0 : (s.mem x).right = 0 := h1.resolve_left hl0
    have hrn : r = ATree.nil := (ATree.ptr_eq_zero_iff r hA.repr).1 (hA.right ▸ hr0)
    subst hrn
    have hlp : (ATree.node ll la lb lr).ptr ≠ 0 := hA.repl.1
    exact key (ATree.node ll la lb lr) _ (Or.inl rfl) (Or.inr rfl)
      (by rw [if_pos hl0, hA.left]) (by simp [ATree.inorder]) (erase_node_no_right hv hlp fuel)
      (valid_detach_left_child hv hlp).1

/-- Witness of C17: in the scenario before the last insertion, key 8 (address 64) is the right
child of the root and has only the left child key 7 (address 56). -/
theorem C17_erase_node_simple_witness :
    Valid store6 tree6 ∧ (store6.mem 64).right = 0 ∧
      (∃ s1 ret rr child t1, avl_erase_node 8 store6 64 = Result.ok (s1, ret, rr) ∧
        child = (if (store6.mem 64).left ≠ 0 then (store6.mem 64).left
          else (store6.mem 64).right) ∧
        avl_parent store6 64 = Result.ok ret ∧ (ret = 0 ↔ store6.root = 64) ∧
        avl_is_right_child store6 64 = Result.ok rr ∧
        (rr = true ↔ ret ≠ 0 ∧ (store6.mem ret).right = 64) ∧
        (ret = 0 → s1.root = child) ∧
        (ret ≠ 0 → if rr = true then (s1.mem ret).right = child
          else (s1.mem ret).left = child) ∧
        (child ≠ 0 → avl_parent s1 child = Result.ok ret ∧
          avl_balance s1 child = avl_balance store6 child) ∧
        Valid s1 t1 ∧ t1.inorder = tree6.inorder.erase 64) ∧
      (Result.value (avl_erase_node 8 store6 64)).map
        (fun r => ((r.1.mem 40).right, r.2)) = some (56, 40, true) :=
  have hv : Valid store6 tree6 := by set_option maxRecDepth 100000 in decide
  have h0 : (store6.mem 64).right = 0 := by set_option maxRecDepth 100000 in decide
  ⟨hv, h0, C17_erase_node_simple store6 tree6 64 8 hv (by decide) (Or.inr h0),
    by set_option maxRecDepth 100000 in decide⟩

/-- C18: for every node, parent (possibly `NULL`) and link slot that is not a field of the
node itself, `avl_link_node` sets the node's parent to the given parent, its balance to
`AVL_NEUTRAL`, its left and right children to `NULL`, and makes the slot point to the node; no
field of another node other than the slot and no other slot is changed, so nothing is
rebalanced. -/
theorem C18_link_node_frame (s : Store) (node parent : Nat) (link : Link) (hn : node ≠ 0)
    (hp : parent % 4 = 0)
    (hl : ∀ q, link = Link.left q ∨ link = Link.right q → q ≠ 0 ∧ q ≠ node) :
    ∃ s1, avl_link_node s node parent link = Result.ok s1 ∧
      avl_parent s1 node = Result.ok parent ∧ avl_balance s1 node = Result.ok AVL_NEUTRAL ∧
      (s1.mem node).left = 0 ∧ (s1.mem node).right = 0 ∧ rd_link s1 link = Result.ok node ∧
      (∀ a, a ≠ node → (s1.mem a).parent_balance = (s.mem a).parent_balance ∧
        (link ≠ Link.left a → (s1.mem a).left = (s.mem a).left) ∧
        (link ≠ Link.right a → (s1.mem a).right = (s.mem a).right)) ∧
      (link ≠ Link.root → s1.root = s.root) := by
  have hlink : (∀ q, link = Link.left q → q ≠ 0) ∧ (∀ q, link = Link.right q → q ≠ 0) :=
    ⟨fun q h => (hl q (Or.inl h)).1, fun q h => (hl q (Or.inr h)).1⟩
  refine ⟨link_node_eff s node parent link, avl_link_node_ok s parent link hn hlink, ?_⟩
  have hw : (parent ||| AVL_NEUTRAL) = parent := by simp [AVL_NEUTRAL]
  have hpar : parent / 4 * 4 = parent := by omega
  have hbal : parent % 4 = AVL_NEUTRAL := hp
  cases link with
  | root =>
    refine ⟨?_, ?_, ?_, ?_, ?_, ?_, ?_⟩
    · rw [avl_parent_ok _ hn]
      simp [link_node_eff, setLink, set_parent_balance_eff, parent_of, setRoot, setRight,
        setLeft, setWord, setNode, hw, hpar]
    · rw [avl_balance_ok _ hn]
      simp [link_node_eff, setLink, set_parent_balance_eff, balance_of, setRoot, setRight,
        setLeft, setWord, setNode, hw, hbal]
    · simp [link_node_eff, setLink, set_parent_balance_eff, setRoot, setRight, setLeft,
        setWord, setNode]
    · simp [link_node_eff, setLink, set_parent_balance_eff, setRoot, setRight, setLeft,
        setWord, setNode]
    · simp [link_node_eff, setLink, rd_link, setRoot]
    · intro a ha
      simp [link_node_eff, setLink, set_parent_balance_eff, setRoot, setRight, setLeft,
        setWord, setNode, ha]
    · intro h; exact absurd rfl h
  | left q =>
    obtain ⟨hq0, hqn⟩ := hl q (Or.inl rfl)
    have hnq : node ≠ q := fun e => hqn e.symm
    refine ⟨?_, ?_, ?_, ?_, ?_, ?_, ?_⟩
    · rw [avl_parent_ok _ hn]
      simp [link_node_eff, setLink, set_parent_balance_eff, parent_of, setRight,
        setLeft, setWord, setNode, hw, hpar, hnq]
    · rw [avl_balance_ok _ hn]
      simp [link_node_eff, setLink, set_parent_balance_eff, balance_of, setRight,
        setLeft, setWord, setNode, hw, hbal, hnq]
    · simp [link_node_eff, setLink, set_parent_balance_eff, setRight, setLeft,
        setWord, setNode, hnq]
    · simp [link_node_eff, setLink, set_parent_balance_eff, setRight, setLeft,
        setWord, setNode, hnq]
    · simp [link_node_eff, setLink, rd_link, rd_left_ok _ hq0, setLeft, setNode]
    · intro a ha
      by_cases haq : a = q
      · subst haq
        simp [link_node_eff, setLink, set_parent_balance_eff, setRight, setLeft,
          setWord, setNode, ha]
      · have hne : Link.left q ≠ Link.left a := fun e => haq (Link.left.inj e).symm
        simp [link_node_eff, setLink, set_parent_balance_eff, setRight, setLeft,
          setWord, setNode, ha, haq]
    · intro _
      simp [link_node_eff, setLink, set_parent_balance_eff, setRight, setLeft,
        setWord, setNode]
  | right q =>
    obtain ⟨hq0, hqn⟩ := hl q (Or.inr rfl)
    have hnq : node ≠ q := fun e => hqn e.symm
    refine ⟨?_, ?_, ?_, ?_, ?_, ?_, ?_⟩
    · rw [avl_parent_ok _ hn]
      simp [link_node_eff, setLink, set_parent_balance_eff, parent_of, setRight,
        setLeft, setWord, setNode, hw, hpar, hnq]
    · rw [avl_balance_ok _ hn]
      simp [link_node_eff, setLink, set_parent_balance_eff, balance_of, setRight,
        setLeft, setWord, setNode, hw, hbal, hnq]
    · simp [link_node_eff, setLink, set_parent_balance_eff, setRight, setLeft,
        setWord, setNode, hnq]
    · simp [link_node_eff, setLink, set_parent_balance_eff, setRight, setLeft,
        setWord, setNode, hnq]
    · simp [link_node_eff, setLink, rd_link, rd_right_ok _ hq0, setRight, setNode]
    · intro a ha
      by_cases haq : a = q
      · subst haq
        simp [link_node_eff, setLink, set_parent_balance_eff, setRight, setLeft,
          setWord, setNode, ha]
      · simp [link_node_eff, setLink, set_parent_balance_eff, setRight, setLeft,
          setWord, setNode, ha, haq]
    · intro _
      simp [link_node_eff, setLink, set_parent_balance_eff, setRight, setLeft,
        setWord, setNode]

/-- Witness of C18: linking the node at address 8 below the node at address 16, in its left
slot. -/
theorem C18_link_node_frame_witness :
    ∃ s1, avl_link_node storeA 8 16 (Link.left 16) = Result.ok s1 ∧
      avl_parent s1 8 = Result.ok 16 ∧ avl_balance s1 8 = Result.ok AVL_NEUTRAL ∧
      (s1.mem 8).left = 0 ∧ (s1.mem 8).right = 0 ∧ rd_link s1 (Link.left 16) = Result.ok 8 ∧
      (∀ a, a ≠ 8 → (s1.mem a).parent_balance = (storeA.mem a).parent_balance ∧
        (Link.left 16 ≠ Link.left a → (s1.mem a).left = (storeA.mem a).left) ∧
        (Link.left 16 ≠ Link.right a → (s1.mem a).right = (storeA.mem a).right)) ∧
      (Link.left 16 ≠ Link.root → s1.root = storeA.root) :=
  C18_link_node_frame storeA 8 16 (Link.left 16) (by decide) (by decide) (by
    intro q hq
    rcases hq with h | h
    · cases h; exact ⟨by decide, by decide⟩
    · cases h)

/-- C20: for every parent-consistent tree and every node `P` with right child `C`,
`avl_rotate_left` of `C` and `P` returns `C` and makes it the top of the subtree with `P` as
its left child and the former left child of `C` as the right child of `P` (with its parent
field set to `P` when it exists), leaves the left child of `P` and the right child of `C` in
place, sets the parent of `C` to the former parent of `P`, and redirects what pointed at `P`
(the root link or the left or right slot of the former parent) to `C`; the in-order sequence of
the whole tree is unchanged. -/
theorem C20_rotate_left_structure (s : Store) (t : ATree) (P C : Nat) (hv : Valid s t)
    (hP : P ∈ t.inorder) (hC : (s.mem P).right = C) (hC0 : C ≠ 0) :
    ∃ s1 t1 p, avl_rotate_left s C P = Result.ok (s1, C) ∧ Valid s1 t1 ∧
      t1.inorder = t.inorder ∧
      (s1.mem C).left = P ∧ avl_parent s1 P = Result.ok C ∧
      (s1.mem P).right = (s.mem C).left ∧
      ((s.mem C).left ≠ 0 → avl_parent s1 (s.mem C).left = Result.ok P) ∧
      (s1.mem P).left = (s.mem P).left ∧ (s1.mem C).right = (s.mem C).right ∧
      avl_parent s P = Result.ok p ∧ avl_parent s1 C = Result.ok p ∧
      (p = 0 → s.root = P ∧ s1.root = C) ∧
      (p ≠ 0 → if (s.mem p).right = P then (s1.mem p).right = C
        else (s1.mem p).left = C) := by
  obtain ⟨fs, l, bP, r, rfl⟩ := exists_plug_of_mem t P hP
  have hA := hv.at
  have hrn : r.ptr = C := hA.right ▸ hC
  cases r with
  | nil => exact absurd hrn.symm hC0
  | node rl C1 bC rr =>
    have hCC : C1 = C := hrn
    subst hCC
    obtain ⟨s1, e, hv1⟩ := valid_rotate_left hv
    have hOC : At s (Frame.R l P bP :: fs) rl C1 bC rr := Valid.at hv
    have hB := hv1.at
    have hvP : Valid s1 (plug (Frame.L C1 (if bC = AVL_NEUTRAL then AVL_LEFT else AVL_NEUTRAL)
        rr :: fs) (ATree.node l P (if bC = AVL_NEUTRAL then AVL_RIGHT else AVL_NEUTRAL) rl)) :=
      hv1
    have hBP := hvP.at
    have hsl := slot_by_right hv hv1
    refine ⟨s1, _, parent_of s P, e, hv1, ?_, hB.left, ?_, ?_, ?_, ?_, ?_,
      avl_parent_ok s hA.ne, ?_, ?_, hsl.2⟩
    · rw [inorder_plug, inorder_plug]
      simp [ATree.inorder]
    · rw [avl_parent_ok s1 hA.ne, hBP.par]
      rfl
    · rw [hBP.right, hOC.left]
    · intro h0
      rw [hOC.left] at h0 ⊢
      have hv2 : Valid s1 (plug (Frame.R l P (if bC = AVL_NEUTRAL then AVL_RIGHT
          else AVL_NEUTRAL) :: Frame.L C1 (if bC = AVL_NEUTRAL then AVL_LEFT else AVL_NEUTRAL)
          rr :: fs) rl) := hv1
      rw [avl_parent_ok s1 h0, (top_fields hv2 h0).1]
      rfl
    · rw [hBP.left, hA.left]
    · rw [hB.right, hOC.right]
    · rw [avl_parent_ok s1 hB.ne, hB.par, hA.par]
    · intro h0
      exact ⟨(root_iff_no_parent hv).1 (hA.par ▸ h0), hsl.1 h0⟩

/-- Witness of C20: the rotation at key 8 (address 64) of the scenario tree, with its right
child key 9 (address 72). -/
theorem C20_rotate_left_structure_witness :
    Valid store7 tree7 ∧ (store7.mem 64).right = 72 ∧
      ∃ s1 t1 p, avl_rotate_left store7 72 64 = Result.ok (s1, 72) ∧ Valid s1 t1 ∧
        t1.inorder = tree7.inorder ∧
        (s1.mem 72).left = 64 ∧ avl_parent s1 64 = Result.ok 72 ∧
        (s1.mem 64).right = (store7.mem 72).left ∧
        ((store7.mem 72).left ≠ 0 → avl_parent s1 (store7.mem 72).left = Result.ok 64) ∧
        (s1.mem 64).left = (store7.mem 64).left ∧ (s1.mem 72).right = (store7.mem 72).right ∧
        avl_parent store7 64 = Result.ok p ∧ avl_parent s1 72 = Result.ok p ∧
        (p = 0 → store7.root = 64 ∧ s1.root = 72) ∧
        (p ≠ 0 → if (store7.mem p).right = 64 then (s1.mem p).right = 72
          else (s1.mem p).left = 72) :=
  have hv : Valid store7 tree7 := by set_option maxRecDepth 100000 in decide
  have hr : (store7.mem 64).right = 72 := by set_option maxRecDepth 100000 in decide
  ⟨hv, hr, C20_rotate_left_structure store7 tree7 64 72 hv (by decide) hr (by decide)⟩

end Avl

namespace Avl

/-! ## The tree of treesort.c: field accesses -/

theorem tree_of_setColor (m : CmapState) (p v : Nat) :
    tree_of (m.setColor p v) = setWord (tree_of m) p v := by
  simp only [tree_of, CmapState.setColor, setWord, setNode, Store.mk.injEq, and_true]
  funext a
  by_cases h : a = p <;> simp [h]

theorem tree_of_setLeft (m : CmapState) (p v : Nat) :
    tree_of (m.setLeft p v) = setLeft (tree_of m) p v := by
  simp only [tree_of, CmapState.setLeft, setLeft, setNode, Store.mk.injEq, and_true]
  funext a
  by_cases h : a = p <;> simp [h]

theorem tree_of_setRight (m : CmapState) (p v : Nat) :
    tree_of (m.setRight p v) = setRight (tree_of m) p v := by
  simp only [tree_of, CmapState.setRight, setRight, setNode, Store.mk.injEq, and_true]
  funext a
  by_cases h : a = p <;> simp [h]

theorem tree_of_setHead (m : CmapState) (v : Nat) :
    tree_of (m.setHead v) = setRoot (tree_of m) v := rfl

theorem tree_of_root (m : CmapState) : (tree_of m).root = m.head := rfl

theorem tree_of_left (m : CmapState) (a : Nat) : ((tree_of m).mem a).left = m.left a := rfl

theorem tree_of_right (m : CmapState) (a : Nat) : ((tree_of m).mem a).right = m.right a := rfl

theorem tree_of_word (m : CmapState) (a : Nat) :
    ((tree_of m).mem a).parent_balance = m.color a := rfl

theorem cmap_rd_left_ok (m : CmapState) {p : Nat} (h : p ≠ 0) :
    m.rd_left p = Result.ok ((tree_of m).mem p).left := by simp [CmapState.rd_left, h, tree_of]

theorem cmap_rd_right_ok (m : CmapState) {p : Nat} (h : p ≠ 0) :
    m.rd_right p = Result.ok ((tree_of m).mem p).right := by
  simp [CmapState.rd_right, h, tree_of]

theorem cmap_wr_left_ok (m : CmapState) {p : Nat} (v : Nat) (h : p ≠ 0) :
    m.wr_left p v = Result.ok (m.setLeft p v) := by simp [CmapState.wr_left, h]

theorem cmap_wr_right_ok (m : CmapState) {p : Nat} (v : Nat) (h : p ≠ 0) :
    m.wr_right p v = Result.ok (m.setRight p v) := by simp [CmapState.wr_right, h]

/-- Setting the low bit of a word whose second bit is clear. -/
theorem lor_one_of_lt (w : Nat) (h : w % 4 < 2) : w ||| 1 = (w / 4 * 4) ||| 1 := by
  have hp : (w / 4 * 4) % 4 = 0 := by omega
  have h1 := word_or (w / 4 * 4) 1 hp (by omega)
  have e1 : (w / 4 * 4) ||| 1 = w / 4 * 4 + 1 := by
    have := Nat.div_add_mod ((w / 4 * 4) ||| 1) 4
    omega
  rcases (show w % 4 = 0 ∨ w % 4 = 1 by omega) with h0 | h0
  · have : w = w / 4 * 4 := by omega
    rw [← this]
  · have : w = (w / 4 * 4) ||| 1 := by omega
    conv_lhs => rw [this]
    rw [Nat.lor_assoc]
    rfl

/-- Macro `rb_parent` at a node whose word holds a color. -/
theorem rb_parent_ok (m : CmapState) {a : Nat} (ha : a ≠ 0) (hb : balance_of (tree_of m) a < 2) :
    rb_parent m a = Result.ok (parent_of (tree_of m) a) := by
  simp only [balance_of, tree_of_word] at hb
  have e : m.color a / 2 * 2 = m.color a / 4 * 4 := by omega
  simp [rb_parent, CmapState.rd_color, ha, parent_of, tree_of_word, e, Result.pure_eq]

/-- Macro `rb_color` at a node whose word holds a color. -/
theorem rb_color_ok (m : CmapState) {a : Nat} (ha : a ≠ 0) (hb : balance_of (tree_of m) a < 2) :
    rb_color m a = Result.ok (balance_of (tree_of m) a) := by
  simp only [balance_of, tree_of_word] at hb
  have e : m.color a % 2 = m.color a % 4 := by omega
  simp [rb_color, CmapState.rd_color, ha, balance_of, tree_of_word, e, Result.pure_eq]

/-- Macro `rb_set_parent` at a node whose word holds a color. -/
theorem rb_set_parent_ok (m : CmapState) {a : Nat} (p : Nat) (ha : a ≠ 0)
    (hb : balance_of (tree_of m) a < 2) :
    rb_set_parent m a p = Result.ok (m.setColor a (p ||| balance_of (tree_of m) a)) := by
  simp [rb_set_parent, rb_color_ok m ha hb, CmapState.wr_color, ha, Nat.lor_comm]

/-- Macro `rb_set_red` at a node whose word holds a color. -/
theorem rb_set_red_ok (m : CmapState) {a : Nat} (ha : a ≠ 0) (hb : balance_of (tree_of m) a < 2) :
    rb_set_red m a = Result.ok (m.setColor a (parent_of (tree_of m) a ||| CMAP_RED)) := by
  simp only [balance_of, tree_of_word] at hb
  have e : m.color a / 2 * 2 = m.color a / 4 * 4 := by omega
  simp [rb_set_red, CmapState.rd_color, CmapState.wr_color, ha, parent_of, tree_of_word, e]

/-- Macro `rb_set_black` at a node whose word holds a color. -/
theorem rb_set_black_ok (m : CmapState) {a : Nat} (ha : a ≠ 0)
    (hb : balance_of (tree_of m) a < 2) :
    rb_set_black m a = Result.ok (m.setColor a (parent_of (tree_of m) a ||| CMAP_BLACK)) := by
  simp only [balance_of, tree_of_word] at hb
  simp [rb_set_black, CmapState.rd_color, CmapState.wr_color, ha, parent_of, tree_of_word,
    lor_one_of_lt _ hb]

theorem tree_of_set_parent (m : CmapState) (a p : Nat) :
    tree_of (m.setColor a (p ||| balance_of (tree_of m) a)) = set_parent_eff (tree_of m) a p := by
  rw [tree_of_setColor]; rfl

theorem tree_of_set_balance (m : CmapState) (a c : Nat) :
    tree_of (m.setColor a (parent_of (tree_of m) a ||| c)) = set_balance_eff (tree_of m) a c := by
  rw [tree_of_setColor]; rfl

/-! ## Colors along a path -/

theorem colored_plug : ∀ (fs : List Frame) (t : ATree),
    (plug fs t).Colored ↔ (t.Colored ∧ CtxColored fs)
  | [], t => by simp [plug, CtxColored]
  | Frame.L a b r :: fs, t => by
    simp only [plug, colored_plug fs, ATree.Colored, CtxColored]
    tauto
  | Frame.R l a b :: fs, t => by
    simp only [plug, colored_plug fs, ATree.Colored, CtxColored]
    tauto

/-- Facts read off a valid state of the tree at a node given by its path. -/
theorem TValid.at_node {m : CmapState} {fs : List Frame} {l : ATree} {a b : Nat} {r : ATree}
    (h : TValid m (plug fs (ATree.node l a b r))) :
    At (tree_of m) fs l a b r ∧ b < 2 ∧ l.Colored ∧ r.Colored ∧ CtxColored fs := by
  have hc := (colored_plug fs _).1 h.2
  exact ⟨h.1.at, hc.1.1, hc.1.2.1, hc.1.2.2, hc.2⟩

/-- Changing the color of a node keeps the state valid. -/
theorem tvalid_set_color {m : CmapState} {fs : List Frame} {l : ATree} {a b : Nat} {r : ATree}
    (h : TValid m (plug fs (ATree.node l a b r))) (c : Nat) (hc : c < 2) :
    TValid (m.setColor a (parent_of (tree_of m) a ||| c)) (plug fs (ATree.node l a c r)) := by
  obtain ⟨_, _, hl, hr, hfs⟩ := h.at_node
  refine ⟨?_, (colored_plug fs _).2 ⟨⟨hc, hl, hr⟩, hfs⟩⟩
  rw [tree_of_set_balance]
  exact valid_set_balance h.1 c (by omega)

end Avl

namespace Avl

/-! ## Rotations of treesort.c -/

/-- The last statements of `cmap_rotate_left` and `cmap_rotate_right`: the link that held `P`
(a child field of the node above, or `head`) is made to hold `C`. -/
theorem cmap_redirect {m5 : CmapState} {fs : List Frame} {P : Nat} (C : Nat)
    (hctx : RepCtx (tree_of m5) fs (tree_of m5).root 0 P) (hP : P ≠ 0) (hnac : P ∉ ctxAddrs fs)
    (hroot : ctxPar fs 0 = 0 ↔ m5.head = P) :
    ∃ m7, (if ctxPar fs 0 ≠ 0 then do
            let ur ← m5.rd_right (ctxPar fs 0)
            if ur = P then do
              let y ← m5.wr_right (ctxPar fs 0) C
              Result.ok (if P = y.head then y.setHead C else y, C)
            else do
              let y ← m5.wr_left (ctxPar fs 0) C
              Result.ok (if P = y.head then y.setHead C else y, C)
          else Result.ok (if P = m5.head then m5.setHead C else m5, C)) = Result.ok (m7, C) ∧
      tree_of m7 = change_child_eff (tree_of m5) P C (ctxPar fs 0) := by
  cases fs with
  | nil =>
    have hh : m5.head = P := hroot.1 rfl
    refine ⟨m5.setHead C, by simp [ctxPar, hh], ?_⟩
    simp [tree_of_setHead, change_child_eff, ctxPar]
  | cons f fs =>
    cases f with
    | L g bg sib =>
      obtain ⟨h1, _, _, _, h5, h6, _, _⟩ := hctx
      have hne : sib.ptr ≠ P :=
        ATree.ptr_ne_of_not_mem hP (fun hx => hnac (by simp [ctxAddrs, hx]))
      have hh : ¬ P = m5.head := fun e => h1 (hroot.2 e.symm)
      have hh1 : (m5.setLeft g C).head = m5.head := rfl
      refine ⟨m5.setLeft g C, ?_, ?_⟩
      · simp [ctxPar, h1, cmap_rd_right_ok m5 h1, h6, hne, cmap_wr_left_ok m5 C h1, hh1, hh]
      · simp [tree_of_setLeft, change_child_eff, ctxPar, h1, h5]
    | R sib g bg =>
      obtain ⟨h1, _, _, _, h5, h6, _, _⟩ := hctx
      have hne : sib.ptr ≠ P :=
        ATree.ptr_ne_of_not_mem hP (fun hx => hnac (by simp [ctxAddrs, hx]))
      have hh : ¬ P = m5.head := fun e => h1 (hroot.2 e.symm)
      have hh1 : (m5.setRight g C).head = m5.head := rfl
      refine ⟨m5.setRight g C, ?_, ?_⟩
      · simp [ctxPar, h1, cmap_rd_right_ok m5 h1, h6, cmap_wr_right_ok m5 C h1, hh1, hh]
      · simp [tree_of_setRight, change_child_eff, ctxPar, h1, h5, hne]

/-- A store that differs from a valid one by a left rotation at `P` below the link that holds
`P` becomes valid once that link is redirected. -/
theorem valid_rotated_left {s s5 : Store} {fs : List Frame} {l rl rr : ATree} {P bP C bC : Nat}
    (h : Valid s (plug fs (ATree.node l P bP (ATree.node rl C bC rr)))) (bt bc : Nat)
    (hag : Agree [P, C, rl.ptr] s s5) (hroot : s5.root = s.root)
    (hC1 : parent_of s5 C = ctxPar fs 0) (hC2 : balance_of s5 C = bt)
    (hC3 : (s5.mem C).left = P) (hC4 : (s5.mem C).right = rr.ptr)
    (hP1 : parent_of s5 P = C) (hP2 : balance_of s5 P = bc)
    (hP3 : (s5.mem P).left = l.ptr) (hP4 : (s5.mem P).right = rl.ptr)
    (hrl : Rep s5 rl P) :
    RepCtx s5 fs s5.root 0 P ∧
    Valid (change_child_eff s5 P C (ctxPar fs 0))
      (plug fs (ATree.node (ATree.node l P bc rl) C bt rr)) := by
  have hP := h.at
  have hC : At s (Frame.R l P bP :: fs) rl C bC rr := Valid.at h
  have hCc := hC.nac
  simp only [ctxAddrs, List.mem_cons, List.mem_append, not_or] at hCc
  obtain ⟨hCP, C_l, C_c⟩ := hCc
  have hPn := hP.nar
  simp only [ATree.inorder, List.mem_cons, List.mem_append, not_or] at hPn
  obtain ⟨P_rl, -, P_rr⟩ := hPn
  have z_l := Rep.zero_not_mem_sub l P hP.repl
  have z_rr := Rep.zero_not_mem_sub rr C hC.repr
  have z_c := RepCtx.zero_not_mem_ctx fs P hP.ctx
  have hq : rl.ptr ∉ C :: (rr.inorder ++ P :: (l.inorder ++ ctxAddrs fs)) := by
    refine ATree.ptr_not_mem ?_ ?_
    · simp only [List.mem_cons, List.mem_append, not_or]
      exact ⟨Ne.symm hC.ne, z_rr, Ne.symm hP.ne, z_l, z_c⟩
    · intro x hx
      have h1 := hC.dlc x hx
      simp only [ctxAddrs, List.mem_cons, List.mem_append, not_or] at h1
      simp only [List.mem_cons, List.mem_append, not_or]
      exact ⟨fun e => hC.nal (e ▸ hx), hC.dlr x hx, h1.1, h1.2.1, h1.2.2⟩
  simp only [List.mem_cons, List.mem_append, not_or] at hq
  obtain ⟨hqC, q_rr, hqP, q_l, q_c⟩ := hq
  have hnd' : (l.inorder ++ P :: (rl.inorder ++ C :: (rr.inorder ++ ctxAddrs fs))).Nodup := by
    have := hP.nd
    simpa [ATree.inorder] using this
  have hctx5 : RepCtx s5 fs s5.root 0 P := by
    rw [hroot]
    refine RepCtx.agree_ctx hag _ _ fs P (not_mem_of_forall ?_) hP.ctx
    simp only [List.forall_mem_cons, List.not_mem_nil, false_implies, implies_true, and_true]
    exact ⟨hP.nac, C_c, q_c⟩
  refine ⟨hctx5, ?_⟩
  have key := @valid_change_child s5 fs P
    (ATree.node (ATree.node l P bc rl) C bt rr) hctx5 hP.ne hP.nac ?_ ?_
  · simpa [ATree.ptr] using key
  · refine ⟨hC.ne, hC.al, hC1, hC2, hC3, hC4, ⟨hP.ne, hP.al, hP1, hP2, hP3, hP4, ?_, hrl⟩, ?_⟩
    · refine Rep.agree hag l P (not_mem_of_forall ?_) hP.repl
      simp only [List.forall_mem_cons, List.not_mem_nil, false_implies, implies_true, and_true]
      exact ⟨hP.nal, C_l, q_l⟩
    · refine Rep.agree hag rr C (not_mem_of_forall ?_) hC.repr
      simp only [List.forall_mem_cons, List.not_mem_nil, false_implies, implies_true, and_true]
      exact ⟨P_rr, hC.nar, q_rr⟩
  · simpa [ATree.inorder] using hnd'

end Avl

namespace Avl

theorem colored_bal {s : Store} {t : ATree} {par : Nat} (hr : Rep s t par) (hc : t.Colored)
    (h0 : t.ptr ≠ 0) : balance_of s t.ptr < 2 := by
  cases t with
  | nil => exact absurd rfl h0
  | node l a b r => rw [ATree.ptr, hr.2.2.2.1]; exact hc.1

/-- Function `cmap_rotate_left` at a node `P` with right child `C` of a valid state: it returns
`C`, which takes the place of `P`; both keep their colors. -/
theorem cmap_rotate_left_spec {m : CmapState} {fs : List Frame} {l rl rr : ATree}
    {P bP C bC : Nat} (h : TValid m (plug fs (ATree.node l P bP (ATree.node rl C bC rr)))) :
    ∃ m1, cmap_rotate_left m P = Result.ok (m1, C) ∧
      TValid m1 (plug fs (ATree.node (ATree.node l P bP rl) C bC rr)) := by
  obtain ⟨hP, hbP, hlc, hrc, hfc⟩ := h.at_node
  obtain ⟨hC, hbC, hrlc, hrrc, -⟩ :=
    (show TValid m (plug (Frame.R l P bP :: fs) (ATree.node rl C bC rr)) from h).at_node
  have hG : ctxPar fs 0 % 4 = 0 := RepCtx.par_aligned fs P hP.ctx
  have hPal := hP.al
  have hCal := hC.al
  have hPr : ((tree_of m).mem P).right = C := hP.right
  have hCl : ((tree_of m).mem C).left = rl.ptr := hC.left
  have hCr : ((tree_of m).mem C).right = rr.ptr := hC.right
  have hPl : ((tree_of m).mem P).left = l.ptr := hP.left
  have hCp : parent_of (tree_of m) C = P := hC.par
  have hPp : parent_of (tree_of m) P = ctxPar fs 0 := hP.par
  have hCP : C ≠ P := fun e => hC.nac (by simp [ctxAddrs, e])
  have hqP : rl.ptr ≠ P := ATree.ptr_ne_of_not_mem hP.ne (fun hx => hP.nar (by
    simp [ATree.inorder, hx]))
  have hqC : rl.ptr ≠ C := ATree.ptr_ne_of_not_mem hC.ne hC.nal
  -- the states after each statement
  let m1 := m.setColor C (ctxPar fs 0 ||| balance_of (tree_of m) C)
  have t1 : tree_of m1 = set_parent_eff (tree_of m) C (ctxPar fs 0) := tree_of_set_parent m C _
  let m3 := (m1.setLeft C P).setRight P rl.ptr
  have t3 : tree_of m3 = setRight (setLeft (set_parent_eff (tree_of m) C (ctxPar fs 0)) C P) P
      rl.ptr := by
    rw [tree_of_setRight, tree_of_setLeft, t1]
  have b3 : balance_of (tree_of m3) P = bP := by
    rw [t3]; simp [balance_set_parent, hG, hP.bal]
  let m4 := m3.setColor P (C ||| balance_of (tree_of m3) P)
  have t4 : tree_of m4 = set_parent_eff (tree_of m3) P C := tree_of_set_parent m3 P C
  have r4 : ((tree_of m4).mem P).right = rl.ptr := by rw [t4, t3]; simp
  have hag4 : Agree [P, C] (tree_of m) (tree_of m4) := by
    rw [t4, t3]
    exact (((agree_setWord _ C _ [P, C] (by simp)).trans
      (agree_setLeft _ C _ [P, C] (by simp))).trans
      (agree_setRight _ P _ [P, C] (by simp))).trans (agree_setWord _ P _ [P, C] (by simp))
  have hr4 : Rep (tree_of m4) rl C := by
    refine Rep.agree hag4 rl C (not_mem_of_forall ?_) hC.repl
    simp only [List.forall_mem_cons, List.not_mem_nil, false_implies, implies_true, and_true]
    exact ⟨fun hx => hP.nar (by simp [ATree.inorder, hx]), hC.nal⟩
  -- the state before the link above `P` is redirected
  obtain ⟨m5, hm5, t5⟩ : ∃ m5, m5 = (if rl.ptr ≠ 0 then
      m4.setColor rl.ptr (P ||| balance_of (tree_of m4) rl.ptr) else m4) ∧ tree_of m5 =
        if rl.ptr ≠ 0 then set_parent_eff (tree_of m4) rl.ptr P else tree_of m4 := by
    refine ⟨_, rfl, ?_⟩
    by_cases hq : rl.ptr = 0
    · simp [hq]
    · simp only [hq, ne_eq, not_false_eq_true, if_true, tree_of_set_parent]
  have hag5 : Agree [P, C, rl.ptr] (tree_of m) (tree_of m5) := by
    rw [t5]
    by_cases hq : rl.ptr = 0
    · simp only [hq, ne_eq, not_true_eq_false, if_false]
      exact hag4.mono (by simp)
    · simp only [hq, ne_eq, not_false_eq_true, if_true]
      exact (hag4.mono (by simp)).trans (agree_setWord _ _ _ _ (by simp))
  have hp5 : ∀ x, x ≠ rl.ptr → parent_of (tree_of m5) x = parent_of (tree_of m4) x := by
    intro x hx
    rw [t5]
    by_cases hq : rl.ptr = 0
    · simp [hq]
    · simp [hq, parent_set_parent, hPal, hx]
  have hb5 : ∀ x, balance_of (tree_of m5) x = balance_of (tree_of m4) x := by
    intro x
    rw [t5]
    by_cases hq : rl.ptr = 0
    · simp [hq]
    · simp [hq, balance_set_parent, hPal]
  have hl5 : ∀ x, ((tree_of m5).mem x).left = ((tree_of m4).mem x).left := by
    intro x
    rw [t5]
    by_cases hq : rl.ptr = 0 <;> simp [hq]
  have hr5 : ∀ x, ((tree_of m5).mem x).right = ((tree_of m4).mem x).right := by
    intro x
    rw [t5]
    by_cases hq : rl.ptr = 0 <;> simp [hq]
  have hroot5 : (tree_of m5).root = (tree_of m).root := by
    rw [t5]
    by_cases hq : rl.ptr = 0 <;> simp [hq, t4, t3]
  have hrl5 : Rep (tree_of m5) rl P := by
    by_cases hq : rl.ptr = 0
    · have : rl = ATree.nil := (ATree.ptr_eq_zero_iff rl hC.repl).1 hq
      rw [this]; trivial
    · rw [t5]
      simp only [hq, ne_eq, not_false_eq_true, if_true]
      exact Rep.set_parent hr4 (List.nodup_append.1 hC.nd).1 P hPal hq
  obtain ⟨hctx5, hv⟩ := valid_rotated_left h.1 bC bP hag5 hroot5
    (by rw [hp5 C (Ne.symm hqC), t4, t3]
        simp [parent_set_parent, hG, hCal, hCP])
    (by rw [hb5, t4, t3]; simp [balance_set_parent, hG, hCal, hC.bal])
    (by rw [hl5, t4, t3]; simp [hCP])
    (by rw [hr5, t4, t3]; simp [hCP, hCr])
    (by rw [hp5 P (Ne.symm hqP), t4, t3]; simp [parent_set_parent, hCal])
    (by rw [hb5, t4, t3]; simp [balance_set_parent, hG, hCal, hP.bal])
    (by rw [hl5, t4, t3]; simp [hCP.symm, hPl])
    (by rw [hr5, t4, t3]; simp)
    hrl5
  have hroot : ctxPar fs 0 = 0 ↔ m5.head = P := by
    have := root_iff_no_parent h.1
    rw [← hroot5] at this
    exact this
  obtain ⟨m7, e7, t7⟩ := cmap_redirect C hctx5 hP.ne hP.nac hroot
  refine ⟨m7, ?_, ⟨?_, (colored_plug fs _).2 ⟨⟨hbC, ⟨hbP, hlc, hrlc⟩, hrrc⟩, hfc⟩⟩⟩
  · have e1 : rb_set_parent m C (ctxPar fs 0) = Result.ok m1 :=
      rb_set_parent_ok m _ hC.ne (by rw [hC.bal]; exact hbC)
    have e4 : rb_set_parent m3 P C = Result.ok m4 :=
      rb_set_parent_ok m3 _ hP.ne (by rw [b3]; exact hbP)
    have e0 : rb_parent m P = Result.ok (ctxPar fs 0) := by
      rw [rb_parent_ok m hP.ne (by rw [hP.bal]; exact hbP), hPp]
    have r4' : m4.rd_right P = Result.ok rl.ptr := by rw [cmap_rd_right_ok m4 hP.ne, r4]
    simp only [cmap_rotate_left, cmap_rd_right_ok m hP.ne, hPr, cmap_rd_left_ok m hC.ne, hCl,
      e0, e1, Result.ok_bind, cmap_wr_left_ok m1 P hC.ne, cmap_wr_right_ok _ rl.ptr hP.ne]
    show (rb_set_parent m3 P C >>= _) = _
    rw [e4]
    simp only [Result.ok_bind, r4', Result.pure_eq]
    by_cases hq : rl.ptr = 0
    · simp only [hq, ne_eq, not_true_eq_false, if_false] at hm5 ⊢
      rw [← hm5]
      exact e7
    · have hb : balance_of (tree_of m4) rl.ptr < 2 := colored_bal hr4 hrlc hq
      simp only [hq, ne_eq, not_false_eq_true, if_true, rb_set_parent_ok m4 P hq hb,
        Result.ok_bind] at hm5 ⊢
      rw [← hm5]
      exact e7
  · rw [t7]; exact hv

end Avl

namespace Avl

/-- A store that differs from a valid one by a right rotation at `P` below the link that holds
`P` becomes valid once that link is redirected. -/
theorem valid_rotated_right {s s5 : Store} {fs : List Frame} {ll lr r : ATree} {P bP C bC : Nat}
    (h : Valid s (plug fs (ATree.node (ATree.node ll C bC lr) P bP r))) (bt bc : Nat)
    (hag : Agree [P, C, lr.ptr] s s5) (hroot : s5.root = s.root)
    (hC1 : parent_of s5 C = ctxPar fs 0) (hC2 : balance_of s5 C = bt)
    (hC3 : (s5.mem C).left = ll.ptr) (hC4 : (s5.mem C).right = P)
    (hP1 : parent_of s5 P = C) (hP2 : balance_of s5 P = bc)
    (hP3 : (s5.mem P).left = lr.ptr) (hP4 : (s5.mem P).right = r.ptr)
    (hlr : Rep s5 lr P) :
    RepCtx s5 fs s5.root 0 P ∧
    Valid (change_child_eff s5 P C (ctxPar fs 0))
      (plug fs (ATree.node ll C bt (ATree.node lr P bc r))) := by
  have hP := h.at
  have hC : At s (Frame.L P bP r :: fs) ll C bC lr := Valid.at h
  have hCc := hC.nac
  simp only [ctxAddrs, List.mem_cons, List.mem_append, not_or] at hCc
  obtain ⟨hCP, C_r, C_c⟩ := hCc
  have hPn := hP.nal
  simp only [ATree.inorder, List.mem_cons, List.mem_append, not_or] at hPn
  obtain ⟨P_ll, -, P_lr⟩ := hPn
  have z_r := Rep.zero_not_mem_sub r P hP.repr
  have z_ll := Rep.zero_not_mem_sub ll C hC.repl
  have z_c := RepCtx.zero_not_mem_ctx fs P hP.ctx
  have hq : lr.ptr ∉ C :: (ll.inorder ++ P :: (r.inorder ++ ctxAddrs fs)) := by
    refine ATree.ptr_not_mem ?_ ?_
    · simp only [List.mem_cons, List.mem_append, not_or]
      exact ⟨Ne.symm hC.ne, z_ll, Ne.symm hP.ne, z_r, z_c⟩
    · intro x hx
      have h1 := hC.drc x hx
      simp only [ctxAddrs, List.mem_cons, List.mem_append, not_or] at h1
      simp only [List.mem_cons, List.mem_append, not_or]
      exact ⟨fun e => hC.nar (e ▸ hx), fun hm => hC.dlr x hm hx, h1.1, h1.2.1, h1.2.2⟩
  simp only [List.mem_cons, List.mem_append, not_or] at hq
  obtain ⟨hqC, q_ll, hqP, q_r, q_c⟩ := hq
  have hnd' : (ll.inorder ++ C :: (lr.inorder ++ P :: (r.inorder ++ ctxAddrs fs))).Nodup := by
    have := hP.nd
    simpa [ATree.inorder] using this
  have hctx5 : RepCtx s5 fs s5.root 0 P := by
    rw [hroot]
    refine RepCtx.agree_ctx hag _ _ fs P (not_mem_of_forall ?_) hP.ctx
    simp only [List.forall_mem_cons, List.not_mem_nil, false_implies, implies_true, and_true]
    exact ⟨hP.nac, C_c, q_c⟩
  refine ⟨hctx5, ?_⟩
  have key := @valid_change_child s5 fs P
    (ATree.node ll C bt (ATree.node lr P bc r)) hctx5 hP.ne hP.nac ?_ ?_
  · simpa [ATree.ptr] using key
  · refine ⟨hC.ne, hC.al, hC1, hC2, hC3, hC4, ?_, ⟨hP.ne, hP.al, hP1, hP2, hP3, hP4, hlr, ?_⟩⟩
    · refine Rep.agree hag ll C (not_mem_of_forall ?_) hC.repl
      simp only [List.forall_mem_cons, List.not_mem_nil, false_implies, implies_true, and_true]
      exact ⟨P_ll, hC.nal, q_ll⟩
    · refine Rep.agree hag r P (not_mem_of_forall ?_) hP.repr
      simp only [List.forall_mem_cons, List.not_mem_nil, false_implies, implies_true, and_true]
      exact ⟨hP.nar, C_r, q_r⟩
  · simpa [ATree.inorder] using hnd'

/-- Function `cmap_rotate_right` at a node `P` with left child `C` of a valid state: it returns
`C`, which takes the place of `P`; both keep their colors. -/
theorem cmap_rotate_right_spec {m : CmapState} {fs : List Frame} {ll lr r : ATree}
    {P bP C bC : Nat} (h : TValid m (plug fs (ATree.node (ATree.node ll C bC lr) P bP r))) :
    ∃ m1, cmap_rotate_right m P = Result.ok (m1, C) ∧
      TValid m1 (plug fs (ATree.node ll C bC (ATree.node lr P bP r))) := by
  obtain ⟨hP, hbP, hlc, hrc, hfc⟩ := h.at_node
  obtain ⟨hC, hbC, hllc, hlrc, -⟩ :=
    (show TValid m (plug (Frame.L P bP r :: fs) (ATree.node ll C bC lr)) from h).at_node
  have hG : ctxPar fs 0 % 4 = 0 := RepCtx.par_aligned fs P hP.ctx
  have hPal := hP.al
  have hCal := hC.al
  have hPl : ((tree_of m).mem P).left = C := hP.left
  have hCr : ((tree_of m).mem C).right = lr.ptr := hC.right
  have hCl : ((tree_of m).mem C).left = ll.ptr := hC.left
  have hPr : ((tree_of m).mem P).right = r.ptr := hP.right
  have hCp : parent_of (tree_of m) C = P := hC.par
  have hPp : parent_of (tree_of m) P = ctxPar fs 0 := hP.par
  have hCP : C ≠ P := fun e => hC.nac (by simp [ctxAddrs, e])
  have hqP : lr.ptr ≠ P := ATree.ptr_ne_of_not_mem hP.ne (fun hx => hP.nal (by
    simp [ATree.inorder, hx]))
  have hqC : lr.ptr ≠ C := ATree.ptr_ne_of_not_mem hC.ne hC.nar
  -- the states after each statement
  let m1 := m.setColor C (ctxPar fs 0 ||| balance_of (tree_of m) C)
  have t1 : tree_of m1 = set_parent_eff (tree_of m) C (ctxPar fs 0) := tree_of_set_parent m C _
  let m3 := (m1.setRight C P).setLeft P lr.ptr
  have t3 : tree_of m3 = setLeft (setRight (set_parent_eff (tree_of m) C (ctxPar fs 0)) C P) P
      lr.ptr := by
    rw [tree_of_setLeft, tree_of_setRight, t1]
  have b3 : balance_of (tree_of m3) P = bP := by
    rw [t3]; simp [balance_set_parent, hG, hP.bal]
  let m4 := m3.setColor P (C ||| balance_of (tree_of m3) P)
  have t4 : tree_of m4 = set_parent_eff (tree_of m3) P C := tree_of_set_parent m3 P C
  have r4 : ((tree_of m4).mem P).left = lr.ptr := by rw [t4, t3]; simp
  have hag4 : Agree [P, C] (tree_of m) (tree_of m4) := by
    rw [t4, t3]
    exact (((agree_setWord _ C _ [P, C] (by simp)).trans
      (agree_setRight _ C _ [P, C] (by simp))).trans
      (agree_setLeft _ P _ [P, C] (by simp))).trans (agree_setWord _ P _ [P, C] (by simp))
  have hr4 : Rep (tree_of m4) lr C := by
    refine Rep.agree hag4 lr C (not_mem_of_forall ?_) hC.repr
    simp only [List.forall_mem_cons, List.not_mem_nil, false_implies, implies_true, and_true]
    exact ⟨fun hx => hP.nal (by simp [ATree.inorder, hx]), hC.nar⟩
  -- the state before the link above `P` is redirected
  obtain ⟨m5, hm5, t5⟩ : ∃ m5, m5 = (if lr.ptr ≠ 0 then
      m4.setColor lr.ptr (P ||| balance_of (tree_of m4) lr.ptr) else m4) ∧ tree_of m5 =
        if lr.ptr ≠ 0 then set_parent_eff (tree_of m4) lr.ptr P else tree_of m4 := by
    refine ⟨_, rfl, ?_⟩
    by_cases hq : lr.ptr = 0
    · simp [hq]
    · simp only [hq, ne_eq, not_false_eq_true, if_true, tree_of_set_parent]
  have hag5 : Agree [P, C, lr.ptr] (tree_of m) (tree_of m5) := by
    rw [t5]
    by_cases hq : lr.ptr = 0
    · simp only [hq, ne_eq, not_true_eq_false, if_false]
      exact hag4.mono (by simp)
    · simp only [hq, ne_eq, not_false_eq_true, if_true]
      exact (hag4.mono (by simp)).trans (agree_setWord _ _ _ _ (by simp))
  have hp5 : ∀ x, x ≠ lr.ptr → parent_of (tree_of m5) x = parent_of (tree_of m4) x := by
    intro x hx
    rw [t5]
    by_cases hq : lr.ptr = 0
    · simp [hq]
    · simp [hq, parent_set_parent, hPal, hx]
  have hb5 : ∀ x, balance_of (tree_of m5) x = balance_of (tree_of m4) x := by
    intro x
    rw [t5]
    by_cases hq : lr.ptr = 0
    · simp [hq]
    · simp [hq, balance_set_parent, hPal]
  have hl5 : ∀ x, ((tree_of m5).mem x).left = ((tree_of m4).mem x).left := by
    intro x
    rw [t5]
    by_cases hq : lr.ptr = 0 <;> simp [hq]
  have hr5 : ∀ x, ((tree_of m5).mem x).right = ((tree_of m4).mem x).right := by
    intro x
    rw [t5]
    by_cases hq : lr.ptr = 0 <;> simp [hq]
  have hroot5 : (tree_of m5).root = (tree_of m).root := by
    rw [t5]
    by_cases hq : lr.ptr = 0 <;> simp [hq, t4, t3]
  have hlr5 : Rep (tree_of m5) lr P := by
    by_cases hq : lr.ptr = 0
    · have : lr = ATree.nil := (ATree.ptr_eq_zero_iff lr hC.repr).1 hq
      rw [this]; trivial
    · rw [t5]
      simp only [hq, ne_eq, not_false_eq_true, if_true]
      have hndlr : lr.inorder.Nodup := by
        have := (List.nodup_append.1 hC.nd).2.1
        exact (List.nodup_append.1 (List.nodup_cons.1 this).2).1
      exact Rep.set_parent hr4 hndlr P hPal hq
  obtain ⟨hctx5, hv⟩ := valid_rotated_right h.1 bC bP hag5 hroot5
    (by rw [hp5 C (Ne.symm hqC), t4, t3]
        simp [parent_set_parent, hG, hCal, hCP])
    (by rw [hb5, t4, t3]; simp [balance_set_parent, hG, hCal, hC.bal])
    (by rw [hl5, t4, t3]; simp [hCP, hCl])
    (by rw [hr5, t4, t3]; simp [hCP])
    (by rw [hp5 P (Ne.symm hqP), t4, t3]; simp [parent_set_parent, hCal])
    (by rw [hb5, t4, t3]; simp [balance_set_parent, hG, hCal, hP.bal])
    (by rw [hl5, t4, t3]; simp)
    (by rw [hr5, t4, t3]; simp [hCP.symm, hPr])
    hlr5
  have hroot : ctxPar fs 0 = 0 ↔ m5.head = P := by
    have := root_iff_no_parent h.1
    rw [← hroot5] at this
    exact this
  obtain ⟨m7, e7, t7⟩ := cmap_redirect C hctx5 hP.ne hP.nac hroot
  refine ⟨m7, ?_, ⟨?_, (colored_plug fs _).2 ⟨⟨hbC, hllc, ⟨hbP, hlrc, hrc⟩⟩, hfc⟩⟩⟩
  · have e1 : rb_set_parent m C (ctxPar fs 0) = Result.ok m1 :=
      rb_set_parent_ok m _ hC.ne (by rw [hC.bal]; exact hbC)
    have e4 : rb_set_parent m3 P C = Result.ok m4 :=
      rb_set_parent_ok m3 _ hP.ne (by rw [b3]; exact hbP)
    have e0 : rb_parent m P = Result.ok (ctxPar fs 0) := by
      rw [rb_parent_ok m hP.ne (by rw [hP.bal]; exact hbP), hPp]
    have r4' : m4.rd_left P = Result.ok lr.ptr := by rw [cmap_rd_left_ok m4 hP.ne, r4]
    simp only [cmap_rotate_right, cmap_rd_left_ok m hP.ne, hPl, cmap_rd_right_ok m hC.ne, hCr,
      e0, e1, Result.ok_bind, cmap_wr_right_ok m1 P hC.ne, cmap_wr_left_ok _ lr.ptr hP.ne]
    show (rb_set_parent m3 P C >>= _) = _
    rw [e4]
    simp only [Result.ok_bind, r4', Result.pure_eq]
    by_cases hq : lr.ptr = 0
    · simp only [hq, ne_eq, not_true_eq_false, if_false] at hm5 ⊢
      rw [← hm5]
      exact e7
    · have hb : balance_of (tree_of m4) lr.ptr < 2 := colored_bal hr4 hlrc hq
      simp only [hq, ne_eq, not_false_eq_true, if_true, rb_set_parent_ok m4 P hq hb,
        Result.ok_bind] at hm5 ⊢
      rw [← hm5]
      exact e7
  · rw [t7]; exact hv

end Avl

namespace Avl

/-! ## The four restructuring cases of `cmap_fix_colors` -/

/-- The color assignments written as `if (c == CMAP_RED) rb_set_red(x); else rb_set_black(x);`
give the node the color `c`. -/
theorem rb_set_color_spec {m : CmapState} {fs : List Frame} {l : ATree} {a b : Nat} {r : ATree}
    (h : TValid m (plug fs (ATree.node l a b r))) (c : Nat) (hc : c < 2) :
    ∃ m1, (if c = CMAP_RED then rb_set_red m a else rb_set_black m a) = Result.ok m1 ∧
      TValid m1 (plug fs (ATree.node l a c r)) := by
  obtain ⟨hA, hb, -, -, -⟩ := h.at_node
  have hb' : balance_of (tree_of m) a < 2 := by rw [hA.bal]; exact hb
  rcases (show c = 0 ∨ c = 1 by omega) with rfl | rfl
  · exact ⟨_, by simp [rb_set_red_ok m hA.ne hb'], tvalid_set_color h 0 (by omega)⟩
  · exact ⟨_, by simp [rb_set_black_ok m hA.ne hb'], tvalid_set_color h 1 (by omega)⟩

theorem ite_bind_ok {α β : Type} (c : Prop) [Decidable c] (x y : Result α) (a : α)
    (h : (if c then x else y) = Result.ok a) (f : α → Result β) :
    (if c then x >>= f else y >>= f) = f a := by
  by_cases hc : c
  · simp only [hc, if_true] at h ⊢; rw [h]; rfl
  · simp only [hc, if_false] at h ⊢; rw [h]; rfl

/-- Function `cmap_l_l`: right rotation at the grandparent `g`, whose left child `p` takes its
place, and exchange of the colors of the two. -/
theorem cmap_l_l_spec {m : CmapState} {fs : List Frame} {A B u : ATree} {p bp g bg : Nat}
    (h : TValid m (plug fs (ATree.node (ATree.node A p bp B) g bg u))) :
    ∃ m3, cmap_l_l m g = Result.ok m3 ∧
      TValid m3 (plug fs (ATree.node A p bg (ATree.node B g bp u))) := by
  obtain ⟨m1, e1, h1⟩ := cmap_rotate_right_spec h
  obtain ⟨hp, hbp, -, -, -⟩ := h1.at_node
  have h1g : TValid m1 (plug (Frame.R A p bp :: fs) (ATree.node B g bg u)) := h1
  obtain ⟨hg, hbg, -, -, -⟩ := h1g.at_node
  obtain ⟨m2, e2, h2⟩ := rb_set_color_spec h1g bp hbp
  have h2p : TValid m2 (plug fs (ATree.node A p bp (ATree.node B g bp u))) := h2
  obtain ⟨m3, e3, h3⟩ := rb_set_color_spec h2p bg hbg
  refine ⟨m3, ?_, h3⟩
  have c1 : rb_color m1 p = Result.ok bp := by
    rw [rb_color_ok m1 hp.ne (by rw [hp.bal]; exact hbp), hp.bal]
  have c2 : rb_color m1 g = Result.ok bg := by
    rw [rb_color_ok m1 hg.ne (by rw [hg.bal]; exact hbg), hg.bal]
  have r1 : m1.rd_right p = Result.ok g := by rw [cmap_rd_right_ok m1 hp.ne, hp.right]; rfl
  simp only [cmap_l_l, e1, Result.ok_bind, c1, r1, c2]
  rw [ite_bind_ok _ _ _ m2 e2]
  exact e3

/-- Function `cmap_r_r`: left rotation at the grandparent `g`, whose right child `p` takes its
place, and exchange of the colors of the two. -/
theorem cmap_r_r_spec {m : CmapState} {fs : List Frame} {A B u : ATree} {p bp g bg : Nat}
    (h : TValid m (plug fs (ATree.node u g bg (ATree.node A p bp B)))) :
    ∃ m3, cmap_r_r m g = Result.ok m3 ∧
      TValid m3 (plug fs (ATree.node (ATree.node u g bp A) p bg B)) := by
  obtain ⟨m1, e1, h1⟩ := cmap_rotate_left_spec h
  obtain ⟨hp, hbp, -, -, -⟩ := h1.at_node
  have h1g : TValid m1 (plug (Frame.L p bp B :: fs) (ATree.node u g bg A)) := h1
  obtain ⟨hg, hbg, -, -, -⟩ := h1g.at_node
  obtain ⟨m2, e2, h2⟩ := rb_set_color_spec h1g bp hbp
  have h2p : TValid m2 (plug fs (ATree.node (ATree.node u g bp A) p bp B)) := h2
  obtain ⟨m3, e3, h3⟩ := rb_set_color_spec h2p bg hbg
  refine ⟨m3, ?_, h3⟩
  have c1 : rb_color m1 p = Result.ok bp := by
    rw [rb_color_ok m1 hp.ne (by rw [hp.bal]; exact hbp), hp.bal]
  have c2 : rb_color m1 g = Result.ok bg := by
    rw [rb_color_ok m1 hg.ne (by rw [hg.bal]; exact hbg), hg.bal]
  have r1 : m1.rd_left p = Result.ok g := by rw [cmap_rd_left_ok m1 hp.ne, hp.left]; rfl
  simp only [cmap_r_r, e1, Result.ok_bind, c1, r1, c2]
  rw [ite_bind_ok _ _ _ m2 e2]
  exact e3

/-- Function `cmap_l_r`: left rotation at the parent `p`, then `cmap_l_l` at the
grandparent. -/
theorem cmap_l_r_spec {m : CmapState} {fs : List Frame} {A B C u : ATree} {a b p bp g bg : Nat}
    (h : TValid m (plug fs (ATree.node (ATree.node A p bp (ATree.node B a b C)) g bg u))) :
    ∃ m3, cmap_l_r m p = Result.ok m3 ∧
      TValid m3 (plug fs (ATree.node (ATree.node A p bp B) a bg (ATree.node C g b u))) := by
  have h0 : TValid m (plug (Frame.L g bg u :: fs)
      (ATree.node A p bp (ATree.node B a b C))) := h
  obtain ⟨m1, e1, h1⟩ := cmap_rotate_left_spec h0
  obtain ⟨ha, hba, -, -, -⟩ := h1.at_node
  have h1g : TValid m1 (plug fs (ATree.node (ATree.node (ATree.node A p bp B) a b C) g bg u)) :=
    h1
  obtain ⟨hg, hbg, -, -, -⟩ := h1g.at_node
  obtain ⟨m3, e3, h3⟩ := cmap_l_l_spec h1g
  refine ⟨m3, ?_, h3⟩
  have p1 : rb_parent m1 a = Result.ok g := by
    rw [rb_parent_ok m1 ha.ne (by rw [ha.bal]; exact hba), ha.par]; rfl
  have l1 : m1.rd_left g = Result.ok a := by rw [cmap_rd_left_ok m1 hg.ne, hg.left]; rfl
  simp only [cmap_l_r, e1, Result.ok_bind, cmap_rd_left_ok m1 ha.ne, p1, l1, if_true,
    cmap_rd_right_ok m1 hg.ne, e3]

/-- Function `cmap_r_l`: right rotation at the parent `p`, then `cmap_r_r` at the
grandparent. -/
theorem cmap_r_l_spec {m : CmapState} {fs : List Frame} {A B C u : ATree} {a b p bp g bg : Nat}
    (h : TValid m (plug fs (ATree.node u g bg (ATree.node (ATree.node A a b B) p bp C)))) :
    ∃ m3, cmap_r_l m p = Result.ok m3 ∧
      TValid m3 (plug fs (ATree.node (ATree.node u g b A) a bg (ATree.node B p bp C))) := by
  have h0 : TValid m (plug (Frame.R u g bg :: fs)
      (ATree.node (ATree.node A a b B) p bp C)) := h
  obtain ⟨m1, e1, h1⟩ := cmap_rotate_right_spec h0
  obtain ⟨ha, hba, -, -, -⟩ := h1.at_node
  have h1g : TValid m1 (plug fs (ATree.node u g bg (ATree.node A a b (ATree.node B p bp C)))) :=
    h1
  obtain ⟨hg, hbg, -, -, -⟩ := h1g.at_node
  obtain ⟨m3, e3, h3⟩ := cmap_r_r_spec h1g
  refine ⟨m3, ?_, h3⟩
  have p1 : rb_parent m1 a = Result.ok g := by
    rw [rb_parent_ok m1 ha.ne (by rw [ha.bal]; exact hba), ha.par]; rfl
  have hne : u.ptr ≠ a := ATree.ptr_ne_of_not_mem ha.ne (fun hx => ha.nac (by
    simp [ctxAddrs, hx]))
  have l1 : m1.rd_left g = Result.ok u.ptr := by rw [cmap_rd_left_ok m1 hg.ne, hg.left]
  simp only [cmap_r_l, e1, Result.ok_bind, cmap_rd_right_ok m1 ha.ne, p1, l1, hne, if_false,
    cmap_rd_left_ok m1 hg.ne, e3]

end Avl

namespace Avl

/-! ## Function `cmap_fix_colors` -/

theorem rb_set_black_spec {m : CmapState} {fs : List Frame} {l : ATree} {a b : Nat} {r : ATree}
    (h : TValid m (plug fs (ATree.node l a b r))) :
    ∃ m1, rb_set_black m a = Result.ok m1 ∧ TValid m1 (plug fs (ATree.node l a CMAP_BLACK r)) := by
  obtain ⟨hA, hb, -, -, -⟩ := h.at_node
  exact ⟨_, rb_set_black_ok m hA.ne (by rw [hA.bal]; exact hb), tvalid_set_color h 1 (by omega)⟩

theorem rb_set_red_spec {m : CmapState} {fs : List Frame} {l : ATree} {a b : Nat} {r : ATree}
    (h : TValid m (plug fs (ATree.node l a b r))) :
    ∃ m1, rb_set_red m a = Result.ok m1 ∧ TValid m1 (plug fs (ATree.node l a CMAP_RED r)) := by
  obtain ⟨hA, hb, -, -, -⟩ := h.at_node
  exact ⟨_, rb_set_red_ok m hA.ne (by rw [hA.bal]; exact hb), tvalid_set_color h 0 (by omega)⟩

/-- The three color assignments of the red-uncle case, the uncle on the right. -/
theorem recolor_spec_L {m : CmapState} {fs : List Frame} {pl pr ul ur : ATree}
    {p bp g bg ua ub : Nat}
    (h : TValid m (plug fs (ATree.node (ATree.node pl p bp pr) g bg (ATree.node ul ua ub ur)))) :
    ∃ m1 m2 m3, rb_set_black m ua = Result.ok m1 ∧ rb_set_black m1 p = Result.ok m2 ∧
      rb_set_red m2 g = Result.ok m3 ∧
      TValid m3 (plug fs (ATree.node (ATree.node pl p CMAP_BLACK pr) g CMAP_RED
        (ATree.node ul ua CMAP_BLACK ur))) := by
  have h0 : TValid m (plug (Frame.R (ATree.node pl p bp pr) g bg :: fs)
      (ATree.node ul ua ub ur)) := h
  obtain ⟨m1, e1, h1⟩ := rb_set_black_spec h0
  have h1' : TValid m1 (plug (Frame.L g bg (ATree.node ul ua CMAP_BLACK ur) :: fs)
      (ATree.node pl p bp pr)) := h1
  obtain ⟨m2, e2, h2⟩ := rb_set_black_spec h1'
  have h2' : TValid m2 (plug fs (ATree.node (ATree.node pl p CMAP_BLACK pr) g bg
      (ATree.node ul ua CMAP_BLACK ur))) := h2
  obtain ⟨m3, e3, h3⟩ := rb_set_red_spec h2'
  exact ⟨m1, m2, m3, e1, e2, e3, h3⟩

/-- The three color assignments of the red-uncle case, the uncle on the left. -/
theorem recolor_spec_R {m : CmapState} {fs : List Frame} {pl pr ul ur : ATree}
    {p bp g bg ua ub : Nat}
    (h : TValid m (plug fs (ATree.node (ATree.node ul ua ub ur) g bg (ATree.node pl p bp pr)))) :
    ∃ m1 m2 m3, rb_set_black m ua = Result.ok m1 ∧ rb_set_black m1 p = Result.ok m2 ∧
      rb_set_red m2 g = Result.ok m3 ∧
      TValid m3 (plug fs (ATree.node (ATree.node ul ua CMAP_BLACK ur) g CMAP_RED
        (ATree.node pl p CMAP_BLACK pr))) := by
  have h0 : TValid m (plug (Frame.L g bg (ATree.node pl p bp pr) :: fs)
      (ATree.node ul ua ub ur)) := h
  obtain ⟨m1, e1, h1⟩ := rb_set_black_spec h0
  have h1' : TValid m1 (plug (Frame.R (ATree.node ul ua CMAP_BLACK ur) g bg :: fs)
      (ATree.node pl p bp pr)) := h1
  obtain ⟨m2, e2, h2⟩ := rb_set_black_spec h1'
  have h2' : TValid m2 (plug fs (ATree.node (ATree.node ul ua CMAP_BLACK ur) g bg
      (ATree.node pl p CMAP_BLACK pr))) := h2
  obtain ⟨m3, e3, h3⟩ := rb_set_red_spec h2'
  exact ⟨m1, m2, m3, e1, e2, e3, h3⟩

theorem rb_is_black_ok (m : CmapState) {a : Nat} (ha : a ≠ 0) (hb : balance_of (tree_of m) a < 2) :
    rb_is_black m a = Result.ok (decide (balance_of (tree_of m) a ≠ 0)) := by
  simp [rb_is_black, rb_color_ok m ha hb]

theorem rb_is_red_ok (m : CmapState) {a : Nat} (ha : a ≠ 0) (hb : balance_of (tree_of m) a < 2) :
    rb_is_red m a = Result.ok (decide (balance_of (tree_of m) a = 0)) := by
  simp [rb_is_red, rb_color_ok m ha hb]

/-- Called for the root, `cmap_fix_colors` makes it black. -/
theorem fix_colors_root {m : CmapState} {fs : List Frame} {l : ATree} {a b : Nat} {r : ATree}
    (h : TValid m (plug fs (ATree.node l a b r))) (hh : a = m.head) (fuel : Nat) :
    FixOk (fuel + 1) m a (plug fs (ATree.node l a b r)) := by
  obtain ⟨m1, e1, h1⟩ := rb_set_black_spec h
  refine ⟨m1, _, ?_, h1, ?_⟩
  · simp [cmap_fix_colors, hh.symm, e1]
  · simp [inorder_plug, ATree.inorder]

/-- Called for a child of the root, `cmap_fix_colors` changes nothing. -/
theorem fix_colors_top {m : CmapState} {f : Frame} {l : ATree} {a b : Nat} {r : ATree}
    (h : TValid m (plug [f] (ATree.node l a b r))) (fuel : Nat) :
    FixOk (fuel + 1) m a (plug [f] (ATree.node l a b r)) := by
  obtain ⟨ha, hb, -, -, -⟩ := h.at_node
  have hah : ¬ a = m.head := fun e => by
    have := (root_iff_no_parent h.1).2 e.symm
    cases f <;> simp [ctxPar] at this <;> exact absurd this ha.ctx.1
  refine ⟨m, _, ?_, h, rfl⟩
  cases f with
  | L p bp sib =>
    have h' : TValid m (plug [] (ATree.node (ATree.node l a b r) p bp sib)) := h
    obtain ⟨hp, hbp, -, -, -⟩ := h'.at_node
    have hph : p = m.head := h'.1.1.symm
    have pa : rb_parent m a = Result.ok p := by
      rw [rb_parent_ok m ha.ne (by rw [ha.bal]; exact hb), ha.par]; rfl
    have pp : rb_parent m p = Result.ok 0 := by
      rw [rb_parent_ok m hp.ne (by rw [hp.bal]; exact hbp), hp.par]; rfl
    have hap : ¬ a = p := hph ▸ hah
    simp [cmap_fix_colors, hap, pa, pp, rb_is_black_ok m hp.ne (by rw [hp.bal]; exact hbp),
      hph.symm]
  | R sib p bp =>
    have h' : TValid m (plug [] (ATree.node sib p bp (ATree.node l a b r))) := h
    obtain ⟨hp, hbp, -, -, -⟩ := h'.at_node
    have hph : p = m.head := h'.1.1.symm
    have pa : rb_parent m a = Result.ok p := by
      rw [rb_parent_ok m ha.ne (by rw [ha.bal]; exact hb), ha.par]; rfl
    have pp : rb_parent m p = Result.ok 0 := by
      rw [rb_parent_ok m hp.ne (by rw [hp.bal]; exact hbp), hp.par]; rfl
    have hap : ¬ a = p := hph ▸ hah
    simp [cmap_fix_colors, hap, pa, pp, rb_is_black_ok m hp.ne (by rw [hp.bal]; exact hbp),
      hph.symm]

end Avl

namespace Avl

theorem not_head_of_frame {s : Store} {f : Frame} {fs : List Frame} {l r : ATree} {x b : Nat}
    (h : Valid s (plug (f :: fs) (ATree.node l x b r))) : ¬ x = s.root := by
  intro e
  have h0 := (root_iff_no_parent h).2 e.symm
  have hc := h.at.ctx
  cases f <;> exact hc.1 h0

/-- Function `cmap_fix_colors` at a left child of a left child. -/
theorem fix_colors_LL {fuel : Nat} {m : CmapState} {fs : List Frame} {l r sib u : ATree}
    {a b p bp g bg : Nat}
    (ih : ∀ (m1 : CmapState) (gl gr : ATree) (c : Nat),
      TValid m1 (plug fs (ATree.node gl g c gr)) →
      FixOk fuel m1 g (plug fs (ATree.node gl g c gr)))
    (h : TValid m (plug (Frame.L p bp sib :: Frame.L g bg u :: fs) (ATree.node l a b r))) :
    FixOk (fuel + 1) m a
      (plug (Frame.L p bp sib :: Frame.L g bg u :: fs) (ATree.node l a b r)) := by
  obtain ⟨ha, hb, -, -, -⟩ := h.at_node
  have h1 : TValid m (plug (Frame.L g bg u :: fs) (ATree.node (ATree.node l a b r) p bp sib)) := h
  obtain ⟨hp, hbp, -, -, -⟩ := h1.at_node
  have h2 : TValid m (plug fs (ATree.node (ATree.node (ATree.node l a b r) p bp sib) g bg u)) := h
  obtain ⟨hg, hbg, -, huc, -⟩ := h2.at_node
  have hah : ¬ a = m.head := not_head_of_frame h.1
  have hph : ¬ p = m.head := not_head_of_frame h1.1
  have pa : rb_parent m a = Result.ok p := by
    rw [rb_parent_ok m ha.ne (by rw [ha.bal]; exact hb), ha.par]; rfl
  have pp : rb_parent m p = Result.ok g := by
    rw [rb_parent_ok m hp.ne (by rw [hp.bal]; exact hbp), hp.par]; rfl
  have blk : rb_is_black m p = Result.ok (decide (bp ≠ 0)) := by
    rw [rb_is_black_ok m hp.ne (by rw [hp.bal]; exact hbp), hp.bal]
  have gl : m.rd_left g = Result.ok p := by rw [cmap_rd_left_ok m hg.ne, hg.left]; rfl
  have gr : m.rd_right g = Result.ok u.ptr := by rw [cmap_rd_right_ok m hg.ne, hg.right]
  have pl : m.rd_left p = Result.ok a := by rw [cmap_rd_left_ok m hp.ne, hp.left]; rfl
  have hg0 := hg.ne
  by_cases hbp1 : bp = 0
  swap
  · refine ⟨m, _, ?_, h, rfl⟩
    simp [cmap_fix_colors, hah, pa, blk, hph, hbp1]
  subst hbp1
  have rot : FixOk (fuel + 1) m a
      (plug (Frame.L p 0 sib :: Frame.L g bg u :: fs) (ATree.node l a b r)) ∨
      (u.ptr ≠ 0 ∧ rb_is_red m u.ptr = Result.ok true) := by
    by_cases hu : u.ptr ≠ 0 ∧ rb_is_red m u.ptr = Result.ok true
    · exact Or.inr hu
    · left
      obtain ⟨m3, e3, h3⟩ := cmap_l_l_spec h2
      refine ⟨m3, _, ?_, h3, by simp [inorder_plug, ATree.inorder, plug]⟩
      by_cases hu0 : u.ptr = 0
      · simp [cmap_fix_colors, hah, pa, blk, hph, pp, hg0, gl, gr, pl, hu0, e3]
      · have hub : balance_of (tree_of m) u.ptr < 2 := colored_bal hg.repr huc hu0
        have hred : rb_is_red m u.ptr = Result.ok (decide (balance_of (tree_of m) u.ptr = 0)) :=
          rb_is_red_ok m hu0 hub
        have hblk := rb_is_black_ok m hu0 hub
        have hne : balance_of (tree_of m) u.ptr ≠ 0 := by
          intro e0
          exact hu ⟨hu0, by rw [hred, e0]; rfl⟩
        simp [cmap_fix_colors, hah, pa, blk, hph, pp, hg0, gl, gr, pl, hu0, e3, hred, hblk, hne]
  rcases rot with hrot | ⟨hu0, hred⟩
  · exact hrot
  · cases u with
    | nil => exact absurd rfl hu0
    | node ul ua ub ur =>
      obtain ⟨m1, m2, m3, e1, e2, e3, h3⟩ := recolor_spec_L h2
      obtain ⟨m4, t4, e4, h4, i4⟩ := ih m3 _ _ _ h3
      refine ⟨m4, t4, ?_, h4, ?_⟩
      · simp only [ATree.ptr] at hred gr hu0
        simp [cmap_fix_colors, hah, pa, blk, hph, pp, hg0, gl, gr, pl, hu0, hred, e1, e2, e3, e4]
      · rw [i4]; simp [inorder_plug, ATree.inorder, plug]

/-- Function `cmap_fix_colors` at a right child of a left child. -/
theorem fix_colors_RL {fuel : Nat} {m : CmapState} {fs : List Frame} {l r sib u : ATree}
    {a b p bp g bg : Nat}
    (ih : ∀ (m1 : CmapState) (gl gr : ATree) (c : Nat),
      TValid m1 (plug fs (ATree.node gl g c gr)) →
      FixOk fuel m1 g (plug fs (ATree.node gl g c gr)))
    (h : TValid m (plug (Frame.R sib p bp :: Frame.L g bg u :: fs) (ATree.node l a b r))) :
    FixOk (fuel + 1) m a
      (plug (Frame.R sib p bp :: Frame.L g bg u :: fs) (ATree.node l a b r)) := by
  obtain ⟨ha, hb, -, -, -⟩ := h.at_node
  have h1 : TValid m (plug (Frame.L g bg u :: fs) (ATree.node sib p bp (ATree.node l a b r))) := h
  obtain ⟨hp, hbp, -, -, -⟩ := h1.at_node
  have h2 : TValid m (plug fs (ATree.node (ATree.node sib p bp (ATree.node l a b r)) g bg u)) := h
  obtain ⟨hg, hbg, -, huc, -⟩ := h2.at_node
  have hah : ¬ a = m.head := not_head_of_frame h.1
  have hph : ¬ p = m.head := not_head_of_frame h1.1
  have pa : rb_parent m a = Result.ok p := by
    rw [rb_parent_ok m ha.ne (by rw [ha.bal]; exact hb), ha.par]; rfl
  have pp : rb_parent m p = Result.ok g := by
    rw [rb_parent_ok m hp.ne (by rw [hp.bal]; exact hbp), hp.par]; rfl
  have blk : rb_is_black m p = Result.ok (decide (bp ≠ 0)) := by
    rw [rb_is_black_ok m hp.ne (by rw [hp.bal]; exact hbp), hp.bal]
  have gl : m.rd_left g = Result.ok p := by rw [cmap_rd_left_ok m hg.ne, hg.left]; rfl
  have gr : m.rd_right g = Result.ok u.ptr := by rw [cmap_rd_right_ok m hg.ne, hg.right]
  have pl : m.rd_left p = Result.ok sib.ptr := by rw [cmap_rd_left_ok m hp.ne, hp.left]
  have pr : m.rd_right p = Result.ok a := by rw [cmap_rd_right_ok m hp.ne, hp.right]; rfl
  have has : ¬ a = sib.ptr := fun e =>
    ATree.ptr_ne_of_not_mem ha.ne (fun hx => ha.nac (by simp [ctxAddrs, hx])) e.symm
  have hg0 := hg.ne
  by_cases hbp1 : bp = 0
  swap
  · refine ⟨m, _, ?_, h, rfl⟩
    simp [cmap_fix_colors, hah, pa, blk, hph, hbp1]
  subst hbp1
  have rot : FixOk (fuel + 1) m a
      (plug (Frame.R sib p 0 :: Frame.L g bg u :: fs) (ATree.node l a b r)) ∨
      (u.ptr ≠ 0 ∧ rb_is_red m u.ptr = Result.ok true) := by
    by_cases hu : u.ptr ≠ 0 ∧ rb_is_red m u.ptr = Result.ok true
    · exact Or.inr hu
    · left
      obtain ⟨m3, e3, h3⟩ := cmap_l_r_spec h2
      refine ⟨m3, _, ?_, h3, by simp [inorder_plug, ATree.inorder, plug]⟩
      by_cases hu0 : u.ptr = 0
      · simp [cmap_fix_colors, hah, pa, blk, hph, pp, hg0, gl, gr, pl, pr, has, hu0, e3]
      · have hub : balance_of (tree_of m) u.ptr < 2 := colored_bal hg.repr huc hu0
        have hred : rb_is_red m u.ptr = Result.ok (decide (balance_of (tree_of m) u.ptr = 0)) :=
          rb_is_red_ok m hu0 hub
        have hblk := rb_is_black_ok m hu0 hub
        have hne : balance_of (tree_of m) u.ptr ≠ 0 := by
          intro e0
          exact hu ⟨hu0, by rw [hred, e0]; rfl⟩
        simp [cmap_fix_colors, hah, pa, blk, hph, pp, hg0, gl, gr, pl, pr, has, hu0, e3, hred, hblk, hne]
  rcases rot with hrot | ⟨hu0, hred⟩
  · exact hrot
  · cases u with
    | nil => exact absurd rfl hu0
    | node ul ua ub ur =>
      obtain ⟨m1, m2, m3, e1, e2, e3, h3⟩ := recolor_spec_L h2
      obtain ⟨m4, t4, e4, h4, i4⟩ := ih m3 _ _ _ h3
      refine ⟨m4, t4, ?_, h4, ?_⟩
      · simp only [ATree.ptr] at hred gr hu0
        simp [cmap_fix_colors, hah, pa, blk, hph, pp, hg0, gl, gr, pl, pr, has, hu0, hred, e1, e2, e3, e4]
      · rw [i4]; simp [inorder_plug, ATree.inorder, plug]

/-- Function `cmap_fix_colors` at a left child of a right child. -/
theorem fix_colors_LR {fuel : Nat} {m : CmapState} {fs : List Frame} {l r sib u : ATree}
    {a b p bp g bg : Nat}
    (ih : ∀ (m1 : CmapState) (gl gr : ATree) (c : Nat),
      TValid m1 (plug fs (ATree.node gl g c gr)) →
      FixOk fuel m1 g (plug fs (ATree.node gl g c gr)))
    (h : TValid m (plug (Frame.L p bp sib :: Frame.R u g bg :: fs) (ATree.node l a b r))) :
    FixOk (fuel + 1) m a
      (plug (Frame.L p bp sib :: Frame.R u g bg :: fs) (ATree.node l a b r)) := by
  obtain ⟨ha, hb, -, -, -⟩ := h.at_node
  have h1 : TValid m (plug (Frame.R u g bg :: fs) (ATree.node (ATree.node l a b r) p bp sib)) := h
  obtain ⟨hp, hbp, -, -, -⟩ := h1.at_node
  have h2 : TValid m (plug fs (ATree.node u g bg (ATree.node (ATree.node l a b r) p bp sib))) := h
  obtain ⟨hg, hbg, huc, -, -⟩ := h2.at_node
  have hah : ¬ a = m.head := not_head_of_frame h.1
  have hph : ¬ p = m.head := not_head_of_frame h1.1
  have pa : rb_parent m a = Result.ok p := by
    rw [rb_parent_ok m ha.ne (by rw [ha.bal]; exact hb), ha.par]; rfl
  have pp : rb_parent m p = Result.ok g := by
    rw [rb_parent_ok m hp.ne (by rw [hp.bal]; exact hbp), hp.par]; rfl
  have blk : rb_is_black m p = Result.ok (decide (bp ≠ 0)) := by
    rw [rb_is_black_ok m hp.ne (by rw [hp.bal]; exact hbp), hp.bal]
  have gl : m.rd_left g = Result.ok u.ptr := by rw [cmap_rd_left_ok m hg.ne, hg.left]
  have gr : m.rd_right g = Result.ok p := by rw [cmap_rd_right_ok m hg.ne, hg.right]; rfl
  have pl : m.rd_left p = Result.ok a := by rw [cmap_rd_left_ok m hp.ne, hp.left]; rfl
  have hup : ¬ u.ptr = p :=
    ATree.ptr_ne_of_not_mem hp.ne (fun hx => hp.nac (by simp [ctxAddrs, hx]))
  have hpu : ¬ p = u.ptr := fun e => hup e.symm
  have hg0 := hg.ne
  by_cases hbp1 : bp = 0
  swap
  · refine ⟨m, _, ?_, h, rfl⟩
    simp [cmap_fix_colors, hah, pa, blk, hph, hbp1]
  subst hbp1
  have rot : FixOk (fuel + 1) m a
      (plug (Frame.L p 0 sib :: Frame.R u g bg :: fs) (ATree.node l a b r)) ∨
      (u.ptr ≠ 0 ∧ rb_is_red m u.ptr = Result.ok true) := by
    by_cases hu : u.ptr ≠ 0 ∧ rb_is_red m u.ptr = Result.ok true
    · exact Or.inr hu
    · left
      obtain ⟨m3, e3, h3⟩ := cmap_r_l_spec h2
      refine ⟨m3, _, ?_, h3, by simp [inorder_plug, ATree.inorder, plug]⟩
      by_cases hu0 : u.ptr = 0
      · simp [cmap_fix_colors, hah, pa, blk, hph, pp, hg0, gl, gr, pl, hup, hpu, hp.ne, Ne.symm hp.ne, hu0, e3]
      · have hub : balance_of (tree_of m) u.ptr < 2 := colored_bal hg.repl huc hu0
        have hred : rb_is_red m u.ptr = Result.ok (decide (balance_of (tree_of m) u.ptr = 0)) :=
          rb_is_red_ok m hu0 hub
        have hblk := rb_is_black_ok m hu0 hub
        have hne : balance_of (tree_of m) u.ptr ≠ 0 := by
          intro e0
          exact hu ⟨hu0, by rw [hred, e0]; rfl⟩
        simp [cmap_fix_colors, hah, pa, blk, hph, pp, hg0, gl, gr, pl, hup, hpu, hp.ne, Ne.symm hp.ne, hu0, e3, hred, hblk, hne]
  rcases rot with hrot | ⟨hu0, hred⟩
  · exact hrot
  · cases u with
    | nil => exact absurd rfl hu0
    | node ul ua ub ur =>
      obtain ⟨m1, m2, m3, e1, e2, e3, h3⟩ := recolor_spec_R h2
      obtain ⟨m4, t4, e4, h4, i4⟩ := ih m3 _ _ _ h3
      refine ⟨m4, t4, ?_, h4, ?_⟩
      · simp only [ATree.ptr] at hred gl hup hpu hu0
        simp [cmap_fix_colors, hah, pa, blk, hph, pp, hg0, gl, gr, pl, hup, hpu, hp.ne, Ne.symm hp.ne, hu0, hred, e1, e2, e3, e4]
      · rw [i4]; simp [inorder_plug, ATree.inorder, plug]

/-- Function `cmap_fix_colors` at a right child of a right child. -/
theorem fix_colors_RR {fuel : Nat} {m : CmapState} {fs : List Frame} {l r sib u : ATree}
    {a b p bp g bg : Nat}
    (ih : ∀ (m1 : CmapState) (gl gr : ATree) (c : Nat),
      TValid m1 (plug fs (ATree.node gl g c gr)) →
      FixOk fuel m1 g (plug fs (ATree.node gl g c gr)))
    (h : TValid m (plug (Frame.R sib p bp :: Frame.R u g bg :: fs) (ATree.node l a b r))) :
    FixOk (fuel + 1) m a
      (plug (Frame.R sib p bp :: Frame.R u g bg :: fs) (ATree.node l a b r)) := by
  obtain ⟨ha, hb, -, -, -⟩ := h.at_node
  have h1 : TValid m (plug (Frame.R u g bg :: fs) (ATree.node sib p bp (ATree.node l a b r))) := h
  obtain ⟨hp, hbp, -, -, -⟩ := h1.at_node
  have h2 : TValid m (plug fs (ATree.node u g bg (ATree.node sib p bp (ATree.node l a b r)))) := h
  obtain ⟨hg, hbg, huc, -, -⟩ := h2.at_node
  have hah : ¬ a = m.head := not_head_of_frame h.1
  have hph : ¬ p = m.head := not_head_of_frame h1.1
  have pa : rb_parent m a = Result.ok p := by
    rw [rb_parent_ok m ha.ne (by rw [ha.bal]; exact hb), ha.par]; rfl
  have pp : rb_parent m p = Result.ok g := by
    rw [rb_parent_ok m hp.ne (by rw [hp.bal]; exact hbp), hp.par]; rfl
  have blk : rb_is_black m p = Result.ok (decide (bp ≠ 0)) := by
    rw [rb_is_black_ok m hp.ne (by rw [hp.bal]; exact hbp), hp.bal]
  have gl : m.rd_left g = Result.ok u.ptr := by rw [cmap_rd_left_ok m hg.ne, hg.left]
  have gr : m.rd_right g = Result.ok p := by rw [cmap_rd_right_ok m hg.ne, hg.right]; rfl
  have pl : m.rd_left p = Result.ok sib.ptr := by rw [cmap_rd_left_ok m hp.ne, hp.left]
  have pr : m.rd_right p = Result.ok a := by rw [cmap_rd_right_ok m hp.ne, hp.right]; rfl
  have has : ¬ a = sib.ptr := fun e =>
    ATree.ptr_ne_of_not_mem ha.ne (fun hx => ha.nac (by simp [ctxAddrs, hx])) e.symm
  have hup : ¬ u.ptr = p :=
    ATree.ptr_ne_of_not_mem hp.ne (fun hx => hp.nac (by simp [ctxAddrs, hx]))
  have hpu : ¬ p = u.ptr := fun e => hup e.symm
  have hg0 := hg.ne
  by_cases hbp1 : bp = 0
  swap
  · refine ⟨m, _, ?_, h, rfl⟩
    simp [cmap_fix_colors, hah, pa, blk, hph, hbp1]
  subst hbp1
  have rot : FixOk (fuel + 1) m a
      (plug (Frame.R sib p 0 :: Frame.R u g bg :: fs) (ATree.node l a b r)) ∨
      (u.ptr ≠ 0 ∧ rb_is_red m u.ptr = Result.ok true) := by
    by_cases hu : u.ptr ≠ 0 ∧ rb_is_red m u.ptr = Result.ok true
    · exact Or.inr hu
    · left
      obtain ⟨m3, e3, h3⟩ := cmap_r_r_spec h2
      refine ⟨m3, _, ?_, h3, by simp [inorder_plug, ATree.inorder, plug]⟩
      by_cases hu0 : u.ptr = 0
      · simp [cmap_fix_colors, hah, pa, blk, hph, pp, hg0, gl, gr, pl, pr, has, hup, hpu, hp.ne, Ne.symm hp.ne, hu0, e3]
      · have hub : balance_of (tree_of m) u.ptr < 2 := colored_bal hg.repl huc hu0
        have hred : rb_is_red m u.ptr = Result.ok (decide (balance_of (tree_of m) u.ptr = 0)) :=
          rb_is_red_ok m hu0 hub
        have hblk := rb_is_black_ok m hu0 hub
        have hne : balance_of (tree_of m) u.ptr ≠ 0 := by
          intro e0
          exact hu ⟨hu0, by rw [hred, e0]; rfl⟩
        simp [cmap_fix_colors, hah, pa, blk, hph, pp, hg0, gl, gr, pl, pr, has, hup, hpu, hp.ne, Ne.symm hp.ne, hu0, e3, hred, hblk, hne]
  rcases rot with hrot | ⟨hu0, hred⟩
  · exact hrot
  · cases u with
    | nil => exact absurd rfl hu0
    | node ul ua ub ur =>
      obtain ⟨m1, m2, m3, e1, e2, e3, h3⟩ := recolor_spec_R h2
      obtain ⟨m4, t4, e4, h4, i4⟩ := ih m3 _ _ _ h3
      refine ⟨m4, t4, ?_, h4, ?_⟩
      · simp only [ATree.ptr] at hred gl hup hpu hu0
        simp [cmap_fix_colors, hah, pa, blk, hph, pp, hg0, gl, gr, pl, pr, has, hup, hpu, hp.ne, Ne.symm hp.ne, hu0, hred, e1, e2, e3, e4]
      · rw [i4]; simp [inorder_plug, ATree.inorder, plug]

end Avl

namespace Avl

/-- Function `cmap_fix_colors` called for a node of a valid state returns, keeps the state valid
and keeps the in-order sequence of the nodes. -/
theorem cmap_fix_colors_spec : ∀ (fuel : Nat) (fs : List Frame) (m : CmapState) (l : ATree)
    (a b : Nat) (r : ATree), fs.length < fuel → TValid m (plug fs (ATree.node l a b r)) →
    FixOk fuel m a (plug fs (ATree.node l a b r))
  | 0, _, _, _, _, _, _, hf, _ => by omega
  | fuel + 1, [], m, l, a, b, r, _, h => fix_colors_root h h.1.1.symm fuel
  | fuel + 1, [f], m, l, a, b, r, _, h => fix_colors_top h fuel
  | fuel + 1, Frame.L p bp sib :: Frame.L g bg u :: fs, m, l, a, b, r, hf, h =>
    fix_colors_LL (fun m1 gl gr c h1 => cmap_fix_colors_spec fuel fs m1 gl g c gr (by
      simp only [List.length_cons] at hf; omega) h1) h
  | fuel + 1, Frame.R sib p bp :: Frame.L g bg u :: fs, m, l, a, b, r, hf, h =>
    fix_colors_RL (fun m1 gl gr c h1 => cmap_fix_colors_spec fuel fs m1 gl g c gr (by
      simp only [List.length_cons] at hf; omega) h1) h
  | fuel + 1, Frame.L p bp sib :: Frame.R u g bg :: fs, m, l, a, b, r, hf, h =>
    fix_colors_LR (fun m1 gl gr c h1 => cmap_fix_colors_spec fuel fs m1 gl g c gr (by
      simp only [List.length_cons] at hf; omega) h1) h
  | fuel + 1, Frame.R sib p bp :: Frame.R u g bg :: fs, m, l, a, b, r, hf, h =>
    fix_colors_RR (fun m1 gl gr c h1 => cmap_fix_colors_spec fuel fs m1 gl g c gr (by
      simp only [List.length_cons] at hf; omega) h1) h

end Avl

namespace Avl

/-! ## Function `cmap_insert` -/

theorem store_ext {s t : Store} (hr : s.root = t.root) (hm : ∀ y, s.mem y = t.mem y) : s = t := by
  cases s; cases t
  simp only [Store.mk.injEq]
  exact ⟨funext hm, hr⟩

/-- A state that differs outside the tree holds the same tree. -/
theorem TValid.agree_out {m m1 : CmapState} {t : ATree} {ws : List Nat} (h : TValid m t)
    (hag : Agree ws (tree_of m) (tree_of m1)) (hh : m1.head = m.head)
    (hd : ∀ x ∈ t.inorder, x ∉ ws) : TValid m1 t :=
  ⟨⟨by rw [tree_of_root, hh]; exact h.1.1, Rep.agree hag t 0 hd h.1.2.1, h.1.2.2⟩, h.2⟩

/-- Function `cmap_create_node` clears the three tree fields of the node. -/
theorem cmap_create_node_spec (m : CmapState) {n : Nat} (hn : n ≠ 0) :
    ∃ m1, cmap_create_node m n = Result.ok m1 ∧ m1.head = m.head ∧
      Agree [n] (tree_of m) (tree_of m1) ∧
      (tree_of m1).mem n = { parent_balance := 0, left := 0, right := 0 } := by
  refine ⟨(((m.setRight n 0).setLeft n 0).setColor n (m.color n % 2 ||| 0)).setColor n 0,
    ?_, rfl, ?_, ?_⟩
  · have e : (m.color n % 2 ||| 0) / 2 * 2 = 0 := by
      rw [Nat.or_zero]; omega
    simp [cmap_create_node, CmapState.wr_right, CmapState.wr_left, hn, rb_set_parent, rb_color,
      rb_set_red, CmapState.rd_color, CmapState.wr_color, CmapState.setColor,
      CmapState.setLeft, CmapState.setRight, e]
  · rw [tree_of_setColor, tree_of_setColor, tree_of_setLeft, tree_of_setRight]
    exact (((agree_setRight _ n _ [n] (by simp)).trans (agree_setLeft _ n _ [n] (by simp))).trans
      (agree_setWord _ n _ [n] (by simp))).trans (agree_setWord _ n _ [n] (by simp))
  · simp [tree_of, CmapState.setColor, CmapState.setLeft, CmapState.setRight]

/-- The first loop of `cmap_calibrate` ends and changes no tree field. -/
theorem calibrate_least_spec : ∀ (t : ATree) (par fuel : Nat) (m : CmapState),
    Rep (tree_of m) t par → t.ptr = m.it_least → t ≠ ATree.nil → t.height ≤ fuel →
    ∃ m1, calibrate_least fuel m = Result.ok m1 ∧ tree_of m1 = tree_of m ∧
      m1.it_most = m.it_most
  | ATree.nil, _, _, _, _, _, h, _ => absurd rfl h
  | ATree.node l a b r, par, fuel, m, hr, hp, _, hf => by
    obtain ⟨f, rfl⟩ : ∃ f, fuel = f + 1 := ⟨fuel - 1, by simp [ATree.height] at hf; omega⟩
    have ha : m.it_least ≠ 0 := by rw [← hp]; exact hr.1
    have hl : ((tree_of m).mem m.it_least).left = l.ptr := by rw [← hp]; exact hr.2.2.2.2.1
    by_cases hn : l = ATree.nil
    · subst hn
      refine ⟨m, ?_, rfl, rfl⟩
      simp [calibrate_least, cmap_rd_left_ok m ha, hl]
    · have h0 : l.ptr ≠ 0 := fun e => hn ((ATree.ptr_eq_zero_iff l hr.2.2.2.2.2.2.1).1 e)
      obtain ⟨m1, e1, t1, i1⟩ := calibrate_least_spec l a f { m with it_least := l.ptr }
        hr.2.2.2.2.2.2.1 rfl hn (by simp only [ATree.height] at hf; omega)
      refine ⟨m1, ?_, t1, i1⟩
      simp [calibrate_least, cmap_rd_left_ok m ha, hl, h0, e1]

/-- The second loop of `cmap_calibrate` ends and changes no tree field. -/
theorem calibrate_most_spec : ∀ (t : ATree) (par fuel : Nat) (m : CmapState),
    Rep (tree_of m) t par → t.ptr = m.it_most → t ≠ ATree.nil → t.height ≤ fuel →
    ∃ m1, calibrate_most fuel m = Result.ok m1 ∧ tree_of m1 = tree_of m
  | ATree.nil, _, _, _, _, _, h, _ => absurd rfl h
  | ATree.node l a b r, par, fuel, m, hr, hp, _, hf => by
    obtain ⟨f, rfl⟩ : ∃ f, fuel = f + 1 := ⟨fuel - 1, by simp [ATree.height] at hf; omega⟩
    have ha : m.it_most ≠ 0 := by rw [← hp]; exact hr.1
    have hl : ((tree_of m).mem m.it_most).right = r.ptr := by rw [← hp]; exact hr.2.2.2.2.2.1
    by_cases hn : r = ATree.nil
    · subst hn
      refine ⟨m, ?_, rfl⟩
      simp [calibrate_most, cmap_rd_right_ok m ha, hl]
    · have h0 : r.ptr ≠ 0 := fun e => hn ((ATree.ptr_eq_zero_iff r hr.2.2.2.2.2.2.2).1 e)
      obtain ⟨m1, e1, t1⟩ := calibrate_most_spec r a f { m with it_most := r.ptr }
        hr.2.2.2.2.2.2.2 rfl hn (by simp only [ATree.height] at hf; omega)
      refine ⟨m1, ?_, t1⟩
      simp [calibrate_most, cmap_rd_right_ok m ha, hl, h0, e1]

/-- Function `cmap_calibrate` returns and changes no tree field. -/
theorem cmap_calibrate_spec {m : CmapState} {t : ATree} (h : TValid m t) (fuel : Nat)
    (hf : t.height ≤ fuel) :
    ∃ m1, cmap_calibrate fuel m = Result.ok m1 ∧ TValid m1 t := by
  by_cases ht : t = ATree.nil
  · subst ht
    have h0 : m.head = 0 := h.1.1
    refine ⟨{ m with it_least := 0, it_most := 0 }, by simp [cmap_calibrate, h0], ?_⟩
    exact h
  · have h0 : m.head ≠ 0 := by
      intro e
      exact ht ((ATree.ptr_eq_zero_iff t h.1.2.1).1 (by rw [← h.1.1]; exact e))
    obtain ⟨m1, e1, t1, i1⟩ := calibrate_least_spec t 0 fuel
      { m with it_least := m.head, it_most := m.head } h.1.2.1 h.1.1.symm ht hf
    have hr1 : Rep (tree_of m1) t 0 := by rw [t1]; exact h.1.2.1
    obtain ⟨m2, e2, t2⟩ := calibrate_most_spec t 0 fuel m1 hr1 (by rw [i1]; exact h.1.1.symm) ht hf
    refine ⟨m2, ?_, ?_⟩
    · simp [cmap_calibrate, h0, e1, e2]
    · have : tree_of m2 = tree_of m := by rw [t2, t1]; rfl
      exact ⟨by rw [this]; exact h.1, h.2⟩

end Avl

namespace Avl

/-- The two statements that hang the new node `n` below `x` on the left. -/
theorem cmap_link_left {m : CmapState} {gs : List Frame} {x bx : Nat} {r : ATree} {n : Nat}
    (h : TValid m (plug gs (ATree.node ATree.nil x bx r))) (hn : n ≠ 0) (hal : n % 4 = 0)
    (hfresh : n ∉ (plug gs (ATree.node ATree.nil x bx r)).inorder)
    (hclr : (tree_of m).mem n = { parent_balance := 0, left := 0, right := 0 }) :
    ∃ m1 m2, m.wr_left x n = Result.ok m1 ∧ rb_set_parent m1 n x = Result.ok m2 ∧
      TValid m2 (plug (Frame.L x bx r :: gs) (ATree.node ATree.nil n CMAP_RED ATree.nil)) := by
  obtain ⟨hx, -, -, -, hfc⟩ := h.at_node
  have hxn : x ≠ n := by
    rintro rfl
    exact hfresh (by simp [inorder_plug, ATree.inorder])
  have hb : balance_of (tree_of (m.setLeft x n)) n < 2 := by
    rw [tree_of_setLeft]; simp [balance_of, hclr]
  refine ⟨m.setLeft x n, _, cmap_wr_left_ok m n hx.ne, rb_set_parent_ok _ x hn hb, ?_, ?_⟩
  · rw [tree_of_set_parent, tree_of_setLeft]
    have e : set_parent_eff (setLeft (tree_of m) x n) n x =
        link_node_eff (tree_of m) n x (Link.left x) := by
      refine store_ext rfl (fun y => ?_)
      by_cases hy : y = n
      · subst hy
        simp [link_node_eff, set_parent_eff, set_parent_balance_eff, setLink, setWord, setLeft,
          setRight, setNode, balance_of, hclr, hxn, Ne.symm hxn]
      · by_cases hy2 : y = x
        · subst hy2
          simp [link_node_eff, set_parent_eff, set_parent_balance_eff, setLink, setWord, setLeft,
            setRight, setNode, balance_of, hy]
        · simp [link_node_eff, set_parent_eff, set_parent_balance_eff, setLink, setWord, setLeft,
            setRight, setNode, balance_of, hy, hy2]
    rw [e]
    exact @valid_link_node (tree_of m) (Frame.L x bx r :: gs) h.1 n hn hal hfresh
  · exact (colored_plug (Frame.L x bx r :: gs) _).2
      ⟨⟨by decide, trivial, trivial⟩, ((colored_plug (Frame.L x bx r :: gs) ATree.nil).1 h.2).2⟩

/-- The two statements that hang the new node `n` below `x` on the right. -/
theorem cmap_link_right {m : CmapState} {gs : List Frame} {x bx : Nat} {l : ATree} {n : Nat}
    (h : TValid m (plug gs (ATree.node l x bx ATree.nil))) (hn : n ≠ 0) (hal : n % 4 = 0)
    (hfresh : n ∉ (plug gs (ATree.node l x bx ATree.nil)).inorder)
    (hclr : (tree_of m).mem n = { parent_balance := 0, left := 0, right := 0 }) :
    ∃ m1 m2, m.wr_right x n = Result.ok m1 ∧ rb_set_parent m1 n x = Result.ok m2 ∧
      TValid m2 (plug (Frame.R l x bx :: gs) (ATree.node ATree.nil n CMAP_RED ATree.nil)) := by
  obtain ⟨hx, -, -, -, hfc⟩ := h.at_node
  have hxn : x ≠ n := by
    rintro rfl
    exact hfresh (by simp [inorder_plug, ATree.inorder])
  have hb : balance_of (tree_of (m.setRight x n)) n < 2 := by
    rw [tree_of_setRight]; simp [balance_of, hclr]
  refine ⟨m.setRight x n, _, cmap_wr_right_ok m n hx.ne, rb_set_parent_ok _ x hn hb, ?_, ?_⟩
  · rw [tree_of_set_parent, tree_of_setRight]
    have e : set_parent_eff (setRight (tree_of m) x n) n x =
        link_node_eff (tree_of m) n x (Link.right x) := by
      refine store_ext rfl (fun y => ?_)
      by_cases hy : y = n
      · subst hy
        simp [link_node_eff, set_parent_eff, set_parent_balance_eff, setLink, setWord, setLeft,
          setRight, setNode, balance_of, hclr, hxn, Ne.symm hxn]
      · by_cases hy2 : y = x
        · subst hy2
          simp [link_node_eff, set_parent_eff, set_parent_balance_eff, setLink, setWord, setLeft,
            setRight, setNode, balance_of, hy]
        · simp [link_node_eff, set_parent_eff, set_parent_balance_eff, setLink, setWord, setLeft,
            setRight, setNode, balance_of, hy, hy2]
    rw [e]
    exact @valid_link_node (tree_of m) (Frame.R l x bx :: gs) h.1 n hn hal hfresh
  · exact (colored_plug (Frame.R l x bx :: gs) _).2
      ⟨⟨by decide, trivial, trivial⟩, ((colored_plug (Frame.R l x bx :: gs) ATree.nil).1 h.2).2⟩

end Avl

namespace Avl

/-- The loop of `cmap_insert` started at the top of a subtree `u` of a valid, strictly sorted
state whose path bounds the key of the new node `n`: it returns, and `n` stands in the in-order
sequence after all smaller and before all larger keys. -/
theorem cmap_insert_loop_spec (value : Nat → Int) (fuel : Nat) (n : Nat) (hn : n ≠ 0)
    (hal : n % 4 = 0) :
    ∀ (u : ATree) (gs : List Frame) (steps : Nat) (m : CmapState),
    TValid m (plug gs u) → u ≠ ATree.nil →
    (plug gs u).inorder.Pairwise (fun a b => sort_key value a < sort_key value b) →
    (∀ y ∈ ctxBefore gs, sort_key value y < sort_key value n) →
    (∀ z ∈ ctxAfter gs, sort_key value n < sort_key value z) →
    (∀ y ∈ u.inorder, sort_key value y ≠ sort_key value n) →
    n ∉ (plug gs u).inorder →
    (tree_of m).mem n = { parent_balance := 0, left := 0, right := 0 } →
    u.height ≤ steps → (plug gs u).height < fuel →
    ∃ m1 t1 pre post, cmap_insert_loop value fuel steps m n u.ptr = Result.ok m1 ∧
      TValid m1 t1 ∧ (plug gs u).inorder = pre ++ post ∧ t1.inorder = pre ++ n :: post ∧
      (∀ y ∈ pre, sort_key value y < sort_key value n) ∧
      (∀ z ∈ post, sort_key value n < sort_key value z)
  | ATree.nil, _, _, _, _, hu, _, _, _, _, _, _, _, _ => absurd rfl hu
  | ATree.node l x bx r, gs, steps, m, hv, _, hs, hb, ha, hd, hfresh, hclr, hst, hf => by
    obtain ⟨st, rfl⟩ : ∃ st, steps = st + 1 := ⟨steps - 1, by
      simp [ATree.height] at hst; omega⟩
    obtain ⟨hx, -, -, -, -⟩ := hv.at_node
    have hx0 := hx.ne
    have hs1 := hs
    simp only [inorder_plug, ATree.inorder, List.pairwise_append,
      List.pairwise_cons, List.mem_append, List.mem_cons] at hs1
    obtain ⟨⟨_, ⟨_, ⟨hxr, _⟩, hlx⟩, _⟩, _, _⟩ := hs1
    have hkx : sort_key value x ≠ sort_key value n := hd x (by simp [ATree.inorder])
    simp only [ATree.height] at hst
    have hlen := ctx_length_lt_height gs l x bx r
    rcases lt_or_gt_of_ne hkx with hgt | hlt
    · -- the key of `x` is smaller: to the right
      have hres : cmap_cmp_int (int_of_long (value n)) (int_of_long (value x)) = 1 := by
        have h1 : ¬ int_of_long (value n) < int_of_long (value x) := not_lt.2 (le_of_lt hgt)
        have h2 : int_of_long (value n) > int_of_long (value x) := hgt
        simp [cmap_cmp_int, h1, h2]
      have hb' : ∀ y ∈ ctxBefore (Frame.R l x bx :: gs), sort_key value y < sort_key value n := by
        intro y hy
        simp only [ctxBefore, List.mem_append, List.mem_cons, List.mem_singleton,
          List.not_mem_nil, or_false] at hy
        rcases hy with hy | hy | rfl
        · exact hb y hy
        · exact lt_trans (hlx y hy x (Or.inl rfl)) hgt
        · exact hgt
      by_cases hr : r = ATree.nil
      · subst hr
        obtain ⟨m1, m2, e1, e2, h2⟩ := cmap_link_right hv hn hal hfresh hclr
        obtain ⟨m3, t3, e3, h3, i3⟩ := cmap_fix_colors_spec fuel (Frame.R l x bx :: gs) m2
          ATree.nil n CMAP_RED ATree.nil (by simp only [List.length_cons]; omega) h2
        refine ⟨m3, t3, ctxBefore (Frame.R l x bx :: gs), ctxAfter (Frame.R l x bx :: gs),
          ?_, h3, ?_, ?_, hb', ha⟩
        · simp [cmap_insert_loop, hn, hx0, hres, cmap_rd_right_ok m hx0, hx.right, e1, e2, e3]
        · simp [inorder_plug, ATree.inorder, ctxBefore, ctxAfter]
        · rw [i3]; simp [inorder_plug, ATree.inorder]
      · have h0 : r.ptr ≠ 0 := fun e => hr ((ATree.ptr_eq_zero_iff r hx.repr).1 e)
        obtain ⟨m1, t1, pre, post, e1, h1, i1, j1, k1, k2⟩ :=
          cmap_insert_loop_spec value fuel n hn hal r (Frame.R l x bx :: gs) st m hv hr hs hb' ha
            (fun y hy => hd y (by simp [ATree.inorder, hy])) hfresh hclr (by omega) hf
        refine ⟨m1, t1, pre, post, ?_, h1, i1, j1, k1, k2⟩
        simp [cmap_insert_loop, hn, hx0, hres, cmap_rd_right_ok m hx0, hx.right, h0, e1]
    · -- the key of `x` is larger: to the left
      have hres : cmap_cmp_int (int_of_long (value n)) (int_of_long (value x)) = -1 := by
        have h1 : int_of_long (value n) < int_of_long (value x) := hlt
        simp [cmap_cmp_int, h1]
      have ha' : ∀ z ∈ ctxAfter (Frame.L x bx r :: gs), sort_key value n < sort_key value z := by
        intro z hz
        simp only [ctxAfter, List.cons_append, List.mem_cons, List.mem_append] at hz
        rcases hz with rfl | hz | hz
        · exact hlt
        · exact lt_trans hlt (hxr z hz)
        · exact ha z hz
      by_cases hl : l = ATree.nil
      · subst hl
        obtain ⟨m1, m2, e1, e2, h2⟩ := cmap_link_left hv hn hal hfresh hclr
        obtain ⟨m3, t3, e3, h3, i3⟩ := cmap_fix_colors_spec fuel (Frame.L x bx r :: gs) m2
          ATree.nil n CMAP_RED ATree.nil (by simp only [List.length_cons]; omega) h2
        refine ⟨m3, t3, ctxBefore (Frame.L x bx r :: gs), ctxAfter (Frame.L x bx r :: gs),
          ?_, h3, ?_, ?_, hb, ha'⟩
        · simp [cmap_insert_loop, hn, hx0, hres, cmap_rd_left_ok m hx0, hx.left, e1, e2, e3]
        · simp [inorder_plug, ATree.inorder, ctxBefore, ctxAfter]
        · rw [i3]; simp [inorder_plug, ATree.inorder]
      · have h0 : l.ptr ≠ 0 := fun e => hl ((ATree.ptr_eq_zero_iff l hx.repl).1 e)
        obtain ⟨m1, t1, pre, post, e1, h1, i1, j1, k1, k2⟩ :=
          cmap_insert_loop_spec value fuel n hn hal l (Frame.L x bx r :: gs) st m hv hl hs hb ha'
            (fun y hy => hd y (by simp [ATree.inorder, hy])) hfresh hclr (by omega) hf
        refine ⟨m1, t1, pre, post, ?_, h1, i1, j1, k1, k2⟩
        simp [cmap_insert_loop, hn, hx0, hres, cmap_rd_left_ok m hx0, hx.left, h0, e1]

end Avl

namespace Avl

/-- Function `cmap_insert` of a new node with a new key into a valid, strictly sorted state:
it returns and the state is valid and strictly sorted with the new node added. -/
theorem cmap_insert_spec (value : Nat → Int) (fuel : Nat) {m : CmapState} {t : ATree}
    (h : TValid m t)
    (hs : t.inorder.Pairwise (fun a b => sort_key value a < sort_key value b))
    {n : Nat} (hn : n ≠ 0) (hal : n % 4 = 0) (hfresh : n ∉ t.inorder)
    (hd : ∀ y ∈ t.inorder, sort_key value y ≠ sort_key value n)
    (hf : t.inorder.length + 1 < fuel) :
    ∃ m1 t1, cmap_insert value fuel m n = Result.ok m1 ∧ TValid m1 t1 ∧
      t1.inorder.Pairwise (fun a b => sort_key value a < sort_key value b) ∧
      t1.inorder.Perm (n :: t.inorder) := by
  obtain ⟨mc, ec, hh, hag, hclr⟩ := cmap_create_node_spec m hn
  have hvc : TValid mc t := h.agree_out hag hh (fun x hx => by
    simp only [List.mem_singleton]; rintro rfl; exact hfresh hx)
  obtain ⟨m2, hm2⟩ : ∃ m2 : CmapState, m2 = { mc with size := (mc.size + 1) % 2 ^ 64 } :=
    ⟨_, rfl⟩
  have ht2 : tree_of m2 = tree_of mc := by rw [hm2]; rfl
  have hh2 : m2.head = m.head := by rw [hm2]; exact hh
  have hv2 : TValid m2 t := ⟨by rw [ht2]; exact hvc.1, hvc.2⟩
  have hclr2 : (tree_of m2).mem n = { parent_balance := 0, left := 0, right := 0 } := by
    rw [ht2]; exact hclr
  have hlen := height_le_length t
  by_cases ht : t = ATree.nil
  · subst ht
    have h0 : m2.head = 0 := hv2.1.1
    have hv3 : TValid (m2.setHead n) (plug [] (ATree.node ATree.nil n 0 ATree.nil)) := by
      refine ⟨⟨rfl, ⟨hn, hal, ?_, ?_, ?_, ?_, trivial, trivial⟩, by simp [plug, ATree.inorder]⟩,
        ⟨by decide, trivial, trivial⟩⟩
      · simp [tree_of_setHead, parent_of, hclr2]
      · simp [tree_of_setHead, balance_of, hclr2]
      · simp [tree_of_setHead, hclr2, ATree.ptr]
      · simp [tree_of_setHead, hclr2, ATree.ptr]
    obtain ⟨m4, e4, h4⟩ := rb_set_black_spec hv3
    obtain ⟨m5, e5, h5⟩ := cmap_calibrate_spec h4 fuel (by
      simp [plug, ATree.height]; omega)
    refine ⟨m5, _, ?_, h5, by simp [plug, ATree.inorder], by simp [plug, ATree.inorder]⟩
    have hh3 : (m2.setHead n).head = n := rfl
    have hc0 : mc.head = 0 := by rw [hh, ← hh2]; exact h0
    simp only [cmap_insert, ec, Result.ok_bind]
    rw [← hm2, if_pos hc0]
    simp only [hh3, e4, e5, Result.ok_bind]
  · have h0 : m2.head ≠ 0 := by
      intro e
      exact ht ((ATree.ptr_eq_zero_iff t hv2.1.2.1).1 (by
        have := hv2.1.1
        rw [tree_of_root] at this
        rw [← this]; exact e))
    have hhp : m2.head = t.ptr := hv2.1.1
    obtain ⟨m3, t3, pre, post, e3, h3, i3, j3, k1, k2⟩ :=
      cmap_insert_loop_spec value fuel n hn hal t [] fuel m2 hv2 ht hs
        (by simp [ctxBefore]) (by simp [ctxAfter]) hd hfresh hclr2 (by omega)
        (by simp only [plug]; omega)
    simp only [plug] at i3
    have hlen3 := height_le_length t3
    have hl3 : t3.inorder.length = t.inorder.length + 1 := by
      rw [j3, i3]; simp only [List.length_append, List.length_cons]; omega
    obtain ⟨m5, e5, h5⟩ := cmap_calibrate_spec h3 fuel (by omega)
    refine ⟨m5, t3, ?_, h5, ?_, ?_⟩
    · have hc0 : mc.head ≠ 0 := by rw [hh, ← hh2]; exact h0
      have hcp : mc.head = t.ptr := by rw [hh, ← hh2]; exact hhp
      simp only [cmap_insert, ec, Result.ok_bind]
      rw [← hm2, if_neg hc0, hcp]
      simp only [e3, e5, Result.ok_bind]
    · rw [i3] at hs
      rw [j3]
      simp only [List.pairwise_append, List.pairwise_cons, List.mem_cons] at hs ⊢
      obtain ⟨p1, p2, p3⟩ := hs
      refine ⟨p1, ⟨k2, p2⟩, ?_⟩
      intro y hy z hz
      rcases hz with rfl | hz
      · exact k1 y hy
      · exact p3 y hy z hz
    · rw [j3, i3]
      exact List.perm_middle

end Avl

namespace Avl

/-! ## Functions `cmap_first` and `cmap_next` -/

theorem cmap_descend_left_eq : ∀ (fuel : Nat) (m : CmapState) (n : Nat),
    cmap_descend_left fuel m n = descend_left fuel (tree_of m) n
  | 0, _, _ => rfl
  | fuel + 1, m, n => by
    by_cases hn : n = 0
    · simp [cmap_descend_left, descend_left, CmapState.rd_left, rd_left, hn]
      rfl
    · simp only [cmap_descend_left, descend_left, cmap_rd_left_ok m hn, rd_left_ok _ hn,
        Result.ok_bind, cmap_descend_left_eq fuel m]

/-- Function `cmap_first` gives the first node of the in-order sequence, `NULL` for the empty
tree. -/
theorem cmap_first_spec {m : CmapState} {t : ATree} (h : TValid m t) (fuel : Nat)
    (hf : t.height ≤ fuel) : cmap_first fuel m = Result.ok (t.inorder.head?.getD 0) := by
  rw [← avl_first_spec h.1 fuel hf]
  simp only [cmap_first, avl_first, tree_of_root, cmap_descend_left_eq]

/-- The upward loop of `cmap_next`. -/
theorem cmap_climb_spec {m : CmapState} {rp : Nat} : ∀ (fs : List Frame) (p fuel : Nat),
    RepCtx (tree_of m) fs rp 0 p → p ≠ 0 → parent_of (tree_of m) p = ctxPar fs 0 →
    balance_of (tree_of m) p < 2 → CtxColored fs → p ∉ ctxAddrs fs → (ctxAddrs fs).Nodup →
    fs.length < fuel →
    cmap_climb fuel m p = Result.ok ((ctxAfter fs).head?.getD 0)
  | [], p, fuel, _, hp, hpar, hb, _, _, _, hf => by
    obtain ⟨f, rfl⟩ : ∃ f, fuel = f + 1 := ⟨fuel - 1, by simp at hf; omega⟩
    have : rb_parent m p = Result.ok 0 := by rw [rb_parent_ok m hp hb, hpar]; rfl
    simp [cmap_climb, this, ctxAfter]
  | Frame.L a b r :: fs, p, fuel, hc, hp, hpar, hb, _, hm, _, hf => by
    obtain ⟨f, rfl⟩ : ∃ f, fuel = f + 1 := ⟨fuel - 1, by simp at hf; omega⟩
    obtain ⟨h1, _, _, _, _, h6, _, _⟩ := hc
    have hne : ¬ p = r.ptr := fun e =>
      ATree.ptr_ne_of_not_mem hp (fun hx => hm (by simp [ctxAddrs, hx])) e.symm
    have : rb_parent m p = Result.ok a := by rw [rb_parent_ok m hp hb, hpar]; rfl
    simp [cmap_climb, this, h1, cmap_rd_right_ok m h1, h6, hne, ctxAfter]
  | Frame.R l a b :: fs, p, fuel, hc, hp, hpar, hb, hcc, hm, hnd, hf => by
    obtain ⟨f, rfl⟩ : ∃ f, fuel = f + 1 := ⟨fuel - 1, by simp at hf; omega⟩
    obtain ⟨h1, _, h3, h4, _, h6, _, h8⟩ := hc
    simp only [ctxAddrs, List.nodup_cons, List.mem_append, not_or] at hnd
    have ih := cmap_climb_spec fs a f h8 h1 h3 (by rw [h4]; exact hcc.1) hcc.2.2 hnd.1.2
      (List.nodup_append.1 hnd.2).2.1 (by simpa using hf)
    have : rb_parent m p = Result.ok a := by rw [rb_parent_ok m hp hb, hpar]; rfl
    simp [cmap_climb, this, h1, cmap_rd_right_ok m h1, h6, ih, ctxAfter]

/-- Function `cmap_next` at a node of a valid state, given by its path. -/
theorem cmap_next_at {m : CmapState} {fs : List Frame} {l r : ATree} {n b : Nat}
    (hv : TValid m (plug fs (ATree.node l n b r))) (fuel : Nat)
    (hf : (plug fs (ATree.node l n b r)).height ≤ fuel) :
    cmap_next fuel m n = Result.ok ((r.inorder ++ ctxAfter fs).head?.getD 0) := by
  obtain ⟨hN, hb, -, -, hcc⟩ := hv.at_node
  have hlen := ctx_length_lt_height fs l n b r
  by_cases hr : r = ATree.nil
  · subst hr
    have hnd : (ctxAddrs fs).Nodup := by
      have := hN.nd
      exact (List.nodup_cons.1 (List.nodup_append.1 this).2.1).2
    have hclimb := cmap_climb_spec fs n fuel hN.ctx hN.ne hN.par (by rw [hN.bal]; exact hb) hcc
      hN.nac hnd (by omega)
    simp [cmap_next, hN.ne, cmap_rd_right_ok m hN.ne, hN.right, hclimb, ATree.inorder]
  · have h0 : r.ptr ≠ 0 := fun e => hr ((ATree.ptr_eq_zero_iff r hN.repr).1 e)
    obtain ⟨rest, hrest⟩ := inorder_head r hr
    have hrh : r.height ≤ fuel := by
      have h1 := sub_height_le fs (ATree.node l n b r)
      simp only [ATree.height] at h1
      omega
    simp [cmap_next, hN.ne, cmap_rd_right_ok m hN.ne, hN.right, h0, cmap_descend_left_eq,
      descend_left_min hN.repr hr fuel hrh, hrest]

/-- Function `cmap_next` gives the node after `n` in the in-order sequence, `NULL` after the
last. -/
theorem cmap_next_spec {m : CmapState} {t : ATree} (hv : TValid m t) {n : Nat}
    {pre post : List Nat} (hL : t.inorder = pre ++ n :: post) (fuel : Nat)
    (hf : t.height ≤ fuel) :
    cmap_next fuel m n = Result.ok (post.head?.getD 0) := by
  have hm : n ∈ t.inorder := by rw [hL]; simp
  obtain ⟨fs, l, b, r, rfl⟩ := exists_plug_of_mem t n hm
  have h1 := cmap_next_at hv fuel hf
  have h2 : (plug fs (ATree.node l n b r)).inorder =
      (ctxBefore fs ++ l.inorder) ++ n :: (r.inorder ++ ctxAfter fs) := by
    rw [inorder_plug]; simp [ATree.inorder]
  have := nodup_split_unique hv.1.2.2 hL h2
  rw [h1, this.2]

/-- From any node of a valid state `cmap_next` runs through the rest of the in-order
sequence. -/
theorem next_chain_spec {m : CmapState} {t : ATree} (hv : TValid m t) (fuel : Nat)
    (hf : t.height ≤ fuel) : ∀ (post pre : List Nat) (x : Nat), t.inorder = pre ++ x :: post →
    NextChain fuel m x post
  | [], pre, x, hL => by
    have := cmap_next_spec hv hL fuel hf
    simpa [NextChain] using this
  | y :: ys, pre, x, hL => by
    have h1 := cmap_next_spec hv hL fuel hf
    refine ⟨by simpa using h1, next_chain_spec hv fuel hf ys (pre ++ [x]) y (by simp [hL])⟩

end Avl

namespace Avl

/-! ## The loops of `tree_sort` -/

theorem IsList.head_eq {next : Nat → Nat} : ∀ {L : List Nat} {p : Nat}, IsList next p L →
    p = L.head?.getD 0
  | [], _, h => h
  | _ :: _, _, h => h.1

theorem IsList.ne_zero {next : Nat → Nat} : ∀ {L : List Nat} {p : Nat}, IsList next p L →
    ∀ y ∈ L, y ≠ 0
  | [], _, _ => by simp
  | x :: xs, _, h => by
    intro y hy
    rcases List.mem_cons.1 hy with rfl | hy
    · exact h.2.1
    · exact IsList.ne_zero h.2.2 y hy

/-- The first loop of `tree_sort` inserts the nodes of the list one after the other and leaves
the fields `next` and `value` alone. -/
theorem tree_sort_insert_all_spec (fuel : Nat) : ∀ (rest : List Nat) (steps : Nat)
    (s : SortState) (list : ListRef) (t : ATree),
    (∀ p, list = ListRef.next p → p ≠ 0) → rd_ref s list = Result.ok (rest.head?.getD 0) →
    IsList s.next (rest.head?.getD 0) rest → TValid s.m t →
    t.inorder.Pairwise (fun a b => sort_key s.value a < sort_key s.value b) →
    (rest.map (sort_key s.value)).Nodup →
    (∀ y ∈ t.inorder, ∀ z ∈ rest, sort_key s.value y ≠ sort_key s.value z) →
    (∀ z ∈ rest, z % 4 = 0) → rest.length < steps → t.inorder.length + rest.length + 1 < fuel →
    ∃ s1 list1 t1, tree_sort_insert_all fuel steps s list = Result.ok (s1, list1) ∧
      TValid s1.m t1 ∧ t1.inorder.Perm (rest ++ t.inorder) ∧
      t1.inorder.Pairwise (fun a b => sort_key s.value a < sort_key s.value b) ∧
      s1.next = s.next ∧ s1.value = s.value ∧ (∀ p, list1 = ListRef.next p → p ≠ 0) ∧
      (rest = [] → list1 = list)
  | [], steps, s, list, t, hl, hrd, _, hv, hs, _, _, _, hst, _ => by
    obtain ⟨st, rfl⟩ : ∃ st, steps = st + 1 := ⟨steps - 1, by simp at hst; omega⟩
    refine ⟨s, list, t, ?_, hv, by simp, hs, rfl, rfl, hl, fun _ => rfl⟩
    simp only [List.head?_nil, Option.getD_none] at hrd
    simp [tree_sort_insert_all, hrd]
  | n :: rest, steps, s, list, t, hl, hrd, hlist, hv, hs, hk, hkt, hal, hst, hf => by
    obtain ⟨st, rfl⟩ : ∃ st, steps = st + 1 := ⟨steps - 1, by simp at hst; omega⟩
    simp only [List.head?_cons, Option.getD_some] at hrd hlist
    obtain ⟨-, hn, hlist'⟩ := hlist
    have hfresh : n ∉ t.inorder := fun hm => hkt n hm n (List.mem_cons_self n rest) rfl
    simp only [List.map_cons, List.nodup_cons, List.mem_map, not_exists, not_and] at hk
    obtain ⟨m1, t1, e1, h1, s1, p1⟩ := cmap_insert_spec s.value fuel hv hs hn
      (hal n (List.mem_cons_self n rest)) hfresh
      (fun y hy => hkt y hy n (List.mem_cons_self n rest))
      (by simp only [List.length_cons] at hf; omega)
    have hrd1 : rd_ref { s with m := m1 } list = Result.ok n := by
      cases list with
      | head => exact hrd
      | next p => exact hrd
    have hrest := IsList.head_eq hlist'
    obtain ⟨s2, list2, t2, e2, h2, p2, q2, n2, v2, l2, -⟩ :=
      tree_sort_insert_all_spec fuel rest st { s with m := m1 } (ListRef.next n) t1
        (fun p hp => by cases hp; exact hn)
        (by simp only [rd_ref, hn, if_false]; rw [← hrest])
        (by rw [← hrest]; exact hlist') h1 s1 hk.2
        (fun y hy z hz => by
          rcases List.mem_cons.1 (p1.subset hy) with rfl | hy
          · exact fun e => hk.1 z hz e.symm
          · exact hkt y hy z (List.mem_cons_of_mem n hz))
        (fun z hz => hal z (List.mem_cons_of_mem n hz))
        (by simp only [List.length_cons] at hst; omega)
        (by
          have := p1.length_eq
          simp only [List.length_cons] at hf this
          omega)
    refine ⟨s2, list2, t2, ?_, h2, ?_, q2, n2, v2, l2, fun h => by cases h⟩
    · simp only [tree_sort_insert_all, hrd, Result.ok_bind, ne_eq, hn, not_false_eq_true,
        if_true, e1, hrd1]
      exact e2
    · refine p2.trans ?_
      have := (List.Perm.append_left rest p1)
      refine this.trans ?_
      simp only [List.cons_append]
      exact List.perm_middle

end Avl

namespace Avl

theorem wr_ref_ok (s : SortState) (list : ListRef) (v : Nat)
    (hl : ∀ p, list = ListRef.next p → p ≠ 0) :
    ∃ s1, wr_ref s list v = Result.ok s1 ∧ s1.m = s.m ∧ s1.value = s.value ∧
      (∀ p, list = ListRef.next p → s1.next p = v) ∧
      (∀ p, list ≠ ListRef.next p → s1.next p = s.next p) := by
  cases list with
  | head =>
    refine ⟨{ s with list_head := v }, rfl, rfl, rfl, ?_, ?_⟩
    · intro p hp
      cases hp
    · intro p _
      rfl
  | next q =>
    have hq := hl q rfl
    refine ⟨{ s with next := fun x => if x = q then v else s.next x }, by simp [wr_ref, hq],
      rfl, rfl, ?_, ?_⟩
    · intro p hp
      cases hp
      simp
    · intro p hp
      have : p ≠ q := fun e => hp (by rw [e])
      simp [this]

/-- The second loop of `tree_sort`, started at the node `x` that `cmap_next` follows through
`post`: it chains `x` and the nodes of `post` through their `next` fields, up to the field of
the last one, whose address it returns. -/
theorem tree_sort_relink_spec (fuel : Nat) : ∀ (post : List Nat) (x steps : Nat)
    (s : SortState) (list : ListRef),
    (∀ p, list = ListRef.next p → p ≠ 0) → (x :: post).Nodup → (∀ y ∈ x :: post, y ≠ 0) →
    NextChain fuel s.m x post → post.length + 1 < steps →
    ∃ s1 last, tree_sort_relink fuel steps s list x = Result.ok (s1, ListRef.next last) ∧
      s1.m = s.m ∧ s1.value = s.value ∧ last ∈ x :: post ∧
      (∀ p, p ∉ x :: post → list = ListRef.next p → s1.next p = x) ∧
      (∀ p, p ∉ x :: post → list ≠ ListRef.next p → s1.next p = s.next p) ∧
      IsList (fun z => if z = last then 0 else s1.next z) x (x :: post)
  | [], x, steps, s, list, hl, _, h0, hc, hst => by
    obtain ⟨st, rfl⟩ : ∃ st, steps = st + 2 := ⟨steps - 2, by simp at hst; omega⟩
    have hx : x ≠ 0 := h0 x (List.mem_cons_self x [])
    obtain ⟨s1, e1, m1, v1, w1, w2⟩ := wr_ref_ok s list x hl
    have hc1 : cmap_next fuel s1.m x = Result.ok 0 := by rw [m1]; exact hc
    refine ⟨s1, x, ?_, m1, v1, List.mem_cons_self x [], fun p _ hp => w1 p hp,
      fun p _ hp => w2 p hp, ⟨rfl, hx, ?_⟩⟩
    · simp [tree_sort_relink, hx, e1, hc1]
    · simp [IsList]
  | y :: ys, x, steps, s, list, hl, hnd, h0, hc, hst => by
    obtain ⟨st, rfl⟩ : ∃ st, steps = st + 1 := ⟨steps - 1, by simp at hst; omega⟩
    have hx : x ≠ 0 := h0 x (List.mem_cons_self x _)
    obtain ⟨s1, e1, m1, v1, w1, w2⟩ := wr_ref_ok s list x hl
    obtain ⟨hcy, hcr⟩ := hc
    have hc1 : cmap_next fuel s1.m x = Result.ok y := by rw [m1]; exact hcy
    have hnd' := List.nodup_cons.1 hnd
    obtain ⟨s2, last, e2, m2, v2, hlast, u1, u2, il⟩ :=
      tree_sort_relink_spec fuel ys y st s1 (ListRef.next x) (fun p hp => by cases hp; exact hx)
        hnd'.2 (fun z hz => h0 z (List.mem_cons_of_mem x hz)) (by rw [m1]; exact hcr)
        (by simp only [List.length_cons] at hst; omega)
    have hxl : x ≠ last := fun e => hnd'.1 (e ▸ hlast)
    have hx2 : s2.next x = y := u1 x hnd'.1 rfl
    refine ⟨s2, last, ?_, by rw [m2, m1], by rw [v2, v1], List.mem_cons_of_mem x hlast,
      ?_, ?_, ⟨rfl, hx, ?_⟩⟩
    · simp only [tree_sort_relink, ne_eq, hx, not_false_eq_true, if_true, e1, Result.ok_bind,
        hc1]
      exact e2
    · intro p hp hlp
      have hp' : p ∉ y :: ys := fun h => hp (List.mem_cons_of_mem x h)
      have hpx : p ≠ x := fun e => hp (e ▸ List.mem_cons_self x _)
      rw [u2 p hp' (fun e => hpx (by cases e; rfl))]
      exact w1 p hlp
    · intro p hp hlp
      have hp' : p ∉ y :: ys := fun h => hp (List.mem_cons_of_mem x h)
      have hpx : p ≠ x := fun e => hp (e ▸ List.mem_cons_self x _)
      rw [u2 p hp' (fun e => hpx (by cases e; rfl))]
      exact w2 p hlp
    · simp only [hxl, if_false, hx2]
      exact il

/-- Function `list_is_ordered` on a list whose values do not decrease returns `true`. -/
theorem list_is_ordered_loop_spec (s : SortState) : ∀ (L : List Nat) (p steps : Nat)
    (first : Bool) (v : Int), IsList s.next p L → L.length < steps →
    (L.map s.value).Pairwise (fun a b => a ≤ b) →
    (∀ y ∈ L, int_of_long (s.value y) = s.value y) →
    (first = false → ∀ y ∈ L, v ≤ s.value y) →
    list_is_ordered_loop steps s p first v = Result.ok true
  | [], p, steps, first, v, hl, hst, _, _, _ => by
    obtain ⟨st, rfl⟩ : ∃ st, steps = st + 1 := ⟨steps - 1, by simp at hst; omega⟩
    have hp : p = 0 := hl
    simp [list_is_ordered_loop, hp]
  | x :: xs, p, steps, first, v, hl, hst, hs, hr, hv => by
    obtain ⟨st, rfl⟩ : ∃ st, steps = st + 1 := ⟨steps - 1, by simp at hst; omega⟩
    obtain ⟨rfl, hx, hl'⟩ := hl
    simp only [List.map_cons, List.pairwise_cons, List.mem_map, forall_exists_index, and_imp,
      forall_apply_eq_imp_iff₂] at hs
    have ih := list_is_ordered_loop_spec s xs (s.next p) st false (int_of_long (s.value p)) hl'
      (by simp only [List.length_cons] at hst; omega) hs.2
      (fun y hy => hr y (List.mem_cons_of_mem p hy))
      (fun _ y hy => by rw [hr p (List.mem_cons_self p xs)]; exact hs.1 y hy)
    cases first with
    | true => simp [list_is_ordered_loop, hx, ih]
    | false =>
      have hle : ¬ s.value p < v := not_lt.2 (hv rfl p (List.mem_cons_self p xs))
      simp [list_is_ordered_loop, hx, hle, ih]

end Avl

namespace Avl

theorem int_of_long_id {v : Int} (h : -2 ^ 31 ≤ v ∧ v < 2 ^ 31) : int_of_long v = v := by
  unfold int_of_long
  have h1 : (-2 : Int) ^ 31 = -2147483648 := by norm_num
  have h2 : (2 : Int) ^ 31 = 2147483648 := by norm_num
  have h3 : (2 : Int) ^ 32 = 4294967296 := by norm_num
  obtain ⟨ha, hb⟩ := h
  rw [h2] at ha hb ⊢
  rw [h3]
  omega

/-- C19: for every linked list of nodes (a `NULL`-terminated chain through `next` from the
head) with pairwise distinct values that each fit in an `int`, `tree_sort` returns; afterwards
the list reachable from the head through `next` holds the same nodes with unchanged values in
non-decreasing order of value, and `list_is_ordered` returns true on it. -/
theorem C19_tree_sort_orders (s : SortState) (ns : List Nat) (fuel : Nat)
    (hl : IsList s.next s.list_head ns) (hal : ∀ n ∈ ns, n % 4 = 0)
    (hint : ∀ n ∈ ns, -2 ^ 31 ≤ s.value n ∧ s.value n < 2 ^ 31)
    (hd : (ns.map s.value).Nodup) (hf : ns.length + 1 < fuel) :
    ∃ s1 out, tree_sort fuel s = Result.ok s1 ∧ IsList s1.next s1.list_head out ∧
      out.Perm ns ∧ s1.value = s.value ∧ (out.map s1.value).Pairwise (fun a b => a ≤ b) ∧
      list_is_ordered fuel s1 s1.list_head = Result.ok true := by
  have hkey : ∀ n ∈ ns, sort_key s.value n = s.value n := fun n hn => int_of_long_id (hint n hn)
  have hk : (ns.map (sort_key s.value)).Nodup := by
    rw [List.map_congr_left hkey]; exact hd
  obtain ⟨s1, list1, t1, e1, h1, p1, q1, n1, v1, l1, hnil⟩ :=
    tree_sort_insert_all_spec fuel ns fuel { s with m := cmap_new s.m } ListRef.head ATree.nil
      (fun p hp => by cases hp) (by rw [← IsList.head_eq hl]; rfl)
      (by rw [← IsList.head_eq hl]; exact hl) ⟨⟨rfl, trivial, List.nodup_nil⟩, trivial⟩
      List.Pairwise.nil hk (fun y hy => by simp [ATree.inorder] at hy) hal (by omega)
      (by simp only [ATree.inorder, List.length_nil]; omega)
  simp only [ATree.inorder, List.append_nil] at p1
  have hv1 : s1.value = s.value := v1
  have hlen1 : t1.height ≤ fuel := by
    have := height_le_length t1
    have := p1.length_eq
    omega
  have efirst := cmap_first_spec h1 fuel hlen1
  have hsorted : (t1.inorder.map s.value).Pairwise (fun a b => a ≤ b) := by
    rw [List.pairwise_map]
    refine List.Pairwise.imp_of_mem ?_ q1
    intro a b ha hb hab
    have hab : sort_key s.value a < sort_key s.value b := hab
    rw [hkey a (p1.subset ha), hkey b (p1.subset hb)] at hab
    exact le_of_lt hab
  have hrange : ∀ y ∈ t1.inorder, int_of_long (s.value y) = s.value y :=
    fun y hy => hkey y (p1.subset hy)
  cases hin : t1.inorder with
  | nil =>
    have hns : ns = [] := by
      rw [hin] at p1
      exact List.Perm.nil_eq p1 |>.symm
    have hl1 : list1 = ListRef.head := hnil hns
    obtain ⟨f, rfl⟩ : ∃ f, fuel = f + 1 := ⟨fuel - 1, by omega⟩
    refine ⟨{ s1 with list_head := 0 }, [], ?_, rfl, by rw [hns], hv1, by simp, ?_⟩
    · rw [hin] at efirst
      simp only [List.head?_nil, Option.getD_none] at efirst
      simp only [tree_sort, e1, Result.ok_bind, efirst, hl1, tree_sort_relink, ne_eq,
        not_true_eq_false, if_false, Result.pure_eq, wr_ref]
    · simp [list_is_ordered, list_is_ordered_loop]
  | cons x post =>
    have hnd : (x :: post).Nodup := by rw [← hin]; exact h1.1.2.2
    have h0 : ∀ y ∈ x :: post, y ≠ 0 := by
      intro y hy e
      rw [← hin, e] at hy
      exact Valid.zero_not_mem h1.1 hy
    have hlen : post.length + 1 = ns.length := by
      have := p1.length_eq
      rw [hin] at this
      simpa using this
    obtain ⟨s2, last, e2, m2, v2, hlast, -, -, il⟩ :=
      tree_sort_relink_spec fuel post x fuel s1 list1 l1 hnd h0
        (next_chain_spec h1 fuel hlen1 post [] x (by rw [hin]; rfl)) (by omega)
    have hlast0 : last ≠ 0 := h0 last hlast
    rw [hin] at efirst hsorted hrange p1
    simp only [List.head?_cons, Option.getD_some] at efirst
    refine ⟨{ s2 with next := fun z => if z = last then 0 else s2.next z, list_head := x },
      x :: post, ?_, il, p1, by rw [← hv1, ← v2], ?_, ?_⟩
    · simp only [tree_sort, e1, Result.ok_bind, efirst, e2, wr_ref, hlast0, if_false]
    · have : s2.value = s.value := by rw [v2, hv1]
      simp only [this]
      exact hsorted
    · have hv : s2.value = s.value := by rw [v2, hv1]
      refine list_is_ordered_loop_spec _ (x :: post) x fuel true 0 il (by
        simp only [List.length_cons]; omega) ?_ ?_ (fun h => by cases h)
      · simp only [hv]; exact hsorted
      · simp only [hv]; exact hrange

/-- Witness of C19: the list of the nodes at 8, 16, 24 and 32 with the values 3, 1, 4 and 2 is
relinked in the order of the values 1, 2, 3, 4. -/
theorem C19_tree_sort_orders_witness :
    (∃ s1 out, tree_sort 6 sortState0 = Result.ok s1 ∧ IsList s1.next s1.list_head out ∧
      out.Perm [8, 16, 24, 32] ∧ s1.value = sortState0.value ∧
      (out.map s1.value).Pairwise (fun a b => a ≤ b) ∧
      list_is_ordered 6 s1 s1.list_head = Result.ok true) ∧
    (Result.value (tree_sort 6 sortState0)).map
      (fun s1 => ((chain_nodes s1.next 6 s1.list_head),
        (chain_nodes s1.next 6 s1.list_head).map s1.value)) =
      some ([16, 32, 8, 24], [1, 2, 3, 4]) :=
  ⟨C19_tree_sort_orders sortState0 [8, 16, 24, 32] 6
      ⟨rfl, by decide, rfl, by decide, rfl, by decide, rfl, by decide, rfl⟩
      (by decide) (by decide) (by decide) (by decide),
    by set_option maxRecDepth 100000 in decide⟩

end Avl

namespace Avl

/-! ## Heights and balances after a rotation -/

/-- Single left rotation at a node whose right subtree is two levels taller and does not lean
left: the balances written are accurate; the height stays when the child was neutral and drops
by one otherwise. -/
theorem avl_after_rotate_left {l rl rr : ATree} {C bC : Nat} (P : Nat) (hl : l.AVL)
    (hC : (ATree.node rl C bC rr).AVL) (hh : (ATree.node rl C bC rr).height = l.height + 2)
    (hb : bC ≠ AVL_LEFT) :
    (ATree.node (ATree.node l P (if bC = AVL_NEUTRAL then AVL_RIGHT else AVL_NEUTRAL) rl) C
      (if bC = AVL_NEUTRAL then AVL_LEFT else AVL_NEUTRAL) rr).AVL ∧
    (ATree.node (ATree.node l P (if bC = AVL_NEUTRAL then AVL_RIGHT else AVL_NEUTRAL) rl) C
      (if bC = AVL_NEUTRAL then AVL_LEFT else AVL_NEUTRAL) rr).height =
        (if bC = AVL_NEUTRAL then l.height + 3 else l.height + 2) := by
  obtain ⟨hrl, hrr, hd⟩ := hC
  simp only [ATree.height] at hh
  simp only [ATree.AVL, ATree.height, AVL_NEUTRAL, AVL_LEFT, AVL_RIGHT] at hd hb ⊢
  rcases hd with ⟨h1, h2⟩ | ⟨h1, h2⟩ | ⟨h1, h2⟩
  · subst h2
    simp only [if_true, if_false, OfNat.ofNat_ne_zero, OfNat.ofNat_ne_one, one_ne_zero]
    refine ⟨⟨⟨hl, hrl, ?_⟩, hrr, ?_⟩, ?_⟩ <;> (try simp) <;> omega
  · exact absurd h2 hb
  · subst h2
    simp only [if_true, if_false, OfNat.ofNat_ne_zero, OfNat.ofNat_ne_one, one_ne_zero]
    refine ⟨⟨⟨hl, hrl, ?_⟩, hrr, ?_⟩, ?_⟩ <;> (try simp) <;> omega

/-- Single right rotation at a node whose left subtree is two levels taller and does not lean
right. -/
theorem avl_after_rotate_right {ll lr r : ATree} {C bC : Nat} (P : Nat) (hr : r.AVL)
    (hC : (ATree.node ll C bC lr).AVL) (hh : (ATree.node ll C bC lr).height = r.height + 2)
    (hb : bC ≠ AVL_RIGHT) :
    (ATree.node ll C (if bC = AVL_NEUTRAL then AVL_RIGHT else AVL_NEUTRAL)
      (ATree.node lr P (if bC = AVL_NEUTRAL then AVL_LEFT else AVL_NEUTRAL) r)).AVL ∧
    (ATree.node ll C (if bC = AVL_NEUTRAL then AVL_RIGHT else AVL_NEUTRAL)
      (ATree.node lr P (if bC = AVL_NEUTRAL then AVL_LEFT else AVL_NEUTRAL) r)).height =
        (if bC = AVL_NEUTRAL then r.height + 3 else r.height + 2) := by
  obtain ⟨hll, hlr, hd⟩ := hC
  simp only [ATree.height] at hh
  simp only [ATree.AVL, ATree.height, AVL_NEUTRAL, AVL_LEFT, AVL_RIGHT] at hd hb ⊢
  rcases hd with ⟨h1, h2⟩ | ⟨h1, h2⟩ | ⟨h1, h2⟩
  · subst h2
    simp only [if_true, if_false, OfNat.ofNat_ne_zero, OfNat.ofNat_ne_one, one_ne_zero]
    refine ⟨⟨hll, ⟨hlr, hr, ?_⟩, ?_⟩, ?_⟩ <;> (try simp) <;> omega
  · subst h2
    simp only [if_true, if_false, OfNat.ofNat_ne_zero, OfNat.ofNat_ne_one, one_ne_zero]
    refine ⟨⟨hll, ⟨hlr, hr, ?_⟩, ?_⟩, ?_⟩ <;> (try simp) <;> omega
  · exact absurd h2 hb

/-- Double rotation at a node whose right subtree is two levels taller and leans left: the
balances written are accurate and the height drops by one. -/
theorem avl_after_rotate_rightleft {l gl gr rr : ATree} {C bC T bT : Nat} (P : Nat) (hl : l.AVL)
    (hC : (ATree.node (ATree.node gl T bT gr) C bC rr).AVL)
    (hh : (ATree.node (ATree.node gl T bT gr) C bC rr).height = l.height + 2)
    (hb : bC = AVL_LEFT) :
    (ATree.node
        (ATree.node l P (if bT = AVL_NEUTRAL then AVL_NEUTRAL else if bT = AVL_LEFT
          then AVL_NEUTRAL else AVL_LEFT) gl) T AVL_NEUTRAL
        (ATree.node gr C (if bT = AVL_NEUTRAL then AVL_NEUTRAL else if bT = AVL_LEFT
          then AVL_RIGHT else AVL_NEUTRAL) rr)).AVL ∧
    (ATree.node
        (ATree.node l P (if bT = AVL_NEUTRAL then AVL_NEUTRAL else if bT = AVL_LEFT
          then AVL_NEUTRAL else AVL_LEFT) gl) T AVL_NEUTRAL
        (ATree.node gr C (if bT = AVL_NEUTRAL then AVL_NEUTRAL else if bT = AVL_LEFT
          then AVL_RIGHT else AVL_NEUTRAL) rr)).height = l.height + 2 := by
  obtain ⟨⟨hgl, hgr, hdT⟩, hrr, hd⟩ := hC
  simp only [ATree.height] at hh hd
  simp only [ATree.AVL, ATree.height, AVL_NEUTRAL, AVL_LEFT, AVL_RIGHT] at hd hb ⊢
  have hd1 : max gl.height gr.height + 1 = rr.height + 1 := by
    rcases hd with ⟨h1, h2⟩ | ⟨h1, h2⟩ | ⟨h1, h2⟩
    · rw [hb] at h2; exact absurd h2 (by decide)
    · exact h1
    · rw [hb] at h2; exact absurd h2 (by decide)
  rcases hdT with ⟨h1, h2⟩ | ⟨h1, h2⟩ | ⟨h1, h2⟩
  · subst h2
    simp only [if_true, if_false, OfNat.ofNat_ne_zero, OfNat.ofNat_ne_one, one_ne_zero]
    refine ⟨⟨⟨hl, hgl, ?_⟩, ⟨hgr, hrr, ?_⟩, ?_⟩, ?_⟩ <;> (try simp) <;> omega
  · subst h2
    simp only [if_true, if_false, OfNat.ofNat_ne_zero, OfNat.ofNat_ne_one, one_ne_zero]
    refine ⟨⟨⟨hl, hgl, ?_⟩, ⟨hgr, hrr, ?_⟩, ?_⟩, ?_⟩ <;> (try simp) <;> omega
  · subst h2
    simp only [if_true, if_false, OfNat.ofNat_ne_zero, OfNat.ofNat_ne_one, one_ne_zero]
    refine ⟨⟨⟨hl, hgl, ?_⟩, ⟨hgr, hrr, ?_⟩, ?_⟩, ?_⟩ <;> (try simp) <;> omega

/-- Double rotation at a node whose left subtree is two levels taller and leans right. -/
theorem avl_after_rotate_leftright {ll gl gr r : ATree} {C bC T bT : Nat} (P : Nat) (hr : r.AVL)
    (hC : (ATree.node ll C bC (ATree.node gl T bT gr)).AVL)
    (hh : (ATree.node ll C bC (ATree.node gl T bT gr)).height = r.height + 2)
    (hb : bC = AVL_RIGHT) :
    (ATree.node
        (ATree.node ll C (if bT = AVL_NEUTRAL then AVL_NEUTRAL else if bT = AVL_LEFT
          then AVL_NEUTRAL else AVL_LEFT) gl) T AVL_NEUTRAL
        (ATree.node gr P (if bT = AVL_NEUTRAL then AVL_NEUTRAL else if bT = AVL_LEFT
          then AVL_RIGHT else AVL_NEUTRAL) r)).AVL ∧
    (ATree.node
        (ATree.node ll C (if bT = AVL_NEUTRAL then AVL_NEUTRAL else if bT = AVL_LEFT
          then AVL_NEUTRAL else AVL_LEFT) gl) T AVL_NEUTRAL
        (ATree.node gr P (if bT = AVL_NEUTRAL then AVL_NEUTRAL else if bT = AVL_LEFT
          then AVL_RIGHT else AVL_NEUTRAL) r)).height = r.height + 2 := by
  obtain ⟨hll, ⟨hgl, hgr, hdT⟩, hd⟩ := hC
  simp only [ATree.height] at hh hd
  simp only [ATree.AVL, ATree.height, AVL_NEUTRAL, AVL_LEFT, AVL_RIGHT] at hd hb ⊢
  have hd1 : ll.height + 1 = max gl.height gr.height + 1 := by
    rcases hd with ⟨h1, h2⟩ | ⟨h1, h2⟩ | ⟨h1, h2⟩
    · rw [hb] at h2; exact absurd h2 (by decide)
    · rw [hb] at h2; exact absurd h2 (by decide)
    · exact h1
  rcases hdT with ⟨h1, h2⟩ | ⟨h1, h2⟩ | ⟨h1, h2⟩
  · subst h2
    simp only [if_true, if_false, OfNat.ofNat_ne_zero, OfNat.ofNat_ne_one, one_ne_zero]
    refine ⟨⟨⟨hll, hgl, ?_⟩, ⟨hgr, hr, ?_⟩, ?_⟩, ?_⟩ <;> (try simp) <;> omega
  · subst h2
    simp only [if_true, if_false, OfNat.ofNat_ne_zero, OfNat.ofNat_ne_one, one_ne_zero]
    refine ⟨⟨⟨hll, hgl, ?_⟩, ⟨hgr, hr, ?_⟩, ?_⟩, ?_⟩ <;> (try simp) <;> omega
  · subst h2
    simp only [if_true, if_false, OfNat.ofNat_ne_zero, OfNat.ofNat_ne_one, one_ne_zero]
    refine ⟨⟨⟨hll, hgl, ?_⟩, ⟨hgr, hr, ?_⟩, ?_⟩, ?_⟩ <;> (try simp) <;> omega

end Avl

namespace Avl

/-- Balance read at a node of a valid tree. -/
theorem Valid.balance_at {s : Store} (fs : List Frame) {l : ATree} {a b : Nat} {r : ATree}
    (h : Valid s (plug fs (ATree.node l a b r))) : avl_balance s a = Result.ok b := by
  have hA := h.at
  rw [avl_balance_ok s hA.ne, hA.bal]

/-- C21: when `parent` has exactly one subtree taller than the other by two and both subtrees
carry accurate balances, the rotation the loops choose writes accurate balances: the single
rotation `avl_rotate_left` (`avl_rotate_right`) when the taller child leans outward or is
neutral, the double rotation `avl_rotate_rightleft` (`avl_rotate_leftright`) when it leans
inward. The call returns the new top of the subtree, the store holds the rotated tree, at every
node of the rotated subtree the stored balance is the sign of the height difference of its
subtrees and that difference is at most one. -/
theorem C21_rotations_write_accurate_balances (s : Store) (fs : List Frame) (l r : ATree)
    (P bP : Nat) (hv : Valid s (plug fs (ATree.node l P bP r))) (hl : l.AVL) (hr : r.AVL) :
    (∀ rl C bC rr, r = ATree.node rl C bC rr → r.height = l.height + 2 → bC ≠ AVL_LEFT →
      ∃ s1 b1 b2, avl_rotate_left s C P = Result.ok (s1, C) ∧
        Valid s1 (plug fs (ATree.node (ATree.node l P b1 rl) C b2 rr)) ∧
        (ATree.node (ATree.node l P b1 rl) C b2 rr).AVL ∧
        avl_balance s1 P = Result.ok b1 ∧ avl_balance s1 C = Result.ok b2) ∧
    (∀ gl T bT gr C bC rr, r = ATree.node (ATree.node gl T bT gr) C bC rr →
      r.height = l.height + 2 → bC = AVL_LEFT →
      ∃ s1 b1 b2 b3, avl_rotate_rightleft s C P = Result.ok (s1, T) ∧
        Valid s1 (plug fs (ATree.node (ATree.node l P b1 gl) T b3 (ATree.node gr C b2 rr))) ∧
        (ATree.node (ATree.node l P b1 gl) T b3 (ATree.node gr C b2 rr)).AVL ∧
        avl_balance s1 P = Result.ok b1 ∧ avl_balance s1 C = Result.ok b2 ∧
        avl_balance s1 T = Result.ok b3) ∧
    (∀ ll C bC lr, l = ATree.node ll C bC lr → l.height = r.height + 2 → bC ≠ AVL_RIGHT →
      ∃ s1 b1 b2, avl_rotate_right s C P = Result.ok (s1, C) ∧
        Valid s1 (plug fs (ATree.node ll C b2 (ATree.node lr P b1 r))) ∧
        (ATree.node ll C b2 (ATree.node lr P b1 r)).AVL ∧
        avl_balance s1 P = Result.ok b1 ∧ avl_balance s1 C = Result.ok b2) ∧
    (∀ ll C bC gl T bT gr, l = ATree.node ll C bC (ATree.node gl T bT gr) →
      l.height = r.height + 2 → bC = AVL_RIGHT →
      ∃ s1 b1 b2 b3, avl_rotate_leftright s C P = Result.ok (s1, T) ∧
        Valid s1 (plug fs (ATree.node (ATree.node ll C b2 gl) T b3 (ATree.node gr P b1 r))) ∧
        (ATree.node (ATree.node ll C b2 gl) T b3 (ATree.node gr P b1 r)).AVL ∧
        avl_balance s1 P = Result.ok b1 ∧ avl_balance s1 C = Result.ok b2 ∧
        avl_balance s1 T = Result.ok b3) := by
  refine ⟨?_, ?_, ?_, ?_⟩
  · rintro rl C bC rr rfl hh hb
    obtain ⟨s1, e, hv1⟩ := valid_rotate_left hv
    refine ⟨s1, _, _, e, hv1, (avl_after_rotate_left P hl hr hh hb).1, ?_, ?_⟩
    · exact Valid.balance_at (Frame.L C _ rr :: fs) hv1
    · exact Valid.balance_at _ hv1
  · rintro gl T bT gr C bC rr rfl hh hb
    obtain ⟨s1, e, hv1⟩ := valid_rotate_rightleft hv
    refine ⟨s1, _, _, _, e, hv1, (avl_after_rotate_rightleft P hl hr hh hb).1, ?_, ?_, ?_⟩
    · exact Valid.balance_at (Frame.L T _ _ :: fs) hv1
    · exact Valid.balance_at (Frame.R _ T _ :: fs) hv1
    · exact Valid.balance_at _ hv1
  · rintro ll C bC lr rfl hh hb
    obtain ⟨s1, e, hv1⟩ := valid_rotate_right hv
    refine ⟨s1, _, _, e, hv1, (avl_after_rotate_right P hr hl hh hb).1, ?_, ?_⟩
    · exact Valid.balance_at (Frame.R ll C _ :: fs) hv1
    · exact Valid.balance_at _ hv1
  · rintro ll C bC gl T bT gr rfl hh hb
    obtain ⟨s1, e, hv1⟩ := valid_rotate_leftright hv
    refine ⟨s1, _, _, _, e, hv1, (avl_after_rotate_leftright P hr hl hh hb).1, ?_, ?_, ?_⟩
    · exact Valid.balance_at (Frame.R _ T _ :: fs) hv1
    · exact Valid.balance_at (Frame.L T _ _ :: fs) hv1
    · exact Valid.balance_at _ hv1

/-- The rule C21 at the chain 8, 16, 24 of right children: the single left rotation is chosen
and returns the node 16 as the new top. -/
theorem C21_rotations_write_accurate_balances_witness :
    Valid (store_of treeChainR) treeChainR ∧
    ∃ s1 b1 b2, avl_rotate_left (store_of treeChainR) 16 8 = Result.ok (s1, 16) ∧
      Valid s1 (plug [] (ATree.node (ATree.node ATree.nil 8 b1 ATree.nil) 16 b2
        (ATree.node ATree.nil 24 AVL_NEUTRAL ATree.nil))) ∧
      (ATree.node (ATree.node ATree.nil 8 b1 ATree.nil) 16 b2
        (ATree.node ATree.nil 24 AVL_NEUTRAL ATree.nil)).AVL ∧
      avl_balance s1 8 = Result.ok b1 ∧ avl_balance s1 16 = Result.ok b2 :=
  ⟨by set_option maxRecDepth 100000 in decide,
   (C21_rotations_write_accurate_balances (store_of treeChainR) [] ATree.nil
      (ATree.node ATree.nil 16 AVL_RIGHT (ATree.node ATree.nil 24 AVL_NEUTRAL ATree.nil)) 8
      AVL_RIGHT (by set_option maxRecDepth 100000 in decide) trivial
      (by decide)).1 ATree.nil 16 AVL_RIGHT
      (ATree.node ATree.nil 24 AVL_NEUTRAL ATree.nil) rfl rfl (by decide)⟩

end Avl

namespace Avl

/-- C22 (amended): the double rotations return the grandchild as the new top and assign the
balances by a table of three cases keyed on the grandchild's prior balance, in which the
grandchild's own balance becomes `AVL_NEUTRAL` in all three cases. A neutral grandchild leaves
both former parents neutral; otherwise one of them takes the residual lean and the other becomes
neutral: in `avl_rotate_rightleft` a left-leaning grandchild leaves `node` leaning right and a
right-leaning one leaves `parent` leaning left, in `avl_rotate_leftright` a left-leaning
grandchild leaves `parent` leaning right and a right-leaning one leaves `node` leaning left. -/
theorem C22_double_rotation_table (s : Store) (fs : List Frame) (l gl gr rr : ATree)
    (P bP C bC T bT : Nat) (s' : Store) (fs' : List Frame) (ll gl' gr' r' : ATree)
    (P' bP' C' bC' T' bT' : Nat)
    (hv : Valid s (plug fs (ATree.node l P bP (ATree.node (ATree.node gl T bT gr) C bC rr))))
    (hv' : Valid s' (plug fs'
      (ATree.node (ATree.node ll C' bC' (ATree.node gl' T' bT' gr')) P' bP' r'))) :
    (avl_balance s T = Result.ok bT ∧
      ∃ s1, avl_rotate_rightleft s C P = Result.ok (s1, T) ∧
        avl_balance s1 T = Result.ok AVL_NEUTRAL ∧
        (bT = AVL_NEUTRAL → avl_balance s1 P = Result.ok AVL_NEUTRAL ∧
          avl_balance s1 C = Result.ok AVL_NEUTRAL) ∧
        (bT = AVL_LEFT → avl_balance s1 P = Result.ok AVL_NEUTRAL ∧
          avl_balance s1 C = Result.ok AVL_RIGHT) ∧
        (bT = AVL_RIGHT → avl_balance s1 P = Result.ok AVL_LEFT ∧
          avl_balance s1 C = Result.ok AVL_NEUTRAL)) ∧
    (avl_balance s' T' = Result.ok bT' ∧
      ∃ s1, avl_rotate_leftright s' C' P' = Result.ok (s1, T') ∧
        avl_balance s1 T' = Result.ok AVL_NEUTRAL ∧
        (bT' = AVL_NEUTRAL → avl_balance s1 P' = Result.ok AVL_NEUTRAL ∧
          avl_balance s1 C' = Result.ok AVL_NEUTRAL) ∧
        (bT' = AVL_LEFT → avl_balance s1 P' = Result.ok AVL_RIGHT ∧
          avl_balance s1 C' = Result.ok AVL_NEUTRAL) ∧
        (bT' = AVL_RIGHT → avl_balance s1 P' = Result.ok AVL_NEUTRAL ∧
          avl_balance s1 C' = Result.ok AVL_LEFT)) := by
  constructor
  · refine ⟨Valid.balance_at (Frame.L C bC rr :: Frame.R l P bP :: fs) hv, ?_⟩
    obtain ⟨s1, e, hv1⟩ := valid_rotate_rightleft hv
    have hP := Valid.balance_at (Frame.L T _ _ :: fs) hv1
    have hC := Valid.balance_at (Frame.R _ T _ :: fs) hv1
    refine ⟨s1, e, Valid.balance_at _ hv1, ?_, ?_, ?_⟩
    · rintro rfl; exact ⟨by simpa using hP, by simpa using hC⟩
    · rintro rfl; exact ⟨by simpa using hP, by simpa using hC⟩
    · rintro rfl; exact ⟨by simpa using hP, by simpa using hC⟩
  · refine ⟨Valid.balance_at (Frame.R ll C' bC' :: Frame.L P' bP' r' :: fs') hv', ?_⟩
    obtain ⟨s1, e, hv1⟩ := valid_rotate_leftright hv'
    have hC := Valid.balance_at (Frame.L T' _ _ :: fs') hv1
    have hP := Valid.balance_at (Frame.R _ T' _ :: fs') hv1
    refine ⟨s1, e, Valid.balance_at _ hv1, ?_, ?_, ?_⟩
    · rintro rfl; exact ⟨by simpa using hP, by simpa using hC⟩
    · rintro rfl; exact ⟨by simpa using hP, by simpa using hC⟩
    · rintro rfl; exact ⟨by simpa using hP, by simpa using hC⟩

/-- The table of C22 at a tree whose grandchild 16 leans left, and at its mirror image, whose
grandchild leans right. -/
theorem C22_double_rotation_table_witness :
    Valid (store_of treeRL1) treeRL1 ∧ Valid (store_of treeRL1.mirror) treeRL1.mirror ∧
    (avl_balance (store_of treeRL1) 16 = Result.ok AVL_LEFT ∧
      ∃ s1, avl_rotate_rightleft (store_of treeRL1) 24 8 = Result.ok (s1, 16) ∧
        avl_balance s1 16 = Result.ok AVL_NEUTRAL ∧
        (AVL_LEFT = AVL_NEUTRAL → avl_balance s1 8 = Result.ok AVL_NEUTRAL ∧
          avl_balance s1 24 = Result.ok AVL_NEUTRAL) ∧
        (AVL_LEFT = AVL_LEFT → avl_balance s1 8 = Result.ok AVL_NEUTRAL ∧
          avl_balance s1 24 = Result.ok AVL_RIGHT) ∧
        (AVL_LEFT = AVL_RIGHT → avl_balance s1 8 = Result.ok AVL_LEFT ∧
          avl_balance s1 24 = Result.ok AVL_NEUTRAL)) ∧
    (avl_balance (store_of treeRL1.mirror) 16 = Result.ok AVL_RIGHT ∧
      ∃ s1, avl_rotate_leftright (store_of treeRL1.mirror) 24 8 = Result.ok (s1, 16) ∧
        avl_balance s1 16 = Result.ok AVL_NEUTRAL ∧
        (AVL_RIGHT = AVL_NEUTRAL → avl_balance s1 8 = Result.ok AVL_NEUTRAL ∧
          avl_balance s1 24 = Result.ok AVL_NEUTRAL) ∧
        (AVL_RIGHT = AVL_LEFT → avl_balance s1 8 = Result.ok AVL_RIGHT ∧
          avl_balance s1 24 = Result.ok AVL_NEUTRAL) ∧
        (AVL_RIGHT = AVL_RIGHT → avl_balance s1 8 = Result.ok AVL_NEUTRAL ∧
          avl_balance s1 24 = Result.ok AVL_LEFT)) :=
  ⟨by set_option maxRecDepth 100000 in decide, by set_option maxRecDepth 100000 in decide,
   C22_double_rotation_table (store_of treeRL1) []
     (ATree.node ATree.nil 4 AVL_NEUTRAL ATree.nil)
     (ATree.node ATree.nil 12 AVL_NEUTRAL ATree.nil) ATree.nil
     (ATree.node ATree.nil 32 AVL_NEUTRAL ATree.nil) 8 AVL_RIGHT 24 AVL_LEFT 16 AVL_LEFT
     (store_of treeRL1.mirror) []
     (ATree.node ATree.nil 32 AVL_NEUTRAL ATree.nil) ATree.nil
     (ATree.node ATree.nil 12 AVL_NEUTRAL ATree.nil)
     (ATree.node ATree.nil 4 AVL_NEUTRAL ATree.nil) 8 AVL_LEFT 24 AVL_RIGHT 16 AVL_RIGHT
     (by set_option maxRecDepth 100000 in decide) (by set_option maxRecDepth 100000 in decide)⟩

/-- Counterexample to C22 as stated: in three trees whose grandchild 16 is neutral, leans left
and leans right, `avl_rotate_rightleft` returns the grandchild with the balance `AVL_NEUTRAL`:
there is no third case in which its balance is not neutral. -/
theorem C22_double_rotation_table_counterexample :
    (Valid (store_of treeRL0) treeRL0 ∧ balance_of (store_of treeRL0) 16 = AVL_NEUTRAL ∧
      (Result.value (avl_rotate_rightleft (store_of treeRL0) 24 8)).map
        (fun r => (r.2, balance_of r.1 16)) = some (16, AVL_NEUTRAL)) ∧
    (Valid (store_of treeRL1) treeRL1 ∧ balance_of (store_of treeRL1) 16 = AVL_LEFT ∧
      (Result.value (avl_rotate_rightleft (store_of treeRL1) 24 8)).map
        (fun r => (r.2, balance_of r.1 16)) = some (16, AVL_NEUTRAL)) ∧
    (Valid (store_of treeRL2) treeRL2 ∧ balance_of (store_of treeRL2) 16 = AVL_RIGHT ∧
      (Result.value (avl_rotate_rightleft (store_of treeRL2) 24 8)).map
        (fun r => (r.2, balance_of r.1 16)) = some (16, AVL_NEUTRAL)) :=
  ⟨⟨by set_option maxRecDepth 100000 in decide, by set_option maxRecDepth 100000 in decide,
     by set_option maxRecDepth 100000 in decide⟩,
   ⟨by set_option maxRecDepth 100000 in decide, by set_option maxRecDepth 100000 in decide,
     by set_option maxRecDepth 100000 in decide⟩,
   ⟨by set_option maxRecDepth 100000 in decide, by set_option maxRecDepth 100000 in decide,
     by set_option maxRecDepth 100000 in decide⟩⟩

end Avl

namespace Avl

/-- C28: the packed word `p | b` that `avl_set_parent_balance` writes for a parent address `p`
that is a multiple of 4 and a balance `b` among `AVL_NEUTRAL`, `AVL_LEFT`, `AVL_RIGHT` gives back
both: clearing its low 2 bits gives `p` and keeping them gives `b`, so `avl_parent` returns `p`
and `avl_balance` returns `b`; `avl_set_parent` leaves what `avl_balance` returns unchanged and
`avl_set_balance` leaves what `avl_parent` returns unchanged. -/
theorem C28_packed_word_round_trip (s : Store) (n p b : Nat) (hn : n ≠ 0) (hp : p % 4 = 0)
    (hb : b = AVL_NEUTRAL ∨ b = AVL_LEFT ∨ b = AVL_RIGHT) :
    (∃ s1, avl_set_parent_balance s n p b = Result.ok s1 ∧
      (s1.mem n).parent_balance = p ||| b ∧ (p ||| b) / 4 * 4 = p ∧ (p ||| b) % 4 = b ∧
      avl_parent s1 n = Result.ok p ∧ avl_balance s1 n = Result.ok b) ∧
    (∃ s2, avl_set_parent s n p = Result.ok s2 ∧ avl_balance s2 n = avl_balance s n ∧
      avl_parent s2 n = Result.ok p) ∧
    (∃ s3, avl_set_balance s n b = Result.ok s3 ∧ avl_parent s3 n = avl_parent s n ∧
      avl_balance s3 n = Result.ok b) := by
  have hb4 : b < 4 := by
    rcases hb with rfl | rfl | rfl <;> decide
  refine ⟨⟨_, avl_set_parent_balance_ok s p b hn, ?_, (word_or p b hp hb4).1,
      (word_or p b hp hb4).2, ?_, ?_⟩,
    ⟨_, avl_set_parent_ok s p hn, ?_, ?_⟩, ⟨_, avl_set_balance_ok s b hn, ?_, ?_⟩⟩
  · simp [set_parent_balance_eff, setWord]
  · rw [avl_parent_ok _ hn, parent_set_parent_balance s n p b n hp hb4, if_pos rfl]
  · rw [avl_balance_ok _ hn, balance_set_parent_balance s n p b n hp hb4, if_pos rfl]
  · rw [avl_balance_ok _ hn, avl_balance_ok _ hn, balance_set_parent s n p n hp]
  · rw [avl_parent_ok _ hn, parent_set_parent s n p n hp, if_pos rfl]
  · rw [avl_parent_ok _ hn, avl_parent_ok _ hn, parent_set_balance s n b n hb4]
  · rw [avl_balance_ok _ hn, balance_set_balance s n b n hb4, if_pos rfl]

/-- The round trip of C28 at the node 16 of the scenario store with the parent address 40 and
the balance `AVL_RIGHT`. -/
theorem C28_packed_word_round_trip_witness :
    (∃ s1, avl_set_parent_balance store7 16 40 AVL_RIGHT = Result.ok s1 ∧
      (s1.mem 16).parent_balance = 40 ||| AVL_RIGHT ∧ (40 ||| AVL_RIGHT) / 4 * 4 = 40 ∧
      (40 ||| AVL_RIGHT) % 4 = AVL_RIGHT ∧
      avl_parent s1 16 = Result.ok 40 ∧ avl_balance s1 16 = Result.ok AVL_RIGHT) ∧
    (∃ s2, avl_set_parent store7 16 40 = Result.ok s2 ∧
      avl_balance s2 16 = avl_balance store7 16 ∧ avl_parent s2 16 = Result.ok 40) ∧
    (∃ s3, avl_set_balance store7 16 AVL_RIGHT = Result.ok s3 ∧
      avl_parent s3 16 = avl_parent store7 16 ∧ avl_balance s3 16 = Result.ok AVL_RIGHT) :=
  C28_packed_word_round_trip store7 16 40 AVL_RIGHT (by decide) (by decide)
    (Or.inr (Or.inr rfl))

/-! ## The function of problem4.c -/

theorem shl_ite (c : Prop) [Decidable c] (k : Nat) (hk : k < 32) :
    ((if c then 1 else 0) <<< k) % 2 ^ 32 = if c then 2 ^ k else 0 := by
  split
  · rw [Nat.shiftLeft_eq, Nat.one_mul]
    exact Nat.mod_eq_of_lt (Nat.pow_lt_pow_right (by decide) hk)
  · simp

theorem lor_bits (a b c d q : Nat) (ha : a = 16 ∨ a = 0) (hb : b = 8 ∨ b = 0)
    (hc : c = 4 ∨ c = 0) (hd : d = 2 ∨ d = 0) (hq : q = 0 ∨ q = 1) :
    a ||| b ||| c ||| d ||| q = a + b + c + d + q := by
  rcases ha with rfl | rfl <;> rcases hb with rfl | rfl <;> rcases hc with rfl | rfl <;>
    rcases hd with rfl | rfl <;> rcases hq with rfl | rfl <;> rfl

set_option maxHeartbeats 4000000 in
/-- For an argument from 2 on, `ceil_log2` returns the exponent `c` with
`2 ^ (c - 1) < x ≤ 2 ^ c`. -/
theorem ceil_log2_bounds (x : Nat) (h2 : 2 ≤ x) (hx : x < 2 ^ 32) :
    1 ≤ ceil_log2 x ∧ 2 ^ (ceil_log2 x - 1) < x ∧ x ≤ 2 ^ ceil_log2 x := by
  have e : (x + 2 ^ 32 - 1) % 2 ^ 32 = x - 1 := by
    have : x + 2 ^ 32 - 1 = (x - 1) + 2 ^ 32 := by omega
    rw [this, Nat.add_mod_right, Nat.mod_eq_of_lt (by omega)]
  have hz : ¬ x = 0 := by omega
  obtain ⟨y, rfl⟩ : ∃ y, x = y + 1 := ⟨x - 1, by omega⟩
  unfold ceil_log2
  simp only [e, hz, if_false, if_true, Nat.shiftRight_eq_div_pow, Nat.add_sub_cancel,
    shl_ite _ 4 (by decide), shl_ite _ 3 (by decide), shl_ite _ 2 (by decide),
    shl_ite _ 1 (by decide), Nat.mul_one]
  have hy : y < 4294967296 := by omega
  generalize ha : (if y > 65535 then 2 ^ 4 else 0) = a
  have ha1 : (y > 65535 ∧ a = 16) ∨ (y ≤ 65535 ∧ a = 0) := by
    subst ha; by_cases c : y > 65535 <;> simp [c]; omega
  generalize hx2 : y / 2 ^ a = x2
  generalize hb : (if x2 > 255 then 2 ^ 3 else 0) = b
  have hb1 : (x2 > 255 ∧ b = 8) ∨ (x2 ≤ 255 ∧ b = 0) := by
    subst hb; by_cases c : x2 > 255 <;> simp [c]; omega
  generalize hx3 : x2 / 2 ^ b = x3
  generalize hc : (if x3 > 15 then 2 ^ 2 else 0) = c
  have hc1 : (x3 > 15 ∧ c = 4) ∨ (x3 ≤ 15 ∧ c = 0) := by
    subst hc; by_cases h : x3 > 15 <;> simp [h]; omega
  generalize hx4 : x3 / 2 ^ c = x4
  generalize hd : (if x4 > 3 then 2 ^ 1 else 0) = d
  have hd1 : (x4 > 3 ∧ d = 2) ∨ (x4 ≤ 3 ∧ d = 0) := by
    subst hd; by_cases h : x4 > 3 <;> simp [h]; omega
  generalize hx5 : x4 / 2 ^ d = x5
  generalize hq : x5 / 2 ^ 1 = q
  have b2 : x2 < 65536 := by
    rcases ha1 with ⟨h, rfl⟩ | ⟨h, rfl⟩ <;> norm_num at hx2 <;> omega
  have b3 : x3 < 256 := by
    rcases hb1 with ⟨h, rfl⟩ | ⟨h, rfl⟩ <;> norm_num at hx3 <;> omega
  have b4 : x4 < 16 := by
    rcases hc1 with ⟨h, rfl⟩ | ⟨h, rfl⟩ <;> norm_num at hx4 <;> omega
  have b5 : x5 < 4 := by
    rcases hd1 with ⟨h, rfl⟩ | ⟨h, rfl⟩ <;> norm_num at hx5 <;> omega
  have hq1 : q = 0 ∨ q = 1 := by norm_num at hq; omega
  rw [lor_bits a b c d q (by omega) (by omega) (by omega) (by omega) hq1]
  have hsmall : a + b + c + d + q + 1 < 2 ^ 32 := by norm_num; omega
  rw [Nat.mod_eq_of_lt hsmall, Nat.mod_eq_of_lt hsmall]
  clear hsmall ha hb hc hd e hz
  norm_num at hq
  rcases ha1 with ⟨h1, rfl⟩ | ⟨h1, rfl⟩ <;> rcases hb1 with ⟨h2, rfl⟩ | ⟨h2, rfl⟩ <;>
    rcases hc1 with ⟨h3, rfl⟩ | ⟨h3, rfl⟩ <;> rcases hd1 with ⟨h4, rfl⟩ | ⟨h4, rfl⟩ <;>
    rcases hq1 with rfl | rfl <;> norm_num at hx2 hx3 hx4 hx5 ⊢ <;> omega

/-- C29: at the argument 1 `ceil_log2` returns 1, although `2 ^ 0 ≥ 1` makes 0 the least
exponent; at 0 it returns 0, and at every `x` with `2 ≤ x < 2 ^ 32` it returns the least `k`
with `2 ^ k ≥ x`. -/
theorem C29_ceil_log2_at_one :
    ceil_log2 1 = 1 ∧ (1 : Nat) ≤ 2 ^ 0 ∧ ceil_log2 0 = 0 ∧
    ∀ x, 2 ≤ x → x < 2 ^ 32 →
      x ≤ 2 ^ ceil_log2 x ∧ ∀ k, x ≤ 2 ^ k → ceil_log2 x ≤ k := by
  refine ⟨by decide, by decide, by decide, ?_⟩
  intro x h2 hx
  obtain ⟨h1, hlo, hhi⟩ := ceil_log2_bounds x h2 hx
  refine ⟨hhi, fun k hk => ?_⟩
  by_contra hlt
  have hle : k ≤ ceil_log2 x - 1 := by omega
  have := Nat.pow_le_pow_right (show 0 < 2 by decide) hle
  omega

/-- C30: for every valid tree and every node `x` with two children whose in-order successor
`m` is its right child, `avl_erase_node` of `x` returns `m` as the node at which rebalancing
begins and sets `*removed_right` to true. The tree had `m` without a left child below `x`;
afterwards `m` stands in the place of `x` with the former balance of `x`, and its right subtree
is the former right subtree `mr` of `m`, one level shorter than the right subtree of `x` was. -/
theorem C30_direct_successor_erase (s : Store) (t : ATree) (x m fuel : Nat) (hv : Valid s t)
    (hx : x ∈ t.inorder) (hl : (s.mem x).left ≠ 0) (hr : (s.mem x).right ≠ 0)
    (hn : avl_next fuel s x = Result.ok m) (hm : (s.mem x).right = m)
    (hf : t.height ≤ fuel) :
    ∃ s1 fs l b bm mr, t = plug fs (ATree.node l x b (ATree.node ATree.nil m bm mr)) ∧
      avl_erase_node fuel s x = Result.ok (s1, m, true) ∧
      Valid s1 (plug fs (ATree.node l m b mr)) ∧
      avl_balance s x = Result.ok b ∧ avl_balance s1 m = Result.ok b ∧
      (s1.mem m).right = mr.ptr ∧
      (ATree.node ATree.nil m bm mr).height = mr.height + 1 := by
  obtain ⟨fs, l, b, r, rfl⟩ := exists_plug_of_mem t x hx
  have hA := hv.at
  have hl1 : l.ptr ≠ 0 := hA.left ▸ hl
  have hr1 : r ≠ ATree.nil := fun e => hr (by rw [hA.right, e]; rfl)
  obtain ⟨rfs, m1, bm, mr, rfl, hL, hlen, hio⟩ := min_decompose r hr1
  have hvM : Valid s (plug (rfs ++ Frame.R l x b :: fs) (ATree.node ATree.nil m1 bm mr)) := by
    rw [plug_append]; exact hv
  have hM := hvM.at
  have hnext : avl_next fuel s x = Result.ok m1 := by
    rw [avl_next_at hv fuel hf, hio]
    rfl
  have hmm : m = m1 := Result.ok.inj (hn.symm.trans hnext)
  subst hmm
  rw [hA.right] at hm
  cases rfs with
  | nil =>
    obtain ⟨s1, e, hv1⟩ := erase_node_two_place hv hl1 hL fuel (by
      have := ctx_length_lt_height fs l x b (plug [] (ATree.node ATree.nil m bm mr))
      simp only [List.length_nil]
      omega)
    refine ⟨s1, fs, l, b, bm, mr, rfl, e, hv1, Valid.balance_at _ hv, Valid.balance_at _ hv1, ?_, ?_⟩
    · exact hv1.at.right
    · simp [ATree.height]
  | cons f gs =>
    exfalso
    have h1 := plug_ptr_mem_ctx (f :: gs) (ATree.node ATree.nil m bm mr) (by simp)
    rw [hm] at h1
    exact hM.nac (by rw [ctxAddrs_append]; exact List.mem_append_left _ h1)

/-- The rule C30 at the node 16 with the leaves 8 and 24 as children: erasing 16 returns its
right child 24 with `*removed_right` true. -/
theorem C30_direct_successor_erase_witness :
    Valid (store_of treeThree) treeThree ∧ avl_next 4 (store_of treeThree) 16 = Result.ok 24 ∧
    ∃ s1 fs l b bm mr,
      treeThree = plug fs (ATree.node l 16 b (ATree.node ATree.nil 24 bm mr)) ∧
      avl_erase_node 4 (store_of treeThree) 16 = Result.ok (s1, 24, true) ∧
      Valid s1 (plug fs (ATree.node l 24 b mr)) ∧
      avl_balance (store_of treeThree) 16 = Result.ok b ∧ avl_balance s1 24 = Result.ok b ∧
      (s1.mem 24).right = mr.ptr ∧
      (ATree.node ATree.nil 24 bm mr).height = mr.height + 1 :=
  ⟨by set_option maxRecDepth 100000 in decide, by set_option maxRecDepth 100000 in decide,
   C30_direct_successor_erase (store_of treeThree) treeThree 16 24 4
     (by set_option maxRecDepth 100000 in decide) (by decide)
     (by set_option maxRecDepth 100000 in decide) (by set_option maxRecDepth 100000 in decide)
     (by set_option maxRecDepth 100000 in decide) (by set_option maxRecDepth 100000 in decide)
     (by decide)⟩

end Avl

namespace Avl

/-- The store after `avl_set_balance` differs only in the balance of that node. -/
theorem set_balance_frame (s : Store) (p b : Nat) (hb : b < 4) :
    balance_of (set_balance_eff s p b) p = b ∧
    parent_of (set_balance_eff s p b) p = parent_of s p ∧
    ((set_balance_eff s p b).mem p).left = (s.mem p).left ∧
    ((set_balance_eff s p b).mem p).right = (s.mem p).right ∧
    (set_balance_eff s p b).root = s.root ∧
    ∀ x, x ≠ p → (set_balance_eff s p b).mem x = s.mem x := by
  refine ⟨by rw [balance_set_balance s p b p hb, if_pos rfl], parent_set_balance s p b p hb,
    by simp [set_balance_eff], by simp [set_balance_eff], rfl, ?_⟩
  intro x hx
  simp [set_balance_eff, setWord, hx]

/-- C24: one step of the upward walk of `avl_insert_balance` at a node with the parent `p`.
When `p` leaned to the side opposite the node, the call sets the balance of `p` to
`AVL_NEUTRAL` and returns: the store differs from the former one only in the balance of `p`.
When `p` was neutral, the call sets the balance of `p` to the side of the node (`AVL_RIGHT` for
a right child, `AVL_LEFT` for a left child) and goes on as the walk from `p` in that store. -/
theorem C24_insert_walk_step (s : Store) (node p fuel : Nat) (right : Bool) (bp : Nat)
    (hp : avl_parent s node = Result.ok p) (hp0 : p ≠ 0)
    (hr : avl_is_right_child s node = Result.ok right) (hb : avl_balance s p = Result.ok bp) :
    (bp = (if right then AVL_LEFT else AVL_RIGHT) →
      ∃ s1, avl_insert_balance (fuel + 1) s node = Result.ok s1 ∧
        avl_set_balance s p AVL_NEUTRAL = Result.ok s1 ∧
        avl_balance s1 p = Result.ok AVL_NEUTRAL ∧ avl_parent s1 p = avl_parent s p ∧
        (s1.mem p).left = (s.mem p).left ∧ (s1.mem p).right = (s.mem p).right ∧
        s1.root = s.root ∧ ∀ x, x ≠ p → s1.mem x = s.mem x) ∧
    (bp = AVL_NEUTRAL →
      ∃ s1, avl_set_balance s p (if right then AVL_RIGHT else AVL_LEFT) = Result.ok s1 ∧
        avl_insert_balance (fuel + 1) s node = avl_insert_balance fuel s1 p ∧
        avl_balance s1 p = Result.ok (if right then AVL_RIGHT else AVL_LEFT) ∧
        avl_parent s1 p = avl_parent s p ∧
        (s1.mem p).left = (s.mem p).left ∧ (s1.mem p).right = (s.mem p).right ∧
        s1.root = s.root ∧ ∀ x, x ≠ p → s1.mem x = s.mem x) := by
  constructor
  · intro hbp
    obtain ⟨f1, f2, f3, f4, f5, f6⟩ := set_balance_frame s p AVL_NEUTRAL (by decide)
    refine ⟨set_balance_eff s p AVL_NEUTRAL, ?_, avl_set_balance_ok s _ hp0, ?_, ?_, f3, f4, f5,
      f6⟩
    · cases right <;> simp at hbp <;> subst hbp <;>
        simp [avl_insert_balance, hp, hp0, hr, hb, avl_set_balance_ok s _ hp0]
    · rw [avl_balance_ok _ hp0, f1]
    · rw [avl_parent_ok _ hp0, avl_parent_ok _ hp0, f2]
  · intro hbp
    subst hbp
    obtain ⟨f1, f2, f3, f4, f5, f6⟩ :=
      set_balance_frame s p (if right then AVL_RIGHT else AVL_LEFT) (by cases right <;> decide)
    refine ⟨_, avl_set_balance_ok s _ hp0, ?_, ?_, ?_, f3, f4, f5, f6⟩
    · cases right <;>
        simp [avl_insert_balance, hp, hp0, hr, hb, avl_set_balance_ok s _ hp0]
    · rw [avl_balance_ok _ hp0, f1]
    · rw [avl_parent_ok _ hp0, avl_parent_ok _ hp0, f2]

/-- The step C24 at the node 24 linked as right child of the node 16, which leaned left: the
walk sets 16 to neutral and stops. -/
theorem C24_insert_walk_step_witness :
    avl_parent (store_of treeLinked) 24 = Result.ok 16 ∧
    avl_is_right_child (store_of treeLinked) 24 = Result.ok true ∧
    avl_balance (store_of treeLinked) 16 = Result.ok AVL_LEFT ∧
    ∃ s1, avl_insert_balance (3 + 1) (store_of treeLinked) 24 = Result.ok s1 ∧
      avl_set_balance (store_of treeLinked) 16 AVL_NEUTRAL = Result.ok s1 ∧
      avl_balance s1 16 = Result.ok AVL_NEUTRAL ∧
      avl_parent s1 16 = avl_parent (store_of treeLinked) 16 ∧
      (s1.mem 16).left = ((store_of treeLinked).mem 16).left ∧
      (s1.mem 16).right = ((store_of treeLinked).mem 16).right ∧
      s1.root = (store_of treeLinked).root ∧
      ∀ x, x ≠ 16 → s1.mem x = (store_of treeLinked).mem x :=
  ⟨by set_option maxRecDepth 100000 in decide, by set_option maxRecDepth 100000 in decide,
   by set_option maxRecDepth 100000 in decide,
   (C24_insert_walk_step (store_of treeLinked) 24 16 3 true AVL_LEFT
     (by set_option maxRecDepth 100000 in decide) (by decide)
     (by set_option maxRecDepth 100000 in decide)
     (by set_option maxRecDepth 100000 in decide)).1 rfl⟩

end Avl

namespace Avl

/-- Parent and side read at a node of a valid tree. -/
theorem Valid.parent_side_at {s : Store} {fs : List Frame} {l : ATree} {a b : Nat} {r : ATree}
    (h : Valid s (plug fs (ATree.node l a b r))) :
    a ≠ 0 ∧ avl_parent s a = Result.ok (ctxPar fs 0) ∧
      avl_is_right_child s a = Result.ok (ctxIsRight fs) := by
  have hA := h.at
  exact ⟨hA.ne, by rw [avl_parent_ok s hA.ne, hA.par], by
    rw [avl_is_right_child_ok s hA.ne, hA.isr]⟩

/-- The step of `avl_erase_balance` at a right-leaning node whose left side lost height. -/
theorem erase_step_left_lost {s : Store} {fs : List Frame} {l rl rr : ATree} {P C bC : Nat}
    (fuel : Nat)
    (hv : Valid s (plug fs (ATree.node l P AVL_RIGHT (ATree.node rl C bC rr))))
    (hl : l.AVL) (hr : (ATree.node rl C bC rr).AVL)
    (hh : (ATree.node rl C bC rr).height = l.height + 2) :
    ∃ s1 t1 top,
      (if bC = AVL_LEFT then avl_rotate_rightleft s C P else avl_rotate_left s C P) =
        Result.ok (s1, top) ∧
      top = t1.ptr ∧ top ≠ 0 ∧ Valid s1 (plug fs t1) ∧ t1.AVL ∧
      (bC = AVL_NEUTRAL → avl_erase_balance (fuel + 1) s P false = Result.ok s1 ∧
        t1.height = (ATree.node l P AVL_RIGHT (ATree.node rl C bC rr)).height) ∧
      (bC ≠ AVL_NEUTRAL →
        t1.height + 1 = (ATree.node l P AVL_RIGHT (ATree.node rl C bC rr)).height ∧
        avl_parent s1 top = Result.ok (ctxPar fs 0) ∧
        avl_is_right_child s1 top = Result.ok (ctxIsRight fs) ∧
        avl_erase_balance (fuel + 1) s P false =
          avl_erase_balance fuel s1 (ctxPar fs 0) (ctxIsRight fs)) := by
  have hP := hv.at
  have hC := (show Valid s (plug (Frame.R l P AVL_RIGHT :: fs) (ATree.node rl C bC rr))
    from hv).at
  have hH : (ATree.node l P AVL_RIGHT (ATree.node rl C bC rr)).height = l.height + 3 := by
    simp only [ATree.height] at hh ⊢
    omega
  have hPr : (s.mem P).right = C := hP.right
  by_cases hbl : bC = AVL_LEFT
  · cases rl with
    | nil =>
      exfalso
      obtain ⟨-, -, hd⟩ := hr
      simp only [ATree.height, hbl, AVL_LEFT, AVL_NEUTRAL, AVL_RIGHT] at hd
      omega
    | node gl T bT gr =>
      obtain ⟨s1, e, hv1⟩ := valid_rotate_rightleft hv
      obtain ⟨ha, hh1⟩ := avl_after_rotate_rightleft P hl hr hh hbl
      obtain ⟨h0, hpar, hisr⟩ := Valid.parent_side_at hv1
      refine ⟨s1, _, T, by rw [if_pos hbl, e], (by rfl), h0, hv1, ha, ?_, ?_⟩
      · intro h; rw [hbl] at h; exact absurd h (by decide)
      · intro _
        refine ⟨by rw [hH, hh1], hpar, hisr, ?_⟩
        simp [avl_erase_balance, hP.ne, avl_balance_ok s hP.ne, hP.bal, rd_right_ok s hP.ne, hPr,
          avl_balance_ok s hC.ne, hC.bal, hbl, e, h0, hpar, hisr]
  · obtain ⟨s1, e, hv1⟩ := valid_rotate_left hv
    obtain ⟨ha, hh1⟩ := avl_after_rotate_left P hl hr hh hbl
    obtain ⟨h0, hpar, hisr⟩ := Valid.parent_side_at hv1
    refine ⟨s1, _, C, by rw [if_neg hbl, e], (by rfl), h0, hv1, ha, ?_, ?_⟩
    · intro hn
      refine ⟨?_, by rw [hH, hh1, if_pos hn]⟩
      simp [avl_erase_balance, hP.ne, avl_balance_ok s hP.ne, hP.bal, rd_right_ok s hP.ne, hPr,
        avl_balance_ok s hC.ne, hC.bal, hn, e]
    · intro hn
      refine ⟨by rw [hH, hh1, if_neg hn], hpar, hisr, ?_⟩
      simp [avl_erase_balance, hP.ne, avl_balance_ok s hP.ne, hP.bal, rd_right_ok s hP.ne, hPr,
        avl_balance_ok s hC.ne, hC.bal, hn, hbl, e, h0, hpar, hisr]

/-- The step of `avl_erase_balance` at a left-leaning node whose right side lost height. -/
theorem erase_step_right_lost {s : Store} {fs : List Frame} {ll lr r : ATree} {P C bC : Nat}
    (fuel : Nat)
    (hv : Valid s (plug fs (ATree.node (ATree.node ll C bC lr) P AVL_LEFT r)))
    (hl : (ATree.node ll C bC lr).AVL) (hr : r.AVL)
    (hh : (ATree.node ll C bC lr).height = r.height + 2) :
    ∃ s1 t1 top,
      (if bC = AVL_RIGHT then avl_rotate_leftright s C P else avl_rotate_right s C P) =
        Result.ok (s1, top) ∧
      top = t1.ptr ∧ top ≠ 0 ∧ Valid s1 (plug fs t1) ∧ t1.AVL ∧
      (bC = AVL_NEUTRAL → avl_erase_balance (fuel + 1) s P true = Result.ok s1 ∧
        t1.height = (ATree.node (ATree.node ll C bC lr) P AVL_LEFT r).height) ∧
      (bC ≠ AVL_NEUTRAL →
        t1.height + 1 = (ATree.node (ATree.node ll C bC lr) P AVL_LEFT r).height ∧
        avl_parent s1 top = Result.ok (ctxPar fs 0) ∧
        avl_is_right_child s1 top = Result.ok (ctxIsRight fs) ∧
        avl_erase_balance (fuel + 1) s P true =
          avl_erase_balance fuel s1 (ctxPar fs 0) (ctxIsRight fs)) := by
  have hP := hv.at
  have hC := (show Valid s (plug (Frame.L P AVL_LEFT r :: fs) (ATree.node ll C bC lr))
    from hv).at
  have hH : (ATree.node (ATree.node ll C bC lr) P AVL_LEFT r).height = r.height + 3 := by
    simp only [ATree.height] at hh ⊢
    omega
  have hPl : (s.mem P).left = C := hP.left
  by_cases hbr : bC = AVL_RIGHT
  · cases lr with
    | nil =>
      exfalso
      obtain ⟨-, -, hd⟩ := hl
      simp only [ATree.height, hbr, AVL_LEFT, AVL_NEUTRAL, AVL_RIGHT] at hd
      omega
    | node gl T bT gr =>
      obtain ⟨s1, e, hv1⟩ := valid_rotate_leftright hv
      obtain ⟨ha, hh1⟩ := avl_after_rotate_leftright P hr hl hh hbr
      obtain ⟨h0, hpar, hisr⟩ := Valid.parent_side_at hv1
      refine ⟨s1, _, T, by rw [if_pos hbr, e], (by rfl), h0, hv1, ha, ?_, ?_⟩
      · intro h; rw [hbr] at h; exact absurd h (by decide)
      · intro _
        refine ⟨by rw [hH, hh1], hpar, hisr, ?_⟩
        simp [avl_erase_balance, hP.ne, avl_balance_ok s hP.ne, hP.bal, rd_left_ok s hP.ne, hPl,
          avl_balance_ok s hC.ne, hC.bal, hbr, e, h0, hpar, hisr]
  · obtain ⟨s1, e, hv1⟩ := valid_rotate_right hv
    obtain ⟨ha, hh1⟩ := avl_after_rotate_right P hr hl hh hbr
    obtain ⟨h0, hpar, hisr⟩ := Valid.parent_side_at hv1
    refine ⟨s1, _, C, by rw [if_neg hbr, e], (by rfl), h0, hv1, ha, ?_, ?_⟩
    · intro hn
      refine ⟨?_, by rw [hH, hh1, if_pos hn]⟩
      simp [avl_erase_balance, hP.ne, avl_balance_ok s hP.ne, hP.bal, rd_left_ok s hP.ne, hPl,
        avl_balance_ok s hC.ne, hC.bal, hn, e]
    · intro hn
      have hbl : bC = AVL_LEFT := by
        obtain ⟨-, -, hd⟩ := hl
        rcases hd with ⟨-, h⟩ | ⟨-, h⟩ | ⟨-, h⟩
        · exact absurd h hn
        · exact h
        · exact absurd h hbr
      refine ⟨by rw [hH, hh1, if_neg hn], hpar, hisr, ?_⟩
      simp [avl_erase_balance, hP.ne, avl_balance_ok s hP.ne, hP.bal, rd_left_ok s hP.ne, hPl,
        avl_balance_ok s hC.ne, hC.bal, hbl, e, h0, hpar, hisr]

/-- C25: the step of `avl_erase_balance` at a leaning node `P` whose shorter side lost height,
so that the other side is two levels taller, with accurate balances below. The call makes the
rotation at the child `C` on the taller side: the double rotation when `C` leans inward, the
single one otherwise. When `C` was neutral the call returns the store of the rotation, and the
rotated subtree has the height the subtree had before; when `C` leaned, the rotated subtree is
one level shorter and the call goes on as the walk from the parent of the new top, with
`removed_right` read from the side of the new top under that parent. -/
theorem C25_erase_walk_after_rotation (s : Store) (fs : List Frame) (l r : ATree)
    (P bP fuel : Nat) (hv : Valid s (plug fs (ATree.node l P bP r))) (hl : l.AVL)
    (hr : r.AVL) :
    (bP = AVL_RIGHT → r.height = l.height + 2 → ∀ rl C bC rr, r = ATree.node rl C bC rr →
      ∃ s1 t1 top,
        (if bC = AVL_LEFT then avl_rotate_rightleft s C P else avl_rotate_left s C P) =
          Result.ok (s1, top) ∧
        top = t1.ptr ∧ top ≠ 0 ∧ Valid s1 (plug fs t1) ∧ t1.AVL ∧
        (bC = AVL_NEUTRAL → avl_erase_balance (fuel + 1) s P false = Result.ok s1 ∧
          t1.height = (ATree.node l P bP r).height) ∧
        (bC ≠ AVL_NEUTRAL →
          t1.height + 1 = (ATree.node l P bP r).height ∧
          avl_parent s1 top = Result.ok (ctxPar fs 0) ∧
          avl_is_right_child s1 top = Result.ok (ctxIsRight fs) ∧
          avl_erase_balance (fuel + 1) s P false =
            avl_erase_balance fuel s1 (ctxPar fs 0) (ctxIsRight fs))) ∧
    (bP = AVL_LEFT → l.height = r.height + 2 → ∀ ll C bC lr, l = ATree.node ll C bC lr →
      ∃ s1 t1 top,
        (if bC = AVL_RIGHT then avl_rotate_leftright s C P else avl_rotate_right s C P) =
          Result.ok (s1, top) ∧
        top = t1.ptr ∧ top ≠ 0 ∧ Valid s1 (plug fs t1) ∧ t1.AVL ∧
        (bC = AVL_NEUTRAL → avl_erase_balance (fuel + 1) s P true = Result.ok s1 ∧
          t1.height = (ATree.node l P bP r).height) ∧
        (bC ≠ AVL_NEUTRAL →
          t1.height + 1 = (ATree.node l P bP r).height ∧
          avl_parent s1 top = Result.ok (ctxPar fs 0) ∧
          avl_is_right_child s1 top = Result.ok (ctxIsRight fs) ∧
          avl_erase_balance (fuel + 1) s P true =
            avl_erase_balance fuel s1 (ctxPar fs 0) (ctxIsRight fs))) := by
  constructor
  · rintro rfl hh rl C bC rr rfl
    exact erase_step_left_lost fuel hv hl hr hh
  · rintro rfl hh ll C bC lr rfl
    exact erase_step_right_lost fuel hv hl hr hh

/-- The step C25 at the chain 8, 16, 24 of right children, where the left side of 8 lost its
height and the child 16 leans right: the rotated subtree is one level shorter and the walk goes
on above the new top 16. -/
theorem C25_erase_walk_after_rotation_witness :
    Valid (store_of treeChainR) treeChainR ∧
    ∃ s1 t1 top,
      (if AVL_RIGHT = AVL_LEFT then avl_rotate_rightleft (store_of treeChainR) 16 8
        else avl_rotate_left (store_of treeChainR) 16 8) = Result.ok (s1, top) ∧
      top = t1.ptr ∧ top ≠ 0 ∧ Valid s1 (plug [] t1) ∧ t1.AVL ∧
      (AVL_RIGHT = AVL_NEUTRAL →
        avl_erase_balance (3 + 1) (store_of treeChainR) 8 false = Result.ok s1 ∧
        t1.height = treeChainR.height) ∧
      (AVL_RIGHT ≠ AVL_NEUTRAL →
        t1.height + 1 = treeChainR.height ∧
        avl_parent s1 top = Result.ok (ctxPar [] 0) ∧
        avl_is_right_child s1 top = Result.ok (ctxIsRight []) ∧
        avl_erase_balance (3 + 1) (store_of treeChainR) 8 false =
          avl_erase_balance 3 s1 (ctxPar [] 0) (ctxIsRight [])) :=
  ⟨by set_option maxRecDepth 100000 in decide,
   (C25_erase_walk_after_rotation (store_of treeChainR) [] ATree.nil
      (ATree.node ATree.nil 16 AVL_RIGHT (ATree.node ATree.nil 24 AVL_NEUTRAL ATree.nil)) 8
      AVL_RIGHT 3 (by set_option maxRecDepth 100000 in decide) trivial
      (by decide)).1 rfl rfl ATree.nil 16 AVL_RIGHT
      (ATree.node ATree.nil 24 AVL_NEUTRAL ATree.nil) rfl⟩

end Avl

namespace Avl

/-! ## Mirror images -/

theorem mirror_plug : ∀ (fs : List Frame) (u : ATree),
    (plug fs u).mirror = plug (fs.map Frame.mirror) u.mirror
  | [], _ => rfl
  | Frame.L a b r :: fs, u => by
    simp only [plug, List.map_cons, Frame.mirror]
    rw [mirror_plug fs]; rfl
  | Frame.R l a b :: fs, u => by
    simp only [plug, List.map_cons, Frame.mirror]
    rw [mirror_plug fs]; rfl

theorem mirror_ptr (t : ATree) : t.mirror.ptr = t.ptr := by
  cases t <;> rfl

theorem ctxPar_mirror (fs : List Frame) (d : Nat) :
    ctxPar (fs.map Frame.mirror) d = ctxPar fs d := by
  cases fs with
  | nil => rfl
  | cons f fs => cases f <;> rfl

theorem mirror_bal_eq_zero (b : Nat) : mirror_bal b = AVL_NEUTRAL ↔ b = AVL_NEUTRAL := by
  unfold mirror_bal
  simp only [AVL_LEFT, AVL_RIGHT, AVL_NEUTRAL]
  split
  · omega
  · split <;> omega

/-- Two stores that hold a tree and its mirror image hold mirrored records at every node. -/
theorem mirrorOn_of_valid {s sm : Store} {t : ATree} (hv : Valid s t) (hm : Valid sm t.mirror) :
    MirrorOn t s sm := by
  refine ⟨by rw [hv.1, hm.1, mirror_ptr], ?_⟩
  intro x hx
  obtain ⟨gs, l, b, r, rfl⟩ := exists_plug_of_mem t x hx
  have hA := hv.at
  rw [mirror_plug] at hm
  have hB := (show Valid sm (plug (gs.map Frame.mirror)
    (ATree.node r.mirror x (mirror_bal b) l.mirror)) from hm).at
  refine ⟨?_, ?_, ?_, ?_⟩
  · rw [hB.left, hA.right, mirror_ptr]
  · rw [hB.right, hA.left, mirror_ptr]
  · rw [hB.par, hA.par, ctxPar_mirror]
  · rw [hB.bal, hA.bal]

/-- C26: the right-hand rotations are the mirror images of the left-hand ones. For stores `s`
and `sm` that hold a tree and its mirror image, `avl_rotate_right` in `sm` and `avl_rotate_left`
in `s` at the same nodes return the same top and leave a tree and its mirror image: at every
node the same links with left and right swapped, the same parent and the mirrored balance. The
same holds for `avl_rotate_leftright` and `avl_rotate_rightleft` when the balance of the
grandchild is `AVL_NEUTRAL`, `AVL_LEFT` or `AVL_RIGHT`. -/
theorem C26_rotations_mirror (s sm : Store) (fs : List Frame) (l rl rr : ATree)
    (P bP C bC : Nat)
    (hv : Valid s (plug fs (ATree.node l P bP (ATree.node rl C bC rr))))
    (hm : Valid sm (plug fs (ATree.node l P bP (ATree.node rl C bC rr))).mirror) :
    MirrorOn (plug fs (ATree.node l P bP (ATree.node rl C bC rr))) s sm ∧
    (∃ s1 sm1 t1, avl_rotate_left s C P = Result.ok (s1, C) ∧
      avl_rotate_right sm C P = Result.ok (sm1, C) ∧
      Valid s1 t1 ∧ Valid sm1 t1.mirror ∧ MirrorOn t1 s1 sm1) ∧
    (∀ gl T bT gr, rl = ATree.node gl T bT gr →
      (bT = AVL_NEUTRAL ∨ bT = AVL_LEFT ∨ bT = AVL_RIGHT) →
      ∃ s1 sm1 t1, avl_rotate_rightleft s C P = Result.ok (s1, T) ∧
        avl_rotate_leftright sm C P = Result.ok (sm1, T) ∧
        Valid s1 t1 ∧ Valid sm1 t1.mirror ∧ MirrorOn t1 s1 sm1) := by
  refine ⟨mirrorOn_of_valid hv hm, ?_, ?_⟩
  · obtain ⟨s1, e, hv1⟩ := valid_rotate_left hv
    rw [mirror_plug] at hm
    obtain ⟨sm1, em, hm1⟩ := valid_rotate_right (show Valid sm (plug (fs.map Frame.mirror)
      (ATree.node (ATree.node rr.mirror C (mirror_bal bC) rl.mirror) P (mirror_bal bP)
        l.mirror)) from hm)
    have hm2 : Valid sm1 (plug fs (ATree.node
        (ATree.node l P (if bC = AVL_NEUTRAL then AVL_RIGHT else AVL_NEUTRAL) rl) C
        (if bC = AVL_NEUTRAL then AVL_LEFT else AVL_NEUTRAL) rr)).mirror := by
      rw [mirror_plug]
      simp only [ATree.mirror]
      by_cases h0 : bC = AVL_NEUTRAL
      · simpa [h0, (mirror_bal_eq_zero bC).2 h0, mirror_bal] using hm1
      · have h1 : ¬ mirror_bal bC = AVL_NEUTRAL := fun h => h0 ((mirror_bal_eq_zero bC).1 h)
        simp only [h1, h0, if_false] at hm1 ⊢
        simpa [mirror_bal] using hm1
    exact ⟨s1, sm1, _, e, em, hv1, hm2, mirrorOn_of_valid hv1 hm2⟩
  · rintro gl T bT gr rfl hbT
    obtain ⟨s1, e, hv1⟩ := valid_rotate_rightleft hv
    rw [mirror_plug] at hm
    obtain ⟨sm1, em, hm1⟩ := valid_rotate_leftright (show Valid sm (plug (fs.map Frame.mirror)
      (ATree.node (ATree.node rr.mirror C (mirror_bal bC)
        (ATree.node gr.mirror T (mirror_bal bT) gl.mirror)) P (mirror_bal bP)
        l.mirror)) from hm)
    have hm2 : Valid sm1 (plug fs (ATree.node
        (ATree.node l P (if bT = AVL_NEUTRAL then AVL_NEUTRAL else if bT = AVL_LEFT
          then AVL_NEUTRAL else AVL_LEFT) gl) T AVL_NEUTRAL
        (ATree.node gr C (if bT = AVL_NEUTRAL then AVL_NEUTRAL else if bT = AVL_LEFT
          then AVL_RIGHT else AVL_NEUTRAL) rr))).mirror := by
      rw [mirror_plug]
      simp only [ATree.mirror]
      rcases hbT with rfl | rfl | rfl <;> simpa [mirror_bal] using hm1
    exact ⟨s1, sm1, _, e, em, hv1, hm2, mirrorOn_of_valid hv1 hm2⟩

/-- The rule C26 at a tree whose node 8 has the right child 24 with the left-leaning left
child 16, and at its mirror image. -/
theorem C26_rotations_mirror_witness :
    Valid (store_of treeRL1) treeRL1 ∧ Valid (store_of treeRL1.mirror) treeRL1.mirror ∧
    MirrorOn treeRL1 (store_of treeRL1) (store_of treeRL1.mirror) ∧
    (∃ s1 sm1 t1, avl_rotate_left (store_of treeRL1) 24 8 = Result.ok (s1, 24) ∧
      avl_rotate_right (store_of treeRL1.mirror) 24 8 = Result.ok (sm1, 24) ∧
      Valid s1 t1 ∧ Valid sm1 t1.mirror ∧ MirrorOn t1 s1 sm1) ∧
    (∃ s1 sm1 t1, avl_rotate_rightleft (store_of treeRL1) 24 8 = Result.ok (s1, 16) ∧
      avl_rotate_leftright (store_of treeRL1.mirror) 24 8 = Result.ok (sm1, 16) ∧
      Valid s1 t1 ∧ Valid sm1 t1.mirror ∧ MirrorOn t1 s1 sm1) :=
  have h := C26_rotations_mirror (store_of treeRL1) (store_of treeRL1.mirror) []
    (ATree.node ATree.nil 4 AVL_NEUTRAL ATree.nil)
    (ATree.node (ATree.node ATree.nil 12 AVL_NEUTRAL ATree.nil) 16 AVL_LEFT ATree.nil)
    (ATree.node ATree.nil 32 AVL_NEUTRAL ATree.nil) 8 AVL_RIGHT 24 AVL_LEFT
    (by set_option maxRecDepth 100000 in decide) (by set_option maxRecDepth 100000 in decide)
  ⟨by set_option maxRecDepth 100000 in decide, by set_option maxRecDepth 100000 in decide,
   h.1, h.2.1, h.2.2 _ 16 AVL_LEFT _ rfl (Or.inr (Or.inl rfl))⟩

end Avl

namespace Avl

/-! ## Termination of the walks on a tree with arbitrary balances -/

@[simp] theorem Result.fault_bind {α β : Type} (f : α → Result β) :
    (Result.fault >>= f) = Result.fault := rfl

@[simp] theorem Result.ended_ok {α : Type} (a : α) : (Result.ok a).ended := trivial

@[simp] theorem Result.ended_fault {α : Type} : (Result.fault : Result α).ended := trivial

/-- The double rotation stops at the access through the missing inner grandchild. -/
theorem avl_rotate_rightleft_fault (s : Store) {node : Nat} (parent : Nat) (hn : node ≠ 0)
    (h : (s.mem node).left = 0) : avl_rotate_rightleft s node parent = Result.fault := by
  simp [avl_rotate_rightleft, rd_left_ok s hn, h, rd_right]

theorem avl_rotate_leftright_fault (s : Store) {node : Nat} (parent : Nat) (hn : node ≠ 0)
    (h : (s.mem node).right = 0) : avl_rotate_leftright s node parent = Result.fault := by
  simp [avl_rotate_leftright, rd_right_ok s hn, h, rd_left]

/-- The walk of `avl_insert_balance` from a node of a valid tree ends within as many
evaluations of its loop condition as the node has ancestors, plus one. -/
theorem insert_balance_ended : ∀ (fs : List Frame) (s : Store) (l : ATree) (a b : Nat)
    (r : ATree), Valid s (plug fs (ATree.node l a b r)) → ∀ fuel, fs.length < fuel →
    (avl_insert_balance fuel s a).ended
  | [], s, l, a, b, r, hv, fuel, hf => by
    obtain ⟨f, rfl⟩ : ∃ f, fuel = f + 1 := ⟨fuel - 1, by simp at hf; omega⟩
    have hA := hv.at
    simp [avl_insert_balance, avl_parent_ok s hA.ne, hA.par, ctxPar]
  | Frame.L G bG sib :: fs, s, l, a, b, r, hv, fuel, hf => by
    obtain ⟨f, rfl⟩ : ∃ f, fuel = f + 1 := ⟨fuel - 1, by simp at hf; omega⟩
    have hf1 : fs.length < f := by simpa using hf
    have hA := hv.at
    have hG : At s fs (ATree.node l a b r) G bG sib := Valid.at hv
    have hpar : parent_of s a = G := hA.par
    have hisr : is_right_child_of s a = false := hA.isr
    have hG0 := hG.ne
    by_cases h0 : bG = AVL_NEUTRAL
    · have hv1 : Valid (set_balance_eff s G AVL_LEFT)
          (plug fs (ATree.node (ATree.node l a b r) G AVL_LEFT sib)) :=
        @valid_set_balance _ fs _ _ _ _ hv AVL_LEFT (by decide)
      have ih := insert_balance_ended fs _ _ G AVL_LEFT sib hv1 f hf1
      simpa [avl_insert_balance, avl_parent_ok s hA.ne, hpar, hG0, avl_is_right_child_ok s hA.ne,
        hisr, avl_balance_ok s hG0, hG.bal, h0, avl_set_balance_ok s _ hG0] using ih
    · by_cases h1 : bG = AVL_LEFT
      · by_cases h2 : b = AVL_RIGHT
        · cases r with
          | nil =>
            have e := avl_rotate_leftright_fault s G hA.ne (by rw [hA.right]; rfl)
            simp [avl_insert_balance, avl_parent_ok s hA.ne, hpar, hG0,
              avl_is_right_child_ok s hA.ne, hisr, avl_balance_ok s hG0, hG.bal, h1,
              avl_balance_ok s hA.ne, hA.bal, h2, e]
          | node gl T bT gr =>
            obtain ⟨sr, e, -⟩ := @valid_rotate_leftright _ fs _ _ _ _ _ _ _ _ _ _ hv
            simp [avl_insert_balance, avl_parent_ok s hA.ne, hpar, hG0,
              avl_is_right_child_ok s hA.ne, hisr, avl_balance_ok s hG0, hG.bal, h1,
              avl_balance_ok s hA.ne, hA.bal, h2, e]
        · obtain ⟨sr, e, -⟩ := @valid_rotate_right _ fs _ _ _ _ _ _ _ hv
          simp [avl_insert_balance, avl_parent_ok s hA.ne, hpar, hG0,
            avl_is_right_child_ok s hA.ne, hisr, avl_balance_ok s hG0, hG.bal, h1,
            avl_balance_ok s hA.ne, hA.bal, h2, e]
      · simp [avl_insert_balance, avl_parent_ok s hA.ne, hpar, hG0,
          avl_is_right_child_ok s hA.ne, hisr, avl_balance_ok s hG0, hG.bal, h0, h1,
          avl_set_balance_ok s _ hG0]
  | Frame.R sib G bG :: fs, s, l, a, b, r, hv, fuel, hf => by
    obtain ⟨f, rfl⟩ : ∃ f, fuel = f + 1 := ⟨fuel - 1, by simp at hf; omega⟩
    have hf1 : fs.length < f := by simpa using hf
    have hA := hv.at
    have hG : At s fs sib G bG (ATree.node l a b r) := Valid.at hv
    have hpar : parent_of s a = G := hA.par
    have hisr : is_right_child_of s a = true := hA.isr
    have hG0 := hG.ne
    by_cases h0 : bG = AVL_NEUTRAL
    · have hv1 : Valid (set_balance_eff s G AVL_RIGHT)
          (plug fs (ATree.node sib G AVL_RIGHT (ATree.node l a b r))) :=
        @valid_set_balance _ fs _ _ _ _ hv AVL_RIGHT (by decide)
      have ih := insert_balance_ended fs _ _ G AVL_RIGHT _ hv1 f hf1
      simpa [avl_insert_balance, avl_parent_ok s hA.ne, hpar, hG0, avl_is_right_child_ok s hA.ne,
        hisr, avl_balance_ok s hG0, hG.bal, h0, avl_set_balance_ok s _ hG0] using ih
    · by_cases h1 : bG = AVL_LEFT
      · simp [avl_insert_balance, avl_parent_ok s hA.ne, hpar, hG0,
          avl_is_right_child_ok s hA.ne, hisr, avl_balance_ok s hG0, hG.bal, h0, h1,
          avl_set_balance_ok s _ hG0]
      · by_cases h2 : b = AVL_LEFT
        · cases l with
          | nil =>
            have e := avl_rotate_rightleft_fault s G hA.ne (by rw [hA.left]; rfl)
            simp [avl_insert_balance, avl_parent_ok s hA.ne, hpar, hG0,
              avl_is_right_child_ok s hA.ne, hisr, avl_balance_ok s hG0, hG.bal, h0, h1,
              avl_balance_ok s hA.ne, hA.bal, h2, e]
          | node gl T bT gr =>
            obtain ⟨sr, e, -⟩ := @valid_rotate_rightleft _ fs _ _ _ _ _ _ _ _ _ _ hv
            simp [avl_insert_balance, avl_parent_ok s hA.ne, hpar, hG0,
              avl_is_right_child_ok s hA.ne, hisr, avl_balance_ok s hG0, hG.bal, h0, h1,
              avl_balance_ok s hA.ne, hA.bal, h2, e]
        · obtain ⟨sr, e, -⟩ := @valid_rotate_left _ fs _ _ _ _ _ _ _ hv
          simp [avl_insert_balance, avl_parent_ok s hA.ne, hpar, hG0,
            avl_is_right_child_ok s hA.ne, hisr, avl_balance_ok s hG0, hG.bal, h0, h1,
            avl_balance_ok s hA.ne, hA.bal, h2, e]

end Avl

namespace Avl

/-- The end of an iteration of `avl_erase_balance` that goes on: the side and the parent of
the top `a` of the subtree are read and the loop is entered with them. It ends when the loop
from every node above ends. -/
theorem erase_continue_ended {fs : List Frame} {s : Store} {l : ATree} {a b : Nat} {r : ATree}
    (ih : ∀ f1 fs1, fs = f1 :: fs1 → ∀ (s1 : Store) (l1 : ATree) (G bG : Nat) (r1 : ATree)
      (fuel : Nat) (rr : Bool), Valid s1 (plug fs1 (ATree.node l1 G bG r1)) →
      fs1.length + 1 < fuel → (avl_erase_balance fuel s1 G rr).ended)
    (hv : Valid s (plug fs (ATree.node l a b r))) (fuel : Nat) (hf : fs.length < fuel) :
    (avl_is_right_child s a >>= fun rr => avl_parent s a >>= fun p =>
      avl_erase_balance fuel s p rr).ended := by
  obtain ⟨h0, hpar, hisr⟩ := Valid.parent_side_at hv
  rw [hisr, hpar]
  simp only [Result.ok_bind]
  cases fs with
  | nil =>
    obtain ⟨f, rfl⟩ : ∃ f, fuel = f + 1 := ⟨fuel - 1, by simp at hf; omega⟩
    simp [avl_erase_balance, ctxPar]
  | cons f1 fs1 =>
    have hf1 : fs1.length + 1 < fuel := by simpa using hf
    cases f1 with
    | L G bG sib => exact ih _ _ rfl s _ G bG sib fuel _ hv hf1
    | R sib G bG => exact ih _ _ rfl s sib G bG _ fuel _ hv hf1

/-- One iteration of `avl_erase_balance` at a node of a valid tree whose left side lost
height. -/
theorem erase_iteration_left_ended {fs : List Frame} {s : Store} {l : ATree} {G bG : Nat}
    {r : ATree}
    (ih : ∀ f1 fs1, fs = f1 :: fs1 → ∀ (s1 : Store) (l1 : ATree) (G bG : Nat) (r1 : ATree)
      (fuel : Nat) (rr : Bool), Valid s1 (plug fs1 (ATree.node l1 G bG r1)) →
      fs1.length + 1 < fuel → (avl_erase_balance fuel s1 G rr).ended)
    (hv : Valid s (plug fs (ATree.node l G bG r))) (f : Nat) (hf : fs.length < f) :
    (avl_erase_balance (f + 1) s G false).ended := by
  have hG := hv.at
  have hG0 := hG.ne
  by_cases h0 : bG = AVL_NEUTRAL
  · simp [avl_erase_balance, hG0, avl_balance_ok s hG0, hG.bal, h0, avl_set_balance_ok s _ hG0]
  by_cases h1 : bG = AVL_LEFT
  · have hv1 : Valid (set_balance_eff s G AVL_NEUTRAL) (plug fs (ATree.node l G AVL_NEUTRAL r)) :=
      valid_set_balance hv AVL_NEUTRAL (by decide)
    have key : avl_erase_balance (f + 1) s G false =
        (avl_is_right_child (set_balance_eff s G AVL_NEUTRAL) G >>= fun rr =>
          avl_parent (set_balance_eff s G AVL_NEUTRAL) G >>= fun p =>
            avl_erase_balance f (set_balance_eff s G AVL_NEUTRAL) p rr) := by
      simp [avl_erase_balance, hG0, avl_balance_ok s hG0, hG.bal, h1,
        avl_set_balance_ok s _ hG0]
    rw [key]
    exact erase_continue_ended ih hv1 f hf
  cases r with
  | nil =>
    have hr0 : (s.mem G).right = 0 := hG.right
    have eb : avl_balance s 0 = Result.fault := by simp [avl_balance, rd_word]
    simp [avl_erase_balance, hG0, avl_balance_ok s hG0, hG.bal, h0, h1, rd_right_ok s hG0, hr0,
      eb]
  | node rl C bC rr =>
    have hC := (show Valid s (plug (Frame.R l G bG :: fs) (ATree.node rl C bC rr)) from hv).at
    have hr0 : (s.mem G).right = C := hG.right
    by_cases c0 : bC = AVL_NEUTRAL
    · obtain ⟨s1, e, -⟩ := valid_rotate_left hv
      simp [avl_erase_balance, hG0, avl_balance_ok s hG0, hG.bal, h0, h1, rd_right_ok s hG0, hr0,
        avl_balance_ok s hC.ne, hC.bal, c0, e]
    by_cases c1 : bC = AVL_LEFT
    · cases rl with
      | nil =>
        have e := avl_rotate_rightleft_fault s G hC.ne (by rw [hC.left]; rfl)
        simp [avl_erase_balance, hG0, avl_balance_ok s hG0, hG.bal, h0, h1, rd_right_ok s hG0,
          hr0, avl_balance_ok s hC.ne, hC.bal, c1, e]
      | node gl T bT gr =>
        obtain ⟨s1, e, hv1⟩ := valid_rotate_rightleft hv
        have hT0 := hv1.at.ne
        have key : avl_erase_balance (f + 1) s G false =
            (avl_is_right_child s1 T >>= fun rr => avl_parent s1 T >>= fun p =>
              avl_erase_balance f s1 p rr) := by
          simp [avl_erase_balance, hG0, avl_balance_ok s hG0, hG.bal, h0, h1, rd_right_ok s hG0,
            hr0, avl_balance_ok s hC.ne, hC.bal, c1, e, hT0]
        rw [key]
        exact erase_continue_ended ih hv1 f hf
    · obtain ⟨s1, e, hv1⟩ := valid_rotate_left hv
      have hC0 := hv1.at.ne
      have key : avl_erase_balance (f + 1) s G false =
          (avl_is_right_child s1 C >>= fun rr => avl_parent s1 C >>= fun p =>
            avl_erase_balance f s1 p rr) := by
        simp [avl_erase_balance, hG0, avl_balance_ok s hG0, hG.bal, h0, h1, rd_right_ok s hG0,
          hr0, avl_balance_ok s hC.ne, hC.bal, c0, c1, e, hC0]
      rw [key]
      exact erase_continue_ended ih hv1 f hf

/-- One iteration of `avl_erase_balance` at a node of a valid tree whose right side lost
height. -/
theorem erase_iteration_right_ended {fs : List Frame} {s : Store} {l : ATree} {G bG : Nat}
    {r : ATree}
    (ih : ∀ f1 fs1, fs = f1 :: fs1 → ∀ (s1 : Store) (l1 : ATree) (G bG : Nat) (r1 : ATree)
      (fuel : Nat) (rr : Bool), Valid s1 (plug fs1 (ATree.node l1 G bG r1)) →
      fs1.length + 1 < fuel → (avl_erase_balance fuel s1 G rr).ended)
    (hv : Valid s (plug fs (ATree.node l G bG r))) (f : Nat) (hf : fs.length < f) :
    (avl_erase_balance (f + 1) s G true).ended := by
  have hG := hv.at
  have hG0 := hG.ne
  by_cases h0 : bG = AVL_NEUTRAL
  · simp [avl_erase_balance, hG0, avl_balance_ok s hG0, hG.bal, h0, avl_set_balance_ok s _ hG0]
  by_cases h1 : bG = AVL_LEFT
  · cases l with
    | nil =>
      have hl0 : (s.mem G).left = 0 := hG.left
      have eb : avl_balance s 0 = Result.fault := by simp [avl_balance, rd_word]
      simp [avl_erase_balance, hG0, avl_balance_ok s hG0, hG.bal, h1, rd_left_ok s hG0, hl0,
        eb]
    | node ll C bC lr =>
      have hC := (show Valid s (plug (Frame.L G bG r :: fs) (ATree.node ll C bC lr)) from hv).at
      have hl0 : (s.mem G).left = C := hG.left
      by_cases c1 : bC = AVL_LEFT
      · obtain ⟨s1, e, hv1⟩ := valid_rotate_right hv
        have hC0 := hv1.at.ne
        have key : avl_erase_balance (f + 1) s G true =
            (avl_is_right_child s1 C >>= fun rr => avl_parent s1 C >>= fun p =>
              avl_erase_balance f s1 p rr) := by
          simp [avl_erase_balance, hG0, avl_balance_ok s hG0, hG.bal, h1, rd_left_ok s hG0,
            hl0, avl_balance_ok s hC.ne, hC.bal, c1, e, hC0]
        rw [key]
        exact erase_continue_ended ih hv1 f hf
      by_cases c0 : bC = AVL_NEUTRAL
      · obtain ⟨s1, e, -⟩ := valid_rotate_right hv
        simp [avl_erase_balance, hG0, avl_balance_ok s hG0, hG.bal, h1, rd_left_ok s hG0, hl0,
          avl_balance_ok s hC.ne, hC.bal, c0, e]
      · cases lr with
        | nil =>
          have e := avl_rotate_leftright_fault s G hC.ne (by rw [hC.right]; rfl)
          simp [avl_erase_balance, hG0, avl_balance_ok s hG0, hG.bal, h1, rd_left_ok s hG0,
            hl0, avl_balance_ok s hC.ne, hC.bal, c0, c1, e]
        | node gl T bT gr =>
          obtain ⟨s1, e, hv1⟩ := valid_rotate_leftright hv
          have hT0 := hv1.at.ne
          have key : avl_erase_balance (f + 1) s G true =
              (avl_is_right_child s1 T >>= fun rr => avl_parent s1 T >>= fun p =>
                avl_erase_balance f s1 p rr) := by
            simp [avl_erase_balance, hG0, avl_balance_ok s hG0, hG.bal, h1, rd_left_ok s hG0,
              hl0, avl_balance_ok s hC.ne, hC.bal, c0, c1, e, hT0]
          rw [key]
          exact erase_continue_ended ih hv1 f hf
  · have hv1 : Valid (set_balance_eff s G AVL_NEUTRAL) (plug fs (ATree.node l G AVL_NEUTRAL r)) :=
      valid_set_balance hv AVL_NEUTRAL (by decide)
    have key : avl_erase_balance (f + 1) s G true =
        (avl_is_right_child (set_balance_eff s G AVL_NEUTRAL) G >>= fun rr =>
          avl_parent (set_balance_eff s G AVL_NEUTRAL) G >>= fun p =>
            avl_erase_balance f (set_balance_eff s G AVL_NEUTRAL) p rr) := by
      simp [avl_erase_balance, hG0, avl_balance_ok s hG0, hG.bal, h0, h1,
        avl_set_balance_ok s _ hG0]
    rw [key]
    exact erase_continue_ended ih hv1 f hf

/-- The walk of `avl_erase_balance` from a node of a valid tree ends within as many evaluations
of its loop condition as the node has ancestors, plus two. -/
theorem erase_balance_ended : ∀ (fs : List Frame) (s : Store) (l : ATree) (G bG : Nat)
    (r : ATree) (fuel : Nat) (rr : Bool), Valid s (plug fs (ATree.node l G bG r)) →
    fs.length + 1 < fuel → (avl_erase_balance fuel s G rr).ended
  | [], s, l, G, bG, r, fuel, rr, hv, hf => by
    obtain ⟨f, rfl⟩ : ∃ f, fuel = f + 1 := ⟨fuel - 1, by omega⟩
    have hf1 : ([] : List Frame).length < f := by simpa using hf
    have ih : ∀ f1 fs1, ([] : List Frame) = f1 :: fs1 → ∀ (s1 : Store) (l1 : ATree) (G bG : Nat)
        (r1 : ATree) (fuel : Nat) (rr : Bool), Valid s1 (plug fs1 (ATree.node l1 G bG r1)) →
        fs1.length + 1 < fuel → (avl_erase_balance fuel s1 G rr).ended :=
      fun _ _ h => absurd h (by simp)
    cases rr
    · exact erase_iteration_left_ended ih hv f hf1
    · exact erase_iteration_right_ended ih hv f hf1
  | f0 :: fs0, s, l, G, bG, r, fuel, rr, hv, hf => by
    obtain ⟨f, rfl⟩ : ∃ f, fuel = f + 1 := ⟨fuel - 1, by omega⟩
    have hf1 : (f0 :: fs0).length < f := by simpa using hf
    have ih : ∀ f1 fs1, f0 :: fs0 = f1 :: fs1 → ∀ (s1 : Store) (l1 : ATree) (G bG : Nat)
        (r1 : ATree) (fuel : Nat) (rr : Bool), Valid s1 (plug fs1 (ATree.node l1 G bG r1)) →
        fs1.length + 1 < fuel → (avl_erase_balance fuel s1 G rr).ended := by
      intro f1 fs1 h s1 l1 G1 bG1 r1 fuel1 rr1 hv1 hfl
      obtain ⟨-, rfl⟩ := List.cons.inj h
      exact erase_balance_ended fs0 s1 l1 G1 bG1 r1 fuel1 rr1 hv1 hfl
    cases rr
    · exact erase_iteration_left_ended ih hv f hf1
    · exact erase_iteration_right_ended ih hv f hf1

end Avl

namespace Avl

/-- C27: on every tree whose child and parent fields are consistent, whatever its balance
fields hold, the loops end within the height of the tree. With as much fuel as the tree is high
`avl_first`, `avl_last`, `avl_next` and `avl_prev` return, and the walk of `avl_insert_balance`
from any node ends; the walk of `avl_erase_balance` from any node ends with one unit more, which
pays for the last evaluation of its loop condition, at `NULL` above the root. The walks end by
returning or, where a balance field sends them into a rotation below a missing child, at the
access through `NULL`. -/
theorem C27_walks_terminate (s : Store) (t : ATree) (fuel : Nat) (hv : Valid s t)
    (hf : t.height ≤ fuel) :
    (∃ a, avl_first fuel s = Result.ok a) ∧ (∃ a, avl_last fuel s = Result.ok a) ∧
    ∀ x ∈ t.inorder, (∃ a, avl_next fuel s x = Result.ok a) ∧
      (∃ a, avl_prev fuel s x = Result.ok a) ∧ (avl_insert_balance fuel s x).ended ∧
      ∀ rr, (avl_erase_balance (fuel + 1) s x rr).ended := by
  refine ⟨⟨_, avl_first_spec hv fuel hf⟩, ⟨_, avl_last_spec hv fuel hf⟩, ?_⟩
  intro x hx
  obtain ⟨fs, l, b, r, rfl⟩ := exists_plug_of_mem t x hx
  have hlen := ctx_length_lt_height fs l x b r
  refine ⟨⟨_, avl_next_at hv fuel hf⟩, ⟨_, avl_prev_at hv fuel hf⟩,
    insert_balance_ended fs s l x b r hv fuel (by omega), fun rr =>
      erase_balance_ended fs s l x b r (fuel + 1) rr hv (by omega)⟩

/-- The rule C27 at the scenario tree of seven nodes, whose height is 3. -/
theorem C27_walks_terminate_witness :
    Valid store7 tree7 ∧ tree7.height ≤ 3 ∧
    (∃ a, avl_first 3 store7 = Result.ok a) ∧ (∃ a, avl_last 3 store7 = Result.ok a) ∧
    ∀ x ∈ tree7.inorder, (∃ a, avl_next 3 store7 x = Result.ok a) ∧
      (∃ a, avl_prev 3 store7 x = Result.ok a) ∧ (avl_insert_balance 3 store7 x).ended ∧
      ∀ rr, (avl_erase_balance (3 + 1) store7 x rr).ended :=
  ⟨by set_option maxRecDepth 100000 in decide, by decide,
   C27_walks_terminate store7 tree7 3 (by set_option maxRecDepth 100000 in decide)
     (by decide)⟩

end Avl

namespace Avl

/-! ## The rotation record of `avl_insert_balance` -/

@[simp] theorem Result.timeout_bind {α β : Type} (f : α → Result β) :
    (Result.timeout >>= f) = Result.timeout := rfl

theorem Result.bind_fst_pure {α β : Type} (x : Result α) (b : β) :
    ((x >>= fun a => (pure (a, b) : Result (α × β))) >>= fun r => pure r.1) = x := by
  cases x <;> rfl

theorem Result.bind_pair_fst {α β γ : Type} (x : Result (α × β)) (c : γ) :
    ((x >>= fun r => (pure (r.1, c) : Result (α × γ))) >>= fun r => pure r.1) =
      (x >>= fun r => pure r.1) := by
  cases x <;> rfl

theorem Result.bind_bind_fst {α β γ : Type} (x : Result α) (f : α → Result (β × γ))
    (g : α → Result β) (h : ∀ a, (f a >>= fun r => pure r.1) = g a) :
    ((x >>= f) >>= fun r => pure r.1) = (x >>= g) := by
  cases x
  · exact h _
  · rfl
  · rfl

/-- The store that `avl_insert_balance_log` returns is the store that `avl_insert_balance`
returns, on every input; both fail alike. -/
theorem insert_balance_log_fst : ∀ (fuel : Nat) (s : Store) (a : Nat),
    (avl_insert_balance_log fuel s a >>= fun r => pure r.1) = avl_insert_balance fuel s a
  | 0, _, _ => rfl
  | fuel + 1, s, a => by
    have ih := insert_balance_log_fst fuel
    simp only [avl_insert_balance_log, avl_insert_balance]
    cases avl_parent s a with
    | fault => rfl
    | timeout => rfl
    | ok p =>
      simp only [Result.ok_bind]
      split
      · rfl
      · cases avl_is_right_child s a with
        | fault => rfl
        | timeout => rfl
        | ok isr =>
          simp only [Result.ok_bind]
          cases avl_balance s p with
          | fault => cases isr <;> rfl
          | timeout => cases isr <;> rfl
          | ok bp =>
            cases isr <;>
              simp only [Result.ok_bind, Bool.false_eq_true, if_false, if_true] <;>
              split_ifs <;>
              first
                | exact Result.bind_fst_pure _ _
                | exact Result.bind_bind_fst _ _ _ (fun s1 => ih s1 p)
                | (cases avl_balance s a <;>
                    first
                      | rfl
                      | (simp only [Result.ok_bind]
                         split_ifs <;> exact Result.bind_pair_fst _ _))

/-- The store that `avl_insert_log` returns is the store that `avl_insert` returns. -/
theorem insert_log_fst (fuel : Nat) (s : Store) (node parent : Nat) (link : Link) :
    (avl_insert_log fuel s node parent link >>= fun r => pure r.1) =
      avl_insert fuel s node parent link := by
  simp only [avl_insert_log, avl_insert]
  exact Result.bind_bind_fst _ _ _ (fun s1 => insert_balance_log_fst fuel s1 node)

end Avl

namespace Avl

/-- The walk of `avl_insert_balance` from the top `a` of a subtree that grew by one level, with
its record. Either no rotation is called, or exactly one: at a node `P` on the path, whose
subtree stood at the position `gs`; the store of the rotation is the store the walk returns, and
the rotated subtree `sub1` has accurate balances, the height the subtree at `gs` had before
the growth and the nodes of the grown subtree. -/
theorem insert_balance_log_spec : ∀ (fs : List Frame) (s : Store) (l : ATree) (a b : Nat)
    (r : ATree) (h : Nat), Valid s (plug fs (ATree.node l a b r)) → (ATree.node l a b r).AVL →
    CtxAVL fs h → (ATree.node l a b r).height = h + 1 → (h = 0 ∨ b ≠ AVL_NEUTRAL) →
    ∀ fuel, fs.length < fuel →
    ∃ s1 log, avl_insert_balance_log fuel s a = Result.ok (s1, log) ∧
      (log = [] ∨ ∃ C P ds gs sub1 s0 top, log = [(C, P)] ∧ fs = ds ++ gs ∧ ds ≠ [] ∧
        P = (plug ds ATree.nil).ptr ∧ RotationCall s0 C P s1 top ∧ top = sub1.ptr ∧
        Valid s1 (plug gs sub1) ∧ sub1.AVL ∧ sub1.height = ctxHeight ds h ∧
        sub1.inorder = (plug ds (ATree.node l a b r)).inorder)
  | [], s, l, a, b, r, h, hv, _, _, _, _, fuel, hf => by
    obtain ⟨f, rfl⟩ : ∃ f, fuel = f + 1 := ⟨fuel - 1, by simp at hf; omega⟩
    have hA := hv.at
    refine ⟨s, [], ?_, Or.inl rfl⟩
    simp [avl_insert_balance_log, avl_parent_ok s hA.ne, hA.par, ctxPar]
  | Frame.L G bG sib :: fs, s, l, a, b, r, h, hv, ha, hc, hh0, hb, fuel, hf => by
    obtain ⟨f, rfl⟩ : ∃ f, fuel = f + 1 := ⟨fuel - 1, by simp at hf; omega⟩
    have hf1 : fs.length < f := by simpa using hf
    have hA := hv.at
    have hGat : At s fs (ATree.node l a b r) G bG sib := Valid.at hv
    have hpar : parent_of s a = G := hA.par
    have hisr : is_right_child_of s a = false := hA.isr
    have hG0 := hGat.ne
    obtain ⟨hsib, hbal, hctx⟩ := hc
    have hba := hA.bal
    have hbG := hGat.bal
    have ha0 := ha
    obtain ⟨hal, har, hbl⟩ := ha
    have hh := hh0
    simp only [ATree.height] at hh
    rcases hbal with ⟨e1, rfl⟩ | ⟨e1, rfl⟩ | ⟨e1, rfl⟩
    · have hv1 : Valid (set_balance_eff s G AVL_LEFT)
          (plug fs (ATree.node (ATree.node l a b r) G AVL_LEFT sib)) :=
        @valid_set_balance _ fs _ _ _ _ hv AVL_LEFT (by decide)
      obtain ⟨s1, log, hrun, hlog⟩ := insert_balance_log_spec fs _ (ATree.node l a b r) G
        AVL_LEFT sib (max h sib.height + 1) hv1 ⟨⟨hal, har, hbl⟩, hsib, Or.inr (Or.inl ⟨by
          simp only [ATree.height]; omega, rfl⟩)⟩ hctx
        (by simp only [ATree.height]; omega) (Or.inr (by decide)) f hf1
      refine ⟨s1, log, ?_, ?_⟩
      · simp [avl_insert_balance_log, avl_parent_ok s hA.ne, hpar, hG0,
          avl_is_right_child_ok s hA.ne, hisr, avl_balance_ok s hG0, hbG,
          avl_set_balance_ok s _ hG0, hrun]
      · rcases hlog with e0 | ⟨C, P, ds, gs, sub1, s0, top, e0, e2, hds, e3, hrot, e4, hvs, has,
          hhs, hio⟩
        · exact Or.inl e0
        · refine Or.inr ⟨C, P, Frame.L G AVL_NEUTRAL sib :: ds, gs, sub1, s0, top, e0, by
            rw [e2]; rfl, by simp, ?_, hrot, e4, hvs, has, hhs, ?_⟩
          · rw [e3]
            exact plug_ptr_of_ne_nil ds _ _ hds
          · rw [hio]
            simp only [plug, inorder_plug, ATree.inorder]
    · rcases hbl with ⟨hl1, rfl⟩ | ⟨hl1, rfl⟩ | ⟨hl1, rfl⟩
      · rcases hb with hb | hb
        · omega
        · exact absurd rfl hb
      · obtain ⟨sr, e, hv1⟩ := @valid_rotate_right _ fs _ _ _ _ _ _ _ hv
        obtain ⟨ha1, hh1⟩ := avl_after_rotate_right G hsib ha0 (by rw [hh0, e1])
          (by decide)
        refine ⟨sr, [(a, G)], ?_, Or.inr ⟨a, G, [Frame.L G AVL_LEFT sib], fs, _, s, a, rfl, rfl,
          by simp, rfl, Or.inr (Or.inl e), (by rfl), hv1, ha1, ?_, by simp [plug, ATree.inorder]⟩⟩
        · simp [avl_insert_balance_log, avl_parent_ok s hA.ne, hpar, hG0,
            avl_is_right_child_ok s hA.ne, hisr, avl_balance_ok s hG0, hbG,
            avl_balance_ok s hA.ne, hba, e]
        · rw [hh1]
          simp only [ctxHeight, AVL_LEFT, AVL_NEUTRAL, one_ne_zero, if_false]
          omega
      · cases r with
        | nil => simp only [ATree.height] at hl1; omega
        | node gl T bT gr =>
          obtain ⟨sr, e, hv1⟩ := @valid_rotate_leftright _ fs _ _ _ _ _ _ _ _ _ _ hv
          obtain ⟨ha1, hh1⟩ := avl_after_rotate_leftright G hsib ha0 (by rw [hh0, e1]) rfl
          refine ⟨sr, [(a, G)], ?_, Or.inr ⟨a, G, [Frame.L G AVL_LEFT sib], fs, _, s, T, rfl,
            rfl, by simp, rfl, Or.inr (Or.inr (Or.inr e)), (by rfl), hv1, ha1, ?_, by simp [plug, ATree.inorder]⟩⟩
          · simp [avl_insert_balance_log, avl_parent_ok s hA.ne, hpar, hG0,
              avl_is_right_child_ok s hA.ne, hisr, avl_balance_ok s hG0, hbG,
              avl_balance_ok s hA.ne, hba, e]
          · rw [hh1]
            simp only [ctxHeight]
            omega
    · refine ⟨set_balance_eff s G AVL_NEUTRAL, [], ?_, Or.inl rfl⟩
      simp [avl_insert_balance_log, avl_parent_ok s hA.ne, hpar, hG0,
        avl_is_right_child_ok s hA.ne, hisr, avl_balance_ok s hG0, hbG,
        avl_set_balance_ok s _ hG0]
  | Frame.R sib G bG :: fs, s, l, a, b, r, h, hv, ha, hc, hh0, hb, fuel, hf => by
    obtain ⟨f, rfl⟩ : ∃ f, fuel = f + 1 := ⟨fuel - 1, by simp at hf; omega⟩
    have hf1 : fs.length < f := by simpa using hf
    have hA := hv.at
    have hGat : At s fs sib G bG (ATree.node l a b r) := Valid.at hv
    have hpar : parent_of s a = G := hA.par
    have hisr : is_right_child_of s a = true := hA.isr
    have hG0 := hGat.ne
    obtain ⟨hsib, hbal, hctx⟩ := hc
    have hba := hA.bal
    have hbG := hGat.bal
    have ha0 := ha
    obtain ⟨hal, har, hbl⟩ := ha
    have hh := hh0
    simp only [ATree.height] at hh
    rcases hbal with ⟨e1, rfl⟩ | ⟨e1, rfl⟩ | ⟨e1, rfl⟩
    · have hv1 : Valid (set_balance_eff s G AVL_RIGHT)
          (plug fs (ATree.node sib G AVL_RIGHT (ATree.node l a b r))) :=
        @valid_set_balance _ fs _ _ _ _ hv AVL_RIGHT (by decide)
      obtain ⟨s1, log, hrun, hlog⟩ := insert_balance_log_spec fs _ sib G AVL_RIGHT
        (ATree.node l a b r) (max sib.height h + 1) hv1 ⟨hsib, ⟨hal, har, hbl⟩,
          Or.inr (Or.inr ⟨by simp only [ATree.height]; omega, rfl⟩)⟩ hctx
        (by simp only [ATree.height]; omega) (Or.inr (by decide)) f hf1
      refine ⟨s1, log, ?_, ?_⟩
      · simp [avl_insert_balance_log, avl_parent_ok s hA.ne, hpar, hG0,
          avl_is_right_child_ok s hA.ne, hisr, avl_balance_ok s hG0, hbG,
          avl_set_balance_ok s _ hG0, hrun]
      · rcases hlog with e0 | ⟨C, P, ds, gs, sub1, s0, top, e0, e2, hds, e3, hrot, e4, hvs, has,
          hhs, hio⟩
        · exact Or.inl e0
        · refine Or.inr ⟨C, P, Frame.R sib G AVL_NEUTRAL :: ds, gs, sub1, s0, top, e0, by
            rw [e2]; rfl, by simp, ?_, hrot, e4, hvs, has, hhs, ?_⟩
          · rw [e3]
            exact plug_ptr_of_ne_nil ds _ _ hds
          · rw [hio]
            simp only [plug, inorder_plug, ATree.inorder]
    · refine ⟨set_balance_eff s G AVL_NEUTRAL, [], ?_, Or.inl rfl⟩
      simp [avl_insert_balance_log, avl_parent_ok s hA.ne, hpar, hG0,
        avl_is_right_child_ok s hA.ne, hisr, avl_balance_ok s hG0, hbG,
        avl_set_balance_ok s _ hG0]
    · rcases hbl with ⟨hl1, rfl⟩ | ⟨hl1, rfl⟩ | ⟨hl1, rfl⟩
      · rcases hb with hb | hb
        · omega
        · exact absurd rfl hb
      · cases l with
        | nil => simp only [ATree.height] at hl1; omega
        | node gl T bT gr =>
          obtain ⟨sr, e, hv1⟩ := @valid_rotate_rightleft _ fs _ _ _ _ _ _ _ _ _ _ hv
          obtain ⟨ha1, hh1⟩ := avl_after_rotate_rightleft G hsib ha0 (by rw [hh0, ← e1]) rfl
          refine ⟨sr, [(a, G)], ?_, Or.inr ⟨a, G, [Frame.R sib G AVL_RIGHT], fs, _, s, T, rfl,
            rfl, by simp, rfl, Or.inr (Or.inr (Or.inl e)), (by rfl), hv1, ha1, ?_, by simp [plug, ATree.inorder]⟩⟩
          · simp [avl_insert_balance_log, avl_parent_ok s hA.ne, hpar, hG0,
              avl_is_right_child_ok s hA.ne, hisr, avl_balance_ok s hG0, hbG,
              avl_balance_ok s hA.ne, hba, e]
          · rw [hh1]
            simp only [ctxHeight]
            omega
      · obtain ⟨sr, e, hv1⟩ := @valid_rotate_left _ fs _ _ _ _ _ _ _ hv
        obtain ⟨ha1, hh1⟩ := avl_after_rotate_left G hsib ha0 (by rw [hh0, ← e1])
          (by decide)
        refine ⟨sr, [(a, G)], ?_, Or.inr ⟨a, G, [Frame.R sib G AVL_RIGHT], fs, _, s, a, rfl,
          rfl, by simp, rfl, Or.inl e, (by rfl), hv1, ha1, ?_, by simp [plug, ATree.inorder]⟩⟩
        · simp [avl_insert_balance_log, avl_parent_ok s hA.ne, hpar, hG0,
            avl_is_right_child_ok s hA.ne, hisr, avl_balance_ok s hG0, hbG,
            avl_balance_ok s hA.ne, hba, e]
        · rw [hh1]
          simp only [ctxHeight, AVL_RIGHT, AVL_NEUTRAL, OfNat.ofNat_ne_zero, if_false]
          omega

end Avl

namespace Avl

/-! ## Two stores that lay out the same path -/

/-- A record is determined by its parent, balance and child fields. -/
theorem node_eq_of_fields {s s1 : Store} {x : Nat} (h1 : parent_of s1 x = parent_of s x)
    (h2 : balance_of s1 x = balance_of s x) (h3 : (s1.mem x).left = (s.mem x).left)
    (h4 : (s1.mem x).right = (s.mem x).right) : s1.mem x = s.mem x := by
  unfold parent_of at h1
  unfold balance_of at h2
  have hw : (s1.mem x).parent_balance = (s.mem x).parent_balance := by omega
  cases hs1 : s1.mem x
  cases hs : s.mem x
  simp only [hs1, hs] at hw h3 h4
  simp [hw, h3, h4]

/-- Two stores that lay out the same subtree below the same node hold the same records at its
nodes. -/
theorem rep_same {s s1 : Store} : ∀ (t : ATree) (par : Nat), Rep s t par → Rep s1 t par →
    ∀ x ∈ t.inorder, s1.mem x = s.mem x
  | ATree.nil, _, _, _, x, hx => by simp [ATree.inorder] at hx
  | ATree.node l a b r, par, h, h1, x, hx => by
    obtain ⟨-, -, p, q, c, d, hl, hr⟩ := h
    obtain ⟨-, -, p1, q1, c1, d1, hl1, hr1⟩ := h1
    simp only [ATree.inorder, List.mem_append, List.mem_cons] at hx
    rcases hx with hx | rfl | hx
    · exact rep_same l a hl hl1 x hx
    · exact node_eq_of_fields (p1.trans p.symm) (q1.trans q.symm) (c1.trans c.symm)
        (d1.trans d.symm)
    · exact rep_same r a hr hr1 x hx

/-- Two stores that lay out the same path around the same pointer hold the same records at the
nodes outside the position. -/
theorem ctx_same {s s1 : Store} : ∀ (gs : List Frame) (rp rp1 p : Nat), RepCtx s gs rp 0 p →
    RepCtx s1 gs rp1 0 p → ∀ x ∈ ctxAddrs gs, s1.mem x = s.mem x
  | [], _, _, _, _, _, x, hx => by simp [ctxAddrs] at hx
  | Frame.L a b r :: gs, rp, rp1, p, h, h1, x, hx => by
    obtain ⟨-, -, p0, q, c, d, hr, hc⟩ := h
    obtain ⟨-, -, p1, q1, c1, d1, hr1, hc1⟩ := h1
    simp only [ctxAddrs, List.mem_append, List.mem_cons] at hx
    rcases hx with rfl | hx | hx
    · exact node_eq_of_fields (p1.trans p0.symm) (q1.trans q.symm) (c1.trans c.symm)
        (d1.trans d.symm)
    · exact rep_same r a hr hr1 x hx
    · exact ctx_same gs rp rp1 a hc hc1 x hx
  | Frame.R l a b :: gs, rp, rp1, p, h, h1, x, hx => by
    obtain ⟨-, -, p0, q, c, d, hl, hc⟩ := h
    obtain ⟨-, -, p1, q1, c1, d1, hl1, hc1⟩ := h1
    simp only [ctxAddrs, List.mem_append, List.mem_cons] at hx
    rcases hx with rfl | hx | hx
    · exact node_eq_of_fields (p1.trans p0.symm) (q1.trans q.symm) (c1.trans c.symm)
        (d1.trans d.symm)
    · exact rep_same l a hl hl1 x hx
    · exact ctx_same gs rp rp1 a hc hc1 x hx

/-- Two stores that lay out the same path, around the pointer `p` in one and `p1` in the other,
differ outside the position only in the link that holds the position: the root link, or the
child field of the node above, whose other fields are the same. -/
theorem ctx_slot_only {s s1 : Store} (gs : List Frame) (p p1 : Nat)
    (h : RepCtx s gs s.root 0 p) (h1 : RepCtx s1 gs s1.root 0 p1) :
    (∀ x ∈ ctxAddrs gs, x ≠ ctxPar gs 0 → s1.mem x = s.mem x) ∧
    (ctxPar gs 0 = 0 → s.root = p ∧ s1.root = p1) ∧
    (ctxPar gs 0 ≠ 0 →
      (s1.mem (ctxPar gs 0)).parent_balance = (s.mem (ctxPar gs 0)).parent_balance ∧
      (if ctxIsRight gs = true then
        (s1.mem (ctxPar gs 0)).left = (s.mem (ctxPar gs 0)).left ∧
          (s.mem (ctxPar gs 0)).right = p ∧ (s1.mem (ctxPar gs 0)).right = p1
      else
        (s1.mem (ctxPar gs 0)).right = (s.mem (ctxPar gs 0)).right ∧
          (s.mem (ctxPar gs 0)).left = p ∧ (s1.mem (ctxPar gs 0)).left = p1)) := by
  cases gs with
  | nil =>
    refine ⟨fun x hx => by simp [ctxAddrs] at hx, fun _ => ⟨h.symm, h1.symm⟩,
      fun h0 => absurd rfl h0⟩
  | cons f gs =>
    cases f with
    | L a b r =>
      obtain ⟨a0, -, p0, q, c, d, hr, hc⟩ := h
      obtain ⟨-, -, p1', q1, c1, d1, hr1, hc1⟩ := h1
      refine ⟨?_, fun h0 => absurd h0 a0, fun _ => ?_⟩
      · intro x hx hne
        simp only [ctxAddrs, List.mem_append, List.mem_cons] at hx
        rcases hx with rfl | hx | hx
        · exact absurd rfl hne
        · exact rep_same r a hr hr1 x hx
        · exact ctx_same gs _ _ a hc hc1 x hx
      · simp only [ctxPar, ctxIsRight, Bool.false_eq_true, if_false]
        refine ⟨?_, d1.trans d.symm, c, c1⟩
        have e1 : parent_of s1 a = parent_of s a := p1'.trans p0.symm
        have e2 : balance_of s1 a = balance_of s a := q1.trans q.symm
        unfold parent_of at e1
        unfold balance_of at e2
        omega
    | R l a b =>
      obtain ⟨a0, -, p0, q, c, d, hl, hc⟩ := h
      obtain ⟨-, -, p1', q1, c1, d1, hl1, hc1⟩ := h1
      refine ⟨?_, fun h0 => absurd h0 a0, fun _ => ?_⟩
      · intro x hx hne
        simp only [ctxAddrs, List.mem_append, List.mem_cons] at hx
        rcases hx with rfl | hx | hx
        · exact absurd rfl hne
        · exact rep_same l a hl hl1 x hx
        · exact ctx_same gs _ _ a hc hc1 x hx
      · simp only [ctxPar, ctxIsRight, if_true]
        refine ⟨?_, c1.trans c.symm, d, d1⟩
        have e1 : parent_of s1 a = parent_of s a := p1'.trans p0.symm
        have e2 : balance_of s1 a = balance_of s a := q1.trans q.symm
        unfold parent_of at e1
        unfold balance_of at e2
        omega

end Avl

namespace Avl

/-- C23: `avl_insert` of a fresh node at an empty slot of a valid AVL tree returns, and its walk
calls a rotation function at most once. When it calls one, with `node` `C` and `parent` `P`,
the store of that call is the store `avl_insert` returns: the walk stops there. `P` was the top
of a subtree `sub` of the tree; the rotated subtree `sub1` stands at the same position, holds
the nodes of `sub` and the new node with accurate balances, and has the height `sub` had before
the insertion. Every node outside the rotated subtree keeps its record, except that the link
which held `P` (the root link, or the child field of the node above, whose other fields are
kept) holds the new top. -/
theorem C23_insert_one_rotation (s : Store) (t : ATree) (node parent : Nat) (link : Link)
    (fuel : Nat) (hv : Valid s t) (ha : t.AVL) (hs : EmptySlot s t parent link) (hn : node ≠ 0)
    (hal : node % 4 = 0) (hfresh : node ∉ t.inorder) (hf : t.height < fuel) :
    ∃ s1 log, avl_insert_log fuel s node parent link = Result.ok (s1, log) ∧
      avl_insert fuel s node parent link = Result.ok s1 ∧ log.length ≤ 1 ∧
      ∀ C P, (C, P) ∈ log → ∃ gs sub sub1 s0 top, t = plug gs sub ∧ sub.ptr = P ∧
        RotationCall s0 C P s1 top ∧ top = sub1.ptr ∧ Valid s1 (plug gs sub1) ∧ sub1.AVL ∧
        sub1.height = sub.height ∧ sub1.inorder.Perm (node :: sub.inorder) ∧
        (∀ x ∈ ctxAddrs gs, x ≠ ctxPar gs 0 → s1.mem x = s.mem x) ∧
        (ctxPar gs 0 = 0 → s.root = P ∧ s1.root = top) ∧
        (ctxPar gs 0 ≠ 0 →
          (s1.mem (ctxPar gs 0)).parent_balance = (s.mem (ctxPar gs 0)).parent_balance ∧
          (if ctxIsRight gs = true then
            (s1.mem (ctxPar gs 0)).left = (s.mem (ctxPar gs 0)).left ∧
              (s.mem (ctxPar gs 0)).right = P ∧ (s1.mem (ctxPar gs 0)).right = top
          else
            (s1.mem (ctxPar gs 0)).right = (s.mem (ctxPar gs 0)).right ∧
              (s.mem (ctxPar gs 0)).left = P ∧ (s1.mem (ctxPar gs 0)).left = top)) := by
  obtain ⟨fs, rfl, rfl, rfl⟩ := slot_path hv hs
  have hv1 := valid_link_node hv node hn hal hfresh
  obtain ⟨_, hc⟩ := (avl_plug fs _).1 ha
  obtain ⟨s1, log, hrun, hlog⟩ := insert_balance_log_spec fs _ ATree.nil node AVL_NEUTRAL
    ATree.nil 0 hv1 ⟨trivial, trivial, Or.inl ⟨rfl, rfl⟩⟩ hc rfl (Or.inl rfl) fuel
    (slot_length_lt hf)
  have hlink : (∀ q, ctxLink fs = Link.left q → q ≠ 0) ∧
      (∀ q, ctxLink fs = Link.right q → q ≠ 0) := by
    have hc0 := ((valid_plug fs _).1 hv).2.1
    cases fs with
    | nil => simp [ctxLink]
    | cons f fs =>
      cases f with
      | L a b r => simpa [ctxLink] using hc0.1
      | R l a b => simpa [ctxLink] using hc0.1
  have elog : avl_insert_log fuel s node (ctxPar fs 0) (ctxLink fs) = Result.ok (s1, log) := by
    simp only [avl_insert_log, avl_link_node_ok s _ _ hn hlink, Result.ok_bind, hrun]
  refine ⟨s1, log, elog, ?_, ?_, ?_⟩
  · rw [← insert_log_fst, elog]; rfl
  · rcases hlog with rfl | ⟨C, P, ds, gs, sub1, s0, top, rfl, -⟩ <;> simp
  · intro C P hmem
    rcases hlog with rfl | ⟨C0, P0, ds, gs, sub1, s0, top, rfl, rfl, hds, e3, hrot, e4, hvs, has,
      hhs, hio⟩
    · simp at hmem
    · simp only [List.mem_singleton, Prod.mk.injEq] at hmem
      obtain ⟨rfl, rfl⟩ := hmem
      have hv0 : Valid s (plug gs (plug ds ATree.nil)) := by rw [← plug_append]; exact hv
      have hctx := ctx_slot_only gs (plug ds ATree.nil).ptr sub1.ptr
        ((valid_plug gs _).1 hv0).2.1 ((valid_plug gs _).1 hvs).2.1
      rw [← e3, ← e4] at hctx
      refine ⟨gs, plug ds ATree.nil, sub1, s0, top, plug_append ds gs _, e3.symm, hrot, e4, hvs,
        has, ?_, ?_, hctx⟩
      · rw [hhs, height_plug]; rfl
      · rw [hio, inorder_plug, inorder_plug]
        simp only [ATree.inorder, List.append_nil, List.nil_append, List.append_assoc,
          List.singleton_append]
        exact List.perm_middle

/-- The rule C23 at the insertion of the node 24 below the leaf 16, the right child of the
node 8: the walk calls one rotation, with `node` 16 and `parent` 8. -/
theorem C23_insert_one_rotation_witness :
    Valid (store_of treePair) treePair ∧ treePair.AVL ∧
    EmptySlot (store_of treePair) treePair 16 (Link.right 16) ∧
    (Result.value (avl_insert_log 3 (store_of treePair) 24 16 (Link.right 16))).map
      (fun r => r.2) = some [(16, 8)] ∧
    ∃ s1 log, avl_insert_log 3 (store_of treePair) 24 16 (Link.right 16) = Result.ok (s1, log) ∧
      avl_insert 3 (store_of treePair) 24 16 (Link.right 16) = Result.ok s1 ∧ log.length ≤ 1 ∧
      ∀ C P, (C, P) ∈ log → ∃ gs sub sub1 s0 top, treePair = plug gs sub ∧ sub.ptr = P ∧
        RotationCall s0 C P s1 top ∧ top = sub1.ptr ∧ Valid s1 (plug gs sub1) ∧ sub1.AVL ∧
        sub1.height = sub.height ∧ sub1.inorder.Perm (24 :: sub.inorder) ∧
        (∀ x ∈ ctxAddrs gs, x ≠ ctxPar gs 0 → s1.mem x = (store_of treePair).mem x) ∧
        (ctxPar gs 0 = 0 → (store_of treePair).root = P ∧ s1.root = top) ∧
        (ctxPar gs 0 ≠ 0 →
          (s1.mem (ctxPar gs 0)).parent_balance =
            ((store_of treePair).mem (ctxPar gs 0)).parent_balance ∧
          (if ctxIsRight gs = true then
            (s1.mem (ctxPar gs 0)).left = ((store_of treePair).mem (ctxPar gs 0)).left ∧
              ((store_of treePair).mem (ctxPar gs 0)).right = P ∧
              (s1.mem (ctxPar gs 0)).right = top
          else
            (s1.mem (ctxPar gs 0)).right = ((store_of treePair).mem (ctxPar gs 0)).right ∧
              ((store_of treePair).mem (ctxPar gs 0)).left = P ∧
              (s1.mem (ctxPar gs 0)).left = top)) :=
  have hv : Valid (store_of treePair) treePair := by set_option maxRecDepth 100000 in decide
  have hs : EmptySlot (store_of treePair) treePair 16 (Link.right 16) :=
    Or.inr ⟨by decide, Or.inr ⟨rfl, by set_option maxRecDepth 100000 in decide⟩⟩
  ⟨hv, by decide, hs, by set_option maxRecDepth 100000 in decide,
   C23_insert_one_rotation (store_of treePair) treePair 24 16 (Link.right 16) 3 hv (by decide)
     hs (by decide) (by decide) (by decide) (by decide)⟩

end Avl

namespace Avl

/-! ## The arms of the inner switch of `avl_insert_balance` -/

/-- The store that `avl_insert_balance_arms` returns is the store that `avl_insert_balance`
returns, on every input; both fail alike. -/
theorem insert_balance_arms_fst : ∀ (fuel : Nat) (s : Store) (a : Nat),
    (avl_insert_balance_arms fuel s a >>= fun r => pure r.1) = avl_insert_balance fuel s a
  | 0, _, _ => rfl
  | fuel + 1, s, a => by
    have ih := insert_balance_arms_fst fuel
    simp only [avl_insert_balance_arms, avl_insert_balance]
    cases avl_parent s a with
    | fault => rfl
    | timeout => rfl
    | ok p =>
      simp only [Result.ok_bind]
      split
      · rfl
      · cases avl_is_right_child s a with
        | fault => rfl
        | timeout => rfl
        | ok isr =>
          simp only [Result.ok_bind]
          cases avl_balance s p with
          | fault => cases isr <;> rfl
          | timeout => cases isr <;> rfl
          | ok bp =>
            cases isr <;>
              simp only [Result.ok_bind, Bool.false_eq_true, if_false, if_true] <;>
              split_ifs <;>
              first
                | exact Result.bind_fst_pure _ _
                | exact Result.bind_bind_fst _ _ _ (fun s1 => ih s1 p)
                | (cases avl_balance s a <;>
                    first
                      | rfl
                      | (simp only [Result.ok_bind]
                         split_ifs <;> exact Result.bind_pair_fst _ _))

/-- The store that `avl_insert_arms` returns is the store that `avl_insert` returns. -/
theorem insert_arms_fst (fuel : Nat) (s : Store) (node parent : Nat) (link : Link) :
    (avl_insert_arms fuel s node parent link >>= fun r => pure r.1) =
      avl_insert fuel s node parent link := by
  simp only [avl_insert_arms, avl_insert]
  exact Result.bind_bind_fst _ _ _ (fun s1 => insert_balance_arms_fst fuel s1 node)

/-- The walk of `avl_insert_balance` from the top `a` of a subtree that grew by one level, with
the record of its arms: every rotation is entered with a leaning `node`, the single rotations
with a `node` leaning to the outer side. -/
theorem insert_balance_arms_spec : ∀ (fs : List Frame) (s : Store) (l : ATree) (a b : Nat)
    (r : ATree) (h : Nat), Valid s (plug fs (ATree.node l a b r)) → (ATree.node l a b r).AVL →
    CtxAVL fs h → (ATree.node l a b r).height = h + 1 → (h = 0 ∨ b ≠ AVL_NEUTRAL) →
    ∀ fuel, fs.length < fuel →
    ∃ s1 arms, avl_insert_balance_arms fuel s a = Result.ok (s1, arms) ∧
      ∀ rot C P bn, (rot, C, P, bn) ∈ arms → bn ≠ AVL_NEUTRAL ∧
        (rot = Rotation.left → bn = AVL_RIGHT) ∧ (rot = Rotation.right → bn = AVL_LEFT) ∧
        (rot = Rotation.rightleft → bn = AVL_LEFT) ∧ (rot = Rotation.leftright → bn = AVL_RIGHT)
  | [], s, l, a, b, r, h, hv, _, _, _, _, fuel, hf => by
    obtain ⟨f, rfl⟩ : ∃ f, fuel = f + 1 := ⟨fuel - 1, by simp at hf; omega⟩
    have hA := hv.at
    refine ⟨s, [], ?_, fun _ _ _ _ hm => by simp at hm⟩
    simp [avl_insert_balance_arms, avl_parent_ok s hA.ne, hA.par, ctxPar]
  | Frame.L G bG sib :: fs, s, l, a, b, r, h, hv, ha, hc, hh0, hb, fuel, hf => by
    obtain ⟨f, rfl⟩ : ∃ f, fuel = f + 1 := ⟨fuel - 1, by simp at hf; omega⟩
    have hf1 : fs.length < f := by simpa using hf
    have hA := hv.at
    have hGat : At s fs (ATree.node l a b r) G bG sib := Valid.at hv
    have hpar : parent_of s a = G := hA.par
    have hisr : is_right_child_of s a = false := hA.isr
    have hG0 := hGat.ne
    obtain ⟨hsib, hbal, hctx⟩ := hc
    have hba := hA.bal
    have hbG := hGat.bal
    obtain ⟨hal, har, hbl⟩ := ha
    have hh := hh0
    simp only [ATree.height] at hh
    rcases hbal with ⟨e1, rfl⟩ | ⟨e1, rfl⟩ | ⟨e1, rfl⟩
    · have hv1 : Valid (set_balance_eff s G AVL_LEFT)
          (plug fs (ATree.node (ATree.node l a b r) G AVL_LEFT sib)) :=
        @valid_set_balance _ fs _ _ _ _ hv AVL_LEFT (by decide)
      obtain ⟨s1, arms, hrun, harms⟩ := insert_balance_arms_spec fs _ (ATree.node l a b r) G
        AVL_LEFT sib (max h sib.height + 1) hv1 ⟨⟨hal, har, hbl⟩, hsib, Or.inr (Or.inl ⟨by
          simp only [ATree.height]; omega, rfl⟩)⟩ hctx
        (by simp only [ATree.height]; omega) (Or.inr (by decide)) f hf1
      refine ⟨s1, arms, ?_, harms⟩
      simp [avl_insert_balance_arms, avl_parent_ok s hA.ne, hpar, hG0,
        avl_is_right_child_ok s hA.ne, hisr, avl_balance_ok s hG0, hbG,
        avl_set_balance_ok s _ hG0, hrun]
    · rcases hbl with ⟨hl1, rfl⟩ | ⟨hl1, rfl⟩ | ⟨hl1, rfl⟩
      · rcases hb with hb | hb
        · omega
        · exact absurd rfl hb
      · obtain ⟨sr, e, -⟩ := @valid_rotate_right _ fs _ _ _ _ _ _ _ hv
        refine ⟨sr, [(Rotation.right, a, G, AVL_LEFT)], ?_, ?_⟩
        · simp [avl_insert_balance_arms, avl_parent_ok s hA.ne, hpar, hG0,
            avl_is_right_child_ok s hA.ne, hisr, avl_balance_ok s hG0, hbG,
            avl_balance_ok s hA.ne, hba, e]
        · intro rot C P bn hm
          simp only [List.mem_singleton, Prod.mk.injEq] at hm
          obtain ⟨rfl, rfl, rfl, rfl⟩ := hm
          exact ⟨by decide, (fun h0 => by cases h0), fun _ => rfl, (fun h0 => by cases h0),
            (fun h0 => by cases h0)⟩
      · cases r with
        | nil => simp only [ATree.height] at hl1; omega
        | node gl T bT gr =>
          obtain ⟨sr, e, -⟩ := @valid_rotate_leftright _ fs _ _ _ _ _ _ _ _ _ _ hv
          refine ⟨sr, [(Rotation.leftright, a, G, AVL_RIGHT)], ?_, ?_⟩
          · simp [avl_insert_balance_arms, avl_parent_ok s hA.ne, hpar, hG0,
              avl_is_right_child_ok s hA.ne, hisr, avl_balance_ok s hG0, hbG,
              avl_balance_ok s hA.ne, hba, e]
          · intro rot C P bn hm
            simp only [List.mem_singleton, Prod.mk.injEq] at hm
            obtain ⟨rfl, rfl, rfl, rfl⟩ := hm
            exact ⟨by decide, (fun h0 => by cases h0), (fun h0 => by cases h0),
              (fun h0 => by cases h0), fun _ => rfl⟩
    · refine ⟨set_balance_eff s G AVL_NEUTRAL, [], ?_, fun _ _ _ _ hm => by simp at hm⟩
      simp [avl_insert_balance_arms, avl_parent_ok s hA.ne, hpar, hG0,
        avl_is_right_child_ok s hA.ne, hisr, avl_balance_ok s hG0, hbG,
        avl_set_balance_ok s _ hG0]
  | Frame.R sib G bG :: fs, s, l, a, b, r, h, hv, ha, hc, hh0, hb, fuel, hf => by
    obtain ⟨f, rfl⟩ : ∃ f, fuel = f + 1 := ⟨fuel - 1, by simp at hf; omega⟩
    have hf1 : fs.length < f := by simpa using hf
    have hA := hv.at
    have hGat : At s fs sib G bG (ATree.node l a b r) := Valid.at hv
    have hpar : parent_of s a = G := hA.par
    have hisr : is_right_child_of s a = true := hA.isr
    have hG0 := hGat.ne
    obtain ⟨hsib, hbal, hctx⟩ := hc
    have hba := hA.bal
    have hbG := hGat.bal
    obtain ⟨hal, har, hbl⟩ := ha
    have hh := hh0
    simp only [ATree.height] at hh
    rcases hbal with ⟨e1, rfl⟩ | ⟨e1, rfl⟩ | ⟨e1, rfl⟩
    · have hv1 : Valid (set_balance_eff s G AVL_RIGHT)
          (plug fs (ATree.node sib G AVL_RIGHT (ATree.node l a b r))) :=
        @valid_set_balance _ fs _ _ _ _ hv AVL_RIGHT (by decide)
      obtain ⟨s1, arms, hrun, harms⟩ := insert_balance_arms_spec fs _ sib G AVL_RIGHT
        (ATree.node l a b r) (max sib.height h + 1) hv1 ⟨hsib, ⟨hal, har, hbl⟩,
          Or.inr (Or.inr ⟨by simp only [ATree.height]; omega, rfl⟩)⟩ hctx
        (by simp only [ATree.height]; omega) (Or.inr (by decide)) f hf1
      refine ⟨s1, arms, ?_, harms⟩
      simp [avl_insert_balance_arms, avl_parent_ok s hA.ne, hpar, hG0,
        avl_is_right_child_ok s hA.ne, hisr, avl_balance_ok s hG0, hbG,
        avl_set_balance_ok s _ hG0, hrun]
    · refine ⟨set_balance_eff s G AVL_NEUTRAL, [], ?_, fun _ _ _ _ hm => by simp at hm⟩
      simp [avl_insert_balance_arms, avl_parent_ok s hA.ne, hpar, hG0,
        avl_is_right_child_ok s hA.ne, hisr, avl_balance_ok s hG0, hbG,
        avl_set_balance_ok s _ hG0]
    · rcases hbl with ⟨hl1, rfl⟩ | ⟨hl1, rfl⟩ | ⟨hl1, rfl⟩
      · rcases hb with hb | hb
        · omega
        · exact absurd rfl hb
      · cases l with
        | nil => simp only [ATree.height] at hl1; omega
        | node gl T bT gr =>
          obtain ⟨sr, e, -⟩ := @valid_rotate_rightleft _ fs _ _ _ _ _ _ _ _ _ _ hv
          refine ⟨sr, [(Rotation.rightleft, a, G, AVL_LEFT)], ?_, ?_⟩
          · simp [avl_insert_balance_arms, avl_parent_ok s hA.ne, hpar, hG0,
              avl_is_right_child_ok s hA.ne, hisr, avl_balance_ok s hG0, hbG,
              avl_balance_ok s hA.ne, hba, e]
          · intro rot C P bn hm
            simp only [List.mem_singleton, Prod.mk.injEq] at hm
            obtain ⟨rfl, rfl, rfl, rfl⟩ := hm
            exact ⟨by decide, (fun h0 => by cases h0), (fun h0 => by cases h0), fun _ => rfl,
              (fun h0 => by cases h0)⟩
      · obtain ⟨sr, e, -⟩ := @valid_rotate_left _ fs _ _ _ _ _ _ _ hv
        refine ⟨sr, [(Rotation.left, a, G, AVL_RIGHT)], ?_, ?_⟩
        · simp [avl_insert_balance_arms, avl_parent_ok s hA.ne, hpar, hG0,
            avl_is_right_child_ok s hA.ne, hisr, avl_balance_ok s hG0, hbG,
            avl_balance_ok s hA.ne, hba, e]
        · intro rot C P bn hm
          simp only [List.mem_singleton, Prod.mk.injEq] at hm
          obtain ⟨rfl, rfl, rfl, rfl⟩ := hm
          exact ⟨by decide, fun _ => rfl, (fun h0 => by cases h0), (fun h0 => by cases h0),
            (fun h0 => by cases h0)⟩

end Avl

namespace Avl

/-- C31: in `avl_insert` of a fresh node at an empty slot of a valid AVL tree, every rotation
call of the walk is made on a `node` whose balance, as the inner `switch` reads it, is not
`AVL_NEUTRAL`: `avl_rotate_left` is entered only with `node` leaning right and
`avl_rotate_right` only with `node` leaning left, the outer side, and the double rotations with
`node` leaning to the inner side. The arm `case AVL_NEUTRAL` of the inner `switch` is not
taken. -/
theorem C31_neutral_arm_unreachable (s : Store) (t : ATree) (node parent : Nat) (link : Link)
    (fuel : Nat) (hv : Valid s t) (ha : t.AVL) (hs : EmptySlot s t parent link) (hn : node ≠ 0)
    (hal : node % 4 = 0) (hfresh : node ∉ t.inorder) (hf : t.height < fuel) :
    ∃ s1 arms, avl_insert_arms fuel s node parent link = Result.ok (s1, arms) ∧
      avl_insert fuel s node parent link = Result.ok s1 ∧
      ∀ rot C P bn, (rot, C, P, bn) ∈ arms → bn ≠ AVL_NEUTRAL ∧
        (rot = Rotation.left → bn = AVL_RIGHT) ∧ (rot = Rotation.right → bn = AVL_LEFT) ∧
        (rot = Rotation.rightleft → bn = AVL_LEFT) ∧
        (rot = Rotation.leftright → bn = AVL_RIGHT) := by
  obtain ⟨fs, rfl, rfl, rfl⟩ := slot_path hv hs
  have hv1 := valid_link_node hv node hn hal hfresh
  obtain ⟨_, hc⟩ := (avl_plug fs _).1 ha
  obtain ⟨s1, arms, hrun, harms⟩ := insert_balance_arms_spec fs _ ATree.nil node AVL_NEUTRAL
    ATree.nil 0 hv1 ⟨trivial, trivial, Or.inl ⟨rfl, rfl⟩⟩ hc rfl (Or.inl rfl) fuel
    (slot_length_lt hf)
  have hlink : (∀ q, ctxLink fs = Link.left q → q ≠ 0) ∧
      (∀ q, ctxLink fs = Link.right q → q ≠ 0) := by
    have hc0 := ((valid_plug fs _).1 hv).2.1
    cases fs with
    | nil => simp [ctxLink]
    | cons f fs =>
      cases f with
      | L a b r => simpa [ctxLink] using hc0.1
      | R l a b => simpa [ctxLink] using hc0.1
  have earms : avl_insert_arms fuel s node (ctxPar fs 0) (ctxLink fs) = Result.ok (s1, arms) := by
    simp only [avl_insert_arms, avl_link_node_ok s _ _ hn hlink, Result.ok_bind, hrun]
  refine ⟨s1, arms, earms, ?_, harms⟩
  rw [← insert_arms_fst, earms]; rfl

/-- The rule C31 at the insertion of the node 24 below the leaf 16, the right child of the
node 8: the walk enters `avl_rotate_left` with `node` 16, which leans right. -/
theorem C31_neutral_arm_unreachable_witness :
    Valid (store_of treePair) treePair ∧ treePair.AVL ∧
    EmptySlot (store_of treePair) treePair 16 (Link.right 16) ∧
    (Result.value (avl_insert_arms 3 (store_of treePair) 24 16 (Link.right 16))).map
      (fun r => r.2) = some [(Rotation.left, 16, 8, AVL_RIGHT)] ∧
    ∃ s1 arms, avl_insert_arms 3 (store_of treePair) 24 16 (Link.right 16) =
        Result.ok (s1, arms) ∧
      avl_insert 3 (store_of treePair) 24 16 (Link.right 16) = Result.ok s1 ∧
      ∀ rot C P bn, (rot, C, P, bn) ∈ arms → bn ≠ AVL_NEUTRAL ∧
        (rot = Rotation.left → bn = AVL_RIGHT) ∧ (rot = Rotation.right → bn = AVL_LEFT) ∧
        (rot = Rotation.rightleft → bn = AVL_LEFT) ∧
        (rot = Rotation.leftright → bn = AVL_RIGHT) :=
  have hv : Valid (store_of treePair) treePair := by set_option maxRecDepth 100000 in decide
  have hs : EmptySlot (store_of treePair) treePair 16 (Link.right 16) :=
    Or.inr ⟨by decide, Or.inr ⟨rfl, by set_option maxRecDepth 100000 in decide⟩⟩
  ⟨hv, by decide, hs, by set_option maxRecDepth 100000 in decide,
   C31_neutral_arm_unreachable (store_of treePair) treePair 24 16 (Link.right 16) 3 hv
     (by decide) hs (by decide) (by decide) (by decide) (by decide)⟩

end Avl

namespace Avl

/-- The height read from the child links of a store is the height of the tree it lays out. -/
theorem subtree_height_eq {s : Store} : ∀ (t : ATree) (par fuel : Nat), Rep s t par →
    t.height ≤ fuel → subtree_height fuel s t.ptr = t.height
  | ATree.nil, _, fuel, _, _ => by cases fuel <;> simp [subtree_height, ATree.ptr, ATree.height]
  | ATree.node l a b r, par, fuel, h, hf => by
    obtain ⟨f, rfl⟩ : ∃ f, fuel = f + 1 := ⟨fuel - 1, by
      simp only [ATree.height] at hf; omega⟩
    obtain ⟨ha, -, -, -, hl, hr, hrl, hrr⟩ := h
    simp only [ATree.height] at hf
    have e1 := subtree_height_eq l a f hrl (by omega)
    have e2 := subtree_height_eq r a f hrr (by omega)
    rw [show (ATree.node l a b r).ptr = a from rfl]
    simp only [subtree_height, ha, if_false, hl, hr, e1, e2, ATree.height]

theorem Valid.subtree_height_root {s : Store} {t : ATree} (hv : Valid s t) (fuel : Nat)
    (hf : t.height ≤ fuel) : subtree_height fuel s s.root = t.height := by
  rw [hv.1]
  exact subtree_height_eq t 0 fuel hv.2.1 hf

/-- C32: one call changes the height of a valid AVL tree by at most one. `avl_insert` of a fresh
node at an empty slot returns and leaves an AVL tree whose height is the former height or one
more; `avl_erase` of a node of the tree returns and leaves an AVL tree whose height is the
former height or one less. The heights are those of the trees the stores lay out, which are the
heights read from the child links. -/
theorem C32_height_changes_by_one (s : Store) (t : ATree) (hv : Valid s t) (ha : t.AVL) :
    (∀ node parent link fuel, EmptySlot s t parent link → node ≠ 0 → node % 4 = 0 →
      node ∉ t.inorder → t.height < fuel →
      ∃ s1 t1, avl_insert fuel s node parent link = Result.ok s1 ∧ Valid s1 t1 ∧ t1.AVL ∧
        (t1.height = t.height ∨ t1.height = t.height + 1) ∧
        (subtree_height fuel s1 s1.root = subtree_height fuel s s.root ∨
          subtree_height fuel s1 s1.root = subtree_height fuel s s.root + 1)) ∧
    (∀ x fuel, x ∈ t.inorder → t.height ≤ fuel →
      ∃ s1 t1, avl_erase fuel s x = Result.ok s1 ∧ Valid s1 t1 ∧ t1.AVL ∧
        (t1.height = t.height ∨ t1.height + 1 = t.height) ∧
        (subtree_height fuel s1 s1.root = subtree_height fuel s s.root ∨
          subtree_height fuel s1 s1.root + 1 = subtree_height fuel s s.root)) := by
  constructor
  · intro node parent link fuel hs hn hal hfresh hf
    obtain ⟨fs, rfl, rfl, rfl⟩ := slot_path hv hs
    obtain ⟨s1, t1, e, hv1, ha1, _, hh⟩ := insert_spec hv ha hn hal hfresh fuel
      (slot_length_lt hf)
    refine ⟨s1, t1, e, hv1, ha1, hh, ?_⟩
    rw [hv1.subtree_height_root fuel (by omega), hv.subtree_height_root fuel (by omega)]
    exact hh
  · intro x fuel hx hf
    obtain ⟨s1, t1, e, hv1, ha1, _, hh⟩ := erase_spec hv ha hx fuel hf
    refine ⟨s1, t1, e, hv1, ha1, hh, ?_⟩
    rw [hv1.subtree_height_root fuel (by omega), hv.subtree_height_root fuel hf]
    exact hh

/-- The rule C32 at the scenario tree of six nodes: inserting key 9 below key 8 keeps the
height 3, and erasing the root key 5 keeps it as well. -/
theorem C32_height_changes_by_one_witness :
    Valid store6 tree6 ∧ tree6.AVL ∧ EmptySlot store6 tree6 64 (Link.right 64) ∧
    (∃ s1 t1, avl_insert 8 store6 72 64 (Link.right 64) = Result.ok s1 ∧ Valid s1 t1 ∧ t1.AVL ∧
      (t1.height = tree6.height ∨ t1.height = tree6.height + 1) ∧
      (subtree_height 8 s1 s1.root = subtree_height 8 store6 store6.root ∨
        subtree_height 8 s1 s1.root = subtree_height 8 store6 store6.root + 1)) ∧
    (∃ s1 t1, avl_erase 8 store6 40 = Result.ok s1 ∧ Valid s1 t1 ∧ t1.AVL ∧
      (t1.height = tree6.height ∨ t1.height + 1 = tree6.height) ∧
      (subtree_height 8 s1 s1.root = subtree_height 8 store6 store6.root ∨
        subtree_height 8 s1 s1.root + 1 = subtree_height 8 store6 store6.root)) :=
  have hv : Valid store6 tree6 := by set_option maxRecDepth 100000 in decide
  have hs : EmptySlot store6 tree6 64 (Link.right 64) :=
    Or.inr ⟨by decide, Or.inr ⟨rfl, by set_option maxRecDepth 100000 in decide⟩⟩
  have h := C32_height_changes_by_one store6 tree6 hv (by decide)
  ⟨hv, by decide, hs,
    h.1 72 64 (Link.right 64) 8 hs (by decide) (by decide) (by decide) (by decide),
    h.2 40 8 (by decide) (by decide)⟩

end Avl

namespace Avl

/-! ## The unbalanced queue -/

/-- The content after an insertion, when the content before is split at the place of the new
entry. -/
theorem queue_model_insert_eq (i : Nat → Int) (e : Nat) (pre post : List Nat)
    (h1 : ∀ y ∈ pre, i y < i e) (h2 : ∀ z ∈ post, i e ≤ i z) :
    queue_model_insert i e (pre ++ post) = pre ++ e :: post := by
  have a1 : pre.filter (fun x => decide (i x < i e)) = pre :=
    List.filter_eq_self.2 (fun y hy => by simpa using h1 y hy)
  have a2 : post.filter (fun x => decide (i x < i e)) = [] :=
    List.filter_eq_nil_iff.2 (fun z hz => by
      have := h2 z hz
      simp only [decide_eq_true_eq, not_lt]
      exact this)
  have a3 : pre.filter (fun x => decide (i e ≤ i x)) = [] :=
    List.filter_eq_nil_iff.2 (fun y hy => by
      have := h1 y hy
      simp only [decide_eq_true_eq, not_le]
      exact this)
  have a4 : post.filter (fun x => decide (i e ≤ i x)) = post :=
    List.filter_eq_self.2 (fun z hz => by simpa using h2 z hz)
  simp only [queue_model_insert, List.filter_append, a1, a2, a3, a4, List.append_nil,
    List.nil_append]

theorem uinv_init (i : Nat → Int) (q : avl_prio_queue) :
    UInv i (avl_prio_queue_init q) ATree.nil :=
  ⟨valid_of_root_zero rfl, List.Pairwise.nil, rfl⟩

/-- Function `avl_prio_queue_insert_unbalanced` keeps the invariant and puts the new entry after
all entries with a smaller key and before all entries with a key at least its own. -/
theorem uprio_insert_spec {cmpint : Int → Int → Int} {i : Nat → Int}
    (hc : ∀ a b, cmpint a b ≤ 0 ↔ a ≤ b) {q : avl_prio_queue} {t : ATree} (hq : UInv i q t)
    {n : Nat} (hn : n ≠ 0) (hal : n % 4 = 0) (hfresh : n ∉ t.inorder) (fuel : Nat)
    (hf : t.height < fuel) :
    ∃ q1 t1 pre post, avl_prio_queue_insert_unbalanced cmpint i fuel q n = Result.ok q1 ∧
      UInv i q1 t1 ∧ t.inorder = pre ++ post ∧ t1.inorder = pre ++ n :: post ∧
      (∀ y ∈ pre, i y < i n) ∧ (∀ z ∈ post, i n ≤ i z) := by
  obtain ⟨hv, hs, hm⟩ := hq
  rw [sorted_keys_iff] at hs
  obtain ⟨fs, f, e, hp, hb, hafter, hfl⟩ := prio_descend_spec cmpint i hc n t [] fuel true hv hs
    (by simp [ctxBefore]) (by simp [ctxAfter]) (by simp [ctxBefore]) hf
  have hp : plug fs ATree.nil = t := hp
  subst hp
  have e : avl_prio_queue_descend cmpint i fuel q.root n 0 Link.root true =
      Result.ok (ctxPar fs 0, ctxLink fs, f) := e
  have hv1 := valid_link_node hv n hn hal hfresh
  have hlink : (∀ p, ctxLink fs = Link.left p → p ≠ 0) ∧
      (∀ p, ctxLink fs = Link.right p → p ≠ 0) := by
    have hc0 := ((valid_plug fs _).1 hv).2.1
    cases fs with
    | nil => simp [ctxLink]
    | cons g gs =>
      cases g with
      | L a b r => simpa [ctxLink] using hc0.1
      | R l a b => simpa [ctxLink] using hc0.1
  have hio := inorder_slot fs
  have hi1 : (plug fs (ATree.node ATree.nil n AVL_NEUTRAL ATree.nil)).inorder =
      ctxBefore fs ++ n :: ctxAfter fs := by
    rw [inorder_plug]; simp [ATree.inorder]
  refine ⟨avl_prio_queue.mk (link_node_eff q.root n (ctxPar fs 0) (ctxLink fs))
    (if f = true then n else q.min_node), _, ctxBefore fs,
    ctxAfter fs, ?_, ⟨hv1, ?_, ?_⟩, hio, hi1, hb, hafter⟩
  · simp only [avl_prio_queue_insert_unbalanced, e, Result.ok_bind,
      avl_link_node_ok q.root _ _ hn hlink]
    rfl
  · rw [sorted_keys_iff, hi1]
    rw [hio] at hs
    simp only [List.pairwise_append, List.pairwise_cons, List.mem_cons] at hs ⊢
    obtain ⟨h1, h2, h3⟩ := hs
    refine ⟨h1, ⟨hafter, h2⟩, ?_⟩
    intro y hy z hz
    rcases hz with rfl | hz
    · exact le_of_lt (hb y hy)
    · exact h3 y hy z hz
  · rw [hi1]
    show (if f = true then n else q.min_node) = _
    rw [hm, hio]
    cases hbf : ctxBefore fs with
    | nil =>
      have : f = true := hfl.2 hbf
      simp [this]
    | cons y ys =>
      have : ¬ f = true := fun h => by
        have := hfl.1 h
        rw [hbf] at this
        cases this
      simp [this]

/-- Function `avl_prio_queue_pop_unbalanced` returns the first entry of the in-order sequence
and keeps the invariant for the rest; on the empty queue it returns `NULL`. -/
theorem uprio_pop_spec {i : Nat → Int} {q : avl_prio_queue} {t : ATree} (hq : UInv i q t)
    (fuel : Nat) (hf : t.height ≤ fuel) :
    (t.inorder = [] → avl_prio_queue_pop_unbalanced fuel q = Result.ok (q, 0)) ∧
    (∀ m rest, t.inorder = m :: rest →
      ∃ q1 t1, avl_prio_queue_pop_unbalanced fuel q = Result.ok (q1, m) ∧ UInv i q1 t1 ∧
        t1.inorder = rest) := by
  obtain ⟨hv, hs, hm⟩ := hq
  constructor
  · intro h0
    rw [h0] at hm
    simp [avl_prio_queue_pop_unbalanced, hm, Result.pure_eq]
  · intro m rest h1
    rw [h1] at hm
    have hm : q.min_node = m := hm
    have hmem : m ∈ t.inorder := by rw [h1]; simp
    have hm0 : m ≠ 0 := fun e0 => hv.zero_not_mem (e0 ▸ hmem)
    have hnx := avl_next_spec hv (show t.inorder = [] ++ m :: rest from h1) fuel hf
    obtain ⟨fs, l, b, r, rfl⟩ := exists_plug_of_mem t m hmem
    have hrh : r.height ≤ fuel := by
      have := ctxHeight_ge fs (ATree.node l m b r).height
      rw [height_plug] at hf
      simp only [ATree.height] at this hf
      omega
    obtain ⟨s2, fs1, sub1, e, hv2, hi, -, -⟩ := erase_node_spec hv fuel hrh
    have hi2 : (plug fs1 sub1).inorder = rest := by rw [hi, h1]; simp
    refine ⟨avl_prio_queue.mk s2 (rest.head?.getD 0), plug fs1 sub1, ?_, ⟨hv2, ?_, ?_⟩,
      hi2⟩
    · simp only [avl_prio_queue_pop_unbalanced, hm, hm0, if_false, hnx, Result.ok_bind, e]
      rfl
    · rw [hi2]
      rw [h1] at hs
      exact (List.pairwise_cons.1 hs).2
    · rw [hi2]

end Avl

namespace Avl

theorem queue_model_insert_length (i : Nat → Int) (e : Nat) (pre post : List Nat)
    (h1 : ∀ y ∈ pre, i y < i e) (h2 : ∀ z ∈ post, i e ≤ i z) :
    (queue_model_insert i e (pre ++ post)).length = (pre ++ post).length + 1 := by
  rw [queue_model_insert_eq i e pre post h1 h2]
  simp only [List.length_append, List.length_cons]
  omega

/-- The calls allowed on a queue stay allowed when the list is cut short. -/
theorem opsOk_take (i : Nat → Int) : ∀ (ops : List QOp) (L : List Nat) (k : Nat),
    OpsOk i L ops → OpsOk i L (ops.take k)
  | [], _, k, _ => by simp [OpsOk]
  | _ :: _, _, 0, _ => by simp [OpsOk]
  | QOp.insert e :: ops, L, k + 1, h => by
    obtain ⟨h1, h2, h3, h4⟩ := h
    exact ⟨h1, h2, h3, opsOk_take i ops _ k h4⟩
  | QOp.pop :: ops, L, k + 1, h => opsOk_take i ops _ k h

/-- The two queues, run through the same calls from states with the same content, return the
same entries and end with the same content. -/
theorem queue_runs_agree {cmpint : Int → Int → Int} {i : Nat → Int}
    (hc : ∀ a b, cmpint a b ≤ 0 ↔ a ≤ b) (fuel : Nat) :
    ∀ (ops : List QOp) (qu qb : avl_prio_queue) (tu tb : ATree), UInv i qu tu → QInv i qb tb →
    tu.inorder = tb.inorder → OpsOk i tb.inorder ops → tb.inorder.length + ops.length < fuel →
    ∃ qu1 qb1 outs tu1 tb1, queue_run_unbalanced cmpint i fuel qu ops = Result.ok (qu1, outs) ∧
      queue_run_balanced cmpint i fuel qb ops = Result.ok (qb1, outs) ∧ UInv i qu1 tu1 ∧
      QInv i qb1 tb1 ∧ tu1.inorder = tb1.inorder ∧
      tb1.inorder = queue_model_run i tb.inorder ops
  | [], qu, qb, tu, tb, hu, hb, he, _, _ => ⟨qu, qb, [], tu, tb, rfl, rfl, hu, hb, he, rfl⟩
  | QOp.insert e :: ops, qu, qb, tu, tb, hu, hb, he, hok, hf => by
    obtain ⟨h0, hal, hfresh, hok1⟩ := hok
    simp only [List.length_cons] at hf
    have hhb := height_le_length tb
    have hhu := height_le_length tu
    obtain ⟨qu1, tu1, pre, post, eu, hu1, hi, hi1, p1, p2⟩ := uprio_insert_spec hc hu h0 hal
      (by rw [he]; exact hfresh) fuel (by rw [he] at hhu; omega)
    obtain ⟨qb1, tb1, pre', post', eb, hb1, hj, hj1, r1, r2⟩ := prio_insert_spec hc hb h0 hal
      hfresh fuel (by omega)
    have mu : tu1.inorder = queue_model_insert i e tb.inorder := by
      rw [hi1, ← he, hi, queue_model_insert_eq i e pre post p1 p2]
    have mb : tb1.inorder = queue_model_insert i e tb.inorder := by
      rw [hj1, hj, queue_model_insert_eq i e pre' post' r1 r2]
    have hlen : tb1.inorder.length = tb.inorder.length + 1 := by
      rw [mb, hj, queue_model_insert_length i e pre' post' r1 r2]
    obtain ⟨qu2, qb2, outs, tu2, tb2, e1, e2, hu2, hb2, he2, hm2⟩ := queue_runs_agree hc fuel ops
      qu1 qb1 tu1 tb1 hu1 hb1 (mu.trans mb.symm) (by rw [mb]; exact hok1) (by omega)
    refine ⟨qu2, qb2, outs, tu2, tb2, ?_, ?_, hu2, hb2, he2, ?_⟩
    · simp only [queue_run_unbalanced, eu, Result.ok_bind, e1]
    · simp only [queue_run_balanced, eb, Result.ok_bind, e2]
    · rw [hm2, mb]; rfl
  | QOp.pop :: ops, qu, qb, tu, tb, hu, hb, he, hok, hf => by
    simp only [List.length_cons] at hf
    have hhb := height_le_length tb
    have hhu := height_le_length tu
    have hok1 : OpsOk i tb.inorder.tail ops := hok
    cases hL : tb.inorder with
    | nil =>
      have eu := (uprio_pop_spec hu fuel (by rw [he] at hhu; omega)).1 (by rw [he, hL])
      have eb := (prio_pop_spec hb fuel (by omega)).1 hL
      obtain ⟨qu2, qb2, outs, tu2, tb2, e1, e2, hu2, hb2, he2, hm2⟩ := queue_runs_agree hc fuel
        ops qu qb tu tb hu hb he (by rw [hL] at hok1 ⊢; exact hok1) (by omega)
      refine ⟨qu2, qb2, 0 :: outs, tu2, tb2, ?_, ?_, hu2, hb2, he2, ?_⟩
      · simp only [queue_run_unbalanced, eu, Result.ok_bind, e1]; rfl
      · simp only [queue_run_balanced, eb, Result.ok_bind, e2]; rfl
      · rw [hm2, hL]; rfl
    | cons m rest =>
      obtain ⟨qu1, tu1, eu, hu1, hi1⟩ := (uprio_pop_spec hu fuel (by rw [he] at hhu; omega)).2
        m rest (by rw [he, hL])
      obtain ⟨qb1, tb1, eb, hb1, hj1⟩ := (prio_pop_spec hb fuel (by omega)).2 m rest hL
      rw [hL] at hok1 hf
      simp only [List.length_cons] at hf
      obtain ⟨qu2, qb2, outs, tu2, tb2, e1, e2, hu2, hb2, he2, hm2⟩ := queue_runs_agree hc fuel
        ops qu1 qb1 tu1 tb1 hu1 hb1 (hi1.trans hj1.symm) (by rw [hj1]; exact hok1)
        (by rw [hj1]; omega)
      refine ⟨qu2, qb2, m :: outs, tu2, tb2, ?_, ?_, hu2, hb2, he2, ?_⟩
      · simp only [queue_run_unbalanced, eu, Result.ok_bind, e1]; rfl
      · simp only [queue_run_balanced, eb, Result.ok_bind, e2]; rfl
      · rw [hm2, hj1]; rfl

/-- C33: the unbalanced and the balanced priority queue cannot be told apart. For every list of
insertions of fresh entries and of pops, under a comparator that orders the keys, and for every
number `k` of calls made so far: run from two freshly initialised queues, the unbalanced and
the balanced functions both return, every pop has returned the same entry in both (`NULL` in
both on an empty queue), and both trees have the same in-order sequence and both queues the
same `min_node`. -/
theorem C33_queues_equivalent (cmpint : Int → Int → Int) (i : Nat → Int)
    (qu qb : avl_prio_queue) (ops : List QOp) (fuel k : Nat)
    (hc : ∀ a b, cmpint a b ≤ 0 ↔ a ≤ b) (hok : OpsOk i [] ops) (hf : ops.length < fuel) :
    ∃ qu1 qb1 outs tu tb,
      queue_run_unbalanced cmpint i fuel (avl_prio_queue_init qu) (ops.take k) =
        Result.ok (qu1, outs) ∧
      queue_run_balanced cmpint i fuel (avl_prio_queue_init qb) (ops.take k) =
        Result.ok (qb1, outs) ∧
      Valid qu1.root tu ∧ Valid qb1.root tb ∧ tu.inorder = tb.inorder ∧
      tb.inorder = queue_model_run i [] (ops.take k) ∧ qu1.min_node = qb1.min_node := by
  have hlen : (ops.take k).length ≤ ops.length := by
    rw [List.length_take]; exact Nat.min_le_right _ _
  obtain ⟨qu1, qb1, outs, tu, tb, e1, e2, hu, hb, he, hm⟩ := queue_runs_agree hc fuel
    (ops.take k) _ _ ATree.nil ATree.nil (uinv_init i qu) (qinv_init i qb) rfl
    (opsOk_take i ops [] k hok) (by simp only [ATree.inorder, List.length_nil]; omega)
  refine ⟨qu1, qb1, outs, tu, tb, e1, e2, hu.1, hb.1, he, hm, ?_⟩
  rw [hu.2.2, hb.2.2.2, he]

/-- The rule C33 at a list of nine calls on the empty queues: both queues return the entries
with the keys 1, 2, 3, 5 and then `NULL`. -/
theorem C33_queues_equivalent_witness :
    OpsOk key_of [] opsExample ∧
    (Result.value (queue_run_unbalanced cmpint_example key_of 10 queue0 opsExample)).map
      (fun r => r.2) = some [8, 16, 24, 40, 0] ∧
    ∃ qu1 qb1 outs tu tb,
      queue_run_unbalanced cmpint_example key_of 10 queue0 (opsExample.take 9) =
        Result.ok (qu1, outs) ∧
      queue_run_balanced cmpint_example key_of 10 queue0 (opsExample.take 9) =
        Result.ok (qb1, outs) ∧
      Valid qu1.root tu ∧ Valid qb1.root tb ∧ tu.inorder = tb.inorder ∧
      tb.inorder = queue_model_run key_of [] (opsExample.take 9) ∧
      qu1.min_node = qb1.min_node :=
  have hok : OpsOk key_of [] opsExample :=
    ⟨by decide, by decide, by decide, by decide, by decide, by decide, by decide, by decide,
      by decide, by decide, by decide, by decide, trivial⟩
  ⟨hok, by set_option maxRecDepth 100000 in decide,
    C33_queues_equivalent cmpint_example key_of (avl_prio_queue.mk store0 0)
      (avl_prio_queue.mk store0 0) opsExample 10 9 cmpint_example_le hok (by decide)⟩

end Avl

namespace Avl

/-- Function `tree_sort` on a list of nodes with pairwise distinct values that fit in an `int`:
it returns, and the chain from the head holds the nodes of the list in non-decreasing order of
value. -/
theorem tree_sort_chain (s : SortState) (ns : List Nat) (fuel : Nat)
    (hl : IsList s.next s.list_head ns) (hal : ∀ n ∈ ns, n % 4 = 0)
    (hint : ∀ n ∈ ns, -2 ^ 31 ≤ s.value n ∧ s.value n < 2 ^ 31)
    (hd : (ns.map s.value).Nodup) (hf : ns.length + 1 < fuel) :
    ∃ s1 out, tree_sort fuel s = Result.ok s1 ∧ IsList s1.next s1.list_head out ∧
      out.Perm ns ∧ s1.value = s.value ∧ (out.map s.value).Pairwise (fun a b => a ≤ b) := by
  have hkey : ∀ n ∈ ns, sort_key s.value n = s.value n := fun n hn => int_of_long_id (hint n hn)
  have hk : (ns.map (sort_key s.value)).Nodup := by
    rw [List.map_congr_left hkey]; exact hd
  obtain ⟨s1, list1, t1, e1, h1, p1, q1, n1, v1, l1, hnil⟩ :=
    tree_sort_insert_all_spec fuel ns fuel { s with m := cmap_new s.m } ListRef.head ATree.nil
      (fun p hp => by cases hp) (by rw [← IsList.head_eq hl]; rfl)
      (by rw [← IsList.head_eq hl]; exact hl) ⟨⟨rfl, trivial, List.nodup_nil⟩, trivial⟩
      List.Pairwise.nil hk (fun y hy => by simp [ATree.inorder] at hy) hal (by omega)
      (by simp only [ATree.inorder, List.length_nil]; omega)
  simp only [ATree.inorder, List.append_nil] at p1
  have hv1 : s1.value = s.value := v1
  have hlen1 : t1.height ≤ fuel := by
    have := height_le_length t1
    have := p1.length_eq
    omega
  have efirst := cmap_first_spec h1 fuel hlen1
  have hsorted : (t1.inorder.map s.value).Pairwise (fun a b => a ≤ b) := by
    rw [List.pairwise_map]
    refine List.Pairwise.imp_of_mem ?_ q1
    intro a b ha hb hab
    have hab : sort_key s.value a < sort_key s.value b := hab
    rw [hkey a (p1.subset ha), hkey b (p1.subset hb)] at hab
    exact le_of_lt hab
  cases hin : t1.inorder with
  | nil =>
    have hns : ns = [] := by
      rw [hin] at p1
      exact List.Perm.nil_eq p1 |>.symm
    have hl1 : list1 = ListRef.head := hnil hns
    obtain ⟨f, rfl⟩ : ∃ f, fuel = f + 1 := ⟨fuel - 1, by omega⟩
    refine ⟨{ s1 with list_head := 0 }, [], ?_, rfl, by rw [hns], hv1, by simp⟩
    rw [hin] at efirst
    simp only [List.head?_nil, Option.getD_none] at efirst
    simp only [tree_sort, e1, Result.ok_bind, efirst, hl1, tree_sort_relink, ne_eq,
      not_true_eq_false, if_false, Result.pure_eq, wr_ref]
  | cons x post =>
    have hnd : (x :: post).Nodup := by rw [← hin]; exact h1.1.2.2
    have h0 : ∀ y ∈ x :: post, y ≠ 0 := by
      intro y hy e
      rw [← hin, e] at hy
      exact Valid.zero_not_mem h1.1 hy
    have hlen : post.length + 1 = ns.length := by
      have := p1.length_eq
      rw [hin] at this
      simpa using this
    obtain ⟨s2, last, e2, m2, v2, hlast, -, -, il⟩ :=
      tree_sort_relink_spec fuel post x fuel s1 list1 l1 hnd h0
        (next_chain_spec h1 fuel hlen1 post [] x (by rw [hin]; rfl)) (by omega)
    have hlast0 : last ≠ 0 := h0 last hlast
    rw [hin] at efirst hsorted p1
    simp only [List.head?_cons, Option.getD_some] at efirst
    refine ⟨{ s2 with next := fun z => if z = last then 0 else s2.next z, list_head := x },
      x :: post, ?_, il, p1, by rw [← hv1, ← v2], hsorted⟩
    simp only [tree_sort, e1, Result.ok_bind, efirst, e2, wr_ref, hlast0, if_false]

/-- C34 (amended): for every non-empty linked list of nodes with pairwise distinct values that
each fit in an `int`, `tree_sort` returns and the list it leaves is a permutation of the input
list: the chain from `*list` through `next` ends with `NULL` and holds exactly the input
nodes, each once, and `*list` points at the node of smallest value. -/
theorem C34_tree_sort_permutes (s : SortState) (ns : List Nat) (fuel : Nat)
    (hl : IsList s.next s.list_head ns) (hne : ns ≠ []) (hal : ∀ n ∈ ns, n % 4 = 0)
    (hint : ∀ n ∈ ns, -2 ^ 31 ≤ s.value n ∧ s.value n < 2 ^ 31)
    (hd : (ns.map s.value).Nodup) (hf : ns.length + 1 < fuel) :
    ∃ s1 out, tree_sort fuel s = Result.ok s1 ∧ IsList s1.next s1.list_head out ∧
      out.Perm ns ∧ out.Nodup ∧ s1.value = s.value ∧ s1.list_head ∈ ns ∧
      ∀ n ∈ ns, s.value s1.list_head ≤ s.value n := by
  obtain ⟨s1, out, e, il, hp, hv, hs⟩ := tree_sort_chain s ns fuel hl hal hint hd hf
  have hnd : out.Nodup := hp.nodup_iff.2 (List.Nodup.of_map _ hd)
  have hh := IsList.head_eq il
  cases out with
  | nil => exact absurd hp.symm.eq_nil hne
  | cons x post =>
    simp only [List.head?_cons, Option.getD_some] at hh
    refine ⟨s1, x :: post, e, il, hp, hnd, hv, ?_, ?_⟩
    · rw [hh]; exact hp.subset (List.mem_cons_self x post)
    · intro n hn
      rw [hh]
      have hm : n ∈ x :: post := hp.symm.subset hn
      simp only [List.map_cons, List.pairwise_cons, List.mem_map] at hs
      rcases List.mem_cons.1 hm with rfl | hm
      · exact le_refl _
      · exact hs.1 _ ⟨n, hm, rfl⟩

/-- The rule C34 at the list of the nodes at 8, 16, 24 and 32 with the values 3, 1, 4 and 2:
the head becomes the node at 16, whose value is 1. -/
theorem C34_tree_sort_permutes_witness :
    (Result.value (tree_sort 6 sortState0)).map (fun s1 => s1.list_head) = some 16 ∧
    ∃ s1 out, tree_sort 6 sortState0 = Result.ok s1 ∧ IsList s1.next s1.list_head out ∧
      out.Perm [8, 16, 24, 32] ∧ out.Nodup ∧ s1.value = sortState0.value ∧
      s1.list_head ∈ [8, 16, 24, 32] ∧
      ∀ n ∈ [8, 16, 24, 32], sortState0.value s1.list_head ≤ sortState0.value n :=
  ⟨by set_option maxRecDepth 100000 in decide,
    C34_tree_sort_permutes sortState0 [8, 16, 24, 32] 6
      ⟨rfl, by decide, rfl, by decide, rfl, by decide, rfl, by decide, rfl⟩
      (by decide) (by decide) (by decide) (by decide) (by decide)⟩

/-- Counterexample to C34 as stated: the list of the two nodes at 8 and 16 with the values 0
and `2 ^ 32` is not empty and its values differ, but `cmap_cmp_int` reads both as the `int` 0,
and `tree_sort` stops at the `assert` of `cmap_insert` without producing a list. -/
theorem C34_tree_sort_permutes_counterexample :
    IsList sortStateBig.next sortStateBig.list_head [8, 16] ∧
    ([8, 16].map sortStateBig.value).Nodup ∧ (∀ n ∈ [8, 16], n % 4 = 0) ∧
    cmap_cmp_int (int_of_long (sortStateBig.value 16)) (int_of_long (sortStateBig.value 8)) = 0 ∧
    (tree_sort 6 sortStateBig).isFault = true ∧ (tree_sort 60 sortStateBig).isFault = true :=
  ⟨⟨rfl, by decide, rfl, by decide, rfl⟩, by decide, by decide, by decide,
    by set_option maxRecDepth 100000 in decide, by set_option maxRecDepth 100000 in decide⟩

end Avl
